import Mathlib

/-!
# atprogo: the repository and commit core

A shallow embedding of `pkg/repo/repo.go`, `pkg/lexicon/types.go`,
`pkg/pds/repository.go`, the posts handler of `services/pds/main.go` and
`VerifyJWT` of `pkg/auth/jwt.go`, together with the parts of the Go standard
library they call (`crypto/sha256`, `crypto/sha512`, `crypto/ed25519`,
`encoding/hex`, `encoding/base64`, `encoding/json`, `time`), followed by
theorems about the commit chain, the two stores and the token check.

Conventions of the embedding:
* a Go `[]byte` is a `List Nat` of values below 256;
* a Go `string` is a Lean `String`, that is, well-formed Unicode text, and
  becomes bytes through `utf8`; the strings whose bytes reach `json.Marshal`
  unchecked from outside (the content of a post, a string held in an
  `interface{}`) are kept as bytes, well-formed UTF-8 or not;
* a number held in an `interface{}` is an `int`, a value of an integer kind,
  or a `float`, a float64 given by the text `json.Marshal` writes for it;
  `json.wellFormed` says that the first is in the range of the integer kinds
  and the second the text of a float64;
* `time.Now()` is an input: every call site receives its clock reading;
* a Go map is the list of its entries, a pointer to a repository an index into
  a heap of repositories;
* the relational database is the list of rows of each of its three tables; a
  storage call can also fail for a reason outside the program (connection
  loss), which is an input too: an optional driver error per call site;
* a function that returns `(value, error)` returns an `Except GoError value`,
  next to the state it leaves when it changes any.
-/

set_option autoImplicit false

/-- A Go byte slice. -/
abbrev Bytes := List Nat

/-! ## `crypto/sha256` -/

namespace sha256

/-- Reduction of a natural number to a 32-bit word. -/
def w32 (x : Nat) : Nat := x % 4294967296

/-- Right rotation of a 32-bit word. -/
def rotr (x n : Nat) : Nat := w32 ((x >>> n) ||| (x <<< (32 - n)))

def ch (x y z : Nat) : Nat := (x &&& y) ^^^ ((4294967295 ^^^ x) &&& z)

def maj (x y z : Nat) : Nat := (x &&& y) ^^^ (x &&& z) ^^^ (y &&& z)

def bsig0 (x : Nat) : Nat := rotr x 2 ^^^ rotr x 13 ^^^ rotr x 22

def bsig1 (x : Nat) : Nat := rotr x 6 ^^^ rotr x 11 ^^^ rotr x 25

def ssig0 (x : Nat) : Nat := rotr x 7 ^^^ rotr x 18 ^^^ (x >>> 3)

def ssig1 (x : Nat) : Nat := rotr x 17 ^^^ rotr x 19 ^^^ (x >>> 10)

/-- The 64 round constants. -/
def K : List Nat :=
  [0x428a2f98, 0x71374491, 0xb5c0fbcf, 0xe9b5dba5, 0x3956c25b, 0x59f111f1, 0x923f82a4, 0xab1c5ed5,
   0xd807aa98, 0x12835b01, 0x243185be, 0x550c7dc3, 0x72be5d74, 0x80deb1fe, 0x9bdc06a7, 0xc19bf174,
   0xe49b69c1, 0xefbe4786, 0x0fc19dc6, 0x240ca1cc, 0x2de92c6f, 0x4a7484aa, 0x5cb0a9dc, 0x76f988da,
   0x983e5152, 0xa831c66d, 0xb00327c8, 0xbf597fc7, 0xc6e00bf3, 0xd5a79147, 0x06ca6351, 0x14292967,
   0x27b70a85, 0x2e1b2138, 0x4d2c6dfc, 0x53380d13, 0x650a7354, 0x766a0abb, 0x81c2c92e, 0x92722c85,
   0xa2bfe8a1, 0xa81a664b, 0xc24b8b70, 0xc76c51a3, 0xd192e819, 0xd6990624, 0xf40e3585, 0x106aa070,
   0x19a4c116, 0x1e376c08, 0x2748774c, 0x34b0bcb5, 0x391c0cb3, 0x4ed8aa4a, 0x5b9cca4f, 0x682e6ff3,
   0x748f82ee, 0x78a5636f, 0x84c87814, 0x8cc70208, 0x90befffa, 0xa4506ceb, 0xbef9a3f7, 0xc67178f2]

/-- The initial hash value. -/
def H0 : List Nat :=
  [0x6a09e667, 0xbb67ae85, 0x3c6ef372, 0xa54ff53a, 0x510e527f, 0x9b05688c, 0x1f83d9ab, 0x5be0cd19]

/-- Big-endian bytes of `x`, `n` of them. -/
def beBytes : Nat → Nat → Bytes
  | 0, _ => []
  | n + 1, x => (x >>> (8 * n)) % 256 :: beBytes n x

/-- The message followed by the bit `1`, zeros up to 56 mod 64, and the
bit length as a 64-bit big-endian number. -/
def pad (msg : Bytes) : Bytes :=
  let l := msg.length
  msg ++ 0x80 :: List.replicate ((119 - l % 64) % 64) 0 ++ beBytes 8 ((8 * l) % 18446744073709551616)

/-- Big-endian 32-bit words of a byte list (a trailing partial word is dropped). -/
def toWords : Bytes → List Nat
  | a :: b :: c :: d :: rest =>
    ((a % 256) <<< 24 ||| (b % 256) <<< 16 ||| (c % 256) <<< 8 ||| (d % 256)) :: toWords rest
  | _ => []

/-- Message schedule: `n` more words after the ones in `w` (kept newest first). -/
def extend : Nat → List Nat → List Nat
  | 0, w => w
  | n + 1, w =>
    extend n (w32 (ssig1 (w.getD 1 0) + w.getD 6 0 + ssig0 (w.getD 14 0) + w.getD 15 0) :: w)

/-- The 64 words of the message schedule of one block, oldest first. -/
def schedule (block : List Nat) : List Nat := (extend 48 block.reverse).reverse

/-- One round on the working variables `[a, b, c, d, e, f, g, h]`. -/
def round (s : List Nat) (kw : Nat × Nat) : List Nat :=
  match s with
  | [a, b, c, d, e, f, g, h] =>
    let t1 := h + bsig1 e + ch e f g + kw.1 + kw.2
    let t2 := bsig0 a + maj a b c
    [w32 (t1 + t2), a, b, c, w32 (d + t1), e, f, g]
  | _ => s

/-- Compression of one 16-word block into the hash state. -/
def compress (h : List Nat) (block : List Nat) : List Nat :=
  List.zipWith (fun x y => w32 (x + y)) h ((K.zip (schedule block)).foldl round h)

/-- The hash state after all the 16-word blocks of `ws`, `n` bounding their number. -/
def blocks : Nat → List Nat → List Nat → List Nat
  | 0, h, _ => h
  | n + 1, h, ws => if ws.length < 16 then h else blocks n (compress h (ws.take 16)) (ws.drop 16)

/-- The 32 bytes of `sha256.Sum256(msg)`. -/
def Sum256 (msg : Bytes) : Bytes :=
  let ws := toWords (pad msg)
  (blocks (ws.length / 16) H0 ws).flatMap (beBytes 4)

end sha256

/-! ## `encoding/hex` -/

namespace hex

/-- The digit table `hextable` of `encoding/hex`. -/
def hextable : List Char :=
  ['0', '1', '2', '3', '4', '5', '6', '7', '8', '9', 'a', 'b', 'c', 'd', 'e', 'f']

/-- The hexadecimal digit of a value below 16. -/
def digit (n : Nat) : Char := hextable.getD n '0'

/-- Two lowercase hexadecimal digits per byte, as `hex.EncodeToString`. -/
def EncodeToString (src : Bytes) : String :=
  String.mk (src.flatMap fun b => [digit ((b % 256) / 16), digit (b % 16)])

end hex

/-- The content address of a payload: `hex.EncodeToString(sha256.Sum256(data)[:])`. -/
def hashHex (data : Bytes) : String := hex.EncodeToString (sha256.Sum256 data)

/-! ## Strings as bytes -/

/-- The UTF-8 bytes of one character, as `utf8.AppendRune`; its shifts and
masks are written as divisions and remainders. -/
def utf8EncodeChar (c : Char) : Bytes :=
  let v := c.toNat
  if v < 0x80 then [v]
  else if v < 0x800 then [0xC0 + v / 64, 0x80 + v % 64]
  else if v < 0x10000 then [0xE0 + v / 4096, 0x80 + v / 64 % 64, 0x80 + v % 64]
  else [0xF0 + v / 262144, 0x80 + v / 4096 % 64, 0x80 + v / 64 % 64, 0x80 + v % 64]

/-- The bytes of a text, the conversion `[]byte(s)`. -/
def utf8 (cs : List Char) : Bytes := cs.flatMap utf8EncodeChar

/-- The first character of a byte sequence and the bytes after it, as
`utf8.DecodeRune` on well-formed input; `none` on bytes that are not the
UTF-8 form of a character. -/
def utf8DecodeChar : Bytes → Option (Char × Bytes)
  | [] => none
  | b0 :: rest =>
    if b0 < 0x80 then some (Char.ofNat b0, rest)
    else if b0 < 0xC2 then none
    else if b0 < 0xE0 then
      match rest with
      | b1 :: rest =>
        if 0x80 ≤ b1 ∧ b1 < 0xC0 then some (Char.ofNat ((b0 - 0xC0) * 64 + (b1 - 0x80)), rest)
        else none
      | _ => none
    else if b0 < 0xF0 then
      match rest with
      | b1 :: b2 :: rest =>
        let v := (b0 - 0xE0) * 4096 + (b1 - 0x80) * 64 + (b2 - 0x80)
        if 0x80 ≤ b1 ∧ b1 < 0xC0 ∧ 0x80 ≤ b2 ∧ b2 < 0xC0 ∧ 0x800 ≤ v ∧
            ¬ (0xD800 ≤ v ∧ v < 0xE000) then
          some (Char.ofNat v, rest)
        else none
      | _ => none
    else if b0 < 0xF8 then
      match rest with
      | b1 :: b2 :: b3 :: rest =>
        let v := (b0 - 0xF0) * 262144 + (b1 - 0x80) * 4096 + (b2 - 0x80) * 64 + (b3 - 0x80)
        if 0x80 ≤ b1 ∧ b1 < 0xC0 ∧ 0x80 ≤ b2 ∧ b2 < 0xC0 ∧ 0x80 ≤ b3 ∧ b3 < 0xC0 ∧
            0x10000 ≤ v ∧ v < 0x110000 then
          some (Char.ofNat v, rest)
        else none
      | _ => none
    else none

/-- The characters of a byte sequence, at most `fuel` of them. -/
def utf8DecodeFuel : Nat → Bytes → Option (List Char)
  | _, [] => some []
  | 0, _ :: _ => none
  | fuel + 1, b :: bs =>
    match utf8DecodeChar (b :: bs) with
    | none => none
    | some (c, rest) => (utf8DecodeFuel fuel rest).map fun cs => c :: cs

/-- The text of a byte sequence, the conversion `string(b)` of well-formed UTF-8. -/
def utf8Decode (bs : Bytes) : Option (List Char) := utf8DecodeFuel bs.length bs

/-- The characters a `range` loop over a Go string meets, at most `fuel` of
them: a byte that does not start the UTF-8 form of a character counts as the
replacement character U+FFFD and is passed over alone. -/
def runesFuel : Nat → Bytes → List Char
  | _, [] => []
  | 0, _ :: _ => []
  | fuel + 1, b :: bs =>
    match utf8DecodeChar (b :: bs) with
    | some (c, rest) => c :: runesFuel fuel rest
    | none => '\uFFFD' :: runesFuel fuel bs

/-- The characters of a Go string given by its bytes, which need not be
well-formed UTF-8. -/
def runes (s : Bytes) : List Char := runesFuel s.length s

/-! ## `time` -/

/-- A clock reading: an instant, in nanoseconds since the Unix epoch, and the
offset of its zone in seconds east of UTC. -/
structure Time where
  unixNano : Int
  offset : Int
  deriving DecidableEq, Repr

namespace Time

/-- The zero `time.Time`: January 1, year 1, 00:00:00 UTC. -/
def zero : Time := ⟨-62135596800000000000, 0⟩

/-- Seconds since the epoch, shifted to the zone of the reading. -/
def localSec (t : Time) : Int := t.unixNano / 1000000000 + t.offset

/-- The nanosecond within the second. -/
def nsec (t : Time) : Nat := (t.unixNano % 1000000000).toNat

/-- The civil date `(year, month, day)` of a day count since 1970-01-01. -/
def civil (days : Int) : Int × Nat × Nat :=
  let z := days + 719468
  let era := z / 146097
  let doe := (z - era * 146097).toNat
  let yoe := (doe - doe / 1460 + doe / 36524 - doe / 146096) / 365
  let doy := doe - (365 * yoe + yoe / 4 - yoe / 100)
  let mp := (5 * doy + 2) / 153
  let d := doy - (153 * mp + 2) / 5 + 1
  let m := if mp < 10 then mp + 3 else mp - 9
  ((yoe : Int) + era * 400 + (if m ≤ 2 then 1 else 0), m, d)

def year (t : Time) : Int := (civil (t.localSec / 86400)).1

def month (t : Time) : Nat := (civil (t.localSec / 86400)).2.1

def day (t : Time) : Nat := (civil (t.localSec / 86400)).2.2

def hour (t : Time) : Nat := ((t.localSec % 86400) / 3600).toNat

def minute (t : Time) : Nat := ((t.localSec % 3600) / 60).toNat

def second (t : Time) : Nat := (t.localSec % 60).toNat

/-- The decimal digits of `n`, padded with zeros on the left to `width`. -/
def pad (width n : Nat) : List Char :=
  let ds := Nat.toDigits 10 n
  List.replicate (width - ds.length) '0' ++ ds

/-- The year, four digits at least, with its sign when negative. -/
def yearDigits (y : Int) : List Char :=
  if y < 0 then '-' :: pad 4 y.natAbs else pad 4 y.natAbs

/-- The layout element `Z07:00`. -/
def zoneDigits (offset : Int) : List Char :=
  if offset = 0 then ['Z']
  else
    let zone := Int.tdiv offset 60
    (if zone < 0 then '-' else '+') ::
      (pad 2 (zone.natAbs / 60) ++ ':' :: pad 2 (zone.natAbs % 60))

/-- The fraction of `.999999999`: the nanoseconds without trailing zeros, nothing when zero. -/
def fracTrimmed (ns : Nat) : List Char :=
  if ns = 0 then []
  else '.' :: ((pad 9 ns).reverse.dropWhile (· == '0')).reverse

/-- The date and time of day `2006-01-02T15:04:05`. -/
def dateTime (t : Time) : List Char :=
  yearDigits t.year ++ '-' :: pad 2 t.month ++ '-' :: pad 2 t.day ++ 'T' :: pad 2 t.hour ++
    ':' :: pad 2 t.minute ++ ':' :: pad 2 t.second

/-- The result of `t.Format(time.RFC3339)`. -/
def formatRFC3339 (t : Time) : String := String.mk (dateTime t ++ zoneDigits t.offset)

/-- The result of `t.Format(time.RFC3339Nano)`. -/
def formatRFC3339Nano (t : Time) : String :=
  String.mk (dateTime t ++ fracTrimmed t.nsec ++ zoneDigits t.offset)

/-- The result of `t.Format("20060102150405.000")`: date and time of day
without separators, then the milliseconds. -/
def formatStamp (t : Time) : String :=
  String.mk (yearDigits t.year ++ pad 2 t.month ++ pad 2 t.day ++ pad 2 t.hour ++ pad 2 t.minute ++
    pad 2 t.second ++ '.' :: pad 3 (t.nsec / 1000000))

end Time

/-! ## Errors -/

/-- A Go `error`: a message, and for an error built by `fmt.Errorf` with `%w`
the error it wraps. -/
inductive GoError where
  | base (msg : String)
  | wrap (msg : String) (cause : GoError)
  deriving DecidableEq, Repr

namespace GoError

/-- The text of `err.Error()`. -/
def Error : GoError → String
  | base msg => msg
  | wrap msg _ => msg

/-- The error `fmt.Errorf(pfx + "%w", err)`. -/
def errorf (pfx : String) (err : GoError) : GoError := wrap (pfx ++ err.Error) err

end GoError

deriving instance DecidableEq for Except

/-! ## `encoding/json` -/

/-- A value held in an `interface{}`, as far as `json.Marshal` tells values
apart: `int` is a value of an integer kind; `float` is a float64 that is a
number, given by the text `json.Marshal` writes for it; `str` is a string,
given by its bytes since they need not be well-formed UTF-8; `obj` is a
`map[string]interface{}` (one entry per key), `arr` a non-nil slice, and
`unsupported` a value of a kind `json.Marshal` rejects (a channel, a
function, a complex number). -/
inductive GoValue where
  | null
  | bool (b : Bool)
  | int (i : Int)
  | float (text : List Char)
  | str (s : Bytes)
  | arr (xs : List GoValue)
  | obj (kvs : List (String × GoValue))
  | unsupported

namespace json

/-- The escape `\u00XX` of a character below U+0100. -/
def u00 (c : Char) : List Char :=
  ['\\', 'u', '0', '0', hex.digit (c.toNat / 16), hex.digit (c.toNat % 16)]

/-- The encoding of one character inside a JSON string, with HTML escaping on
(the setting of `json.Marshal`); backspace and form feed have their short
escapes, as since Go 1.22. -/
def escChar (c : Char) : List Char :=
  if c = '"' then ['\\', '"']
  else if c = '\\' then ['\\', '\\']
  else if c = '\n' then ['\\', 'n']
  else if c = '\r' then ['\\', 'r']
  else if c = '\t' then ['\\', 't']
  else if c = '\x08' then ['\\', 'b']
  else if c = '\x0c' then ['\\', 'f']
  else if c.toNat < 0x20 ∨ c = '<' ∨ c = '>' ∨ c = '&' then u00 c
  else if c = '\u2028' then ['\\', 'u', '2', '0', '2', '8']
  else if c = '\u2029' then ['\\', 'u', '2', '0', '2', '9']
  else [c]

/-- A quoted JSON string. -/
def quote (s : String) : List Char := '"' :: s.data.flatMap escChar ++ ['"']

/-- The encoding of the characters of a Go string given by its bytes, at most
`fuel` of them: a byte that does not start the UTF-8 form of a character is
written as the escape `\\ufffd` and passed over alone. -/
def escBytesFuel : Nat → Bytes → List Char
  | _, [] => []
  | 0, _ :: _ => []
  | fuel + 1, b :: bs =>
    match utf8DecodeChar (b :: bs) with
    | some (c, rest) => escChar c ++ escBytesFuel fuel rest
    | none => ['\\', 'u', 'f', 'f', 'f', 'd'] ++ escBytesFuel fuel bs

/-- The quoted JSON string of a Go string given by its bytes: `json.Marshal`
coerces it to valid UTF-8. -/
def quoteBytes (s : Bytes) : List Char := '"' :: escBytesFuel s.length s ++ ['"']

/-- The decimal text of an integer. -/
def intDigits (i : Int) : List Char :=
  if i < 0 then '-' :: Nat.toDigits 10 i.natAbs else Nat.toDigits 10 i.natAbs

/-- The members of an object, in the order given: `"k":v` separated by commas. -/
def members : List (String × List Char) → List Char
  | [] => []
  | [(k, v)] => quote k ++ ':' :: v
  | (k, v) :: rest => quote k ++ ':' :: v ++ ',' :: members rest

/-- The elements of an array separated by commas. -/
def elements : List (List Char) → List Char
  | [] => []
  | [v] => v
  | v :: rest => v ++ ',' :: elements rest

/-- Whether a text precedes or equals another, character by character (the
order of `strings.Compare`). -/
def keyLE : List Char → List Char → Bool
  | [], _ => true
  | _ :: _, [] => false
  | a :: as, b :: bs => a.toNat < b.toNat || (a.toNat == b.toNat && keyLE as bs)

/-- The members of a map, sorted by key as `json.Marshal` emits them. -/
def sortKeys (kvs : List (String × List Char)) : List (String × List Char) :=
  kvs.insertionSort fun a b => keyLE a.1.data b.1.data = true

mutual
/-- The text `json.Marshal` produces for a value, `none` when it reports an
unsupported type. -/
def encode : GoValue → Option (List Char)
  | .null => some ['n', 'u', 'l', 'l']
  | .bool true => some ['t', 'r', 'u', 'e']
  | .bool false => some ['f', 'a', 'l', 's', 'e']
  | .int i => some (intDigits i)
  | .float text => some text
  | .str s => some (quoteBytes s)
  | .arr xs => (encodeList xs).map fun vs => '[' :: elements vs ++ [']']
  | .obj kvs => (encodeFields kvs).map fun ms => '{' :: members (sortKeys ms) ++ ['}']
  | .unsupported => none
/-- The encodings of the elements of a slice. -/
def encodeList : List GoValue → Option (List (List Char))
  | [] => some []
  | x :: xs => match encode x, encodeList xs with
    | some v, some vs => some (v :: vs)
    | _, _ => none
/-- The encodings of the values of a map, each with its key. -/
def encodeFields : List (String × GoValue) → Option (List (String × List Char))
  | [] => some []
  | (k, x) :: kvs => match encode x, encodeFields kvs with
    | some v, some ms => some ((k, v) :: ms)
    | _, _ => none
end

/-- The error `json.Marshal` returns for a value it cannot encode. -/
def unsupportedType : GoError := .base "json: unsupported type"

/-- The bytes and error of `json.Marshal(v)`. -/
def Marshal (v : GoValue) : Except GoError Bytes :=
  match encode v with
  | some cs => .ok (utf8 cs)
  | none => .error unsupportedType

/-- The text of `Time.MarshalJSON`: the quoted RFC 3339 form with nanoseconds,
`none` for a year outside `[0, 9999]` and for a zone whose offset is 24 hours
or more. -/
def encodeTime (t : Time) : Option (List Char) :=
  if t.year < 0 ∨ 10000 ≤ t.year then none
  else if 24 ≤ (Int.tdiv t.offset 60).natAbs / 60 then none
  else some (quote t.formatRFC3339Nano)

/-! ### Reading

A reader for the compact objects `json.Marshal` writes whose values are all
strings. It gives a meaning to "the field `k` of a JSON value". -/

/-- The value of a hexadecimal digit. -/
def hexValue (c : Char) : Option Nat :=
  if '0'.toNat ≤ c.toNat ∧ c.toNat ≤ '9'.toNat then some (c.toNat - '0'.toNat)
  else if 'a'.toNat ≤ c.toNat ∧ c.toNat ≤ 'f'.toNat then some (c.toNat - 'a'.toNat + 10)
  else if 'A'.toNat ≤ c.toNat ∧ c.toNat ≤ 'F'.toNat then some (c.toNat - 'A'.toNat + 10)
  else none

/-- The character of the escape `\\uXXXX` with the four digits given; `none`
for a surrogate half. -/
def hex4 (a b c d : Char) : Option Char :=
  match hexValue a, hexValue b, hexValue c, hexValue d with
  | some x, some y, some z, some w =>
    let n := ((x * 16 + y) * 16 + z) * 16 + w
    if 0xD800 ≤ n ∧ n < 0xE000 then none else some (Char.ofNat n)
  | _, _, _, _ => none

/-- The character of a one-letter escape. -/
def unescape (e : Char) : Option Char :=
  if e = '"' then some '"'
  else if e = '\\' then some '\\'
  else if e = '/' then some '/'
  else if e = 'b' then some '\x08'
  else if e = 'f' then some '\x0c'
  else if e = 'n' then some '\n'
  else if e = 'r' then some '\r'
  else if e = 't' then some '\t'
  else none

/-- A character in front of the result of reading the rest. -/
def push (c : Char) : Option (List Char × List Char) → Option (List Char × List Char)
  | none => none
  | some (s, rest) => some (c :: s, rest)

/-- Reads a string from just after its opening quote: the text up to the
closing quote, and what follows that quote. -/
def readString : List Char → Option (List Char × List Char)
  | [] => none
  | c :: rest =>
    if c = '"' then some ([], rest)
    else if c = '\\' then
      match rest with
      | [] => none
      | e :: rest =>
        if e = 'u' then
          match rest with
          | a :: b :: c :: d :: rest =>
            match hex4 a b c d with
            | none => none
            | some ch => push ch (readString rest)
          | _ => none
        else
          match unescape e with
          | none => none
          | some ch => push ch (readString rest)
    else if c.toNat < 0x20 then none
    else push c (readString rest)

/-- Reads the members of an object from just after its opening brace, each a
string key and a string value; at most `fuel` members. -/
def readMembers : Nat → List Char → Option (List (String × String))
  | 0, _ => none
  | fuel + 1, text =>
    match text with
    | '"' :: rest =>
      match readString rest with
      | some (k, ':' :: '"' :: rest) =>
        match readString rest with
        | some (v, [ '}' ]) => some [(String.mk k, String.mk v)]
        | some (v, ',' :: rest) =>
          (readMembers fuel rest).map fun ms => (String.mk k, String.mk v) :: ms
        | _ => none
      | _ => none
    | _ => none

/-- The members of a compact JSON object whose values are all strings. -/
def readObject (text : List Char) : Option (List (String × String)) :=
  match text with
  | [ '{', '}' ] => some []
  | '{' :: rest => readMembers rest.length rest
  | _ => none

/-- The string value of the field `key` of the JSON object in `data`. -/
def stringField (key : String) (data : Bytes) : Option String :=
  match utf8Decode data with
  | none => none
  | some text =>
    match readObject text with
    | none => none
    | some ms => (ms.find? fun m => m.1 = key).map (·.2)

end json

/-! ## Go maps with string keys -/

/-- A `map[string]α`: its entries, one per key. -/
abbrev GoMap (α : Type) := List (String × α)

namespace GoMap

variable {α : Type}

/-- The value `m[k]` and whether it is present. -/
def get : GoMap α → String → Option α
  | [], _ => none
  | (k', v) :: m, k => if k' = k then some v else get m k

/-- The map after `m[k] = v`: an entry for `k` is replaced. -/
def set (m : GoMap α) (k : String) (v : α) : GoMap α :=
  (k, v) :: m.filter fun e => e.1 ≠ k

/-- The number of entries, `len(m)`. -/
def len (m : GoMap α) : Nat := m.length

end GoMap

/-! ## `pkg/lexicon/types.go` -/

namespace lexicon

/-- A generic lexicon document; `Value` is `none` for a nil map. -/
structure Document where
  ID : String
  /-- The field `Type` (a reserved word here). -/
  Typ : String
  Value : Option (List (String × GoValue))
  CreatedAt : Time
  UpdatedAt : Time

/-- The JSON object `json.Marshal` writes for a document: the fields in the
order of their declaration, under the names of their tags. -/
def encodeDocument (doc : Document) : Option (List Char) :=
  match json.encode (match doc.Value with | none => .null | some kvs => .obj kvs),
      json.encodeTime doc.CreatedAt, json.encodeTime doc.UpdatedAt with
  | some v, some c, some u =>
    some ('{' :: json.members [("id", json.quote doc.ID), ("type", json.quote doc.Typ),
      ("value", v), ("createdAt", c), ("updatedAt", u)] ++ ['}'])
  | _, _, _ => none

/-- Marshals a document to JSON. -/
def MarshalDocument (doc : Document) : Except GoError Bytes :=
  match encodeDocument doc with
  | some cs => .ok (utf8 cs)
  | none => .error json.unsupportedType

end lexicon

/-! ## `pkg/repo/repo.go` -/

namespace repo

/-- A commit in a repository. -/
structure Commit where
  ID : String
  Prev : String
  Data : Bytes
  Signature : Bytes
  CreatedAt : Time
  deriving DecidableEq, Repr

/-- A user repository held in memory. -/
structure Repository where
  DID : String
  Head : String
  Commits : GoMap Commit
  Documents : GoMap Bytes
  deriving DecidableEq, Repr

/-- Creates a new repository. -/
def NewRepository (did : String) : Repository :=
  { DID := did, Head := "", Commits := [], Documents := [] }

/-- Creates a new commit in the repository; `now` is the reading of `time.Now()`.
Returns the commit and the repository as the call leaves it. -/
def Repository.CreateCommit (r : Repository) (now : Time) (doc : lexicon.Document) :
    Except GoError (Commit × Repository) :=
  match lexicon.MarshalDocument doc with
  | .error err => .error err
  | .ok data =>
    let commit : Commit :=
      { ID := hashHex data, Prev := r.Head, Data := data, Signature := [], CreatedAt := now }
    .ok (commit,
      { r with
        Commits := r.Commits.set commit.ID commit
        Head := commit.ID
        Documents := r.Documents.set doc.ID data })

/-- The in-memory store together with the repositories its pointers refer to:
`heap` holds every `*Repository` allocated so far, a pointer is an index into
it, and `repositories` is the map of the `MemoryStore`. -/
structure World where
  heap : List Repository
  repositories : GoMap Nat
  deriving DecidableEq, Repr

/-- The state after `NewMemoryStore()`, before any repository is allocated. -/
def NewMemoryStore : World := { heap := [], repositories := [] }

/-- Gets a repository from the store: the pointer stored under `did`. -/
def World.GetRepository (w : World) (did : String) : Except GoError Nat :=
  match w.repositories.get did with
  | none => .error (.base ("repository not found: " ++ did))
  | some p => .ok p

/-- Saves the repository at pointer `p` to the store. -/
def World.SaveRepository (w : World) (p : Nat) : World :=
  match w.heap[p]? with
  | none => w
  | some r => { w with repositories := w.repositories.set r.DID p }

/-- Gets a commit from the store. -/
def World.GetCommit (w : World) (did commitID : String) : Except GoError Commit :=
  match w.GetRepository did with
  | .error err => .error err
  | .ok p =>
    match w.heap[p]? with
    | none => .error (.base ("repository not found: " ++ did))
    | some r =>
      match r.Commits.get commitID with
      | none => .error (.base ("commit not found: " ++ commitID))
      | some commit => .ok commit

/-- Saves a commit to the store. -/
def World.SaveCommit (w : World) (did : String) (commit : Commit) : Except GoError World :=
  match w.GetRepository did with
  | .error err => .error err
  | .ok p =>
    match w.heap[p]? with
    | none => .error (.base ("repository not found: " ++ did))
    | some r =>
      .ok { w with heap := w.heap.set p { r with Commits := r.Commits.set commit.ID commit } }

/-- A call a client of the package makes. -/
inductive Op where
  | newRepository (did : String)
  | createCommit (p : Nat) (now : Time) (doc : lexicon.Document)
  | saveRepository (p : Nat)
  | saveCommit (did : String) (commit : Commit)

/-- The state after one call; a call that returns an error, or names a
pointer that was never allocated, leaves the state as it was. -/
def World.step (w : World) : Op → World
  | .newRepository did => { w with heap := w.heap ++ [NewRepository did] }
  | .createCommit p now doc =>
    match w.heap[p]? with
    | none => w
    | some r =>
      match r.CreateCommit now doc with
      | .error _ => w
      | .ok (_, r') => { w with heap := w.heap.set p r' }
  | .saveRepository p => w.SaveRepository p
  | .saveCommit did commit =>
    match w.SaveCommit did commit with
    | .error _ => w
    | .ok w' => w'

/-- The state after a sequence of calls. -/
def World.run (w : World) (ops : List Op) : World := ops.foldl World.step w

/-- The commits met by following `Prev` from `head` through the map until the
empty string, newest first; `none` when a commit is missing or the empty
string is not reached within `fuel` commits. -/
def history (commits : GoMap Commit) : Nat → String → Option (List Commit)
  | fuel, head =>
    if head = "" then some []
    else
      match fuel with
      | 0 => none
      | fuel + 1 =>
        match commits.get head with
        | none => none
        | some c => (history commits fuel c.Prev).map fun l => c :: l

end repo

/-! ## `pkg/pds/repository.go` -/

namespace pds

/-- A row of `repositories`, and the struct of the same name. -/
structure Repository where
  DID : String
  Head : String
  CreatedAt : Time
  UpdatedAt : Time
  deriving DecidableEq, Repr

/-- A row of `commits`, and the struct of the same name. -/
structure Commit where
  ID : String
  RepositoryDID : String
  Prev : String
  Data : Bytes
  Signature : Bytes
  CreatedAt : Time
  deriving DecidableEq, Repr

/-- A row of `documents`, and the struct of the same name; `Value` is a
`json.RawMessage`. -/
structure Document where
  ID : String
  RepositoryDID : String
  /-- The field `Type` (a reserved word here). -/
  Typ : String
  Value : Bytes
  CreatedAt : Time
  UpdatedAt : Time
  deriving DecidableEq, Repr

/-- Modelled from the spec: the database behind the connection pool, whose
schema is not among the source files. Section 6 gives its three tables:
`repositories` with primary key `did`, `commits` with primary key `id`, and
`documents` with a uniqueness constraint on `(repository_did, id)`. Each
table is the list of its rows, oldest first. -/
structure DB where
  repositories : List Repository
  commits : List Commit
  documents : List Document
  deriving DecidableEq, Repr

/-- The database with no rows. -/
def DB.empty : DB := { repositories := [], commits := [], documents := [] }

/-- The error of the driver for a query that returns no row. -/
def ErrNoRows : GoError := .base "no rows in result set"

/-- The error of the driver for an insert that breaks a key constraint. -/
def uniqueViolation : GoError := .base "duplicate key value violates unique constraint"

/-- Creates a new repository: `INSERT INTO repositories`. `fault` is the error
of the driver when the statement fails for a reason outside the program. -/
def CreateRepository (db : DB) (now : Time) (fault : Option GoError) (repo : Repository) :
    Except GoError (Repository × DB) :=
  match fault with
  | some err => .error (GoError.errorf "failed to create repository: " err)
  | none =>
    if db.repositories.any (fun r => r.DID = repo.DID) then
      .error (GoError.errorf "failed to create repository: " uniqueViolation)
    else
      let row : Repository := { repo with CreatedAt := now, UpdatedAt := now }
      .ok (row, { db with repositories := db.repositories ++ [row] })

/-- Gets a repository by DID: `SELECT ... FROM repositories WHERE did = $1`. -/
def GetRepository (db : DB) (fault : Option GoError) (did : String) : Except GoError Repository :=
  match fault with
  | some err => .error (GoError.errorf "failed to get repository: " err)
  | none =>
    match db.repositories.find? (fun r => r.DID = did) with
    | none => .error (GoError.errorf "failed to get repository: " ErrNoRows)
    | some r => .ok r

/-- Updates a repository: `UPDATE repositories SET head = $1, updated_at = $2
WHERE did = $3`. -/
def UpdateRepository (db : DB) (now : Time) (fault : Option GoError) (repo : Repository) :
    Except GoError (Repository × DB) :=
  match fault with
  | some err => .error (GoError.errorf "failed to update repository: " err)
  | none =>
    .ok ({ repo with UpdatedAt := now },
      { db with
        repositories := db.repositories.map fun r =>
          if r.DID = repo.DID then { r with Head := repo.Head, UpdatedAt := now } else r })

/-- Creates a new commit: `INSERT INTO commits`. -/
def CreateCommit (db : DB) (now : Time) (fault : Option GoError) (commit : Commit) :
    Except GoError (Commit × DB) :=
  match fault with
  | some err => .error (GoError.errorf "failed to create commit: " err)
  | none =>
    if db.commits.any (fun c => c.ID = commit.ID) then
      .error (GoError.errorf "failed to create commit: " uniqueViolation)
    else
      let row : Commit := { commit with CreatedAt := now }
      .ok (row, { db with commits := db.commits ++ [row] })

/-- Gets a commit by ID: `SELECT ... FROM commits WHERE id = $1`. -/
def GetCommit (db : DB) (fault : Option GoError) (id : String) : Except GoError Commit :=
  match fault with
  | some err => .error (GoError.errorf "failed to get commit: " err)
  | none =>
    match db.commits.find? (fun c => c.ID = id) with
    | none => .error (GoError.errorf "failed to get commit: " ErrNoRows)
    | some c => .ok c

/-- Creates a new document: `INSERT INTO documents`. -/
def CreateDocument (db : DB) (now : Time) (fault : Option GoError) (doc : Document) :
    Except GoError (Document × DB) :=
  match fault with
  | some err => .error (GoError.errorf "failed to create document: " err)
  | none =>
    if db.documents.any (fun d => d.RepositoryDID = doc.RepositoryDID ∧ d.ID = doc.ID) then
      .error (GoError.errorf "failed to create document: " uniqueViolation)
    else
      let row : Document := { doc with CreatedAt := now, UpdatedAt := now }
      .ok (row, { db with documents := db.documents ++ [row] })

/-- Gets a document by ID: `SELECT ... FROM documents WHERE repository_did = $1
AND id = $2`. -/
def GetDocument (db : DB) (fault : Option GoError) (repositoryDID id : String) :
    Except GoError Document :=
  match fault with
  | some err => .error (GoError.errorf "failed to get document: " err)
  | none =>
    match db.documents.find? (fun d => d.RepositoryDID = repositoryDID ∧ d.ID = id) with
    | none => .error (GoError.errorf "failed to get document: " ErrNoRows)
    | some d => .ok d

/-- The rows of `SELECT ... FROM documents WHERE repository_did = $1 AND type = $2
ORDER BY created_at DESC`. -/
def selectByType (db : DB) (repositoryDID docType : String) : List Document :=
  (db.documents.filter fun d => d.RepositoryDID = repositoryDID ∧ d.Typ = docType).insertionSort
    fun a b => b.CreatedAt.unixNano ≤ a.CreatedAt.unixNano

/-- Gets documents by type. The three faults are the errors of the driver at
the query, at the scan of a row, and at the end of the iteration. -/
def GetDocumentsByType (db : DB) (queryFault scanFault rowsFault : Option GoError)
    (repositoryDID docType : String) : Except GoError (List Document) :=
  match queryFault with
  | some err => .error (GoError.errorf "failed to get documents: " err)
  | none =>
    let rows := selectByType db repositoryDID docType
    match rows, scanFault with
    | _ :: _, some err => .error (GoError.errorf "failed to scan document: " err)
    | _, _ =>
      match rowsFault with
      | some err => .error (GoError.errorf "error iterating documents: " err)
      | none => .ok rows

/-- What one call of `CreatePost` receives from outside the program: the
reading of each `time.Now()` and, for each storage call, the error of the
driver when that call fails for a reason outside the program. -/
structure Env where
  getRepositoryFault : Option GoError
  createRepositoryFault : Option GoError
  createDocumentFault : Option GoError
  createCommitFault : Option GoError
  updateRepositoryFault : Option GoError
  nowCreateRepository : Time
  nowValue : Time
  nowID : Time
  nowCreateDocument : Time
  nowCreateCommit : Time
  nowUpdateRepository : Time
  deriving DecidableEq, Repr

/-- The post value `map[string]interface{}{"text": content, "createdAt": ...}`. -/
def postValue (env : Env) (content : Bytes) : GoValue :=
  .obj [("text", .str content), ("createdAt", .str (utf8 env.nowValue.formatRFC3339.data))]

/-- The document id `fmt.Sprintf("post/%s", time.Now().Format("20060102150405.000"))`. -/
def postID (env : Env) : String := "post/" ++ env.nowID.formatStamp

/-- The commit data `map[string]interface{}{"op": "create", "path": postID, "value": postValue}`. -/
def commitData (env : Env) (content : Bytes) : GoValue :=
  .obj [("op", .str (utf8 "create".data)), ("path", .str (utf8 (postID env).data)),
    ("value", postValue env content)]

/-- The first step of `CreatePost`: the repository of `did`, created with an
empty head when `GetRepository` returns an error. -/
def getOrCreateRepository (db : DB) (env : Env) (did : String) :
    Except GoError (Repository × DB) :=
  match GetRepository db env.getRepositoryFault did with
  | .ok repo => .ok (repo, db)
  | .error _ =>
    match CreateRepository db env.nowCreateRepository env.createRepositoryFault
        { DID := did, Head := "", CreatedAt := Time.zero, UpdatedAt := Time.zero } with
    | .error err => .error (GoError.errorf "failed to create repository: " err)
    | .ok (repo, db1) => .ok (repo, db1)

/-- Creates a new post document; `content` is given by its bytes, which reach
`json.Marshal` as they come. Returns the result of the call and the database as
the call leaves it. -/
def CreatePost (db : DB) (env : Env) (did : String) (content : Bytes) :
    Except GoError Document × DB :=
  match getOrCreateRepository db env did with
  | .error err => (.error err, db)
  | .ok (repo, db1) =>
    match json.Marshal (postValue env content) with
    | .error err => (.error (GoError.errorf "failed to marshal post value: " err), db1)
    | .ok postValueJSON =>
      let doc : Document :=
        { ID := postID env, RepositoryDID := did, Typ := "app.bsky.feed.post",
          Value := postValueJSON, CreatedAt := Time.zero, UpdatedAt := Time.zero }
      match CreateDocument db1 env.nowCreateDocument env.createDocumentFault doc with
      | .error err => (.error (GoError.errorf "failed to create document: " err), db1)
      | .ok (doc, db2) =>
        match json.Marshal (commitData env content) with
        | .error err => (.error (GoError.errorf "failed to marshal commit data: " err), db2)
        | .ok commitDataJSON =>
          let commitID := hashHex commitDataJSON
          let commit : Commit :=
            { ID := commitID, RepositoryDID := did, Prev := repo.Head, Data := commitDataJSON,
              Signature := [], CreatedAt := Time.zero }
          match CreateCommit db2 env.nowCreateCommit env.createCommitFault commit with
          | .error err => (.error (GoError.errorf "failed to create commit: " err), db2)
          | .ok (_, db3) =>
            match UpdateRepository db3 env.nowUpdateRepository env.updateRepositoryFault
                { repo with Head := commitID } with
            | .error err => (.error (GoError.errorf "failed to update repository: " err), db3)
            | .ok (_, db4) => (.ok doc, db4)

/-- One call of `CreatePost` in a sequence. -/
structure Call where
  env : Env
  did : String
  content : Bytes
  deriving DecidableEq, Repr

/-- The database after a sequence of `CreatePost` calls run one after another. -/
def runPosts (db : DB) (calls : List Call) : DB :=
  calls.foldl (fun db c => (CreatePost db c.env c.did c.content).2) db

/-- The head of the repository of `did`; the empty string when there is none. -/
def headOf (db : DB) (did : String) : String :=
  match db.repositories.find? (fun r => r.DID = did) with
  | none => ""
  | some r => r.Head

/-- The commits met by following `Prev` from `head` through `GetCommit` until
the empty string, newest first; `none` when a commit is missing or the empty
string is not reached within `fuel` commits. -/
def history (db : DB) : Nat → String → Option (List Commit)
  | fuel, head =>
    if head = "" then some []
    else
      match fuel with
      | 0 => none
      | fuel + 1 =>
        match GetCommit db none head with
        | .error _ => none
        | .ok c => (history db fuel c.Prev).map fun l => c :: l

end pds

/-! ## Sequences of calls -/

namespace repo

/-- The repository after `CreateCommit` has been called for each document in
turn; `none` when one of the calls returns an error. -/
def commitAll (r : Repository) : List (Time × lexicon.Document) → Option Repository
  | [] => some r
  | (now, doc) :: rest =>
    match r.CreateCommit now doc with
    | .error _ => none
    | .ok (_, r') => commitAll r' rest

/-- The id `CreateCommit` gives the commit of a document; `none` when the
document cannot be marshalled. -/
def commitID (doc : lexicon.Document) : Option String :=
  match lexicon.MarshalDocument doc with
  | .error _ => none
  | .ok data => some (hashHex data)

end repo

namespace pds

/-- The JSON text of the post value: its two members, sorted by key. -/
def postValueText (env : Env) (content : Bytes) : List Char :=
  '{' :: (json.quote "createdAt" ++ ':' :: json.quote env.nowValue.formatRFC3339 ++ ',' ::
    (json.quote "text" ++ ':' :: json.quoteBytes content)) ++ ['}']

/-- The JSON text of the commit data: its three members, sorted by key. -/
def commitDataText (env : Env) (content : Bytes) : List Char :=
  '{' :: (json.quote "op" ++ ':' :: json.quote "create" ++ ',' ::
    (json.quote "path" ++ ':' :: json.quote (postID env) ++ ',' ::
      (json.quote "value" ++ ':' :: postValueText env content))) ++ ['}']

/-- The document `CreatePost` builds, as `CreateDocument` stores and returns it. -/
def newDocument (env : Env) (did : String) (content : Bytes) : Document :=
  { ID := postID env, RepositoryDID := did, Typ := "app.bsky.feed.post",
    Value := utf8 (postValueText env content),
    CreatedAt := env.nowCreateDocument, UpdatedAt := env.nowCreateDocument }

/-- The commit `CreatePost` builds on the head `prev`, as `CreateCommit` stores it. -/
def newCommit (env : Env) (did : String) (content : Bytes) (prev : String) : Commit :=
  { ID := hashHex (utf8 (commitDataText env content)), RepositoryDID := did, Prev := prev,
    Data := utf8 (commitDataText env content), Signature := [],
    CreatedAt := env.nowCreateCommit }

/-- The id of the commit most recently written for `did`: the last row of
`commits` with that `repository_did`. -/
def lastCommitID (db : DB) (did : String) : Option String :=
  ((db.commits.filter fun c => c.RepositoryDID = did).getLast?).map (·.ID)

/-- Whether a result is an error. -/
def failed {α : Type} : Except GoError α → Bool
  | .error _ => true
  | .ok _ => false

/-- The number of calls for `did`, in a sequence run from `db`, that return a document. -/
def successes (did : String) : DB → List Call → Nat
  | _, [] => 0
  | db, c :: rest =>
    (if c.did = did ∧ failed (CreatePost db c.env c.did c.content).1 = false then 1 else 0) +
      successes did (CreatePost db c.env c.did c.content).2 rest

end pds

/-! ## Invariants -/

namespace repo

/-- What a sequence of calls with pairwise distinct commit ids keeps true of a
repository: the chain from the head has one commit per entry of the map, no
id twice, and every key of the map is one of the ids in `seen`. -/
structure Linear (r : Repository) (n : Nat) (seen : List (Option String)) : Prop where
  keyed : ∀ e ∈ r.Commits, e.2.ID = e.1
  keys_seen : ∀ k ∈ r.Commits.map Prod.fst, some k ∈ seen
  len : r.Commits.len = n
  chain : ∃ l, history r.Commits n r.Head = some l ∧ l.length = n ∧ (l.map (·.ID)).Nodup

end repo

namespace pds

/-- What a sequence of `CreatePost` calls keeps true of the database: for every
did, following `Prev` from the head of its repository reaches the empty string
after `k did` commits, within as many steps as `commits` has rows. -/
def Chained (db : DB) (k : String → Nat) : Prop :=
  ∀ did, ∃ l, history db db.commits.length (headOf db did) = some l ∧ l.length = k did

/-- What a sequence of `CreatePost` calls without a failing `UpdateRepository`
keeps true of the database: the head of every repository is empty or the id of
the last commit written for its did. -/
def HeadIsLast (db : DB) : Prop :=
  ∀ did, headOf db did = "" ∨ lastCommitID db did = some (headOf db did)

end pds

/-! ## Values used in examples -/

/-- A clock reading: 2024-11-04 13:00:00.123456789 UTC. -/
def noon : Time := ⟨1730725200123456789, 0⟩

/-- A post with the text `hi`. -/
def repo.post1 : lexicon.Document :=
  ⟨"post/1", "app.bsky.feed.post", some [("text", .str (utf8 "hi".data))], Time.zero, Time.zero⟩

/-- A post with the text `ho`. -/
def repo.post2 : lexicon.Document :=
  ⟨"post/2", "app.bsky.feed.post", some [("text", .str (utf8 "ho".data))], Time.zero, Time.zero⟩

/-- The bytes `MarshalDocument` gives for `post1`. -/
def repo.post1Data : Bytes :=
  utf8 ("\x7b\"id\":\"post/1\",\"type\":\"app.bsky.feed.post\",\"value\":\x7b\"text\":\"hi\"\x7d," ++
    "\"createdAt\":\"0001-01-01T00:00:00Z\",\"updatedAt\":\"0001-01-01T00:00:00Z\"\x7d").data

/-- The repository after `post1` has been committed once. -/
def repo.once : repo.Repository :=
  { DID := "did:plc:abc123"
    Head := "1e272b0ec386e28444ff57f99d3b42fb7e59b8fb6406ca501b466800c9437037"
    Commits := [("1e272b0ec386e28444ff57f99d3b42fb7e59b8fb6406ca501b466800c9437037",
      { ID := "1e272b0ec386e28444ff57f99d3b42fb7e59b8fb6406ca501b466800c9437037"
        Prev := ""
        Data := repo.post1Data, Signature := [], CreatedAt := noon })]
    Documents := [("post/1", repo.post1Data)] }

/-- The repository after `post1` has been committed twice. -/
def repo.twice : repo.Repository :=
  { DID := "did:plc:abc123"
    Head := "1e272b0ec386e28444ff57f99d3b42fb7e59b8fb6406ca501b466800c9437037"
    Commits := [("1e272b0ec386e28444ff57f99d3b42fb7e59b8fb6406ca501b466800c9437037",
      { ID := "1e272b0ec386e28444ff57f99d3b42fb7e59b8fb6406ca501b466800c9437037"
        Prev := "1e272b0ec386e28444ff57f99d3b42fb7e59b8fb6406ca501b466800c9437037"
        Data := repo.post1Data, Signature := [], CreatedAt := noon })]
    Documents := [("post/1", repo.post1Data)] }

/-- The bytes `MarshalDocument` gives for `post2`. -/
def repo.post2Data : Bytes :=
  utf8 ("\x7b\"id\":\"post/2\",\"type\":\"app.bsky.feed.post\",\"value\":\x7b\"text\":\"ho\"\x7d," ++
    "\"createdAt\":\"0001-01-01T00:00:00Z\",\"updatedAt\":\"0001-01-01T00:00:00Z\"\x7d").data

/-- The repository after `post1` and then `post2` have been committed. -/
def repo.both : repo.Repository :=
  { DID := "did:plc:abc123"
    Head := "10fb254e609b0cbf8037e58a99484ce9e657c7346ccb299e3b2c550dd9e0fea6"
    Commits := [("10fb254e609b0cbf8037e58a99484ce9e657c7346ccb299e3b2c550dd9e0fea6",
      { ID := "10fb254e609b0cbf8037e58a99484ce9e657c7346ccb299e3b2c550dd9e0fea6"
        Prev := "1e272b0ec386e28444ff57f99d3b42fb7e59b8fb6406ca501b466800c9437037"
        Data := repo.post2Data, Signature := [], CreatedAt := noon }),
      ("1e272b0ec386e28444ff57f99d3b42fb7e59b8fb6406ca501b466800c9437037",
      { ID := "1e272b0ec386e28444ff57f99d3b42fb7e59b8fb6406ca501b466800c9437037"
        Prev := ""
        Data := repo.post1Data, Signature := [], CreatedAt := noon })]
    Documents := [("post/2", repo.post2Data), ("post/1", repo.post1Data)] }

/-- A call environment without faults in which every clock reading is `t`. -/
def pds.quiet (t : Time) : pds.Env :=
  { getRepositoryFault := none, createRepositoryFault := none, createDocumentFault := none,
    createCommitFault := none, updateRepositoryFault := none, nowCreateRepository := t,
    nowValue := t, nowID := t, nowCreateDocument := t, nowCreateCommit := t,
    nowUpdateRepository := t }

/-- A clock reading one second after `noon`. -/
def noon1 : Time := ⟨1730725201123456789, 0⟩

/-- The document of the post `hello world` made at `noon`. -/
def pds.helloDoc : pds.Document :=
  { ID := "post/20241104130000.123", RepositoryDID := "did:plc:abc123",
    Typ := "app.bsky.feed.post",
    Value := utf8 "\x7b\"createdAt\":\"2024-11-04T13:00:00Z\",\"text\":\"hello world\"\x7d".data,
    CreatedAt := noon, UpdatedAt := noon }

/-- The commit of the post `hello world` made at `noon` in a new repository. -/
def pds.helloCommit : pds.Commit :=
  { ID := "bfe14fca84b36fd68222db9b5879525384a2a88f12d681f168e20ad5310483cf",
    RepositoryDID := "did:plc:abc123", Prev := "",
    Data := utf8 ("\x7b\"op\":\"create\",\"path\":\"post/20241104130000.123\",\"value\":" ++
      "\x7b\"createdAt\":\"2024-11-04T13:00:00Z\",\"text\":\"hello world\"\x7d\x7d").data,
    Signature := [], CreatedAt := noon }

/-- The database after `CreatePost("did:plc:abc123", "hello world")` at `noon` on the
empty database. -/
def pds.afterHello : pds.DB :=
  { repositories := [⟨"did:plc:abc123",
      "bfe14fca84b36fd68222db9b5879525384a2a88f12d681f168e20ad5310483cf", noon, noon⟩]
    commits := [pds.helloCommit]
    documents := [pds.helloDoc] }

/-- The document of the post `second` made at `noon1`. -/
def pds.secondDoc : pds.Document :=
  { ID := "post/20241104130001.123", RepositoryDID := "did:plc:abc123",
    Typ := "app.bsky.feed.post",
    Value := utf8 "\x7b\"createdAt\":\"2024-11-04T13:00:01Z\",\"text\":\"second\"\x7d".data,
    CreatedAt := noon1, UpdatedAt := noon1 }

/-- The commit of the post `second` made at `noon1` after `hello world`. -/
def pds.secondCommit : pds.Commit :=
  { ID := "64f6629bf3d34348de1b4c4dd757a7426bd904afef34ae1b518673b65a1559c9",
    RepositoryDID := "did:plc:abc123",
    Prev := "bfe14fca84b36fd68222db9b5879525384a2a88f12d681f168e20ad5310483cf",
    Data := utf8 ("\x7b\"op\":\"create\",\"path\":\"post/20241104130001.123\",\"value\":" ++
      "\x7b\"createdAt\":\"2024-11-04T13:00:01Z\",\"text\":\"second\"\x7d\x7d").data,
    Signature := [], CreatedAt := noon1 }

/-- The database after a second post, `second`, at `noon1`. -/
def pds.afterSecond : pds.DB :=
  { repositories := [⟨"did:plc:abc123",
      "64f6629bf3d34348de1b4c4dd757a7426bd904afef34ae1b518673b65a1559c9", noon, noon1⟩]
    commits := [pds.helloCommit, pds.secondCommit]
    documents := [pds.helloDoc, pds.secondDoc] }

/-- An error of the driver for a reason outside the program. -/
def pds.connLost : GoError := .base "conn closed"

/-- The database after `hello world` and then a post `second` whose
`UpdateRepository` failed: document and commit of the second post are written,
the head is still the first commit. -/
def pds.afterLostUpdate : pds.DB :=
  { repositories := [⟨"did:plc:abc123",
      "bfe14fca84b36fd68222db9b5879525384a2a88f12d681f168e20ad5310483cf", noon, noon⟩]
    commits := [pds.helloCommit, pds.secondCommit]
    documents := [pds.helloDoc, pds.secondDoc] }

/-- The document of a post whose content is the single byte `0xff`, made at `noon`. -/
def pds.ffDoc : pds.Document :=
  { ID := "post/20241104130000.123", RepositoryDID := "did:plc:abc123",
    Typ := "app.bsky.feed.post",
    Value := utf8 "\x7b\"createdAt\":\"2024-11-04T13:00:00Z\",\"text\":\"\\ufffd\"\x7d".data,
    CreatedAt := noon, UpdatedAt := noon }

/-! ## `services/pds/main.go` -/

namespace pdsmain

/-- What a handler writes: `http.Error` with a status and a message, or a JSON
body of documents with a status. -/
inductive Response where
  | error (status : Nat) (message : String)
  | documents (status : Nat) (docs : List pds.Document)
  deriving DecidableEq, Repr

/-- Handles getting posts. `method` is `r.Method`, `did` the query parameter
`did`, and the three faults those of `GetDocumentsByType`. -/
def GetPostsHandler (db : pds.DB) (queryFault scanFault rowsFault : Option GoError)
    (method did : String) : Response :=
  if method ≠ "GET" then .error 405 "Method not allowed"
  else if did = "" then .error 400 "DID is required"
  else
    match pds.GetDocumentsByType db queryFault scanFault rowsFault did "app.bsky.feed.post" with
    | .error _ => .error 500 "Failed to get posts"
    | .ok docs => .documents 200 docs

end pdsmain

/-! ## `CreatePost`, its steps named -/

namespace GoError

/-- The result of `errors.Unwrap(err)`. -/
def Unwrap : GoError → Option GoError
  | base _ => none
  | wrap _ cause => some cause

end GoError

namespace pds

/-- The repository `CreatePost` creates when `GetRepository` returns an error,
as passed to `CreateRepository`. -/
def builtRepository (did : String) : Repository :=
  { DID := did, Head := "", CreatedAt := Time.zero, UpdatedAt := Time.zero }

/-- The document `CreatePost` builds, as passed to `CreateDocument`. -/
def builtDocument (env : Env) (did : String) (content : Bytes) : Document :=
  { ID := postID env, RepositoryDID := did, Typ := "app.bsky.feed.post",
    Value := utf8 (postValueText env content), CreatedAt := Time.zero, UpdatedAt := Time.zero }

/-- The commit `CreatePost` builds on the head `prev`, as passed to `CreateCommit`. -/
def builtCommit (env : Env) (did : String) (content : Bytes) (prev : String) : Commit :=
  { ID := hashHex (utf8 (commitDataText env content)), RepositoryDID := did, Prev := prev,
    Data := utf8 (commitDataText env content), Signature := [], CreatedAt := Time.zero }

end pds

/-! ## More values used in examples -/

/-- A post with the id of `post1` and the text `ho`. -/
def repo.post1b : lexicon.Document :=
  ⟨"post/1", "app.bsky.feed.post", some [("text", .str (utf8 "ho".data))], Time.zero, Time.zero⟩

/-- The bytes `MarshalDocument` gives for `post1b`. -/
def repo.post1bData : Bytes :=
  utf8 ("\x7b\"id\":\"post/1\",\"type\":\"app.bsky.feed.post\",\"value\":\x7b\"text\":\"ho\"\x7d," ++
    "\"createdAt\":\"0001-01-01T00:00:00Z\",\"updatedAt\":\"0001-01-01T00:00:00Z\"\x7d").data

/-- A call environment in which every clock reading is `noon` and only
`GetRepository` fails for a reason outside the program. -/
def pds.getLost : pds.Env := { pds.quiet noon with getRepositoryFault := some pds.connLost }

/-- A call environment in which every clock reading is `noon1` and only
`CreateDocument` fails for a reason outside the program. -/
def pds.documentLost : pds.Env :=
  { pds.quiet noon1 with createDocumentFault := some pds.connLost }

/-- A call environment in which every clock reading is `noon1` and only
`CreateCommit` fails for a reason outside the program. -/
def pds.commitLost : pds.Env := { pds.quiet noon1 with createCommitFault := some pds.connLost }

/-- The database after `hello world` and then a post `second` whose
`CreateCommit` failed: the document of the second post is written, no commit. -/
def pds.afterLostCommit : pds.DB :=
  { repositories := [⟨"did:plc:abc123",
      "bfe14fca84b36fd68222db9b5879525384a2a88f12d681f168e20ad5310483cf", noon, noon⟩]
    commits := [pds.helloCommit]
    documents := [pds.helloDoc, pds.secondDoc] }

/-! ## Traces of the in-memory store -/

namespace repo

/-- What a call saves into the map of the store: for `SaveRepository` the DID
of the repository and its pointer, nothing for the other calls. -/
def Op.saved (w : World) : Op → Option (String × Nat)
  | .saveRepository p => (w.heap[p]?).map fun r => (r.DID, p)
  | _ => none

/-- The `SaveRepository` calls performed in a sequence of calls run from `w`,
in order, each as the DID saved and the pointer saved under it. -/
def saves : World → List Op → List (String × Nat)
  | _, [] => []
  | w, op :: ops => (Op.saved w op).toList ++ saves (w.step op) ops

/-- The pointer saved last under `did`. -/
def lastUnder (did : String) (l : List (String × Nat)) : Option Nat :=
  ((l.filter fun e => e.1 = did).getLast?).map (·.2)

/-- The error of `GetRepository` for a DID that is not in the store. -/
def notFound (did : String) : GoError := .base ("repository not found: " ++ did)

end repo

/-- The in-memory store after a repository was created and saved, `post1`
committed to it, and a second repository of the same DID created (and not
saved yet). -/
def repo.twoOfOneDID : repo.World :=
  repo.NewMemoryStore.run [.newRepository "did:plc:abc123", .saveRepository 0,
    .createCommit 0 noon repo.post1, .newRepository "did:plc:abc123"]

/-! ## History traversal -/

namespace repo

/-- How a traversal of the history ends: with the commits met, newest first;
with the `CorruptChain` condition, naming the reference that could not be
resolved; or, for the bounded traversal only, out of steps before its end. -/
inductive Walk where
  | commits (l : List Commit)
  | corruptChain (id : String)
  | unfinished
  deriving DecidableEq, Repr

/-- Modelled from the spec: `walkHistory(store, did, fromHead)` of section 4.3,
which is not among the source files. It "repeatedly resolves `prev` via
`Store.getCommit` until the empty sentinel is reached" and "must fail with a
`CorruptChain` condition if a `prev` reference cannot be resolved". The store is
the `MemoryStore` of `w`; `fuel` bounds the number of commits resolved. -/
def walkHistory (w : World) (did : String) : Nat → String → Walk
  | fuel, fromHead =>
    if fromHead = "" then .commits []
    else
      match fuel with
      | 0 => .unfinished
      | fuel + 1 =>
        match w.GetCommit did fromHead with
        | .error _ => .corruptChain fromHead
        | .ok c =>
          match walkHistory w did fuel c.Prev with
          | .commits l => .commits (c :: l)
          | .corruptChain id => .corruptChain id
          | .unfinished => .unfinished

/-- A well-formed chain: from `head`, every `Prev` resolves through
`GetCommit` until the empty string; `l` lists its commits, newest first. -/
inductive ChainFrom (w : World) (did : String) : String → List Commit → Prop where
  | done : ChainFrom w did "" []
  | link {head : String} {c : Commit} {l : List Commit} :
      head ≠ "" → w.GetCommit did head = .ok c → ChainFrom w did c.Prev l →
      ChainFrom w did head (c :: l)

/-- A chain with a dangling pointer: from `head`, after `n` commits that
resolve, the reference `id` does not. -/
inductive DanglingAt (w : World) (did : String) : String → Nat → String → Prop where
  | here {head : String} :
      head ≠ "" → pds.failed (w.GetCommit did head) = true → DanglingAt w did head 0 head
  | later {head id : String} {c : Commit} {n : Nat} :
      head ≠ "" → w.GetCommit did head = .ok c → DanglingAt w did c.Prev n id →
      DanglingAt w did head (n + 1) id

end repo

/-- The in-memory store after a repository was created and saved, and `post1`
and then `post2` committed to it. -/
def repo.chainWorld : repo.World :=
  repo.NewMemoryStore.run [.newRepository "did:plc:abc123", .saveRepository 0,
    .createCommit 0 noon repo.post1, .createCommit 0 noon repo.post2]

/-- The in-memory store after a repository was created and saved, and a
commit saved whose `Prev` names a commit the store does not hold. -/
def repo.danglingWorld : repo.World :=
  repo.NewMemoryStore.run [.newRepository "did:plc:abc123", .saveRepository 0,
    .saveCommit "did:plc:abc123" ⟨"x", "missing", [], [], noon⟩]

/-! ## The two backings of the `Store` contract side by side -/

namespace store

/-- An operation of the `Store` contract, as a caller of either backing
issues it: `saveRepository` names the DID and the head to store, `saveCommit`
the commit to store under a DID. -/
inductive Op where
  | getRepository (did : String)
  | saveRepository (did head : String)
  | getCommit (did id : String)
  | saveCommit (did : String) (c : repo.Commit)
  deriving DecidableEq, Repr

/-- What the caller sees of one operation: that it failed, that a write
succeeded, or the repository (DID and head) or commit (id, prev, data and
signature) a read returned. Timestamps are left out. -/
inductive Obs where
  | failed
  | saved
  | repository (did head : String)
  | commit (id prev : String) (data signature : Bytes)
  deriving DecidableEq, Repr

/-- One operation on the `MemoryStore`. `saveRepository` is the upsert of the
contract made of the store's own calls: the caller sets `Head` on the
repository `GetRepository` returns and passes the same pointer to
`SaveRepository`, or, when `GetRepository` returns an error, passes a
`NewRepository(did)` with `Head` set. -/
def memStep (w : repo.World) : Op → Obs × repo.World
  | .getRepository did =>
    match w.GetRepository did with
    | .error _ => (.failed, w)
    | .ok p =>
      match w.heap[p]? with
      | none => (.failed, w)
      | some r => (.repository r.DID r.Head, w)
  | .saveRepository did head =>
    match w.GetRepository did with
    | .ok p =>
      match w.heap[p]? with
      | none => (.failed, w)
      | some r =>
        (.saved,
          repo.World.SaveRepository { w with heap := w.heap.set p { r with Head := head } } p)
    | .error _ =>
      (.saved,
        repo.World.SaveRepository
          { w with heap := w.heap ++ [{ repo.NewRepository did with Head := head }] }
          w.heap.length)
  | .getCommit did id =>
    match w.GetCommit did id with
    | .error _ => (.failed, w)
    | .ok c => (.commit c.ID c.Prev c.Data c.Signature, w)
  | .saveCommit did c =>
    match w.SaveCommit did c with
    | .error _ => (.failed, w)
    | .ok w' => (.saved, w')

/-- One operation on the `RepositoryRepository`, no statement failing for a
reason outside the program; `now` is the reading of `time.Now()` of the
write. `saveRepository` is the upsert of the contract made of the durable
calls: `UpdateRepository` of the row `GetRepository` returns with `Head` set,
or, when `GetRepository` returns an error, `CreateRepository`. `getCommit`
passes the id to `GetCommit`, which takes no DID; `saveCommit` passes the
commit to `CreateCommit` with `RepositoryDID` set. -/
def dbStep (db : pds.DB) (now : Time) : Op → Obs × pds.DB
  | .getRepository did =>
    match pds.GetRepository db none did with
    | .error _ => (.failed, db)
    | .ok r => (.repository r.DID r.Head, db)
  | .saveRepository did head =>
    match pds.GetRepository db none did with
    | .ok r =>
      match pds.UpdateRepository db now none { r with Head := head } with
      | .error _ => (.failed, db)
      | .ok (_, db') => (.saved, db')
    | .error _ =>
      match pds.CreateRepository db now none
          { DID := did, Head := head, CreatedAt := Time.zero, UpdatedAt := Time.zero } with
      | .error _ => (.failed, db)
      | .ok (_, db') => (.saved, db')
  | .getCommit _ id =>
    match pds.GetCommit db none id with
    | .error _ => (.failed, db)
    | .ok c => (.commit c.ID c.Prev c.Data c.Signature, db)
  | .saveCommit did c =>
    match pds.CreateCommit db now none
        { ID := c.ID, RepositoryDID := did, Prev := c.Prev, Data := c.Data,
          Signature := c.Signature, CreatedAt := c.CreatedAt } with
    | .error _ => (.failed, db)
    | .ok (_, db') => (.saved, db')

/-- What the caller of the `MemoryStore` sees of a sequence of operations;
the clock readings are those of the durable backing and are not used. -/
def memRun : repo.World → List (Time × Op) → List Obs
  | _, [] => []
  | w, (_, op) :: ops => (memStep w op).1 :: memRun (memStep w op).2 ops

/-- What the caller of the `RepositoryRepository` sees of a sequence of
operations, each with the clock reading of its write. -/
def dbRun : pds.DB → List (Time × Op) → List Obs
  | _, [] => []
  | db, (now, op) :: ops => (dbStep db now op).1 :: dbRun (dbStep db now op).2 ops

/-- Whether `GetRepository(did)` of the `MemoryStore` returns a repository. -/
def stored (w : repo.World) (did : String) : Bool :=
  match w.GetRepository did with
  | .ok _ => true
  | .error _ => false

/-- Whether `GetCommit(did, id)` of the `MemoryStore` returns a commit. -/
def holds (w : repo.World) (did id : String) : Bool :=
  match w.GetCommit did id with
  | .ok _ => true
  | .error _ => false

/-- The operations on which the two backings are compared: a `saveCommit`
under a DID that has a repository, of a commit id no DID of the store holds;
a `getCommit` of an id no other DID of the store holds; every `getRepository`
and `saveRepository`. -/
def admissibleOp (w : repo.World) : Op → Bool
  | .saveCommit did c => stored w did && w.repositories.all fun e => !holds w e.1 c.ID
  | .getCommit did id => w.repositories.all fun e => e.1 = did || !holds w e.1 id
  | _ => true

/-- Whether every operation of the sequence is admissible in the state of the
`MemoryStore` it is applied to. -/
def admissible : repo.World → List (Time × Op) → Bool
  | _, [] => true
  | w, (_, op) :: ops => admissibleOp w op && admissible (memStep w op).2 ops

/-- What `getRepository(did)` shows of the `MemoryStore`. -/
def memRepo (w : repo.World) (did : String) : Option Obs :=
  match w.repositories.get did with
  | none => none
  | some p => (w.heap[p]?).map fun r => .repository r.DID r.Head

/-- What `getRepository(did)` shows of the database. -/
def dbRepo (db : pds.DB) (did : String) : Option Obs :=
  (db.repositories.find? fun r => r.DID = did).map fun r => .repository r.DID r.Head

/-- What `getCommit(did, id)` shows of the `MemoryStore`. -/
def memCommit (w : repo.World) (did id : String) : Option Obs :=
  match w.repositories.get did with
  | none => none
  | some p =>
    match w.heap[p]? with
    | none => none
    | some r => (r.Commits.get id).map fun c => .commit c.ID c.Prev c.Data c.Signature

/-- The row of `commits` with the id, when it was written under `did`. -/
def dbCommit (db : pds.DB) (did id : String) : Option Obs :=
  match db.commits.find? fun c => c.ID = id with
  | none => none
  | some c =>
    if c.RepositoryDID = did then some (.commit c.ID c.Prev c.Data c.Signature) else none

/-- The two backings hold the same repositories and commits: every pointer of
the `MemoryStore` is allocated and stored under the DID of its repository,
and reads of a repository or of a commit under its DID show the same. -/
structure Sim (w : repo.World) (db : pds.DB) : Prop where
  valid : ∀ did p, w.repositories.get did = some p → ∃ r, w.heap[p]? = some r ∧ r.DID = did
  repos : ∀ did, memRepo w did = dbRepo db did
  commits : ∀ did id, memCommit w did id = dbCommit db did id

/-- A commit saved in the examples. -/
def firstCommit : repo.Commit := ⟨"c1", "", [1], [], noon⟩

/-- Saving the same commit twice under a DID. -/
def savedTwice : List (Time × Op) :=
  [(noon, .saveRepository "did:plc:abc123" ""), (noon, .saveCommit "did:plc:abc123" firstCommit),
    (noon1, .saveCommit "did:plc:abc123" firstCommit)]

/-- Saving a commit under a DID that has no repository. -/
def savedUnderNoRepository : List (Time × Op) :=
  [(noon, .saveCommit "did:plc:abc123" firstCommit)]

/-- Reading a commit under another DID than the one it was saved under. -/
def readUnderOtherDID : List (Time × Op) :=
  [(noon, .saveRepository "did:plc:abc123" ""), (noon, .saveCommit "did:plc:abc123" firstCommit),
    (noon1, .getCommit "did:plc:other" "c1")]

/-- A sequence with every operation, each admissible. -/
def everyOperation : List (Time × Op) :=
  [(noon, .getRepository "did:plc:abc123"), (noon, .saveRepository "did:plc:abc123" ""),
    (noon, .saveCommit "did:plc:abc123" firstCommit), (noon1, .saveRepository "did:plc:abc123" "c1"),
    (noon1, .getRepository "did:plc:abc123"), (noon1, .getCommit "did:plc:abc123" "c1"),
    (noon1, .getCommit "did:plc:abc123" "c2")]

end store

/-! ## `CreatePost`, one storage statement at a time -/

namespace pds

/-- Where a call of `CreatePost` stands between two storage statements:
before `GetRepository`; before `CreateRepository`, `GetRepository` having
returned an error; holding the repository, before `CreateDocument`; holding
the document, before `CreateCommit`; holding the commit id, before
`UpdateRepository`; returned. -/
inductive Stage where
  | start
  | absent
  | loaded (repo : Repository)
  | written (repo : Repository) (doc : Document)
  | committed (repo : Repository) (doc : Document) (commitID : String)
  | returned (result : Except GoError Document)
  deriving DecidableEq, Repr

/-- The next storage statement of a call of `CreatePost`, with the code up to
it: the stage the call is in afterwards, and the database. A call that has
returned does nothing. -/
def stepCall (db : DB) (env : Env) (did : String) (content : Bytes) : Stage → Stage × DB
  | .start =>
    match GetRepository db env.getRepositoryFault did with
    | .ok repo => (.loaded repo, db)
    | .error _ => (.absent, db)
  | .absent =>
    match CreateRepository db env.nowCreateRepository env.createRepositoryFault
        { DID := did, Head := "", CreatedAt := Time.zero, UpdatedAt := Time.zero } with
    | .error err => (.returned (.error (GoError.errorf "failed to create repository: " err)), db)
    | .ok (repo, db1) => (.loaded repo, db1)
  | .loaded repo =>
    match json.Marshal (postValue env content) with
    | .error err =>
      (.returned (.error (GoError.errorf "failed to marshal post value: " err)), db)
    | .ok postValueJSON =>
      let doc : Document :=
        { ID := postID env, RepositoryDID := did, Typ := "app.bsky.feed.post",
          Value := postValueJSON, CreatedAt := Time.zero, UpdatedAt := Time.zero }
      match CreateDocument db env.nowCreateDocument env.createDocumentFault doc with
      | .error err => (.returned (.error (GoError.errorf "failed to create document: " err)), db)
      | .ok (doc, db2) => (.written repo doc, db2)
  | .written repo doc =>
    match json.Marshal (commitData env content) with
    | .error err =>
      (.returned (.error (GoError.errorf "failed to marshal commit data: " err)), db)
    | .ok commitDataJSON =>
      let commitID := hashHex commitDataJSON
      let commit : Commit :=
        { ID := commitID, RepositoryDID := did, Prev := repo.Head, Data := commitDataJSON,
          Signature := [], CreatedAt := Time.zero }
      match CreateCommit db env.nowCreateCommit env.createCommitFault commit with
      | .error err => (.returned (.error (GoError.errorf "failed to create commit: " err)), db)
      | .ok (_, db3) => (.committed repo doc commitID, db3)
  | .committed repo doc commitID =>
    match UpdateRepository db env.nowUpdateRepository env.updateRepositoryFault
        { repo with Head := commitID } with
    | .error err => (.returned (.error (GoError.errorf "failed to update repository: " err)), db)
    | .ok (_, db4) => (.returned (.ok doc), db4)
  | .returned result => (.returned result, db)

/-- A call taken `n` statements further. -/
def stepsCall (env : Env) (did : String) (content : Bytes) : Nat → Stage × DB → Stage × DB
  | 0, s => s
  | n + 1, s => stepsCall env did content n (stepCall s.2 env did content s.1)

/-- Two calls of `CreatePost` in progress on one database. -/
structure Pair where
  db : DB
  first : Stage
  second : Stage
  deriving DecidableEq, Repr

/-- One statement of one of two concurrent calls: of the first when `who` is
`true`, of the second otherwise. -/
def stepPair (a b : Call) (s : Pair) (who : Bool) : Pair :=
  if who then
    let r := stepCall s.db a.env a.did a.content s.first
    { s with db := r.2, first := r.1 }
  else
    let r := stepCall s.db b.env b.did b.content s.second
    { s with db := r.2, second := r.1 }

/-- Two concurrent calls run from `db`, their statements interleaved as the
schedule says. -/
def runPair (a b : Call) (db : DB) (schedule : List Bool) : Pair :=
  schedule.foldl (stepPair a b) ⟨db, .start, .start⟩

end pds

/-- The call `CreatePost("did:plc:abc123", "hello world")` at `noon`. -/
def pds.helloCall : pds.Call := ⟨pds.quiet noon, "did:plc:abc123", utf8 "hello world".data⟩

/-- The call `CreatePost("did:plc:abc123", "second")` at `noon1`. -/
def pds.secondCall : pds.Call := ⟨pds.quiet noon1, "did:plc:abc123", utf8 "second".data⟩

/-- An interleaving of two calls in which the second loads the repository
after the first has created it and before the first has updated its head;
from there the calls take turns. -/
def pds.raceSchedule : List Bool :=
  [true, true, false, true, false, true, false, true, false]

/-- The commit of the post `second` made at `noon1` by a call that has loaded
the repository while its head was empty. -/
def pds.racedCommit : pds.Commit := { pds.secondCommit with Prev := "" }

/-- The database after the two calls have run under `raceSchedule`: both
documents and both commits are written, the head is the commit of the call
that updated last. -/
def pds.afterRace : pds.DB :=
  { repositories := [⟨"did:plc:abc123",
      "64f6629bf3d34348de1b4c4dd757a7426bd904afef34ae1b518673b65a1559c9", noon, noon1⟩]
    commits := [pds.helloCommit, pds.racedCommit]
    documents := [pds.helloDoc, pds.secondDoc] }

/-- A clock reading half a millisecond after `noon`, within the same millisecond. -/
def noonAgain : Time := ⟨1730725200123956789, 0⟩

/-! ## `encoding/json`: decoding -/

namespace json

/-- A JSON text as `json.Unmarshal` scans it: `number` holds the literal and
`str` the text between the quotes as it is written, escapes included; the
members of an object are in the order of the text, a key as it is written. -/
inductive Value where
  | null
  | bool (b : Bool)
  | number (literal : List Char)
  | str (raw : List Char)
  | arr (xs : List Value)
  | obj (kvs : List (List Char × Value))

/-- The deepest nesting of arrays and objects the scanner accepts. -/
def maxNestingDepth : Nat := 10000

/-- The error of the scanner for a text that is not JSON; its text, which
names the offending character, is not modelled. -/
def syntaxError : GoError := .base "json: syntax error"

/-- The error of the scanner at the bracket that opens the array or object
nested one level deeper than `maxNestingDepth`. -/
def maxDepthError (c : Char) : GoError :=
  .base (String.mk ("invalid character '".data ++ c :: "' exceeded max depth".data))

/-- The error for a JSON value that does not fit the Go value it is decoded
into; its text, which names both, is not modelled. -/
def typeError : GoError := .base "json: cannot unmarshal value into Go value"

/-- White space between the tokens of a JSON text. -/
def isSpace (c : Char) : Bool := c = ' ' || c = '\t' || c = '\r' || c = '\n'

/-- The text after leading white space. -/
def skipSpace (text : List Char) : List Char := text.dropWhile isSpace

/-- Whether a character is a decimal digit. -/
def isDigit (c : Char) : Bool := '0'.toNat ≤ c.toNat && c.toNat ≤ '9'.toNat

/-- Scans a string from just after its opening quote: the text up to the
closing quote as it is written, and what follows that quote. A control
character or an escape that JSON does not have is an error. -/
def scanString : List Char → Option (List Char × List Char)
  | [] => none
  | c :: rest =>
    if c = '"' then some ([], rest)
    else if c = '\\' then
      match rest with
      | [] => none
      | e :: rest =>
        if e = 'u' then
          match rest with
          | a :: b :: c :: d :: rest =>
            match hexValue a, hexValue b, hexValue c, hexValue d with
            | some _, some _, some _, some _ =>
              (scanString rest).map fun p => ('\\' :: 'u' :: a :: b :: c :: d :: p.1, p.2)
            | _, _, _, _ => none
          | _ => none
        else
          match unescape e with
          | none => none
          | some _ => (scanString rest).map fun p => ('\\' :: e :: p.1, p.2)
    else if c.toNat < 0x20 then none
    else (scanString rest).map fun p => (c :: p.1, p.2)

/-- The value of four hexadecimal digits. -/
def hex4Value (a b c d : Char) : Option Nat :=
  match hexValue a, hexValue b, hexValue c, hexValue d with
  | some x, some y, some z, some w => some (((x * 16 + y) * 16 + z) * 16 + w)
  | _, _, _, _ => none

/-- The characters of a scanned string, at most `fuel` of them: escapes are
resolved, a pair of `\\u` escapes that is a UTF-16 surrogate pair gives its
character, and a surrogate half without its other half gives U+FFFD. -/
def unquoteFuel : Nat → List Char → List Char
  | 0, _ => []
  | _, [] => []
  | fuel + 1, c :: rest =>
    if c = '\\' then
      match rest with
      | [] => []
      | 'u' :: a :: b :: c :: d :: rest =>
        match hex4Value a b c d with
        | none => []
        | some r =>
          if 0xD800 ≤ r ∧ r < 0xE000 then
            match rest with
            | '\\' :: 'u' :: a1 :: b1 :: c1 :: d1 :: rest1 =>
              match hex4Value a1 b1 c1 d1 with
              | some r1 =>
                if r < 0xDC00 ∧ 0xDC00 ≤ r1 ∧ r1 < 0xE000 then
                  Char.ofNat ((r - 0xD800) * 1024 + (r1 - 0xDC00) + 0x10000) ::
                    unquoteFuel fuel rest1
                else '\uFFFD' :: unquoteFuel fuel rest
              | none => '\uFFFD' :: unquoteFuel fuel rest
            | _ => '\uFFFD' :: unquoteFuel fuel rest
          else Char.ofNat r :: unquoteFuel fuel rest
      | e :: rest =>
        match unescape e with
        | none => []
        | some ch => ch :: unquoteFuel fuel rest
    else c :: unquoteFuel fuel rest

/-- The string a scanned JSON string stands for. -/
def unquote (raw : List Char) : String := String.mk (unquoteFuel raw.length raw)

/-- The digits at the front of a text, one at least, and what follows them. -/
def scanDigits (text : List Char) : Option (List Char × List Char) :=
  match text.span isDigit with
  | ([], _) => none
  | (ds, rest) => some (ds, rest)

/-- Scans a number literal: an optional minus sign, `0` or digits that do not
start with `0`, an optional fraction, an optional exponent. -/
def scanNumber (text : List Char) : Option (List Char × List Char) :=
  let (sign, text) :=
    match text with
    | '-' :: rest => (['-'], rest)
    | _ => ([], text)
  let whole : Option (List Char × List Char) :=
    match text with
    | '0' :: rest => some (['0'], rest)
    | _ => scanDigits text
  match whole with
  | none => none
  | some (w, text) =>
    let frac : Option (List Char × List Char) :=
      match text with
      | '.' :: rest => (scanDigits rest).map fun p => ('.' :: p.1, p.2)
      | _ => some ([], text)
    match frac with
    | none => none
    | some (f, text) =>
      let exp : Option (List Char × List Char) :=
        match text with
        | e :: rest =>
          if e = 'e' ∨ e = 'E' then
            match rest with
            | s :: rest1 =>
              if s = '+' ∨ s = '-' then (scanDigits rest1).map fun p => (e :: s :: p.1, p.2)
              else (scanDigits rest).map fun p => (e :: p.1, p.2)
            | [] => none
          else some ([], text)
        | [] => some ([], text)
      match exp with
      | none => none
      | some (x, text) => some (sign ++ w ++ f ++ x, text)

mutual
/-- Scans one JSON value at the front of a text, inside `depth` arrays and
objects: the value and what follows it. `fuel` bounds the number of values,
members and elements scanned. -/
def parseValue : Nat → Nat → List Char → Except GoError (Value × List Char)
  | 0, _, _ => .error syntaxError
  | fuel + 1, depth, text =>
    match skipSpace text with
    | [] => .error syntaxError
    | c :: rest =>
      if c = '{' then
        if maxNestingDepth ≤ depth then .error (maxDepthError c)
        else
          match skipSpace rest with
          | '}' :: rest => .ok (.obj [], rest)
          | rest =>
            match parseMembers fuel (depth + 1) rest with
            | .error err => .error err
            | .ok (kvs, rest) => .ok (.obj kvs, rest)
      else if c = '[' then
        if maxNestingDepth ≤ depth then .error (maxDepthError c)
        else
          match skipSpace rest with
          | ']' :: rest => .ok (.arr [], rest)
          | rest =>
            match parseElements fuel (depth + 1) rest with
            | .error err => .error err
            | .ok (xs, rest) => .ok (.arr xs, rest)
      else if c = '"' then
        match scanString rest with
        | none => .error syntaxError
        | some (raw, rest) => .ok (.str raw, rest)
      else if c = '-' ∨ isDigit c = true then
        match scanNumber (c :: rest) with
        | none => .error syntaxError
        | some (literal, rest) => .ok (.number literal, rest)
      else
        match c :: rest with
        | 't' :: 'r' :: 'u' :: 'e' :: rest => .ok (.bool true, rest)
        | 'f' :: 'a' :: 'l' :: 's' :: 'e' :: rest => .ok (.bool false, rest)
        | 'n' :: 'u' :: 'l' :: 'l' :: rest => .ok (.null, rest)
        | _ => .error syntaxError
/-- Scans the members of an object from its first key to its closing brace. -/
def parseMembers : Nat → Nat → List Char → Except GoError (List (List Char × Value) × List Char)
  | 0, _, _ => .error syntaxError
  | fuel + 1, depth, text =>
    match skipSpace text with
    | '"' :: rest =>
      match scanString rest with
      | none => .error syntaxError
      | some (key, rest) =>
        match skipSpace rest with
        | ':' :: rest =>
          match parseValue fuel depth rest with
          | .error err => .error err
          | .ok (v, rest) =>
            match skipSpace rest with
            | ',' :: rest =>
              match parseMembers fuel depth rest with
              | .error err => .error err
              | .ok (kvs, rest) => .ok ((key, v) :: kvs, rest)
            | '}' :: rest => .ok ([(key, v)], rest)
            | _ => .error syntaxError
        | _ => .error syntaxError
    | _ => .error syntaxError
/-- Scans the elements of an array from its first element to its closing bracket. -/
def parseElements : Nat → Nat → List Char → Except GoError (List Value × List Char)
  | 0, _, _ => .error syntaxError
  | fuel + 1, depth, text =>
    match parseValue fuel depth text with
    | .error err => .error err
    | .ok (v, rest) =>
      match skipSpace rest with
      | ',' :: rest =>
        match parseElements fuel depth rest with
        | .error err => .error err
        | .ok (xs, rest) => .ok (v :: xs, rest)
      | ']' :: rest => .ok ([v], rest)
      | _ => .error syntaxError
end

/-- The JSON value a text is, as the scanner of `json.Unmarshal` accepts it:
one value, white space around it allowed. -/
def parse (text : List Char) : Except GoError Value :=
  match parseValue (text.length + 1) 0 text with
  | .error err => .error err
  | .ok (v, rest) =>
    match skipSpace rest with
    | [] => .ok v
    | _ :: _ => .error syntaxError

/-- The number a run of decimal digits stands for. -/
def digitsValue (ds : List Char) : Nat := ds.foldl (fun n c => n * 10 + (c.toNat - '0'.toNat)) 0

/-- Whether a number literal stands for a number that rounds beyond the
largest float64, for which `strconv.ParseFloat` returns an error: with `m`
the digits of whole part and fraction and `e` the exponent less the length
of the fraction, whether `m * 10 ^ e` reaches `2 ^ 1024 - 2 ^ 970`. -/
def overflowsFloat64 (literal : List Char) : Bool :=
  let body := match literal with
    | '-' :: rest => rest
    | _ => literal
  let whole := body.span isDigit
  let frac := match whole.2 with
    | '.' :: rest => rest.span isDigit
    | _ => ([], whole.2)
  let exp : Int := match frac.2 with
    | _ :: '-' :: ds => -(digitsValue ds : Int)
    | _ :: '+' :: ds => (digitsValue ds : Int)
    | _ :: ds => (digitsValue ds : Int)
    | [] => 0
  let m := digitsValue (whole.1 ++ frac.1)
  let e : Int := exp - frac.1.length
  decide ((2 ^ 1024 - 2 ^ 970) * 10 ^ (-e).toNat ≤ m * 10 ^ e.toNat)

/-- The position of the highest bit of a number that is not zero. -/
def log2 (n : Nat) : Nat := (Nat.toDigits 2 n).length - 1

/-- The float64 nearest to `n / d`, ties to the even mantissa, as the pair
`(mant, exp)` that stands for `mant * 2 ^ exp`: the mantissa is below
`2 ^ 53` and the exponent at least `-1074`, and of a number not below
`2 ^ -1022` the mantissa is at least `2 ^ 52`. An exponent above `971` tells
that `n / d` rounds beyond the largest float64. -/
def nearestFloat64 (n d : Nat) : Nat × Int :=
  if n = 0 then (0, -1074)
  else
    let b : Int := (log2 n : Int) - (log2 d : Int)
    let lg : Int := if d * 2 ^ b.toNat ≤ n * 2 ^ (-b).toNat then b else b - 1
    let k : Int := max (lg - 52) (-1074)
    let num := n * 2 ^ (-k).toNat
    let den := d * 2 ^ k.toNat
    let q := num / den
    let r := num % den
    let q1 := if den < 2 * r ∨ (den = 2 * r ∧ q % 2 = 1) then q + 1 else q
    if q1 = 2 ^ 53 then (2 ^ 52, k + 1) else (q1, k)

/-- A number literal as its sign, the digits of whole part and fraction read
as one number, and the power of ten that number is to be multiplied by. -/
def decimal (literal : List Char) : Bool × Nat × Int :=
  let neg := match literal with
    | '-' :: _ => true
    | _ => false
  let body := match literal with
    | '-' :: rest => rest
    | _ => literal
  let whole := body.span isDigit
  let frac := match whole.2 with
    | '.' :: rest => rest.span isDigit
    | _ => ([], whole.2)
  let exp : Int := match frac.2 with
    | _ :: '-' :: ds => -(digitsValue ds : Int)
    | _ :: '+' :: ds => (digitsValue ds : Int)
    | _ :: ds => (digitsValue ds : Int)
    | [] => 0
  (neg, digitsValue (whole.1 ++ frac.1), exp - frac.1.length)

/-- The largest `p` with `10 ^ p ≤ n / d`, for `n` and `d` not zero. -/
def log10Ratio (n d : Nat) : Int :=
  if d ≤ n then ((Nat.toDigits 10 (n / d)).length : Int) - 1
  else
    let l := (Nat.toDigits 10 (d / n)).length
    if d = n * 10 ^ (l - 1) then -((l : Int) - 1) else -(l : Int)

/-- The decimal `c * 10 ^ x` of `n` digits that stands for the float64
`mant * 2 ^ exp`, as the pair `(c, x)`: of the two decimals of `n` digits
around the float64 the nearer one that rounds to it, the one with the even
last digit when both are as near; `none` when neither rounds to it. -/
def digitsAt (mant : Nat) (exp : Int) (n : Nat) : Option (Nat × Int) :=
  let xn := mant * 2 ^ exp.toNat
  let xd := 2 ^ (-exp).toNat
  let x : Int := log10Ratio xn xd + 1 - n
  let num := xn * 10 ^ (-x).toNat
  let den := xd * 10 ^ x.toNat
  let lo := num / den
  let r := num % den
  let down : Bool := nearestFloat64 (lo * 10 ^ x.toNat) (10 ^ (-x).toNat) = (mant, exp)
  let up : Bool := nearestFloat64 ((lo + 1) * 10 ^ x.toNat) (10 ^ (-x).toNat) = (mant, exp)
  if r = 0 then (if down then some (lo, x) else none)
  else if down ∧ up then
    if 2 * r < den ∨ (2 * r = den ∧ lo % 2 = 0) then some (lo, x) else some (lo + 1, x)
  else if down then some (lo, x)
  else if up then some (lo + 1, x)
  else none

/-- The shortest decimal that stands for the float64 `mant * 2 ^ exp`, tried
from `n` digits on for `fuel` lengths; seventeen digits tell any two float64
apart, and past them the float64 is written out in full. -/
def shortestFrom (mant : Nat) (exp : Int) : Nat → Nat → Nat × Int
  | 0, _ => if 0 ≤ exp then (mant * 2 ^ exp.toNat, 0) else (mant * 5 ^ (-exp).toNat, exp)
  | fuel + 1, n =>
    match digitsAt mant exp n with
    | some p => p
    | none => shortestFrom mant exp fuel (n + 1)

/-- The text `json.Marshal` writes for the float64 `mant * 2 ^ exp`, negated
when `neg`: the shortest decimal that reads back as the same float64
(`strconv.AppendFloat` with precision `-1`), in the format `e` below the
float64 `1e-6` and from `1e21` on and in the format `f` between them; of an
exponent of two digits a leading zero is dropped. -/
def formatFloat64 (neg : Bool) (mant : Nat) (exp : Int) : List Char :=
  let sign := if neg then ['-'] else []
  if mant = 0 then sign ++ ['0']
  else
    let p := shortestFrom mant exp 17 1
    let all := Nat.toDigits 10 p.1
    let ds := (all.reverse.dropWhile (· == '0')).reverse
    let dp : Int := (all.length : Int) + p.2
    let small := nearestFloat64 1 (10 ^ 6)
    if mant * 2 ^ (exp - small.2).toNat < small.1 * 2 ^ (small.2 - exp).toNat ∨
        10 ^ 21 * 2 ^ (-exp).toNat ≤ mant * 2 ^ exp.toNat then
      let x := dp - 1
      let xs := Time.pad 2 x.natAbs
      let xs := match xs with
        | ['0', d] => [d]
        | _ => xs
      sign ++ (match ds with
        | d :: d1 :: more => d :: '.' :: d1 :: more
        | _ => ds) ++ 'e' :: (if x < 0 then '-' else '+') :: xs
    else if 0 < dp then
      sign ++ ds.take dp.toNat ++ List.replicate (dp.toNat - ds.length) '0' ++
        (if dp.toNat < ds.length then '.' :: ds.drop dp.toNat else [])
    else sign ++ '0' :: '.' :: (List.replicate (-dp).toNat '0' ++ ds)

/-- The float64 a number literal decodes to inside an `interface{}`, given by
the text `json.Marshal` writes for it; beyond the largest float64 it is an
error of `json.Unmarshal`. -/
def numberValue (literal : List Char) : Except GoError GoValue :=
  if overflowsFloat64 literal then .error typeError
  else
    let p := decimal literal
    let x := nearestFloat64 (p.2.1 * 10 ^ p.2.2.toNat) (10 ^ (-p.2.2).toNat)
    .ok (.float (formatFloat64 p.1 x.1 x.2))

/-- The entry `m[k] = v` of a map under construction: an earlier value of the
key is replaced. -/
def put (m : List (String × GoValue)) (e : String × GoValue) : List (String × GoValue) :=
  if m.any (fun x => x.1 = e.1) then m.map fun x => if x.1 = e.1 then e else x else m ++ [e]

mutual
/-- The Go value a scanned JSON value decodes to inside an `interface{}`: an
object becomes a `map[string]interface{}` (of two members with one key the
later stays), an array a `[]interface{}`, a number a float64. -/
def toGoValue : Value → Except GoError GoValue
  | .null => .ok .null
  | .bool b => .ok (.bool b)
  | .number literal => numberValue literal
  | .str raw => .ok (.str (utf8 (unquote raw).data))
  | .arr xs =>
    match toGoValues xs with
    | .error err => .error err
    | .ok vs => .ok (.arr vs)
  | .obj kvs =>
    match toGoFields kvs with
    | .error err => .error err
    | .ok ms => .ok (.obj (ms.foldl put []))
/-- The Go values of the elements of an array. -/
def toGoValues : List Value → Except GoError (List GoValue)
  | [] => .ok []
  | x :: xs =>
    match toGoValue x with
    | .error err => .error err
    | .ok v =>
      match toGoValues xs with
      | .error err => .error err
      | .ok vs => .ok (v :: vs)
/-- The Go values of the members of an object, each with its key, in the
order of the text. -/
def toGoFields : List (List Char × Value) → Except GoError (List (String × GoValue))
  | [] => .ok []
  | (k, x) :: kvs =>
    match toGoValue x with
    | .error err => .error err
    | .ok v =>
      match toGoFields kvs with
      | .error err => .error err
      | .ok ms => .ok ((unquote k, v) :: ms)
end

end json

/-! ## `time`: reading RFC 3339 -/

namespace Time

/-- The number of days of a month. -/
def daysIn (month year : Nat) : Nat :=
  if month = 2 then
    if year % 4 = 0 ∧ (year % 100 ≠ 0 ∨ year % 400 = 0) then 29 else 28
  else if month = 4 ∨ month = 6 ∨ month = 9 ∨ month = 11 then 30
  else 31

/-- The day count since 1970-01-01 of a civil date, the inverse of `civil`. -/
def daysFromCivil (year : Int) (month day : Nat) : Int :=
  let y := if month ≤ 2 then year - 1 else year
  let era := y / 400
  let yoe := (y - era * 400).toNat
  let mp := if 2 < month then month - 3 else month + 9
  let doy := (153 * mp + 2) / 5 + day - 1
  let doe := yoe * 365 + yoe / 4 - yoe / 100 + doy
  era * 146097 + (doe : Int) - 719468

/-- The number two decimal digits stand for, when it lies in `[lo, hi]`. -/
def num2 (a b : Char) (lo hi : Nat) : Option Nat :=
  if json.isDigit a = true ∧ json.isDigit b = true then
    let n := json.digitsValue [a, b]
    if lo ≤ n ∧ n ≤ hi then some n else none
  else none

/-- The nanoseconds a run of fraction digits stands for: the first nine count. -/
def fracNanos (ds : List Char) : Nat :=
  json.digitsValue (ds.take 9) * 10 ^ (9 - (ds.take 9).length)

/-- The zone offset, in seconds, at the end of an RFC 3339 text: `Z` or
`+hh:mm` or `-hh:mm`. -/
def parseZone : List Char → Option Int
  | ['Z'] => some 0
  | [s, h1, h2, c, m1, m2] =>
    match num2 h1 h2 0 23, num2 m1 m2 0 59 with
    | some hr, some mm =>
      if c = ':' then
        if s = '+' then some (((hr * 60 + mm) * 60 : Nat) : Int)
        else if s = '-' then some (-(((hr * 60 + mm) * 60 : Nat) : Int))
        else none
      else none
    | _, _ => none
  | _ => none

/-- The reading an RFC 3339 text stands for, as `Time.UnmarshalJSON` reads
the texts `Time.MarshalJSON` writes: four digits of year, two of month, day,
hour, minute and second, each in range, an optional fraction, and the zone.
The looser forms that `time.Parse` lets through beside these (an hour of one
digit, a comma before the fraction) are not modelled and read as errors. -/
def parseRFC3339 : List Char → Option Time
  | y1 :: y2 :: y3 :: y4 :: c1 :: m1 :: m2 :: c2 :: d1 :: d2 :: c3 :: h1 :: h2 :: c4 ::
      i1 :: i2 :: c5 :: s1 :: s2 :: rest =>
    if json.isDigit y1 = true ∧ json.isDigit y2 = true ∧ json.isDigit y3 = true ∧
        json.isDigit y4 = true ∧ c1 = '-' ∧ c2 = '-' ∧ c3 = 'T' ∧ c4 = ':' ∧ c5 = ':' then
      let year := json.digitsValue [y1, y2, y3, y4]
      match num2 m1 m2 1 12 with
      | none => none
      | some month =>
        match num2 d1 d2 1 (daysIn month year), num2 h1 h2 0 23, num2 i1 i2 0 59,
            num2 s1 s2 0 59 with
        | some day, some hour, some minute, some second =>
          let frac : List Char × List Char :=
            match rest with
            | '.' :: d :: more =>
              if json.isDigit d = true then (d :: more).span json.isDigit else ([], rest)
            | _ => ([], rest)
          match parseZone frac.2 with
          | none => none
          | some zone =>
            some ⟨((daysFromCivil year month day * 86400 + hour * 3600 + minute * 60 + second)
              - zone) * 1000000000 + fracNanos frac.1, zone⟩
        | _, _, _, _ => none
    else none
  | _ => none

end Time

/-! ## `pkg/lexicon/types.go`: reading a document -/

namespace lexicon

/-- The zero `Document`. -/
def Document.zero : Document :=
  { ID := "", Typ := "", Value := none, CreatedAt := Time.zero, UpdatedAt := Time.zero }

/-- A letter of the Latin alphabet in lower case, any other character as it is. -/
def asciiLower (c : Char) : Char :=
  if 'A'.toNat ≤ c.toNat ∧ c.toNat ≤ 'Z'.toNat then Char.ofNat (c.toNat + 32) else c

/-- The JSON names of the fields of `Document`. -/
def fieldNames : List String := ["id", "type", "value", "createdAt", "updatedAt"]

/-- The field of `Document` a key of the text names: the one with that name,
or else the first whose name differs from the key in the case of letters only. -/
def fieldOf (key : String) : Option String :=
  match fieldNames.find? fun n => n = key with
  | some n => some n
  | none => fieldNames.find? fun n => n.data.map asciiLower = key.data.map asciiLower

/-- The error of `Time.UnmarshalJSON` for a text that is not a time. -/
def timeError : GoError := .base "parsing time: cannot parse"

/-- A string field after a JSON value is decoded into it: a string sets it,
`null` leaves it, any other value is an error. -/
def decodeString (old : String) : json.Value → Except GoError String
  | .str raw => .ok (json.unquote raw)
  | .null => .ok old
  | _ => .error json.typeError

/-- A `time.Time` field after a JSON value is decoded into it: `null` leaves
it; otherwise `Time.UnmarshalJSON` reads the text between the quotes of a
string as it is written. -/
def decodeTime (old : Time) : json.Value → Except GoError Time
  | .str raw =>
    match Time.parseRFC3339 raw with
    | some t => .ok t
    | none => .error timeError
  | .null => .ok old
  | _ => .error (.base "Time.UnmarshalJSON: input is not a JSON string")

/-- The field `Value` after a JSON value is decoded into it: `null` makes it
the nil map, an object adds its members to the map, any other value is an
error. -/
def decodeValue (old : Option (List (String × GoValue))) :
    json.Value → Except GoError (Option (List (String × GoValue)))
  | .null => .ok none
  | .obj kvs =>
    match json.toGoFields kvs with
    | .error err => .error err
    | .ok ms => .ok (some (ms.foldl json.put (old.getD [])))
  | _ => .error json.typeError

/-- The document after one member of the text is decoded into it; a key that
names no field is passed over. -/
def decodeMember (doc : Document) (key : String) (v : json.Value) : Except GoError Document :=
  match fieldOf key with
  | none => .ok doc
  | some name =>
    if name = "id" then (decodeString doc.ID v).map fun s => { doc with ID := s }
    else if name = "type" then (decodeString doc.Typ v).map fun s => { doc with Typ := s }
    else if name = "value" then (decodeValue doc.Value v).map fun m => { doc with Value := m }
    else if name = "createdAt" then
      (decodeTime doc.CreatedAt v).map fun t => { doc with CreatedAt := t }
    else (decodeTime doc.UpdatedAt v).map fun t => { doc with UpdatedAt := t }

/-- The document after the members of the text are decoded into it in turn. -/
def decodeMembers (doc : Document) : List (List Char × json.Value) → Except GoError Document
  | [] => .ok doc
  | (k, v) :: kvs =>
    match decodeMember doc (json.unquote k) v with
    | .error err => .error err
    | .ok doc' => decodeMembers doc' kvs

/-- Unmarshals a document from JSON: `json.Unmarshal` into a zero
`Document`. The text is scanned whole before anything is decoded; `null`
leaves the document zero, and a value that is not an object is an error. Of
several errors in one text the first is returned. -/
def UnmarshalDocument (data : Bytes) : Except GoError Document :=
  match json.parse (runes data) with
  | .error err => .error err
  | .ok .null => .ok Document.zero
  | .ok (.obj kvs) => decodeMembers Document.zero kvs
  | .ok _ => .error json.typeError

end lexicon

namespace repo

/-- Gets a document from the repository. -/
def Repository.GetDocument (r : Repository) (id : String) : Except GoError lexicon.Document :=
  match r.Documents.get id with
  | none => .error (.base ("document not found: " ++ id))
  | some data => lexicon.UnmarshalDocument data

end repo

namespace json

/-- Maps nested `n` deep, each with the single key `a`; the innermost holds `null`. -/
def nested : Nat → GoValue
  | 0 => .null
  | n + 1 => .obj [("a", nested n)]

/-- The JSON text of `nested n`. -/
def nestedText : Nat → List Char
  | 0 => ['n', 'u', 'l', 'l']
  | n + 1 => '{' :: '"' :: 'a' :: '"' :: ':' :: (nestedText n ++ ['}'])

end json

/-- A post whose value is a map nested `n + 1` deep: the map of the value and
`n` maps inside it. -/
def repo.nestedPost (n : Nat) : lexicon.Document :=
  ⟨"post/deep", "app.bsky.feed.post", some [("a", json.nested n)], Time.zero, Time.zero⟩

/-- The JSON text of `nestedPost n`: its five members between braces. -/
def repo.nestedPostText (n : Nat) : List Char :=
  '{' :: json.members [("id", json.quote "post/deep"),
    ("type", json.quote "app.bsky.feed.post"), ("value", json.nestedText (n + 1)),
    ("createdAt", json.quote "0001-01-01T00:00:00Z"),
    ("updatedAt", json.quote "0001-01-01T00:00:00Z")] ++ ['}']

/-- A post that `json.Marshal` rejects: its value holds a channel. -/
def repo.badPost : lexicon.Document :=
  ⟨"post/3", "app.bsky.feed.post", some [("ch", .unsupported)], Time.zero, Time.zero⟩

/-! ## Nesting and numbers of a value, and what the scanner makes of a text -/

namespace json

/-- The whole part at the front of a number literal, as `scanNumber` scans
it, and what follows it. -/
def scanWhole (text : List Char) : Option (List Char × List Char) :=
  match text with
  | '0' :: rest => some (['0'], rest)
  | _ => scanDigits text

/-- The fraction after the whole part of a number literal, as `scanNumber`
scans it, and what follows it. -/
def scanFraction (text : List Char) : Option (List Char × List Char) :=
  match text with
  | '.' :: rest => (scanDigits rest).map fun p => ('.' :: p.1, p.2)
  | _ => some ([], text)

/-- The exponent at the end of a number literal, as `scanNumber` scans it,
and what follows it. -/
def scanExponent (text : List Char) : Option (List Char × List Char) :=
  match text with
  | e :: rest =>
    if e = 'e' ∨ e = 'E' then
      match rest with
      | s :: rest1 =>
        if s = '+' ∨ s = '-' then (scanDigits rest1).map fun p => (e :: s :: p.1, p.2)
        else (scanDigits rest).map fun p => (e :: p.1, p.2)
      | [] => none
    else some ([], text)
  | [] => some ([], text)

/-- Whether a text is a number literal for a number within the range of
float64, as is the text `json.Marshal` writes for a float64. -/
def isFloat64Text (text : List Char) : Bool :=
  scanNumber text = some (text, []) && !overflowsFloat64 text

mutual
/-- How deep the arrays and maps of a value nest: `0` for a value that is
neither, one more than its deepest element or entry for an array or a map. -/
def depth : GoValue → Nat
  | .arr xs => depthList xs + 1
  | .obj kvs => depthFields kvs + 1
  | _ => 0
/-- The nesting of the deepest element of a slice. -/
def depthList : List GoValue → Nat
  | [] => 0
  | x :: xs => max (depth x) (depthList xs)
/-- The nesting of the deepest value of a map. -/
def depthFields : List (String × GoValue) → Nat
  | [] => 0
  | (_, x) :: kvs => max (depth x) (depthFields kvs)
end

mutual
/-- Whether the numbers of a value are numbers of Go: each `int` is within
an integer kind, from `-2 ^ 63` to below `2 ^ 64`, and each `float` holds the
text of a float64. -/
def wellFormed : GoValue → Bool
  | .int i => decide (-(2 ^ 63) ≤ i ∧ i < 2 ^ 64)
  | .float text => isFloat64Text text
  | .arr xs => wellFormedList xs
  | .obj kvs => wellFormedFields kvs
  | _ => true
/-- Whether the numbers of the elements of a slice are numbers of Go. -/
def wellFormedList : List GoValue → Bool
  | [] => true
  | x :: xs => wellFormed x && wellFormedList xs
/-- Whether the numbers of the values of a map are numbers of Go. -/
def wellFormedFields : List (String × GoValue) → Bool
  | [] => true
  | (_, x) :: kvs => wellFormed x && wellFormedFields kvs
end

/-- Whether a text starts with a comma or a closing bracket or brace, as does
what follows a value inside an array or an object. -/
def Delimited (rest : List Char) : Prop :=
  ∃ c tl, rest = c :: tl ∧ (c = ',' ∨ c = '}' ∨ c = ']')

/-- What it is for `json.Unmarshal` to accept a text as a value that nests
arrays and objects at most `d` deep: the text starts the value at once, and
wherever at most `maxNestingDepth - d` arrays and objects are open the
scanner reads it whole, given fuel beyond its length, and the value it reads
decodes into an `interface{}`. -/
def Scans (t : List Char) (d : Nat) : Prop :=
  (∃ c tl, t = c :: tl ∧ isSpace c = false ∧ c ≠ ']' ∧ c ≠ '}') ∧
    ∀ (fuel depth : Nat) (rest : List Char), t.length < fuel → depth + d ≤ maxNestingDepth →
      Delimited rest →
      ∃ jv, parseValue fuel depth (t ++ rest) = .ok (jv, rest) ∧ ∃ g, toGoValue jv = .ok g

/-- What it is for `json.Unmarshal` to refuse a text as a value that nests
arrays and objects `d` deep: wherever so many arrays and objects are open
that the value passes `maxNestingDepth`, the scanner stops with the error of
the bracket that passes it. -/
def Refused (t : List Char) (d : Nat) : Prop :=
  ∀ (fuel depth : Nat) (rest : List Char), t.length < fuel → depth ≤ maxNestingDepth →
    maxNestingDepth < depth + d →
    ∃ c, parseValue fuel depth (t ++ rest) = .error (maxDepthError c)

end json

namespace lexicon

/-- How deep the JSON text of a document nests: the object of the document
and, inside it, the map of its value with what that holds. -/
def Document.depth (doc : Document) : Nat :=
  match doc.Value with
  | none => 1
  | some kvs => json.depth (.obj kvs) + 1

/-- Whether the numbers of the value of a document are numbers of Go. -/
def Document.wellFormed (doc : Document) : Bool :=
  match doc.Value with
  | none => true
  | some kvs => json.wellFormedFields kvs

end lexicon

/-! ## `crypto/sha512` -/

namespace sha512

/-- Reduction of a natural number to a 64-bit word. -/
def w64 (x : Nat) : Nat := x % 18446744073709551616

/-- Right rotation of a 64-bit word. -/
def rotr (x n : Nat) : Nat := w64 ((x >>> n) ||| (x <<< (64 - n)))

def ch (x y z : Nat) : Nat := (x &&& y) ^^^ ((18446744073709551615 ^^^ x) &&& z)

def maj (x y z : Nat) : Nat := (x &&& y) ^^^ (x &&& z) ^^^ (y &&& z)

def bsig0 (x : Nat) : Nat := rotr x 28 ^^^ rotr x 34 ^^^ rotr x 39

def bsig1 (x : Nat) : Nat := rotr x 14 ^^^ rotr x 18 ^^^ rotr x 41

def ssig0 (x : Nat) : Nat := rotr x 1 ^^^ rotr x 8 ^^^ (x >>> 7)

def ssig1 (x : Nat) : Nat := rotr x 19 ^^^ rotr x 61 ^^^ (x >>> 6)

/-- The 80 round constants. -/
def K : List Nat :=
  [0x428a2f98d728ae22, 0x7137449123ef65cd, 0xb5c0fbcfec4d3b2f, 0xe9b5dba58189dbbc,
   0x3956c25bf348b538, 0x59f111f1b605d019, 0x923f82a4af194f9b, 0xab1c5ed5da6d8118,
   0xd807aa98a3030242, 0x12835b0145706fbe, 0x243185be4ee4b28c, 0x550c7dc3d5ffb4e2,
   0x72be5d74f27b896f, 0x80deb1fe3b1696b1, 0x9bdc06a725c71235, 0xc19bf174cf692694,
   0xe49b69c19ef14ad2, 0xefbe4786384f25e3, 0x0fc19dc68b8cd5b5, 0x240ca1cc77ac9c65,
   0x2de92c6f592b0275, 0x4a7484aa6ea6e483, 0x5cb0a9dcbd41fbd4, 0x76f988da831153b5,
   0x983e5152ee66dfab, 0xa831c66d2db43210, 0xb00327c898fb213f, 0xbf597fc7beef0ee4,
   0xc6e00bf33da88fc2, 0xd5a79147930aa725, 0x06ca6351e003826f, 0x142929670a0e6e70,
   0x27b70a8546d22ffc, 0x2e1b21385c26c926, 0x4d2c6dfc5ac42aed, 0x53380d139d95b3df,
   0x650a73548baf63de, 0x766a0abb3c77b2a8, 0x81c2c92e47edaee6, 0x92722c851482353b,
   0xa2bfe8a14cf10364, 0xa81a664bbc423001, 0xc24b8b70d0f89791, 0xc76c51a30654be30,
   0xd192e819d6ef5218, 0xd69906245565a910, 0xf40e35855771202a, 0x106aa07032bbd1b8,
   0x19a4c116b8d2d0c8, 0x1e376c085141ab53, 0x2748774cdf8eeb99, 0x34b0bcb5e19b48a8,
   0x391c0cb3c5c95a63, 0x4ed8aa4ae3418acb, 0x5b9cca4f7763e373, 0x682e6ff3d6b2b8a3,
   0x748f82ee5defb2fc, 0x78a5636f43172f60, 0x84c87814a1f0ab72, 0x8cc702081a6439ec,
   0x90befffa23631e28, 0xa4506cebde82bde9, 0xbef9a3f7b2c67915, 0xc67178f2e372532b,
   0xca273eceea26619c, 0xd186b8c721c0c207, 0xeada7dd6cde0eb1e, 0xf57d4f7fee6ed178,
   0x06f067aa72176fba, 0x0a637dc5a2c898a6, 0x113f9804bef90dae, 0x1b710b35131c471b,
   0x28db77f523047d84, 0x32caab7b40c72493, 0x3c9ebe0a15c9bebc, 0x431d67c49c100d4c,
   0x4cc5d4becb3e42b6, 0x597f299cfc657e2a, 0x5fcb6fab3ad6faec, 0x6c44198c4a475817]

/-- The initial hash value. -/
def H0 : List Nat :=
  [0x6a09e667f3bcc908, 0xbb67ae8584caa73b, 0x3c6ef372fe94f82b, 0xa54ff53a5f1d36f1,
   0x510e527fade682d1, 0x9b05688c2b3e6c1f, 0x1f83d9abfb41bd6b, 0x5be0cd19137e2179]

/-- The message followed by the bit `1`, zeros up to 112 mod 128, and the
bit length as a 128-bit big-endian number. -/
def pad (msg : Bytes) : Bytes :=
  let l := msg.length
  msg ++ 0x80 :: List.replicate ((239 - l % 128) % 128) 0 ++
    sha256.beBytes 16 ((8 * l) % 340282366920938463463374607431768211456)

/-- Big-endian 64-bit words of a byte list (a trailing partial word is dropped). -/
def toWords : Bytes → List Nat
  | a :: b :: c :: d :: e :: f :: g :: h :: rest =>
    ((a % 256) <<< 56 ||| (b % 256) <<< 48 ||| (c % 256) <<< 40 ||| (d % 256) <<< 32 |||
      (e % 256) <<< 24 ||| (f % 256) <<< 16 ||| (g % 256) <<< 8 ||| (h % 256)) :: toWords rest
  | _ => []

/-- Message schedule: `n` more words after the ones in `w` (kept newest first). -/
def extend : Nat → List Nat → List Nat
  | 0, w => w
  | n + 1, w =>
    extend n (w64 (ssig1 (w.getD 1 0) + w.getD 6 0 + ssig0 (w.getD 14 0) + w.getD 15 0) :: w)

/-- The 80 words of the message schedule of one block, oldest first. -/
def schedule (block : List Nat) : List Nat := (extend 64 block.reverse).reverse

/-- One round on the working variables `[a, b, c, d, e, f, g, h]`. -/
def round (s : List Nat) (kw : Nat × Nat) : List Nat :=
  match s with
  | [a, b, c, d, e, f, g, h] =>
    let t1 := h + bsig1 e + ch e f g + kw.1 + kw.2
    let t2 := bsig0 a + maj a b c
    [w64 (t1 + t2), a, b, c, w64 (d + t1), e, f, g]
  | _ => s

/-- Compression of one 16-word block into the hash state. -/
def compress (h : List Nat) (block : List Nat) : List Nat :=
  List.zipWith (fun x y => w64 (x + y)) h ((K.zip (schedule block)).foldl round h)

/-- The hash state after all the 16-word blocks of `ws`, `n` bounding their number. -/
def blocks : Nat → List Nat → List Nat → List Nat
  | 0, h, _ => h
  | n + 1, h, ws => if ws.length < 16 then h else blocks n (compress h (ws.take 16)) (ws.drop 16)

/-- The 64 bytes of `sha512.Sum512(msg)`. -/
def Sum512 (msg : Bytes) : Bytes :=
  let ws := toWords (pad msg)
  (blocks (ws.length / 16) H0 ws).flatMap (sha256.beBytes 8)

end sha512

/-! ## `crypto/ed25519` -/

namespace ed25519

/-- The prime of the field, `2 ^ 255 - 19`. -/
def p : Nat := 57896044618658097711785492504343953926634992332820282019728792003956564819949

/-- The order of the base point. -/
def order : Nat := 7237005577332262213973186563042994240857116359379907606001950938285454250989

/-- The constant `d` of the curve `-x² + y² = 1 + d x² y²`. -/
def d : Nat := 37095705934669439343138083508754565189542113879843219016388785533085940283555

/-- A square root of `-1` in the field. -/
def sqrtM1 : Nat := 19681161376707505956807079304988542015446066515923890162744021073123829784752

/-- The base point. -/
def B : Nat × Nat :=
  (15112221349535400772501151409588531511454012693041857206046113283949847762202,
    46316835694926478169428394003475163141307993866256225615783033603165251855960)

/-- The power `x ^ e` in the field, by squaring, over the `bits` low bits of `e`. -/
def powMod : Nat → Nat → Nat → Nat
  | 0, _, _ => 1
  | bits + 1, x, e =>
    let h := powMod bits x (e / 2)
    if e % 2 = 1 then h * h % p * x % p else h * h % p

/-- The inverse in the field (of zero, zero). -/
def inv (x : Nat) : Nat := powMod 255 x (p - 2)

/-- A point in extended coordinates `(X : Y : Z : T)`, with `x = X / Z`,
`y = Y / Z` and `x y = T / Z`. -/
structure Point where
  X : Nat
  Y : Nat
  Z : Nat
  T : Nat

/-- The neutral element. -/
def Point.zero : Point := ⟨0, 1, 1, 0⟩

/-- The point with affine coordinates `(x, y)`. -/
def Point.ofAffine (x y : Nat) : Point := ⟨x, y, 1, x * y % p⟩

/-- The sum of two points of the curve. -/
def Point.add (P Q : Point) : Point :=
  let a := (P.Y + p - P.X) * (Q.Y + p - Q.X) % p
  let b := (P.Y + P.X) * (Q.Y + Q.X) % p
  let c := P.T * (2 * d) % p * Q.T % p
  let dd := P.Z * 2 % p * Q.Z % p
  let e := (b + p - a) % p
  let f := (dd + p - c) % p
  let g := (dd + c) % p
  let h := (b + a) % p
  ⟨e * f % p, g * h % p, f * g % p, e * h % p⟩

/-- The multiple `[s] P`, over the `bits` low bits of `s`. -/
def Point.mul : Nat → Nat → Point → Point
  | 0, _, _ => Point.zero
  | bits + 1, s, P =>
    let h := Point.mul bits (s / 2) P
    if s % 2 = 1 then (h.add h).add P else h.add h

/-- The number a little-endian byte sequence stands for. -/
def leNat : Bytes → Nat
  | [] => 0
  | b :: bs => b % 256 + 256 * leNat bs

/-- The little-endian bytes of `x`, `n` of them. -/
def leBytes : Nat → Nat → Bytes
  | 0, _ => []
  | n + 1, x => x % 256 :: leBytes n (x / 256)

/-- The 32 bytes of a point, `Point.Bytes()`: `y`, and the parity of `x` in
the top bit. -/
def Point.toBytes (P : Point) : Bytes :=
  let zi := inv P.Z
  let x := P.X * zi % p
  let y := P.Y * zi % p
  leBytes 32 (y + (x % 2) * 2 ^ 255)

/-- The point 32 bytes stand for, as `Point.SetBytes`: `y` is taken modulo
the prime, `x` is the root of `(y² - 1) / (d y² + 1)` whose parity is the
top bit; `none` when that is not a square. -/
def Point.SetBytes (b : Bytes) : Option (Nat × Nat) :=
  let v := leNat b
  let y := v % 2 ^ 255 % p
  let u := (y * y + p - 1) % p
  let w := (d * (y * y % p) + 1) % p
  let x2 := u * inv w % p
  let r := powMod 253 x2 ((p + 3) / 8)
  let x := if r * r % p = x2 then some r
    else if r * sqrtM1 % p * (r * sqrtM1 % p) % p = x2 then some (r * sqrtM1 % p) else none
  match x with
  | none => none
  | some x =>
    let even := if x % 2 = 1 then p - x else x
    some (if v / 2 ^ 255 % 2 = 1 then (p - even) % p else even, y)

/-- Whether `sig` is a valid signature of `message` by `publicKey`; `none`
is the panic of `ed25519.Verify` for a public key that is not 32 bytes long. -/
def Verify (publicKey message sig : Bytes) : Option Bool :=
  if publicKey.length ≠ 32 then none
  else if sig.length ≠ 64 ∨ 32 ≤ sig.getD 63 0 % 256 then some false
  else
    match Point.SetBytes publicKey with
    | none => some false
    | some (ax, ay) =>
      let k := leNat (sha512.Sum512 (sig.take 32 ++ publicKey ++ message)) % order
      let s := leNat (sig.drop 32)
      if order ≤ s then some false
      else
        let minusA := Point.ofAffine ((p - ax) % p) ay
        let R := (Point.mul 253 s (Point.ofAffine B.1 B.2)).add (Point.mul 253 k minusA)
        some (decide (R.toBytes = (sig.take 32).map (· % 256)))

end ed25519

/-! ## `encoding/base64` -/

namespace base64

/-- The value of a character of the URL alphabet, `none` for any other byte. -/
def urlValue (c : Nat) : Option Nat :=
  if 65 ≤ c ∧ c ≤ 90 then some (c - 65)
  else if 97 ≤ c ∧ c ≤ 122 then some (c - 97 + 26)
  else if 48 ≤ c ∧ c ≤ 57 then some (c - 48 + 52)
  else if c = 45 then some 62
  else if c = 95 then some 63
  else none

/-- The error `CorruptInputError(n)`. -/
def corruptInput (n : Nat) : GoError :=
  .base (String.mk ("illegal base64 data at input byte ".data ++ Nat.toDigits 10 n))

/-- The bytes after the input byte `si`, `buf` holding the values of the
quantum begun: four characters give three bytes, a last quantum of two or
three characters gives one or two bytes and a last quantum of one character
is an error; line feeds and carriage returns are passed over, and any other
byte outside the alphabet is an error. -/
def decodeFrom : List Nat → Nat → List Nat → Except GoError Bytes
  | [], si, buf =>
    match buf with
    | [] => .ok []
    | [_] => .error (corruptInput (si - 1))
    | [a, b] => .ok [(a * 4 + b / 16) % 256]
    | a :: b :: c :: _ => .ok [(a * 4 + b / 16) % 256, (b % 16 * 16 + c / 4) % 256]
  | ch :: rest, si, buf =>
    match urlValue ch with
    | some v =>
      match buf with
      | [a, b, c] =>
        match decodeFrom rest (si + 1) [] with
        | .error err => .error err
        | .ok bytes =>
          .ok ((a * 4 + b / 16) % 256 :: (b % 16 * 16 + c / 4) % 256 :: (c % 4 * 64 + v) % 256 ::
            bytes)
      | _ => decodeFrom rest (si + 1) (buf ++ [v])
    | none =>
      if ch = 10 ∨ ch = 13 then decodeFrom rest (si + 1) buf
      else .error (corruptInput si)

/-- The bytes of `base64.RawURLEncoding.DecodeString(s)`: the URL alphabet,
no padding. -/
def DecodeString (s : Bytes) : Except GoError Bytes := decodeFrom s 0 []

end base64

/-! ## `encoding/json`: numbers in range -/

namespace json

mutual
/-- Whether every number of a JSON value can be decoded into an
`interface{}`, that is, is in the range of float64. -/
def numbersInRange : Value → Bool
  | .number literal => !overflowsFloat64 literal
  | .arr xs => numbersInRangeList xs
  | .obj kvs => numbersInRangeFields kvs
  | _ => true
/-- Whether the numbers of the elements of an array are in range. -/
def numbersInRangeList : List Value → Bool
  | [] => true
  | x :: xs => numbersInRange x && numbersInRangeList xs
/-- Whether the numbers of the members of an object are in range. -/
def numbersInRangeFields : List (List Char × Value) → Bool
  | [] => true
  | (_, x) :: kvs => numbersInRange x && numbersInRangeFields kvs
end

end json

/-! ## `pkg/auth/jwt.go` -/

namespace auth

/-- The claims in a JWT. -/
structure Claims where
  Issuer : String
  Subject : String
  Audience : String
  ExpiresAt : Int
  NotBefore : Int
  IssuedAt : Int
  JWTID : String
  deriving DecidableEq, Repr

/-- The zero `Claims`. -/
def Claims.zero : Claims := ⟨"", "", "", 0, 0, 0, ""⟩

/-- How a call of `VerifyJWT` ends: it returns claims and no error, it
returns an error and no claims, or it panics. -/
inductive Result where
  | claims (c : Claims)
  | error (err : GoError)
  | panic (message : String)
  deriving DecidableEq, Repr

/-- The parts of `strings.Split(s, ".")`. -/
def splitDots : Bytes → List Bytes
  | [] => [[]]
  | b :: rest =>
    if b = 46 then [] :: splitDots rest
    else
      match splitDots rest with
      | [] => [[b]]
      | part :: parts => (b :: part) :: parts

/-- The error `fmt.Errorf(pfx + "%v", err)`, which holds the text of `err`
and does not wrap it. -/
def errorv (pfx : String) (err : GoError) : GoError := .base (pfx ++ err.Error)

/-- The header after `json.Unmarshal(data, &header)` into a nil
`map[string]interface{}`: `none` is the nil map that `null` leaves; the
entries are the members of the object in the order of the text, and of two
with one key the later counts. A value that is not an object, or holds a
number beyond float64, is an error. -/
def unmarshalHeader (data : Bytes) : Except GoError (Option (List (String × json.Value))) :=
  match json.parse (runes data) with
  | .error err => .error err
  | .ok .null => .ok none
  | .ok (.obj kvs) =>
    if json.numbersInRangeFields kvs then .ok (some (kvs.map fun kv => (json.unquote kv.1, kv.2)))
    else .error json.typeError
  | .ok _ => .error json.typeError

/-- The string `header["alg"].(string)` and whether the assertion holds. -/
def headerAlg (header : Option (List (String × json.Value))) : Option String :=
  match header with
  | none => none
  | some kvs =>
    match kvs.reverse.find? fun kv => kv.1 = "alg" with
    | some (_, .str raw) => some (json.unquote raw)
    | _ => none

/-- A letter as the decoder compares the letters of keys and field names:
without its case, the Kelvin sign as `k` and the long s as `s`. -/
def foldChar (c : Char) : Char :=
  if 'A'.toNat ≤ c.toNat ∧ c.toNat ≤ 'Z'.toNat then Char.ofNat (c.toNat + 32)
  else if c = '\u212A' then 'k'
  else if c = '\u017F' then 's'
  else c

/-- The JSON names of the fields of `Claims`. -/
def fieldNames : List String := ["iss", "sub", "aud", "exp", "nbf", "iat", "jti"]

/-- The field of `Claims` a key of the text names: the one with that name, or
else the first whose name is the key when letters are compared without case. -/
def fieldOf (key : String) : Option String :=
  match fieldNames.find? fun n => n = key with
  | some n => some n
  | none => fieldNames.find? fun n => n.data.map foldChar = key.data.map foldChar

/-- A string field after a JSON value is decoded into it. -/
def decodeString (old : String) : json.Value → Except GoError String
  | .str raw => .ok (json.unquote raw)
  | .null => .ok old
  | _ => .error json.typeError

/-- An `int64` field after a JSON value is decoded into it: a number written
without fraction and exponent, from `-2 ^ 63` to `2 ^ 63 - 1`, sets it,
`null` leaves it, any other value is an error. -/
def decodeInt64 (old : Int) : json.Value → Except GoError Int
  | .number literal =>
    if literal.any (fun c => c = '.' || c = 'e' || c = 'E') then .error json.typeError
    else
      match literal with
      | '-' :: ds =>
        if json.digitsValue ds ≤ 2 ^ 63 then .ok (-(json.digitsValue ds : Int))
        else .error json.typeError
      | ds =>
        if json.digitsValue ds < 2 ^ 63 then .ok (json.digitsValue ds : Int)
        else .error json.typeError
  | .null => .ok old
  | _ => .error json.typeError

/-- The claims after one member of the text is decoded into them; a key that
names no field is passed over. -/
def decodeMember (c : Claims) (key : String) (v : json.Value) : Except GoError Claims :=
  match fieldOf key with
  | none => .ok c
  | some name =>
    if name = "iss" then (decodeString c.Issuer v).map fun s => { c with Issuer := s }
    else if name = "sub" then (decodeString c.Subject v).map fun s => { c with Subject := s }
    else if name = "aud" then (decodeString c.Audience v).map fun s => { c with Audience := s }
    else if name = "exp" then (decodeInt64 c.ExpiresAt v).map fun n => { c with ExpiresAt := n }
    else if name = "nbf" then (decodeInt64 c.NotBefore v).map fun n => { c with NotBefore := n }
    else if name = "iat" then (decodeInt64 c.IssuedAt v).map fun n => { c with IssuedAt := n }
    else (decodeString c.JWTID v).map fun s => { c with JWTID := s }

/-- The claims after the members of the text are decoded into them in turn. -/
def decodeMembers (c : Claims) : List (List Char × json.Value) → Except GoError Claims
  | [] => .ok c
  | (k, v) :: kvs =>
    match decodeMember c (json.unquote k) v with
    | .error err => .error err
    | .ok c' => decodeMembers c' kvs

/-- The claims after `json.Unmarshal(data, &claims)` into zero `Claims`.
The text is scanned whole before anything is decoded; `null` leaves the
claims zero, and a value that is not an object is an error. Of several
errors in one text the first is returned. -/
def unmarshalClaims (data : Bytes) : Except GoError Claims :=
  match json.parse (runes data) with
  | .error err => .error err
  | .ok .null => .ok Claims.zero
  | .ok (.obj kvs) => decodeMembers Claims.zero kvs
  | .ok _ => .error json.typeError

/-- The seconds since the epoch of a clock reading, `t.Unix()`. -/
def unix (t : Time) : Int := t.unixNano / 1000000000

/-- Verifies the JWT with a public key; `now` is the reading of `time.Now()`. -/
def VerifyJWT (now : Time) (tokenString : Bytes) (publicKey : Bytes) : Result :=
  match splitDots tokenString with
  | [part0, part1, part2] =>
    match base64.DecodeString part0 with
    | .error err => .error (errorv "invalid header encoding: " err)
    | .ok headerJSON =>
      match unmarshalHeader headerJSON with
      | .error err => .error (errorv "invalid header: " err)
      | .ok header =>
        if headerAlg header ≠ some "EdDSA" then
          .error (.base ("unsupported algorithm: " ++ (headerAlg header).getD ""))
        else
          match base64.DecodeString part1 with
          | .error err => .error (errorv "invalid claims encoding: " err)
          | .ok claimsJSON =>
            match unmarshalClaims claimsJSON with
            | .error err => .error (errorv "invalid claims: " err)
            | .ok claims =>
              match base64.DecodeString part2 with
              | .error err => .error (errorv "invalid signature encoding: " err)
              | .ok signature =>
                match ed25519.Verify publicKey (part0 ++ 46 :: part1) signature with
                | none =>
                  .panic (String.mk ("ed25519: bad public key length: ".data ++
                    Nat.toDigits 10 publicKey.length))
                | some false => .error (.base "invalid signature")
                | some true =>
                  if claims.ExpiresAt < unix now then .error (.base "token expired")
                  else .claims claims
  | _ => .error (.base "invalid token format")

end auth

/-- A token signed with the key of the first test of RFC 8032: the header
`\x7b"alg":"EdDSA","typ":"JWT"\x7d` and claims that expire an hour after `noon`. -/
def auth.sampleToken : Bytes :=
  utf8 ("eyJhbGciOiJFZERTQSIsInR5cCI6IkpXVCJ9." ++
    "eyJpc3MiOiJkaWQ6cGxjOmFiYzEyMyIsInN1YiI6ImFsaWNlIiwiZXhwIjoxNzMwNzI4ODAwLCJpYXQiOjE3MzA3MjUyMDB9." ++
    "2QbkqKRSDMhQykpg6fvCwiJzsYsz--r7z1IbP_46lpvmYy-JzjcA17iVhktQyhOVGZVNZc_ML48440DTcJtpBQ").data

/-- The public key of the first test of RFC 8032. -/
def auth.sampleKey : Bytes :=
  [215, 90, 152, 1, 130, 177, 10, 183, 213, 75, 254, 211, 201, 100, 7, 58, 14, 225, 114, 243,
    218, 166, 35, 37, 175, 2, 26, 104, 247, 7, 81, 26]

/-- The claims of `sampleToken`. -/
def auth.sampleClaims : auth.Claims :=
  ⟨"did:plc:abc123", "alice", "", 1730728800, 0, 1730725200, ""⟩

/-- A clock reading two hours after `noon`. -/
def noon2h : Time := ⟨1730732400000000000, 0⟩

/-! # Theorems -/

/-! ## The content address -/

namespace sha256

theorem round_length (s : List Nat) (kw : Nat × Nat) : (round s kw).length = s.length := by
  unfold round
  split <;> rfl

theorem foldl_round_length (kws : List (Nat × Nat)) (s : List Nat) :
    (kws.foldl round s).length = s.length := by
  induction kws generalizing s with
  | nil => rfl
  | cons kw kws ih => rw [List.foldl_cons, ih, round_length]

theorem compress_length (h block : List Nat) : (compress h block).length = h.length := by
  simp [compress, foldl_round_length]

theorem blocks_length (n : Nat) (h ws : List Nat) : (blocks n h ws).length = h.length := by
  induction n generalizing h ws with
  | zero => rfl
  | succ n ih =>
    unfold blocks
    split
    · rfl
    · rw [ih, compress_length]

theorem beBytes_length (n x : Nat) : (beBytes n x).length = n := by
  induction n with
  | zero => rfl
  | succ n ih => simp [beBytes, ih]

theorem flatMap_beBytes_length (ws : List Nat) :
    (ws.flatMap (beBytes 4)).length = 4 * ws.length := by
  induction ws with
  | nil => rfl
  | cons w ws ih => simp [List.flatMap_cons, beBytes_length, ih]; omega

/-- A digest has 32 bytes. -/
theorem Sum256_length (msg : Bytes) : (Sum256 msg).length = 32 := by
  unfold Sum256
  simp only [flatMap_beBytes_length, blocks_length]
  rfl

end sha256

theorem hex.EncodeToString_length (src : Bytes) :
    (hex.EncodeToString src).length = 2 * src.length := by
  unfold hex.EncodeToString
  show (src.flatMap _).length = _
  induction src with
  | nil => rfl
  | cons b bs ih => simp [List.flatMap_cons, ih]; omega

/-- A content address has 64 characters. -/
theorem hashHex_length (data : Bytes) : (hashHex data).length = 64 := by
  simp [hashHex, hex.EncodeToString_length, sha256.Sum256_length]

/-- A content address is never the empty string, the sentinel of "no commit". -/
theorem hashHex_ne_empty (data : Bytes) : hashHex data ≠ "" := by
  intro h
  have := hashHex_length data
  rw [h] at this
  exact absurd this (by decide)

theorem hex.digit_mem (n : Nat) (h : n < 16) : hex.digit n ∈ hex.hextable := by
  interval_cases n <;> decide

/-- A content address consists of the digits `0` to `9` and `a` to `f`. -/
theorem hashHex_chars (data : Bytes) : ∀ ch ∈ (hashHex data).data, ch ∈ hex.hextable := by
  intro ch hch
  simp only [hashHex, hex.EncodeToString, List.mem_flatMap, List.mem_cons, List.mem_singleton,
    List.not_mem_nil, or_false] at hch
  obtain ⟨b, -, rfl | rfl⟩ := hch
  · exact hex.digit_mem _ (by omega)
  · exact hex.digit_mem _ (by omega)

/-! ## UTF-8 -/

theorem utf8DecodeChar_encode (c : Char) (rest : Bytes) :
    utf8DecodeChar (utf8EncodeChar c ++ rest) = some (c, rest) := by
  have hof := Char.ofNat_toNat c
  have hv' : c.toNat < 0xD800 ∨ (0xDFFF < c.toNat ∧ c.toNat < 0x110000) := c.valid
  unfold utf8EncodeChar
  simp only []
  generalize c.toNat = v at hof hv'
  split
  · next h1 =>
    simp [utf8DecodeChar, h1, hof]
  · split
    · next h1 h2 =>
      have e1 : ¬ (0xC0 + v / 64 < 0x80) := by omega
      have e2 : ¬ (0xC0 + v / 64 < 0xC2) := by omega
      have e3 : 0xC0 + v / 64 < 0xE0 := by omega
      have e4 : (0xC0 + v / 64 - 0xC0) * 64 + (0x80 + v % 64 - 0x80) = v := by omega
      have e5 : 0x80 ≤ 0x80 + v % 64 ∧ 0x80 + v % 64 < 0xC0 := by omega
      simp only [List.cons_append, List.nil_append, utf8DecodeChar, e1, e2, e3, e4, e5, if_true,
        if_false, and_self, hof]
    · split
      · next h1 h2 h3 =>
        have e1 : ¬ (0xE0 + v / 4096 < 0x80) := by omega
        have e2 : ¬ (0xE0 + v / 4096 < 0xC2) := by omega
        have e3 : ¬ (0xE0 + v / 4096 < 0xE0) := by omega
        have e3' : 0xE0 + v / 4096 < 0xF0 := by omega
        have e4 : (0xE0 + v / 4096 - 0xE0) * 4096 + (0x80 + v / 64 % 64 - 0x80) * 64 +
            (0x80 + v % 64 - 0x80) = v := by omega
        have e5 : 0x80 ≤ 0x80 + v / 64 % 64 ∧ 0x80 + v / 64 % 64 < 0xC0 ∧
            0x80 ≤ 0x80 + v % 64 ∧ 0x80 + v % 64 < 0xC0 ∧ 0x800 ≤ v ∧
            ¬ (0xD800 ≤ v ∧ v < 0xE000) := by omega
        simp only [List.cons_append, List.nil_append, utf8DecodeChar, e1, e2, e3, e3', e4, e5,
          if_true, if_false, and_self, hof, not_false_eq_true]
      · next h1 h2 h3 =>
        have e1 : ¬ (0xF0 + v / 262144 < 0x80) := by omega
        have e2 : ¬ (0xF0 + v / 262144 < 0xC2) := by omega
        have e3 : ¬ (0xF0 + v / 262144 < 0xE0) := by omega
        have e3' : ¬ (0xF0 + v / 262144 < 0xF0) := by omega
        have e3'' : 0xF0 + v / 262144 < 0xF8 := by omega
        have e4 : (0xF0 + v / 262144 - 0xF0) * 262144 + (0x80 + v / 4096 % 64 - 0x80) * 4096 +
            (0x80 + v / 64 % 64 - 0x80) * 64 + (0x80 + v % 64 - 0x80) = v := by omega
        have e5 : 0x80 ≤ 0x80 + v / 4096 % 64 ∧ 0x80 + v / 4096 % 64 < 0xC0 ∧
            0x80 ≤ 0x80 + v / 64 % 64 ∧ 0x80 + v / 64 % 64 < 0xC0 ∧
            0x80 ≤ 0x80 + v % 64 ∧ 0x80 + v % 64 < 0xC0 ∧ 0x10000 ≤ v ∧ v < 0x110000 := by omega
        simp only [List.cons_append, List.nil_append, utf8DecodeChar, e1, e2, e3, e3', e3'', e4, e5,
          if_true, if_false, and_self, hof]

theorem utf8EncodeChar_length_pos (c : Char) : 0 < (utf8EncodeChar c).length := by
  unfold utf8EncodeChar
  simp only []
  split
  · simp
  · split
    · simp
    · split <;> simp

theorem utf8DecodeFuel_utf8 (cs : List Char) :
    ∀ fuel, (utf8 cs).length ≤ fuel → utf8DecodeFuel fuel (utf8 cs) = some cs := by
  induction cs with
  | nil => intro fuel _; cases fuel <;> rfl
  | cons c cs ih =>
    intro fuel hfuel
    have hcons : utf8 (c :: cs) = utf8EncodeChar c ++ utf8 cs := by
      simp [utf8, List.flatMap_cons]
    rw [hcons] at hfuel ⊢
    have hpos := utf8EncodeChar_length_pos c
    rw [List.length_append] at hfuel
    cases henc : utf8EncodeChar c with
    | nil => simp [henc] at hpos
    | cons b bs =>
      cases fuel with
      | zero => omega
      | succ n =>
        have hdec := utf8DecodeChar_encode c (utf8 cs)
        rw [henc] at hdec hfuel
        simp only [List.cons_append] at hdec ⊢
        unfold utf8DecodeFuel
        rw [hdec]
        simp only [List.length_cons] at hfuel
        simp only [ih n (by omega), Option.map_some']

/-- Decoding the UTF-8 bytes of a text gives the text back. -/
theorem utf8Decode_utf8 (cs : List Char) : utf8Decode (utf8 cs) = some cs :=
  utf8DecodeFuel_utf8 cs _ (Nat.le_refl _)

theorem runesFuel_utf8 (cs : List Char) :
    ∀ fuel, (utf8 cs).length ≤ fuel → runesFuel fuel (utf8 cs) = cs := by
  induction cs with
  | nil => intro fuel _; cases fuel <;> rfl
  | cons c cs ih =>
    intro fuel hfuel
    have hcons : utf8 (c :: cs) = utf8EncodeChar c ++ utf8 cs := by
      simp [utf8, List.flatMap_cons]
    rw [hcons] at hfuel ⊢
    have hpos := utf8EncodeChar_length_pos c
    rw [List.length_append] at hfuel
    cases henc : utf8EncodeChar c with
    | nil => simp [henc] at hpos
    | cons b bs =>
      cases fuel with
      | zero => omega
      | succ n =>
        have hdec := utf8DecodeChar_encode c (utf8 cs)
        rw [henc] at hdec hfuel
        simp only [List.cons_append] at hdec ⊢
        unfold runesFuel
        rw [hdec]
        simp only [List.length_cons] at hfuel
        simp only [ih n (by omega)]

/-- The characters of the UTF-8 bytes of a text are the text. -/
theorem runes_utf8 (cs : List Char) : runes (utf8 cs) = cs :=
  runesFuel_utf8 cs _ (Nat.le_refl _)

theorem json.escBytesFuel_utf8 (cs : List Char) :
    ∀ fuel, (utf8 cs).length ≤ fuel →
      json.escBytesFuel fuel (utf8 cs) = cs.flatMap json.escChar := by
  induction cs with
  | nil => intro fuel _; cases fuel <;> rfl
  | cons c cs ih =>
    intro fuel hfuel
    have hcons : utf8 (c :: cs) = utf8EncodeChar c ++ utf8 cs := by
      simp [utf8, List.flatMap_cons]
    rw [hcons] at hfuel ⊢
    have hpos := utf8EncodeChar_length_pos c
    rw [List.length_append] at hfuel
    cases henc : utf8EncodeChar c with
    | nil => simp [henc] at hpos
    | cons b bs =>
      cases fuel with
      | zero => omega
      | succ n =>
        have hdec := utf8DecodeChar_encode c (utf8 cs)
        rw [henc] at hdec hfuel
        simp only [List.cons_append] at hdec ⊢
        unfold json.escBytesFuel
        rw [hdec]
        simp only [List.length_cons] at hfuel
        simp only [ih n (by omega), List.flatMap_cons]

/-- A well-formed string is quoted as its text. -/
theorem json.quoteBytes_utf8 (s : String) : json.quoteBytes (utf8 s.data) = json.quote s := by
  simp [json.quoteBytes, json.quote, json.escBytesFuel_utf8]

/-- Decoding a character leaves fewer bytes. -/
theorem utf8DecodeChar_length {bs rest : Bytes} {c : Char}
    (h : utf8DecodeChar bs = some (c, rest)) : rest.length < bs.length := by
  unfold utf8DecodeChar at h
  split at h
  · cases h
  · next b0 tl =>
    split at h
    · simp only [Option.some.injEq, Prod.mk.injEq] at h
      rw [← h.2]
      simp
    · split at h
      · cases h
      · split at h
        · split at h
          · split at h
            · simp only [Option.some.injEq, Prod.mk.injEq] at h
              rw [← h.2]
              simp only [List.length_cons]
              omega
            · cases h
          · cases h
        · split at h
          · split at h
            · simp only [] at h
              split at h
              · simp only [Option.some.injEq, Prod.mk.injEq] at h
                rw [← h.2]
                simp only [List.length_cons]
                omega
              · cases h
            · cases h
          · split at h
            · split at h
              · simp only [] at h
                split at h
                · simp only [Option.some.injEq, Prod.mk.injEq] at h
                  rw [← h.2]
                  simp only [List.length_cons]
                  omega
                · cases h
              · cases h
            · cases h

/-! ## Maps -/

namespace GoMap

variable {α : Type}

theorem get_eq_some_mem {m : GoMap α} {k : String} {v : α} (h : m.get k = some v) :
    (k, v) ∈ m := by
  induction m with
  | nil => simp [get] at h
  | cons e m ih =>
    obtain ⟨k', v'⟩ := e
    unfold get at h
    split at h
    · next hk => cases h; subst hk; exact List.mem_cons_self _ _
    · exact List.mem_cons_of_mem _ (ih h)

theorem get_eq_none_of_not_mem_keys {m : GoMap α} {k : String}
    (h : k ∉ m.map Prod.fst) : m.get k = none := by
  induction m with
  | nil => rfl
  | cons e m ih =>
    obtain ⟨k', v'⟩ := e
    simp only [List.map_cons, List.mem_cons, not_or] at h
    unfold get
    rw [if_neg (fun hk => h.1 hk.symm)]
    exact ih h.2

theorem get_set_self (m : GoMap α) (k : String) (v : α) : (m.set k v).get k = some v := by
  simp [set, get]

theorem get_set_of_ne (m : GoMap α) {k k' : String} (v : α) (h : k ≠ k') :
    (m.set k v).get k' = m.get k' := by
  simp only [set, get, if_neg h]
  induction m with
  | nil => rfl
  | cons e m ih =>
    obtain ⟨k₁, v₁⟩ := e
    simp only [decide_not] at ih
    by_cases h₁ : k₁ = k
    · subst h₁
      simp [List.filter_cons, get, h, ih]
    · simp [List.filter_cons, h₁, get, ih]

theorem mem_set {m : GoMap α} {k : String} {v : α} {e : String × α} (h : e ∈ m.set k v) :
    e = (k, v) ∨ e ∈ m := by
  simp only [set, List.mem_cons, List.mem_filter] at h
  rcases h with h | h
  · exact Or.inl h
  · exact Or.inr h.1

theorem set_of_not_mem_keys {m : GoMap α} {k : String} (v : α) (h : k ∉ m.map Prod.fst) :
    m.set k v = (k, v) :: m := by
  simp only [set, List.cons.injEq, true_and]
  rw [List.filter_eq_self]
  intro e he
  simp only [ne_eq, decide_eq_true_eq]
  intro hk
  exact h (List.mem_map.mpr ⟨e, he, hk⟩)

end GoMap

/-! ## The in-memory repository -/

namespace repo

theorem CreateCommit_ok {r : Repository} {now : Time} {doc : lexicon.Document} {data : Bytes}
    (h : lexicon.MarshalDocument doc = .ok data) :
    r.CreateCommit now doc = .ok
      (⟨hashHex data, r.Head, data, [], now⟩,
        { r with
          Commits := r.Commits.set (hashHex data) ⟨hashHex data, r.Head, data, [], now⟩
          Head := hashHex data
          Documents := r.Documents.set doc.ID data }) := by
  simp [Repository.CreateCommit, h]

theorem CreateCommit_ok_inv {r r' : Repository} {now : Time} {doc : lexicon.Document} {c : Commit}
    (h : r.CreateCommit now doc = .ok (c, r')) :
    ∃ data, lexicon.MarshalDocument doc = .ok data ∧ c = ⟨hashHex data, r.Head, data, [], now⟩ ∧
      r' = { r with
          Commits := r.Commits.set (hashHex data) c
          Head := hashHex data
          Documents := r.Documents.set doc.ID data } := by
  unfold Repository.CreateCommit at h
  split at h
  · cases h
  · next data hd =>
    simp only [Except.ok.injEq, Prod.mk.injEq] at h
    obtain ⟨hc, hr⟩ := h
    subst hc
    exact ⟨data, hd, rfl, hr.symm⟩

/-- A document used in the examples: a post with one text field. -/
theorem marshal_example :
    lexicon.MarshalDocument ⟨"post/1", "app.bsky.feed.post", some [("text", .str (utf8 "hi".data))],
      Time.zero, Time.zero⟩ = .ok (utf8 ("\x7b\"id\":\"post/1\",\"type\":\"app.bsky.feed.post\"," ++
        "\"value\":\x7b\"text\":\"hi\"\x7d,\"createdAt\":\"0001-01-01T00:00:00Z\"," ++
        "\"updatedAt\":\"0001-01-01T00:00:00Z\"\x7d").data) := by
  decide

/-- C6. For every repository `r` and every document whose marshalling
succeeds, `r.CreateCommit(doc)` returns a commit whose `Prev` is `r.Head` as it
was before the call; after the call the head is the id of that commit and
`Commits` holds the commit under its id. -/
theorem C6_CreateCommit_links_head (r : Repository) (now : Time) (doc : lexicon.Document)
    (data : Bytes) (h : lexicon.MarshalDocument doc = .ok data) :
    ∃ c r', r.CreateCommit now doc = .ok (c, r') ∧ c.Prev = r.Head ∧ r'.Head = c.ID ∧
      r'.Commits.get c.ID = some c := by
  refine ⟨_, _, CreateCommit_ok h, rfl, rfl, ?_⟩
  exact GoMap.get_set_self _ _ _

theorem C6_CreateCommit_links_head_witness :
    ∃ c r', (NewRepository "did:plc:abc123").CreateCommit ⟨1730725200123456789, 0⟩
        ⟨"post/1", "app.bsky.feed.post", some [("text", .str (utf8 "hi".data))], Time.zero, Time.zero⟩
        = .ok (c, r') ∧
      c.Prev = (NewRepository "did:plc:abc123").Head ∧ r'.Head = c.ID ∧
      r'.Commits.get c.ID = some c :=
  C6_CreateCommit_links_head _ _ _ _ marshal_example

theorem history_empty (m : GoMap Commit) (fuel : Nat) : history m fuel "" = some [] := by
  unfold history
  simp

theorem history_succ {m : GoMap Commit} {fuel : Nat} {head : String} {c : Commit}
    (hne : head ≠ "") (hget : m.get head = some c) :
    history m (fuel + 1) head = (history m fuel c.Prev).map fun l => c :: l := by
  rw [history]
  simp [hne, hget]

/-- A chain found in a map is found unchanged after an entry under a new key is added. -/
theorem history_cons_fresh {m : GoMap Commit} {k : String} (v : Commit)
    (hk : k ∉ m.map Prod.fst) :
    ∀ (fuel : Nat) (head : String) (l : List Commit),
      history m fuel head = some l → history ((k, v) :: m) fuel head = some l := by
  intro fuel
  induction fuel with
  | zero =>
    intro head l h
    unfold history at h ⊢
    split at h
    · next h0 => simp [h0, h]
    · simp at h
  | succ n ih =>
    intro head l h
    by_cases h0 : head = ""
    · subst h0
      rw [history_empty] at h ⊢
      exact h
    · rw [history] at h
      simp only [h0, if_false] at h
      cases hg : m.get head with
      | none => simp [hg] at h
      | some c =>
        simp only [hg, Option.map_eq_some'] at h
        obtain ⟨l', hl', rfl⟩ := h
        have hmem := GoMap.get_eq_some_mem hg
        have hne : k ≠ head := fun e => hk (e ▸ List.mem_map.mpr ⟨_, hmem, rfl⟩)
        have hg' : GoMap.get ((k, v) :: m) head = some c := by
          simp [GoMap.get, hne, hg]
        rw [history_succ h0 hg', ih _ _ hl']
        rfl

/-- The ids of a chain found in a map whose entries are keyed by their own id are keys of the map. -/
theorem history_ids_subset {m : GoMap Commit} (hkey : ∀ e ∈ m, e.2.ID = e.1) :
    ∀ (fuel : Nat) (head : String) (l : List Commit),
      history m fuel head = some l → ∀ c ∈ l, c.ID ∈ m.map Prod.fst := by
  intro fuel
  induction fuel with
  | zero =>
    intro head l h
    unfold history at h
    split at h
    · cases h; simp
    · simp at h
  | succ n ih =>
    intro head l h
    by_cases h0 : head = ""
    · subst h0
      rw [history_empty] at h
      cases h; simp
    · rw [history] at h
      simp only [h0, if_false] at h
      cases hg : m.get head with
      | none => simp [hg] at h
      | some c =>
        simp only [hg, Option.map_eq_some'] at h
        obtain ⟨l', hl', rfl⟩ := h
        intro c' hc'
        rcases List.mem_cons.mp hc' with rfl | hc'
        · have hmem := GoMap.get_eq_some_mem hg
          exact List.mem_map.mpr ⟨_, hmem, (hkey _ hmem).symm⟩
        · exact ih _ _ hl' c' hc'

theorem Linear_new (did : String) : Linear (NewRepository did) 0 [] := by
  refine ⟨by simp [NewRepository], by simp [NewRepository], rfl, [], ?_, rfl, by simp⟩
  simp [NewRepository, history_empty]

theorem Linear_step {r r' : Repository} {n : Nat} {seen : List (Option String)} {now : Time}
    {doc : lexicon.Document} {c : Commit} (hr : Linear r n seen)
    (hfresh : commitID doc ∉ seen) (h : r.CreateCommit now doc = .ok (c, r')) :
    Linear r' (n + 1) (seen ++ [commitID doc]) := by
  obtain ⟨data, hd, hc, hr'⟩ := CreateCommit_ok_inv h
  have hid : commitID doc = some (hashHex data) := by simp [commitID, hd]
  have hnew : hashHex data ∉ r.Commits.map Prod.fst := fun hm => hfresh (hid ▸ hr.keys_seen _ hm)
  have hset : r.Commits.set (hashHex data) c = (hashHex data, c) :: r.Commits :=
    GoMap.set_of_not_mem_keys _ hnew
  have hcid : c.ID = hashHex data := by rw [hc]
  have hprev : c.Prev = r.Head := by rw [hc]
  subst hr'
  obtain ⟨l, hl, hlen, hnd⟩ := hr.chain
  refine ⟨?_, ?_, ?_, c :: l, ?_, ?_, ?_⟩
  · intro e he
    rw [hset] at he
    rcases List.mem_cons.mp he with rfl | he
    · exact hcid
    · exact hr.keyed e he
  · intro k hk
    simp only [hset, List.map_cons, List.mem_cons] at hk
    rcases hk with rfl | hk
    · simp [hid]
    · exact List.mem_append_left _ (hr.keys_seen k hk)
  · show (r.Commits.set (hashHex data) c).len = n + 1
    rw [hset]
    simp only [GoMap.len, List.length_cons, Nat.add_right_cancel_iff]
    exact hr.len
  · show history (r.Commits.set (hashHex data) c) (n + 1) (hashHex data) = some (c :: l)
    rw [hset]
    have hg : GoMap.get ((hashHex data, c) :: r.Commits) (hashHex data) = some c := by
      simp [GoMap.get]
    rw [history_succ (hashHex_ne_empty data) hg, hprev,
      history_cons_fresh c hnew n r.Head l hl]
    rfl
  · simp [hlen]
  · simp only [List.map_cons, List.nodup_cons]
    refine ⟨?_, hnd⟩
    intro hm
    obtain ⟨c', hc', hcc⟩ := List.mem_map.mp hm
    have := history_ids_subset hr.keyed n r.Head l hl c' hc'
    rw [hcc, hcid] at this
    exact hnew this

theorem Linear_commitAll (calls : List (Time × lexicon.Document)) :
    ∀ (r r' : Repository) (n : Nat) (seen : List (Option String)), Linear r n seen →
      (seen ++ calls.map fun p => commitID p.2).Nodup → commitAll r calls = some r' →
      Linear r' (n + calls.length) (seen ++ calls.map fun p => commitID p.2) := by
  induction calls with
  | nil =>
    intro r r' n seen hr _ h
    simp only [commitAll, Option.some.injEq] at h
    subst h
    simpa using hr
  | cons p calls ih =>
    intro r r' n seen hr hnd h
    obtain ⟨now, doc⟩ := p
    unfold commitAll at h
    split at h
    · cases h
    · next c r₁ hc =>
      have hfresh : commitID doc ∉ seen := by
        intro hm
        rw [List.map_cons, List.nodup_append] at hnd
        exact hnd.2.2 hm (List.mem_cons_self _ _)
      have h₁ := Linear_step hr hfresh hc
      have := ih r₁ r' (n + 1) (seen ++ [commitID doc]) h₁ (by simpa using hnd) h
      simpa [Nat.add_assoc, Nat.add_comm 1] using this

set_option maxRecDepth 100000 in
/-- C4, as stated, fails: committing the same document twice gives the second
commit the id of the first, so it replaces the first in `Commits` with `Prev`
equal to its own id. The map then holds one commit, the head is that commit,
and following `Prev` from the head does not reach the empty string. -/
theorem C4_counterexample_repeated_document :
    commitAll (NewRepository "did:plc:abc123") [(noon, post1), (noon, post1)] = some twice ∧
      twice.Commits.len = 1 ∧
      (twice.Commits.get twice.Head).map (·.Prev) = some twice.Head ∧
      ¬ ∃ fuel l, history twice.Commits fuel twice.Head = some l := by
  refine ⟨by decide, by decide, by decide, ?_⟩
  rintro ⟨fuel, l, h⟩
  induction fuel generalizing l with
  | zero =>
    have h0 : history twice.Commits 0 twice.Head = none := by decide
    rw [h0] at h
    cases h
  | succ n ih =>
    have hne : twice.Head ≠ "" := by decide
    have hget : twice.Commits.get twice.Head =
        some ⟨twice.Head, twice.Head, post1Data, [], noon⟩ := by decide
    rw [history_succ hne hget] at h
    obtain ⟨l', hl', -⟩ := Option.map_eq_some'.mp h
    exact ih l' hl'

/-- C4, amended. For every repository created by `NewRepository` and every
sequence of successful `CreateCommit` calls on it whose commit ids are pairwise
distinct (no document is committed twice), following `Prev` from `Head` through
`Commits` reaches the empty string in exactly as many hops as there are commits
in the map, one per call, and visits no commit twice. -/
theorem C4_chain_of_distinct_commits (did : String) (calls : List (Time × lexicon.Document))
    (r : Repository) (hdistinct : (calls.map fun p => commitID p.2).Nodup)
    (h : (commitAll (NewRepository did) calls) = some r) :
    ∃ l, history r.Commits r.Commits.len r.Head = some l ∧ l.length = r.Commits.len ∧
      r.Commits.len = calls.length ∧ (l.map (·.ID)).Nodup := by
  have hl := Linear_commitAll calls (NewRepository did) r 0 [] (Linear_new did)
    (by simpa using hdistinct) h
  simp only [Nat.zero_add, List.nil_append] at hl
  obtain ⟨l, h₁, h₂, h₃⟩ := hl.chain
  exact ⟨l, by rw [hl.len]; exact h₁, by rw [hl.len]; exact h₂, hl.len, h₃⟩

set_option maxRecDepth 100000 in
theorem C4_chain_of_distinct_commits_witness :
    ((([(noon, post1), (noon, post2)] : List (Time × lexicon.Document)).map
        fun p => commitID p.2).Nodup ∧
      commitAll (NewRepository "did:plc:abc123") [(noon, post1), (noon, post2)] = some both) ∧
    ∃ l, history both.Commits both.Commits.len both.Head = some l ∧
      l.length = both.Commits.len ∧
      both.Commits.len = ([(noon, post1), (noon, post2)] : List (Time × lexicon.Document)).length ∧
      (l.map (·.ID)).Nodup :=
  ⟨⟨by decide, by decide⟩,
    C4_chain_of_distinct_commits "did:plc:abc123" [(noon, post1), (noon, post2)] both
      (by decide) (by decide)⟩

/-- A property of map entries that `CreateCommit` gives each commit it writes, and that holds of
every commit passed to `SaveCommit`, holds of every entry of every repository. -/
theorem step_entries (Q : String → Commit → Prop)
    (hcreate : ∀ (data : Bytes) (prev : String) (now : Time),
      Q (hashHex data) ⟨hashHex data, prev, data, [], now⟩)
    (w : World) (op : Op) (hop : ∀ did c, op = .saveCommit did c → Q c.ID c)
    (hw : ∀ r ∈ w.heap, ∀ e ∈ r.Commits, Q e.1 e.2) :
    ∀ r ∈ (w.step op).heap, ∀ e ∈ r.Commits, Q e.1 e.2 := by
  cases op with
  | newRepository did =>
    intro r hr e he
    simp only [World.step, List.mem_append, List.mem_singleton] at hr
    rcases hr with hr | rfl
    · exact hw r hr e he
    · simp [NewRepository] at he
  | createCommit p now doc =>
    simp only [World.step]
    cases hp : w.heap[p]? with
    | none => exact hw
    | some r₀ =>
      simp only
      cases hc : r₀.CreateCommit now doc with
      | error err => exact hw
      | ok res =>
        obtain ⟨c, r'⟩ := res
        obtain ⟨data, -, hcd, hr'⟩ := CreateCommit_ok_inv hc
        intro r hr e he
        rcases List.mem_or_eq_of_mem_set hr with hr | rfl
        · exact hw r hr e he
        · subst hr'
          rcases GoMap.mem_set he with rfl | he
          · rw [hcd]; exact hcreate _ _ _
          · exact hw r₀ (List.getElem?_mem hp) e he
  | saveRepository p =>
    simp only [World.step, World.SaveRepository]
    cases w.heap[p]? <;> exact hw
  | saveCommit did commit =>
    simp only [World.step, World.SaveCommit]
    cases w.GetRepository did with
    | error err => exact hw
    | ok p =>
      simp only
      cases hp : w.heap[p]? with
      | none => exact hw
      | some r₀ =>
        intro r hr e he
        rcases List.mem_or_eq_of_mem_set hr with hr | rfl
        · exact hw r hr e he
        · rcases GoMap.mem_set he with rfl | he
          · exact hop did commit rfl
          · exact hw r₀ (List.getElem?_mem hp) e he

theorem run_entries (Q : String → Commit → Prop)
    (hcreate : ∀ (data : Bytes) (prev : String) (now : Time),
      Q (hashHex data) ⟨hashHex data, prev, data, [], now⟩)
    (ops : List Op) :
    ∀ (w : World), (∀ did c, Op.saveCommit did c ∈ ops → Q c.ID c) →
      (∀ r ∈ w.heap, ∀ e ∈ r.Commits, Q e.1 e.2) →
      ∀ r ∈ (w.run ops).heap, ∀ e ∈ r.Commits, Q e.1 e.2 := by
  induction ops with
  | nil => intro w _ hw; exact hw
  | cons op ops ih =>
    intro w hops hw
    exact ih (w.step op) (fun did c hm => hops did c (List.mem_cons_of_mem _ hm))
      (step_entries Q hcreate w op
        (fun did c e => hops did c (e ▸ List.mem_cons_self _ _)) hw)

theorem GetCommit_ok_mem {w : World} {did id : String} {c : Commit}
    (h : w.GetCommit did id = .ok c) : ∃ r ∈ w.heap, (id, c) ∈ r.Commits := by
  unfold World.GetCommit at h
  split at h
  · cases h
  · next p _ =>
    split at h
    · cases h
    · next r hr =>
      split at h
      · cases h
      · next c' hc' =>
        cases h
        exact ⟨r, List.getElem?_mem hr, GoMap.get_eq_some_mem hc'⟩

set_option maxRecDepth 100000 in
/-- C2, as stated, fails: `SaveCommit` stores whatever commit it is given
under the id the commit names, so a commit whose id is not the hash of its data
is returned by `GetCommit`. -/
theorem C2_counterexample_SaveCommit_unhashed :
    (NewMemoryStore.run [.newRepository "did:plc:abc123", .saveRepository 0,
        .saveCommit "did:plc:abc123" ⟨"x", "", [], [], noon⟩]).GetCommit "did:plc:abc123" "x"
      = .ok ⟨"x", "", [], [], noon⟩ ∧
    (⟨"x", "", [], [], noon⟩ : Commit).ID ≠ hashHex (⟨"x", "", [], [], noon⟩ : Commit).Data := by
  decide

/-- C2, amended. In every store state reachable from `NewMemoryStore` and
`NewRepository` through any sequence of `Repository.CreateCommit`,
`SaveRepository` and `SaveCommit` calls, every commit returned by
`GetCommit(did, id)` has `ID` equal to `id`; it has `ID` equal to the hex
SHA-256 hash of its `Data` provided every commit that was passed to
`SaveCommit` had. -/
theorem C2_stored_commits_keyed_and_hashed (ops : List Op) (did id : String) (c : Commit)
    (h : (NewMemoryStore.run ops).GetCommit did id = .ok c) :
    c.ID = id ∧
      ((∀ did' c', Op.saveCommit did' c' ∈ ops → c'.ID = hashHex c'.Data) →
        c.ID = hashHex c.Data) := by
  obtain ⟨r, hr, he⟩ := GetCommit_ok_mem h
  constructor
  · exact run_entries (fun k c => c.ID = k) (fun _ _ _ => rfl) ops NewMemoryStore
      (fun _ _ _ => rfl) (by simp [NewMemoryStore]) r hr _ he
  · intro hops
    exact run_entries (fun _ c => c.ID = hashHex c.Data) (fun _ _ _ => rfl) ops NewMemoryStore
      hops (by simp [NewMemoryStore]) r hr _ he

set_option maxRecDepth 100000 in
theorem C2_stored_commits_keyed_and_hashed_witness :
    (NewMemoryStore.run [.newRepository "did:plc:abc123", .saveRepository 0,
        .createCommit 0 noon post1]).GetCommit "did:plc:abc123"
        "1e272b0ec386e28444ff57f99d3b42fb7e59b8fb6406ca501b466800c9437037"
      = .ok ⟨"1e272b0ec386e28444ff57f99d3b42fb7e59b8fb6406ca501b466800c9437037", "",
          post1Data, [], noon⟩ ∧
    "1e272b0ec386e28444ff57f99d3b42fb7e59b8fb6406ca501b466800c9437037" = hashHex post1Data :=
  have h : (NewMemoryStore.run [.newRepository "did:plc:abc123", .saveRepository 0,
        .createCommit 0 noon post1]).GetCommit "did:plc:abc123"
        "1e272b0ec386e28444ff57f99d3b42fb7e59b8fb6406ca501b466800c9437037"
      = .ok ⟨"1e272b0ec386e28444ff57f99d3b42fb7e59b8fb6406ca501b466800c9437037", "",
          post1Data, [], noon⟩ := by decide
  ⟨h, (C2_stored_commits_keyed_and_hashed _ _ _ _ h).2 (by simp)⟩

end repo

/-! ## `CreatePost`, step by step -/

namespace json

theorem encode_str (s : Bytes) : encode (.str s) = some (quoteBytes s) := by
  rw [encode]

theorem encode_obj (kvs : List (String × GoValue)) :
    encode (.obj kvs) = (encodeFields kvs).map fun ms => '{' :: members (sortKeys ms) ++ ['}'] := by
  rw [encode]

theorem encodeFields_nil : encodeFields [] = some [] := by
  rw [encodeFields]

theorem encodeFields_cons (k : String) (x : GoValue) (kvs : List (String × GoValue))
    (v : List Char) (ms : List (String × List Char)) (hx : encode x = some v)
    (hkvs : encodeFields kvs = some ms) : encodeFields ((k, x) :: kvs) = some ((k, v) :: ms) := by
  rw [encodeFields, hx, hkvs]

end json

namespace pds

theorem encode_postValue (env : Env) (content : Bytes) :
    json.encode (postValue env content) = some (postValueText env content) := by
  rw [postValue, json.encode_obj,
    json.encodeFields_cons _ _ _ _ _ (json.encode_str _)
      (json.encodeFields_cons _ _ _ _ _ (json.encode_str _) json.encodeFields_nil),
    json.quoteBytes_utf8]
  rfl

theorem Marshal_postValue (env : Env) (content : Bytes) :
    json.Marshal (postValue env content) = .ok (utf8 (postValueText env content)) := by
  simp [json.Marshal, encode_postValue]

theorem encode_commitData (env : Env) (content : Bytes) :
    json.encode (commitData env content) = some (commitDataText env content) := by
  rw [commitData, json.encode_obj,
    json.encodeFields_cons _ _ _ _ _ (json.encode_str _)
      (json.encodeFields_cons _ _ _ _ _ (json.encode_str _)
        (json.encodeFields_cons _ _ _ _ _ (encode_postValue env content) json.encodeFields_nil)),
    json.quoteBytes_utf8, json.quoteBytes_utf8]
  rfl

theorem Marshal_commitData (env : Env) (content : Bytes) :
    json.Marshal (commitData env content) = .ok (utf8 (commitDataText env content)) := by
  simp [json.Marshal, encode_commitData]

theorem headOf_eq_of_find {db : DB} {did : String} {r : Repository}
    (h : db.repositories.find? (fun r => r.DID = did) = some r) : headOf db did = r.Head := by
  simp [headOf, h]

theorem headOf_eq_of_not_found {db : DB} {did : String}
    (h : db.repositories.find? (fun r => r.DID = did) = none) : headOf db did = "" := by
  simp [headOf, h]

/-- What the first step of `CreatePost` returns and leaves behind. -/
theorem getOrCreateRepository_ok_inv {db db1 : DB} {env : Env} {did : String} {repo : Repository}
    (h : getOrCreateRepository db env did = .ok (repo, db1)) :
    repo.DID = did ∧ repo.Head = headOf db did ∧ db1.commits = db.commits ∧
      db1.documents = db.documents ∧ db1.repositories.find? (fun r => r.DID = did) = some repo ∧
      ∀ d, headOf db1 d = headOf db d := by
  unfold getOrCreateRepository at h
  split at h
  · next r hr =>
    simp only [Except.ok.injEq, Prod.mk.injEq] at h
    obtain ⟨rfl, rfl⟩ := h
    unfold GetRepository at hr
    split at hr
    · cases hr
    · split at hr
      · cases hr
      · next r' hf =>
        cases hr
        have := List.find?_some hf
        simp only [decide_eq_true_eq] at this
        exact ⟨this, (headOf_eq_of_find hf).symm, rfl, rfl, hf, fun _ => rfl⟩
  · split at h
    · cases h
    · next r db' hc =>
      simp only [Except.ok.injEq, Prod.mk.injEq] at h
      obtain ⟨rfl, rfl⟩ := h
      unfold CreateRepository at hc
      split at hc
      · cases hc
      · split at hc
        · cases hc
        · next hany =>
          simp only [Except.ok.injEq, Prod.mk.injEq] at hc
          obtain ⟨rfl, rfl⟩ := hc
          have hnone : db.repositories.find? (fun r => r.DID = did) = none := by
            rw [List.find?_eq_none]
            intro x hx hp
            exact hany (List.any_eq_true.mpr ⟨x, hx, hp⟩)
          refine ⟨rfl, (headOf_eq_of_not_found hnone).symm, rfl, rfl, ?_, ?_⟩
          · simp [List.find?_append, hnone]
          · intro d
            simp only [headOf, List.find?_append]
            cases hd : db.repositories.find? (fun r => r.DID = d) with
            | some r' => simp
            | none =>
              by_cases hdd : did = d
              · simp [hdd]
              · simp [hdd]

theorem CreateDocument_ok_inv {db db' : DB} {now : Time} {fault : Option GoError}
    {doc doc' : Document} (h : CreateDocument db now fault doc = .ok (doc', db')) :
    fault = none ∧ doc' = { doc with CreatedAt := now, UpdatedAt := now } ∧
      (∀ d ∈ db.documents, ¬ (d.RepositoryDID = doc.RepositoryDID ∧ d.ID = doc.ID)) ∧
      db' = { db with documents := db.documents ++ [doc'] } := by
  unfold CreateDocument at h
  split at h
  · cases h
  · split at h
    · cases h
    · next hany =>
      simp only [Except.ok.injEq, Prod.mk.injEq] at h
      obtain ⟨rfl, rfl⟩ := h
      refine ⟨rfl, rfl, ?_, rfl⟩
      intro d hd hp
      exact hany (List.any_eq_true.mpr ⟨d, hd, by simpa using hp⟩)

theorem CreateCommit_row_inv {db db' : DB} {now : Time} {fault : Option GoError}
    {commit commit' : Commit} (h : CreateCommit db now fault commit = .ok (commit', db')) :
    fault = none ∧ commit' = { commit with CreatedAt := now } ∧
      (∀ c ∈ db.commits, c.ID ≠ commit.ID) ∧
      db' = { db with commits := db.commits ++ [commit'] } := by
  unfold CreateCommit at h
  split at h
  · cases h
  · split at h
    · cases h
    · next hany =>
      simp only [Except.ok.injEq, Prod.mk.injEq] at h
      obtain ⟨rfl, rfl⟩ := h
      refine ⟨rfl, rfl, ?_, rfl⟩
      intro c hc hp
      exact hany (List.any_eq_true.mpr ⟨c, hc, by simpa using hp⟩)

theorem UpdateRepository_ok_inv {db db' : DB} {now : Time} {fault : Option GoError}
    {repo repo' : Repository} (h : UpdateRepository db now fault repo = .ok (repo', db')) :
    fault = none ∧
      db' = { db with
        repositories := db.repositories.map fun r =>
          if r.DID = repo.DID then { r with Head := repo.Head, UpdatedAt := now } else r } := by
  unfold UpdateRepository at h
  split at h
  · cases h
  · simp only [Except.ok.injEq, Prod.mk.injEq] at h
    exact ⟨rfl, h.2.symm⟩

theorem UpdateRepository_error_inv {db : DB} {now : Time} {fault : Option GoError}
    {repo : Repository} {err : GoError} (h : UpdateRepository db now fault repo = .error err) :
    fault ≠ none := by
  unfold UpdateRepository at h
  split at h
  · simp_all
  · cases h

/-- The head of every repository after an update of the head of one. -/
theorem headOf_update (rows : List Repository) (commits : List Commit) (documents : List Document)
    (did head : String) (now : Time) (d : String)
    (hex : ∃ r, rows.find? (fun r => r.DID = did) = some r) :
    headOf ⟨rows.map fun r =>
        if r.DID = did then { r with Head := head, UpdatedAt := now } else r, commits, documents⟩ d
      = if d = did then head else headOf ⟨rows, commits, documents⟩ d := by
  have hcomp : ((fun r : Repository => decide (r.DID = d)) ∘ fun r =>
      if r.DID = did then { r with Head := head, UpdatedAt := now } else r) =
      fun r => decide (r.DID = d) := by
    funext r
    by_cases hr : r.DID = did <;> simp [hr]
  simp only [headOf, List.find?_map, hcomp]
  by_cases hd : d = did
  · subst hd
    obtain ⟨r, hr⟩ := hex
    have hrd : r.DID = d := by simpa using List.find?_some hr
    simp [hr, hrd]
  · cases hf : rows.find? (fun r => decide (r.DID = d)) with
    | none => simp [hd]
    | some r =>
      have hrd : r.DID = d := by simpa using List.find?_some hf
      have : ¬ r.DID = did := fun e => hd (hrd ▸ e)
      simp [hd, this]

/-- The four ways a call of `CreatePost` ends, with what each leaves in the
database: an error before anything of the post is written; an error after the
document is written; an error after document and commit are written (only
when `UpdateRepository` fails); or the document returned, with document and
commit written and the head moved to the commit. In the first three the head
of every repository is as before. -/
theorem CreatePost_outcome (db : DB) (env : Env) (did : String) (content : Bytes) :
    let res := CreatePost db env did content
    let doc := newDocument env did content
    let commit := newCommit env did content (headOf db did)
    (failed res.1 = true ∧ (∀ d, headOf res.2 d = headOf db d) ∧
        res.2.commits = db.commits ∧ res.2.documents = db.documents) ∨
    (failed res.1 = true ∧ (∀ d, headOf res.2 d = headOf db d) ∧
        res.2.commits = db.commits ∧ res.2.documents = db.documents ++ [doc] ∧
        (∀ d ∈ db.documents, ¬ (d.RepositoryDID = did ∧ d.ID = doc.ID))) ∨
    (failed res.1 = true ∧ (∀ d, headOf res.2 d = headOf db d) ∧
        res.2.commits = db.commits ++ [commit] ∧ res.2.documents = db.documents ++ [doc] ∧
        (∀ d ∈ db.documents, ¬ (d.RepositoryDID = did ∧ d.ID = doc.ID)) ∧
        (∀ c ∈ db.commits, c.ID ≠ commit.ID) ∧ env.updateRepositoryFault ≠ none) ∨
    (res.1 = .ok doc ∧ (∀ d, headOf res.2 d = if d = did then commit.ID else headOf db d) ∧
        res.2.commits = db.commits ++ [commit] ∧ res.2.documents = db.documents ++ [doc] ∧
        (∀ d ∈ db.documents, ¬ (d.RepositoryDID = did ∧ d.ID = doc.ID)) ∧
        (∀ c ∈ db.commits, c.ID ≠ commit.ID) ∧ env.updateRepositoryFault = none) := by
  intro res doc commit
  have hres : res = CreatePost db env did content := rfl
  unfold CreatePost at hres
  cases h1 : getOrCreateRepository db env did with
  | error err =>
    rw [h1] at hres
    simp only at hres
    left
    rw [hres]
    exact ⟨rfl, fun _ => rfl, rfl, rfl⟩
  | ok p =>
    obtain ⟨repo, db1⟩ := p
    obtain ⟨hdid, hhead, hc1, hd1, hfind, hheads⟩ := getOrCreateRepository_ok_inv h1
    rw [h1] at hres
    simp only [Marshal_postValue, Marshal_commitData] at hres
    cases h2 : CreateDocument db1 env.nowCreateDocument env.createDocumentFault
        { ID := postID env, RepositoryDID := did, Typ := "app.bsky.feed.post",
          Value := utf8 (postValueText env content), CreatedAt := Time.zero,
          UpdatedAt := Time.zero } with
    | error err =>
      rw [h2] at hres
      simp only at hres
      left
      rw [hres]
      exact ⟨rfl, hheads, hc1, hd1⟩
    | ok p =>
      obtain ⟨doc', db2⟩ := p
      obtain ⟨-, hdoc', hfreshd, hdb2⟩ := CreateDocument_ok_inv h2
      have hdoc : doc' = doc := hdoc'
      rw [hd1] at hfreshd
      rw [h2] at hres
      simp only at hres
      cases h3 : CreateCommit db2 env.nowCreateCommit env.createCommitFault
          { ID := hashHex (utf8 (commitDataText env content)), RepositoryDID := did,
            Prev := repo.Head, Data := utf8 (commitDataText env content), Signature := [],
            CreatedAt := Time.zero } with
      | error err =>
        rw [h3] at hres
        simp only at hres
        right; left
        rw [hres, hdb2]
        refine ⟨rfl, ?_, hc1, ?_, hfreshd⟩
        · intro d; exact hheads d
        · show db1.documents ++ [doc'] = _
          rw [hd1, hdoc]
      | ok p =>
        obtain ⟨commit', db3⟩ := p
        obtain ⟨-, hcommit', hfreshc, hdb3⟩ := CreateCommit_row_inv h3
        have hcommit : commit' = commit := by
          rw [hcommit']
          simp only [commit, newCommit, hhead]
        have hfreshc' : ∀ c ∈ db.commits, c.ID ≠ commit.ID := by
          intro c hc
          have := hfreshc c (by rw [hdb2]; exact hc1 ▸ hc)
          exact this
        rw [h3] at hres
        simp only at hres
        cases h4 : UpdateRepository db3 env.nowUpdateRepository env.updateRepositoryFault
            { repo with Head := hashHex (utf8 (commitDataText env content)) } with
        | error err =>
          rw [h4] at hres
          simp only at hres
          right; right; left
          rw [hres, hdb3, hdb2]
          refine ⟨rfl, ?_, ?_, ?_, hfreshd, hfreshc', UpdateRepository_error_inv h4⟩
          · intro d; exact hheads d
          · show db1.commits ++ [commit'] = _
            rw [hc1, hcommit]
          · show db1.documents ++ [doc'] = _
            rw [hd1, hdoc]
        | ok p =>
          obtain ⟨repo', db4⟩ := p
          obtain ⟨hfault, hdb4⟩ := UpdateRepository_ok_inv h4
          rw [h4] at hres
          simp only at hres
          right; right; right
          rw [hres, hdb4, hdb3, hdb2]
          refine ⟨by rw [hdoc], ?_, ?_, ?_, hfreshd, hfreshc', hfault⟩
          · intro d
            have := headOf_update db1.repositories (db1.commits ++ [commit'])
              (db1.documents ++ [doc']) did (hashHex (utf8 (commitDataText env content)))
              env.nowUpdateRepository d ⟨repo, hfind⟩
            simp only [hdid]
            rw [this]
            have hh : headOf ⟨db1.repositories, db1.commits ++ [commit'],
                db1.documents ++ [doc']⟩ d = headOf db d := by
              rw [← hheads d]; rfl
            rw [hh]
            rfl
          · show db1.commits ++ [commit'] = _
            rw [hc1, hcommit]
          · show db1.documents ++ [doc'] = _
            rw [hd1, hdoc]

set_option maxRecDepth 100000 in
/-- The worked example of the specification: the first post of a repository. -/
theorem CreatePost_hello :
    CreatePost DB.empty (quiet noon) "did:plc:abc123" (utf8 "hello world".data) = (.ok helloDoc, afterHello) := by
  decide

set_option maxRecDepth 100000 in
/-- The worked example of the specification, continued: a second post. -/
theorem CreatePost_second :
    CreatePost afterHello (quiet noon1) "did:plc:abc123" (utf8 "second".data) = (.ok secondDoc, afterSecond) := by
  decide

theorem CreatePost_ok_inv {db db' : DB} {env : Env} {did : String} {content : Bytes} {doc : Document}
    (h : CreatePost db env did content = (.ok doc, db')) :
    doc = newDocument env did content ∧
      (∀ d, headOf db' d =
        if d = did then (newCommit env did content (headOf db did)).ID else headOf db d) ∧
      db'.commits = db.commits ++ [newCommit env did content (headOf db did)] ∧
      db'.documents = db.documents ++ [doc] ∧
      (∀ d ∈ db.documents, ¬ (d.RepositoryDID = did ∧ d.ID = doc.ID)) ∧
      (∀ c ∈ db.commits, c.ID ≠ (newCommit env did content (headOf db did)).ID) := by
  have ho := CreatePost_outcome db env did content
  simp only [h] at ho
  rcases ho with ⟨hf, -⟩ | ⟨hf, -⟩ | ⟨hf, -⟩ | ⟨hd, hh, hc, hdocs, hfd, hfc, -⟩
  · cases hf
  · cases hf
  · cases hf
  · have hd' : doc = newDocument env did content := by
      simpa using hd
    subst hd'
    exact ⟨rfl, hh, hc, hdocs, hfd, hfc⟩

theorem GetCommit_append_new {db : DB} {c : Commit} (rows : List Repository)
    (docs : List Document) (hfresh : ∀ c' ∈ db.commits, c'.ID ≠ c.ID) :
    GetCommit ⟨rows, db.commits ++ [c], docs⟩ none c.ID = .ok c := by
  have hnone : db.commits.find? (fun c' => c'.ID = c.ID) = none := by
    rw [List.find?_eq_none]
    intro x hx hp
    exact hfresh x hx (by simpa using hp)
  simp [GetCommit, List.find?_append, hnone]

theorem GetCommit_of_commits_eq {db db' : DB} (h : db'.commits = db.commits) (id : String) :
    GetCommit db' none id = GetCommit db none id := by
  simp [GetCommit, h]

/-- C1. The commit id is a function of the payload bytes alone: two
repositories (any heads, any clock readings) that commit the same document
return commits with the same id, and that id is the lowercase hexadecimal
SHA-256 of the commit data; likewise every commit row `CreatePost` writes has
as id the hexadecimal SHA-256 of its data, the marshalled commit payload, and a
call that returns a document has written such a row. -/
theorem C1_commit_id_is_hash_of_payload (doc : lexicon.Document) (r1 r2 r1' r2' : repo.Repository)
    (t1 t2 : Time) (c1 c2 : repo.Commit)
    (h1 : r1.CreateCommit t1 doc = .ok (c1, r1')) (h2 : r2.CreateCommit t2 doc = .ok (c2, r2'))
    (db : DB) (env : Env) (did : String) (content : Bytes) :
    (c1.ID = c2.ID ∧ c1.ID = hashHex c1.Data ∧ c2.ID = hashHex c2.Data ∧
      c1.ID.length = 64 ∧ ∀ ch ∈ c1.ID.data, ch ∈ hex.hextable) ∧
    ((CreatePost db env did content).2.commits = db.commits ∨
      ∃ c, (CreatePost db env did content).2.commits = db.commits ++ [c] ∧
        json.Marshal (commitData env content) = .ok c.Data ∧ c.ID = hashHex c.Data) ∧
    (failed (CreatePost db env did content).1 = false →
      ∃ c, (CreatePost db env did content).2.commits = db.commits ++ [c] ∧
        json.Marshal (commitData env content) = .ok c.Data ∧ c.ID = hashHex c.Data) := by
  obtain ⟨d1, hd1, hc1, -⟩ := repo.CreateCommit_ok_inv h1
  obtain ⟨d2, hd2, hc2, -⟩ := repo.CreateCommit_ok_inv h2
  have hd : d1 = d2 := by
    rw [hd1] at hd2
    cases hd2
    rfl
  subst hd
  refine ⟨⟨by rw [hc1, hc2], by rw [hc1], by rw [hc2], by rw [hc1]; exact hashHex_length _, ?_⟩,
    ?_, ?_⟩
  · rw [hc1]
    exact hashHex_chars d1
  · rcases CreatePost_outcome db env did content with ⟨-, -, hc, -⟩ | ⟨-, -, hc, -⟩ |
      ⟨-, -, hc, -⟩ | ⟨-, -, hc, -⟩
    · exact Or.inl hc
    · exact Or.inl hc
    · exact Or.inr ⟨_, hc, Marshal_commitData env content, rfl⟩
    · exact Or.inr ⟨_, hc, Marshal_commitData env content, rfl⟩
  · intro hok
    rcases CreatePost_outcome db env did content with ⟨hf, -⟩ | ⟨hf, -⟩ | ⟨hf, -⟩ | ⟨-, -, hc, -⟩
    · rw [hok] at hf; cases hf
    · rw [hok] at hf; cases hf
    · rw [hok] at hf; cases hf
    · exact ⟨_, hc, Marshal_commitData env content, rfl⟩

set_option maxRecDepth 100000 in
theorem C1_commit_id_is_hash_of_payload_witness :
    ((repo.NewRepository "did:plc:abc123").CreateCommit noon repo.post1 =
        .ok (⟨"1e272b0ec386e28444ff57f99d3b42fb7e59b8fb6406ca501b466800c9437037", "",
          repo.post1Data, [], noon⟩, repo.once) ∧
      repo.once.CreateCommit noon repo.post1 =
        .ok (⟨"1e272b0ec386e28444ff57f99d3b42fb7e59b8fb6406ca501b466800c9437037",
          "1e272b0ec386e28444ff57f99d3b42fb7e59b8fb6406ca501b466800c9437037",
          repo.post1Data, [], noon⟩, repo.twice)) ∧
    "1e272b0ec386e28444ff57f99d3b42fb7e59b8fb6406ca501b466800c9437037" = hashHex repo.post1Data ∧
    ∃ c, (CreatePost DB.empty (quiet noon) "did:plc:abc123" (utf8 "hello world".data)).2.commits
        = DB.empty.commits ++ [c] ∧
      json.Marshal (commitData (quiet noon) (utf8 "hello world".data)) = .ok c.Data ∧
      c.ID = hashHex c.Data :=
  have h1 : (repo.NewRepository "did:plc:abc123").CreateCommit noon repo.post1 =
      .ok (⟨"1e272b0ec386e28444ff57f99d3b42fb7e59b8fb6406ca501b466800c9437037", "",
        repo.post1Data, [], noon⟩, repo.once) := by decide
  have h2 : repo.once.CreateCommit noon repo.post1 =
      .ok (⟨"1e272b0ec386e28444ff57f99d3b42fb7e59b8fb6406ca501b466800c9437037",
        "1e272b0ec386e28444ff57f99d3b42fb7e59b8fb6406ca501b466800c9437037",
        repo.post1Data, [], noon⟩, repo.twice) := by decide
  have h := C1_commit_id_is_hash_of_payload repo.post1 _ _ _ _ noon noon _ _ h1 h2 DB.empty
    (quiet noon) "did:plc:abc123" (utf8 "hello world".data)
  ⟨⟨h1, h2⟩, h.1.2.1, h.2.2 (by decide)⟩

/-- C7. After every successful `CreatePost(did, content)` the stored head of
the repository is the hexadecimal SHA-256 of the commit payload, the JSON
encoding of `{op: "create", path: <id of the returned document>, value: <value
of the returned document>}`, and a commit with that id and that payload as
`Data` is stored. -/
theorem C7_head_is_hash_of_commit_payload (db db' : DB) (env : Env) (did : String) (content : Bytes)
    (doc : Document) (h : CreatePost db env did content = (.ok doc, db')) :
    ∃ (value : GoValue) (payload : Bytes),
      json.Marshal value = .ok doc.Value ∧
      json.Marshal (.obj [("op", .str (utf8 "create".data)), ("path", .str (utf8 doc.ID.data)),
          ("value", value)])
        = .ok payload ∧
      (∃ r, GetRepository db' none did = .ok r ∧ r.Head = hashHex payload) ∧
      ∃ c, GetCommit db' none (hashHex payload) = .ok c ∧ c.ID = hashHex payload ∧
        c.Data = payload ∧ c.RepositoryDID = did := by
  obtain ⟨hdoc, hheads, hcommits, -, -, hfresh⟩ := CreatePost_ok_inv h
  refine ⟨postValue env content, utf8 (commitDataText env content), ?_, ?_, ?_, ?_⟩
  · rw [hdoc]; exact Marshal_postValue env content
  · rw [hdoc]; exact Marshal_commitData env content
  · have hh := hheads did
    simp only [if_true] at hh
    have hne : headOf db' did ≠ "" := by
      rw [hh]; exact hashHex_ne_empty _
    unfold headOf at hh hne
    cases hf : db'.repositories.find? (fun r => r.DID = did) with
    | none => simp [hf] at hne
    | some r =>
      simp only [hf] at hh
      exact ⟨r, by simp [GetRepository, hf], hh⟩
  · refine ⟨newCommit env did content (headOf db did), ?_, rfl, rfl, rfl⟩
    have := GetCommit_append_new (c := newCommit env did content (headOf db did))
      db'.repositories db'.documents hfresh
    rw [← hcommits] at this
    exact this

theorem C7_head_is_hash_of_commit_payload_witness :
    CreatePost DB.empty (quiet noon) "did:plc:abc123" (utf8 "hello world".data) = (.ok helloDoc, afterHello) ∧
    ∃ (value : GoValue) (payload : Bytes),
      json.Marshal value = .ok helloDoc.Value ∧
      json.Marshal (.obj [("op", .str (utf8 "create".data)), ("path", .str (utf8 helloDoc.ID.data)),
          ("value", value)])
        = .ok payload ∧
      (∃ r, GetRepository afterHello none "did:plc:abc123" = .ok r ∧ r.Head = hashHex payload) ∧
      ∃ c, GetCommit afterHello none (hashHex payload) = .ok c ∧ c.ID = hashHex payload ∧
        c.Data = payload ∧ c.RepositoryDID = "did:plc:abc123" :=
  ⟨CreatePost_hello, C7_head_is_hash_of_commit_payload _ _ _ _ _ _ CreatePost_hello⟩

/-- C8. The commit written by a successful `CreatePost` has `Prev` equal to
the head of the repository immediately before the call (the empty string when
the repository did not exist yet); hence, when the next call for the same did
succeeds too, the `Prev` of its commit is the id of the first commit. -/
theorem C8_prev_is_head_before_call (db db1 : DB) (env1 : Env) (did : String) (content1 : Bytes)
    (doc1 : Document) (h1 : CreatePost db env1 did content1 = (.ok doc1, db1)) :
    ∃ c1, db1.commits = db.commits ++ [c1] ∧ c1.RepositoryDID = did ∧
      c1.Prev = headOf db did ∧ headOf db1 did = c1.ID ∧
      ∀ (env2 : Env) (content2 : Bytes) (doc2 : Document) (db2 : DB),
        CreatePost db1 env2 did content2 = (.ok doc2, db2) →
        ∃ c2, db2.commits = db1.commits ++ [c2] ∧ c2.RepositoryDID = did ∧
          headOf db2 did = c2.ID ∧ c2.Prev = c1.ID := by
  obtain ⟨-, hheads, hcommits, -, -, -⟩ := CreatePost_ok_inv h1
  have hh := hheads did
  simp only [if_true] at hh
  refine ⟨_, hcommits, rfl, rfl, hh, ?_⟩
  intro env2 content2 doc2 db2 h2
  obtain ⟨-, hheads2, hcommits2, -, -, -⟩ := CreatePost_ok_inv h2
  have hh2 := hheads2 did
  simp only [if_true] at hh2
  exact ⟨_, hcommits2, rfl, hh2, hh⟩

theorem C8_prev_is_head_before_call_witness :
    CreatePost DB.empty (quiet noon) "did:plc:abc123" (utf8 "hello world".data) = (.ok helloDoc, afterHello) ∧
    ∃ c1, afterHello.commits = DB.empty.commits ++ [c1] ∧ c1.RepositoryDID = "did:plc:abc123" ∧
      c1.Prev = headOf DB.empty "did:plc:abc123" ∧ headOf afterHello "did:plc:abc123" = c1.ID ∧
      ∀ (env2 : Env) (content2 : Bytes) (doc2 : Document) (db2 : DB),
        CreatePost afterHello env2 "did:plc:abc123" content2 = (.ok doc2, db2) →
        ∃ c2, db2.commits = afterHello.commits ++ [c2] ∧ c2.RepositoryDID = "did:plc:abc123" ∧
          headOf db2 "did:plc:abc123" = c2.ID ∧ c2.Prev = c1.ID :=
  ⟨CreatePost_hello, C8_prev_is_head_before_call _ _ _ _ _ _ CreatePost_hello⟩

theorem GetDocumentsByType_ok_inv {db : DB} {q s r : Option GoError} {did ty : String}
    {docs : List Document} (h : GetDocumentsByType db q s r did ty = .ok docs) :
    docs = selectByType db did ty := by
  unfold GetDocumentsByType at h
  split at h
  · cases h
  · simp only at h
    split at h
    · cases h
    · split at h
      · cases h
      · cases h; rfl

/-- A key of `documents` that is present once stays present once, with the same row. -/
theorem CreatePost_keeps_document (db : DB) (env : Env) (did : String) (content : Bytes)
    (did' id : String) (doc : Document) (hmem : doc ∈ db.documents)
    (hkey : doc.RepositoryDID = did' ∧ doc.ID = id)
    (hone : db.documents.countP (fun d => d.RepositoryDID = did' ∧ d.ID = id) = 1) :
    doc ∈ (CreatePost db env did content).2.documents ∧
      (CreatePost db env did content).2.documents.countP
        (fun d => d.RepositoryDID = did' ∧ d.ID = id) = 1 := by
  have happ : ∀ docs, docs = db.documents ++ [newDocument env did content] →
      (∀ d ∈ db.documents, ¬ (d.RepositoryDID = did ∧ d.ID = (newDocument env did content).ID)) →
      doc ∈ docs ∧ docs.countP (fun d => d.RepositoryDID = did' ∧ d.ID = id) = 1 := by
    intro docs hdocs hfresh
    subst hdocs
    refine ⟨List.mem_append_left _ hmem, ?_⟩
    rw [List.countP_append, hone]
    have hnew : ¬ ((newDocument env did content).RepositoryDID = did' ∧
        (newDocument env did content).ID = id) := by
      rintro ⟨h1, h2⟩
      exact hfresh doc hmem ⟨hkey.1.trans h1.symm, hkey.2.trans h2.symm⟩
    simp [List.countP_cons, hnew]
  rcases CreatePost_outcome db env did content with ⟨-, -, -, hd⟩ | ⟨-, -, -, hd, hf⟩ |
    ⟨-, -, -, hd, hf, -⟩ | ⟨-, -, -, hd, hf, -⟩
  · rw [hd]; exact ⟨hmem, hone⟩
  · exact happ _ hd hf
  · exact happ _ hd hf
  · exact happ _ hd hf

theorem runPosts_keeps_document (calls : List Call) :
    ∀ (db : DB) (did' id : String) (doc : Document), doc ∈ db.documents →
      (doc.RepositoryDID = did' ∧ doc.ID = id) →
      db.documents.countP (fun d => d.RepositoryDID = did' ∧ d.ID = id) = 1 →
      doc ∈ (runPosts db calls).documents ∧
        (runPosts db calls).documents.countP (fun d => d.RepositoryDID = did' ∧ d.ID = id) = 1 := by
  induction calls with
  | nil => intro db did' id doc hmem _ hone; exact ⟨hmem, hone⟩
  | cons c calls ih =>
    intro db did' id doc hmem hkey hone
    obtain ⟨h1, h2⟩ := CreatePost_keeps_document db c.env c.did c.content did' id doc hmem hkey hone
    exact ih _ did' id doc h1 hkey h2

/-- C10. No loss on success: when `CreatePost(did, content)` returns a
document `d`, a subsequent `GetDocumentsByType(did, "app.bsky.feed.post")`,
right away or after any further `CreatePost` calls, returns a list in which
`d` occurs, and in which exactly one document has the id of `d`. -/
theorem C10_created_post_listed_once (db db' : DB) (env : Env) (did : String) (content : Bytes)
    (doc : Document) (h : CreatePost db env did content = (.ok doc, db'))
    (later : List Call) (q s r : Option GoError) (docs : List Document)
    (hget : GetDocumentsByType (runPosts db' later) q s r did "app.bsky.feed.post" = .ok docs) :
    doc ∈ docs ∧ docs.countP (fun d => d.ID = doc.ID) = 1 := by
  obtain ⟨hdoc, -, -, hdocs, hfresh, -⟩ := CreatePost_ok_inv h
  have hdid : doc.RepositoryDID = did := by rw [hdoc]; rfl
  have hty : doc.Typ = "app.bsky.feed.post" := by rw [hdoc]; rfl
  have hmem : doc ∈ db'.documents := by rw [hdocs]; simp
  have hone : db'.documents.countP (fun d => d.RepositoryDID = did ∧ d.ID = doc.ID) = 1 := by
    rw [hdocs, List.countP_append]
    have h0 : db.documents.countP (fun d => d.RepositoryDID = did ∧ d.ID = doc.ID) = 0 := by
      rw [List.countP_eq_zero]
      intro d hd hp
      exact hfresh d hd (by simpa using hp)
    rw [h0]
    simp [List.countP_cons, hdid]
  obtain ⟨hm, hc⟩ := runPosts_keeps_document later db' did doc.ID doc hmem ⟨hdid, rfl⟩ hone
  have hsel := GetDocumentsByType_ok_inv hget
  subst hsel
  have hin : doc ∈ selectByType (runPosts db' later) did "app.bsky.feed.post" := by
    unfold selectByType
    rw [List.mem_insertionSort, List.mem_filter]
    exact ⟨hm, by simp [hdid, hty]⟩
  refine ⟨hin, ?_⟩
  apply Nat.le_antisymm
  · unfold selectByType
    rw [(List.perm_insertionSort _ _).countP_eq, List.countP_filter, ← hc]
    apply List.countP_mono_left
    intro d _ hp
    simp only [Bool.and_eq_true, decide_eq_true_eq] at hp ⊢
    exact ⟨hp.2.1, hp.1⟩
  · exact List.countP_pos_iff.mpr ⟨doc, hin, by simp⟩

set_option maxRecDepth 100000 in
theorem C10_created_post_listed_once_witness :
    (CreatePost DB.empty (quiet noon) "did:plc:abc123" (utf8 "hello world".data) = (.ok helloDoc, afterHello) ∧
      GetDocumentsByType (runPosts afterHello [⟨quiet noon1, "did:plc:abc123", utf8 "second".data⟩])
        none none none "did:plc:abc123" "app.bsky.feed.post" = .ok [secondDoc, helloDoc]) ∧
    helloDoc ∈ [secondDoc, helloDoc] ∧
      [secondDoc, helloDoc].countP (fun d => d.ID = helloDoc.ID) = 1 :=
  have hget : GetDocumentsByType (runPosts afterHello [⟨quiet noon1, "did:plc:abc123", utf8 "second".data⟩])
      none none none "did:plc:abc123" "app.bsky.feed.post" = .ok [secondDoc, helloDoc] := by
    decide
  ⟨⟨CreatePost_hello, hget⟩,
    C10_created_post_listed_once _ _ _ _ _ _ CreatePost_hello _ _ _ _ _ hget⟩

end pds

/-! ## The commit chain of the durable store -/

namespace pds

theorem history_of_empty_head (db : DB) (fuel : Nat) : history db fuel "" = some [] := by
  unfold history
  simp

theorem history_step {db : DB} {fuel : Nat} {head : String} {c : Commit}
    (hne : head ≠ "") (hget : GetCommit db none head = .ok c) :
    history db (fuel + 1) head = (history db fuel c.Prev).map fun l => c :: l := by
  rw [history]
  simp [hne, hget]

theorem history_inv {db : DB} {fuel : Nat} {head : String} {l : List Commit}
    (h : history db fuel head = some l) :
    (head = "" ∧ l = []) ∨
      ∃ n c l', fuel = n + 1 ∧ head ≠ "" ∧ GetCommit db none head = .ok c ∧
        history db n c.Prev = some l' ∧ l = c :: l' := by
  by_cases h0 : head = ""
  · subst h0
    rw [history_of_empty_head] at h
    cases h
    exact Or.inl ⟨rfl, rfl⟩
  · right
    cases fuel with
    | zero =>
      unfold history at h
      simp [h0] at h
    | succ n =>
      rw [history] at h
      simp only [h0, if_false] at h
      cases hg : GetCommit db none head with
      | error e => simp [hg] at h
      | ok c =>
        simp only [hg, Option.map_eq_some'] at h
        obtain ⟨l', hl', rfl⟩ := h
        exact ⟨n, c, l', rfl, h0, rfl, hl', rfl⟩

/-- A commit that `GetCommit` finds is found unchanged after a row is appended to `commits`. -/
theorem GetCommit_append {db db' : DB} {c c' : Commit} {id : String}
    (hdb : db'.commits = db.commits ++ [c']) (h : GetCommit db none id = .ok c) :
    GetCommit db' none id = .ok c := by
  unfold GetCommit at h ⊢
  simp only at h ⊢
  rw [hdb, List.find?_append]
  cases hf : db.commits.find? (fun c => c.ID = id) with
  | none => simp [hf] at h
  | some c₀ => simpa [hf] using h

/-- A chain is found unchanged after a row is appended to `commits`. -/
theorem history_append {db db' : DB} {c' : Commit} (hdb : db'.commits = db.commits ++ [c']) :
    ∀ (fuel : Nat) (head : String) (l : List Commit),
      history db fuel head = some l → history db' fuel head = some l := by
  intro fuel
  induction fuel with
  | zero =>
    intro head l h
    rcases history_inv h with ⟨rfl, rfl⟩ | ⟨n, _, _, hn, _⟩
    · exact history_of_empty_head _ _
    · cases hn
  | succ n ih =>
    intro head l h
    rcases history_inv h with ⟨rfl, rfl⟩ | ⟨m, c, l', hn, hne, hg, hl', rfl⟩
    · exact history_of_empty_head _ _
    · cases hn
      rw [history_step hne (GetCommit_append hdb hg), ih _ _ hl']
      rfl

theorem history_congr {db db' : DB} (hdb : db'.commits = db.commits) (fuel : Nat) :
    ∀ (head : String), history db' fuel head = history db fuel head := by
  induction fuel with
  | zero => intro head; unfold history; rfl
  | succ n ih =>
    intro head
    rw [history, history]
    simp only [GetCommit_of_commits_eq hdb, ih]

/-- More fuel finds the same chain. -/
theorem history_mono {db : DB} :
    ∀ (fuel : Nat) (head : String) (l : List Commit),
      history db fuel head = some l → history db (fuel + 1) head = some l := by
  intro fuel
  induction fuel with
  | zero =>
    intro head l h
    rcases history_inv h with ⟨rfl, rfl⟩ | ⟨n, _, _, hn, _⟩
    · exact history_of_empty_head _ _
    · cases hn
  | succ n ih =>
    intro head l h
    rcases history_inv h with ⟨rfl, rfl⟩ | ⟨m, c, l', hn, hne, hg, hl', rfl⟩
    · exact history_of_empty_head _ _
    · cases hn
      rw [history_step hne hg, ih _ _ hl']
      rfl

theorem Chained_empty : Chained DB.empty fun _ => 0 := by
  intro did
  exact ⟨[], history_of_empty_head _ _, rfl⟩

/-- One call of `CreatePost` lengthens the chain of its did by one commit when
it returns a document, and leaves every chain as it was otherwise. -/
theorem Chained_step {db : DB} {k : String → Nat} (hk : Chained db k) (env : Env)
    (did : String) (content : Bytes) :
    Chained (CreatePost db env did content).2 fun d =>
      k d + if d = did ∧ failed (CreatePost db env did content).1 = false then 1 else 0 := by
  intro d
  obtain ⟨l, hl, hlen⟩ := hk d
  have hsame : ∀ db' : DB, db'.commits = db.commits → (headOf db' d = headOf db d) →
      ∃ l, history db' db'.commits.length (headOf db' d) = some l ∧ l.length = k d := by
    intro db' hc hh
    exact ⟨l, by rw [hh, hc, history_congr hc]; exact hl, hlen⟩
  have hmore : ∀ db' : DB, db'.commits = db.commits ++ [newCommit env did content (headOf db did)] →
      (headOf db' d = headOf db d) →
      ∃ l, history db' db'.commits.length (headOf db' d) = some l ∧ l.length = k d := by
    intro db' hc hh
    refine ⟨l, ?_, hlen⟩
    rw [hh, hc, List.length_append, List.length_singleton]
    exact history_mono _ _ _ (history_append hc _ _ _ hl)
  rcases CreatePost_outcome db env did content with ⟨hf, hh, hc, -⟩ | ⟨hf, hh, hc, -⟩ |
    ⟨hf, hh, hc, -⟩ | ⟨hok, hh, hc, -, -, hfresh, -⟩
  · simp only [hf, Bool.true_eq_false, and_false, if_false, Nat.add_zero]
    exact hsame _ hc (hh d)
  · simp only [hf, Bool.true_eq_false, and_false, if_false, Nat.add_zero]
    exact hsame _ hc (hh d)
  · simp only [hf, Bool.true_eq_false, and_false, if_false, Nat.add_zero]
    exact hmore _ hc (hh d)
  · have hnf : failed (CreatePost db env did content).1 = false := by rw [hok]; rfl
    simp only [hnf, and_true]
    by_cases hd : d = did
    · subst hd
      simp only [if_true]
      have hhd := hh d
      simp only [if_true] at hhd
      refine ⟨newCommit env d content (headOf db d) :: l, ?_, by simp [hlen]⟩
      rw [hhd, hc, List.length_append, List.length_singleton]
      have hget : GetCommit (CreatePost db env d content).2 none
          (newCommit env d content (headOf db d)).ID = .ok (newCommit env d content (headOf db d)) := by
        have := GetCommit_append_new (c := newCommit env d content (headOf db d))
          (CreatePost db env d content).2.repositories (CreatePost db env d content).2.documents
          hfresh
        rw [← hc] at this
        exact this
      have hne : (newCommit env d content (headOf db d)).ID ≠ "" := hashHex_ne_empty _
      rw [history_step hne hget]
      have : history (CreatePost db env d content).2 db.commits.length
          (newCommit env d content (headOf db d)).Prev = some l :=
        history_append hc _ _ _ hl
      rw [this]
      rfl
    · simp only [hd, if_false, Nat.add_zero]
      have hhd := hh d
      simp only [hd, if_false] at hhd
      exact hmore _ hc hhd

theorem Chained_runPosts (calls : List Call) :
    ∀ (db : DB) (k : String → Nat), Chained db k →
      Chained (runPosts db calls) fun d => k d + successes d db calls := by
  induction calls with
  | nil => intro db k hk; simpa [runPosts, successes] using hk
  | cons c calls ih =>
    intro db k hk
    have h1 := Chained_step hk c.env c.did c.content
    have h2 := ih _ _ h1
    intro d
    obtain ⟨l, hl, hlen⟩ := h2 d
    refine ⟨l, hl, ?_⟩
    rw [hlen]
    by_cases hd : d = c.did
    · subst hd
      simp only [successes, Nat.add_assoc, true_and]
    · have hd' : ¬ c.did = d := fun e => hd e.symm
      simp only [successes, Nat.add_assoc, hd, hd', false_and]

/-- C3. Chain integrity for posts: for every did and every sequence of
`CreatePost` calls run one after another against an initially empty store
(calls for any dids, each failing or not at any step), when `n` of the calls
for the did succeed, following `Prev` from the head of its repository through
`GetCommit` reaches the empty string after exactly `n` commits; the number of
rows of `commits` is fuel enough for the walk. -/
theorem C3_chain_has_one_commit_per_successful_post (calls : List Call) (did : String) :
    ∃ l, history (runPosts DB.empty calls) (runPosts DB.empty calls).commits.length
        (headOf (runPosts DB.empty calls) did) = some l ∧
      l.length = successes did DB.empty calls := by
  obtain ⟨l, hl, hlen⟩ := Chained_runPosts calls DB.empty (fun _ => 0) Chained_empty did
  exact ⟨l, hl, by simpa using hlen⟩

set_option maxRecDepth 100000 in
/-- The two posts of the worked example are two successful calls. -/
theorem successes_example :
    successes "did:plc:abc123" DB.empty
      [⟨quiet noon, "did:plc:abc123", utf8 "hello world".data⟩, ⟨quiet noon1, "did:plc:abc123", utf8 "second".data⟩]
      = 2 := by
  decide

theorem GetRepository_ok_head {db : DB} {did : String} {r : Repository}
    (h : GetRepository db none did = .ok r) : r.Head = headOf db did := by
  unfold GetRepository at h
  simp only at h
  split at h
  · cases h
  · next r' hf =>
    cases h
    exact (headOf_eq_of_find hf).symm

theorem lastCommitID_congr {db db' : DB} (h : db'.commits = db.commits) (did : String) :
    lastCommitID db' did = lastCommitID db did := by
  simp [lastCommitID, h]

theorem lastCommitID_append {db db' : DB} {c : Commit} (h : db'.commits = db.commits ++ [c])
    (did : String) :
    lastCommitID db' did = if c.RepositoryDID = did then some c.ID else lastCommitID db did := by
  unfold lastCommitID
  rw [h, List.filter_append]
  by_cases hc : c.RepositoryDID = did
  · simp [hc, List.filter_cons]
  · simp [hc, List.filter_cons]

theorem HeadIsLast_step {db : DB} (hdb : HeadIsLast db) (env : Env) (did : String) (content : Bytes)
    (hupd : env.updateRepositoryFault = none) :
    HeadIsLast (CreatePost db env did content).2 := by
  intro d
  rcases CreatePost_outcome db env did content with ⟨-, hh, hc, -⟩ | ⟨-, hh, hc, -⟩ |
    ⟨-, -, -, -, -, -, hne⟩ | ⟨-, hh, hc, -⟩
  · rw [hh d, lastCommitID_congr hc]; exact hdb d
  · rw [hh d, lastCommitID_congr hc]; exact hdb d
  · exact absurd hupd hne
  · rw [hh d, lastCommitID_append hc]
    by_cases hd : d = did
    · subst hd
      right
      simp [newCommit]
    · have hd' : ¬ (newCommit env did content (headOf db did)).RepositoryDID = d :=
        fun e => hd e.symm
      simp only [hd, hd', if_false]
      exact hdb d

theorem HeadIsLast_runPosts (calls : List Call) :
    ∀ (db : DB), HeadIsLast db → (∀ c ∈ calls, c.env.updateRepositoryFault = none) →
      HeadIsLast (runPosts db calls) := by
  induction calls with
  | nil => intro db hdb _; exact hdb
  | cons c calls ih =>
    intro db hdb hupd
    exact ih _ (HeadIsLast_step hdb c.env c.did c.content (hupd c (List.mem_cons_self _ _)))
      (fun c' hc' => hupd c' (List.mem_cons_of_mem _ hc'))

set_option maxRecDepth 100000 in
/-- C5, as stated, fails: when `UpdateRepository` fails after `CreateCommit`
has succeeded, the commit is written and the head stays where it was, so the
head is not the id of the commit most recently written for the did. -/
theorem C5_counterexample_update_fails_after_commit :
    runPosts DB.empty [⟨quiet noon, "did:plc:abc123", utf8 "hello world".data⟩,
        ⟨{ quiet noon1 with updateRepositoryFault := some connLost }, "did:plc:abc123",
          utf8 "second".data⟩] = afterLostUpdate ∧
    (GetRepository afterLostUpdate none "did:plc:abc123").map (·.Head) = .ok helloCommit.ID ∧
    helloCommit.ID ≠ "" ∧
    lastCommitID afterLostUpdate "did:plc:abc123" = some secondCommit.ID ∧
    secondCommit.ID ≠ helloCommit.ID := by
  decide

/-- C5, amended. In every store state reached by a sequence of `CreatePost`
calls in which `UpdateRepository` does not fail (calls may fail at any other
step), the head of a repository, when non-empty, is the id of the commit most
recently written for that did. -/
theorem C5_head_is_last_commit (calls : List Call)
    (hupd : ∀ c ∈ calls, c.env.updateRepositoryFault = none) (did : String) (r : Repository)
    (hget : GetRepository (runPosts DB.empty calls) none did = .ok r) (hne : r.Head ≠ "") :
    lastCommitID (runPosts DB.empty calls) did = some r.Head := by
  have hinv := HeadIsLast_runPosts calls DB.empty (fun _ => Or.inl rfl) hupd did
  rw [GetRepository_ok_head hget] at hne ⊢
  rcases hinv with h0 | h1
  · exact absurd h0 hne
  · exact h1

set_option maxRecDepth 100000 in
theorem C5_head_is_last_commit_witness :
    ((∀ c ∈ [(⟨quiet noon, "did:plc:abc123", utf8 "hello world".data⟩ : Call),
          ⟨{ quiet noon1 with createCommitFault := some connLost }, "did:plc:abc123", utf8 "second".data⟩],
        c.env.updateRepositoryFault = none) ∧
      GetRepository (runPosts DB.empty [⟨quiet noon, "did:plc:abc123", utf8 "hello world".data⟩,
          ⟨{ quiet noon1 with createCommitFault := some connLost }, "did:plc:abc123", utf8 "second".data⟩])
        none "did:plc:abc123" = .ok ⟨"did:plc:abc123", helloCommit.ID, noon, noon⟩ ∧
      helloCommit.ID ≠ "") ∧
    lastCommitID (runPosts DB.empty [⟨quiet noon, "did:plc:abc123", utf8 "hello world".data⟩,
          ⟨{ quiet noon1 with createCommitFault := some connLost }, "did:plc:abc123", utf8 "second".data⟩])
        "did:plc:abc123" = some helloCommit.ID :=
  have hupd : ∀ c ∈ [(⟨quiet noon, "did:plc:abc123", utf8 "hello world".data⟩ : Call),
        ⟨{ quiet noon1 with createCommitFault := some connLost }, "did:plc:abc123", utf8 "second".data⟩],
      c.env.updateRepositoryFault = none := by decide
  have hget : GetRepository (runPosts DB.empty [⟨quiet noon, "did:plc:abc123", utf8 "hello world".data⟩,
        ⟨{ quiet noon1 with createCommitFault := some connLost }, "did:plc:abc123", utf8 "second".data⟩])
      none "did:plc:abc123" = .ok ⟨"did:plc:abc123", helloCommit.ID, noon, noon⟩ := by decide
  have hne : helloCommit.ID ≠ "" := by decide
  ⟨⟨hupd, hget, hne⟩, C5_head_is_last_commit _ hupd _ _ hget hne⟩

end pds

/-! ## Reading back what `json.Marshal` writes -/

namespace json

theorem hexValue_digit (n : Nat) (h : n < 16) : hexValue (hex.digit n) = some n := by
  interval_cases n <;> decide

theorem readString_cons_plain (c : Char) (tail : List Char) (h1 : c ≠ '"') (h2 : c ≠ '\\')
    (h3 : ¬ c.toNat < 0x20) : readString (c :: tail) = push c (readString tail) := by
  rw [readString.eq_def]
  simp only [h1, h2, h3, if_false]

theorem readString_escape (e ch : Char) (tail : List Char) (he : e ≠ 'u')
    (hu : unescape e = some ch) :
    readString ('\\' :: e :: tail) = push ch (readString tail) := by
  rw [readString.eq_def]
  simp only [he, hu, if_true, if_false]
  rw [if_neg (by decide)]

theorem readString_u (a b c d ch : Char) (tail : List Char) (h : hex4 a b c d = some ch) :
    readString ('\\' :: 'u' :: a :: b :: c :: d :: tail) = push ch (readString tail) := by
  rw [readString.eq_def]
  simp only [h, if_true]
  rw [if_neg (by decide)]

theorem readString_u00 (c : Char) (tail : List Char) (h : c.toNat < 256) :
    readString (u00 c ++ tail) = push c (readString tail) := by
  have h4 : hex4 '0' '0' (hex.digit (c.toNat / 16)) (hex.digit (c.toNat % 16)) = some c := by
    unfold hex4
    rw [hexValue_digit _ (by omega), hexValue_digit _ (by omega)]
    have h0 : hexValue '0' = some 0 := by decide
    simp only [h0]
    have hn : ((0 * 16 + 0) * 16 + c.toNat / 16) * 16 + c.toNat % 16 = c.toNat := by omega
    rw [hn, if_neg (by omega), Char.ofNat_toNat]
  exact readString_u _ _ _ _ _ _ h4

theorem readString_escChar (c : Char) (tail : List Char) :
    readString (escChar c ++ tail) = push c (readString tail) := by
  unfold escChar
  split
  · next h => subst h; exact readString_escape _ _ _ (by decide) (by decide)
  split
  · next h => subst h; exact readString_escape _ _ _ (by decide) (by decide)
  split
  · next h => subst h; exact readString_escape _ _ _ (by decide) (by decide)
  split
  · next h => subst h; exact readString_escape _ _ _ (by decide) (by decide)
  split
  · next h => subst h; exact readString_escape _ _ _ (by decide) (by decide)
  split
  · next h => subst h; exact readString_escape _ _ _ (by decide) (by decide)
  split
  · next h => subst h; exact readString_escape _ _ _ (by decide) (by decide)
  split
  · next h =>
    apply readString_u00
    rcases h with h | h | h | h
    · omega
    · subst h; decide
    · subst h; decide
    · subst h; decide
  split
  · next h => subst h; exact readString_u _ _ _ _ _ _ (by decide)
  split
  · next h => subst h; exact readString_u _ _ _ _ _ _ (by decide)
  · next h1 h2 _ _ _ _ _ h8 _ _ =>
    exact readString_cons_plain c tail h1 h2 (fun h => h8 (Or.inl h))

/-- Reading the body of a quoted string gives the text back. -/
theorem readString_quoted (cs tail : List Char) :
    readString (cs.flatMap escChar ++ '"' :: tail) = some (cs, tail) := by
  induction cs with
  | nil =>
    rw [List.flatMap_nil, List.nil_append, readString.eq_def]
    simp only [if_true]
  | cons c cs ih =>
    rw [List.flatMap_cons, List.append_assoc, readString_escChar, ih]
    rfl

/-- Reading the encoding of a Go string given by its bytes yields its characters. -/
theorem readString_escBytesFuel (tail : List Char) :
    ∀ (fuel : Nat) (s : Bytes), s.length ≤ fuel →
      readString (escBytesFuel fuel s ++ '"' :: tail) = some (runesFuel fuel s, tail) := by
  intro fuel
  induction fuel with
  | zero =>
    intro s hs
    cases s with
    | nil =>
      rw [escBytesFuel, runesFuel, List.nil_append, readString.eq_def]
      simp only [if_true]
    | cons b bs => simp at hs
  | succ n ih =>
    intro s hs
    cases s with
    | nil =>
      rw [escBytesFuel, runesFuel, List.nil_append, readString.eq_def]
      simp only [if_true]
    | cons b bs =>
      rw [escBytesFuel, runesFuel]
      cases hd : utf8DecodeChar (b :: bs) with
      | none =>
        simp only [List.cons_append, List.nil_append]
        rw [readString_u 'f' 'f' 'f' 'd' '\uFFFD' _ (by decide),
          ih bs (by simpa using hs)]
        rfl
      | some p =>
        obtain ⟨c, rest⟩ := p
        have hlen := utf8DecodeChar_length hd
        simp only [List.append_assoc]
        rw [readString_escChar, ih rest (by simp only [List.length_cons] at hlen hs; omega)]
        rfl

theorem readString_quoteBytes (s : Bytes) (tail : List Char) :
    readString (escBytesFuel s.length s ++ '"' :: tail) = some (runes s, tail) :=
  readString_escBytesFuel tail s.length s (Nat.le_refl _)

/-- Reading an object of two members, each given by the bodies of its quoted
key and value, gives the two members back. -/
theorem readObject_two (kb1 vb1 kb2 vb2 k1 v1 k2 v2 : List Char)
    (hk1 : ∀ tail, readString (kb1 ++ '"' :: tail) = some (k1, tail))
    (hv1 : ∀ tail, readString (vb1 ++ '"' :: tail) = some (v1, tail))
    (hk2 : ∀ tail, readString (kb2 ++ '"' :: tail) = some (k2, tail))
    (hv2 : ∀ tail, readString (vb2 ++ '"' :: tail) = some (v2, tail)) :
    readObject ('{' :: (('"' :: kb1 ++ ['"']) ++ ':' :: ('"' :: vb1 ++ ['"']) ++ ',' ::
        (('"' :: kb2 ++ ['"']) ++ ':' :: ('"' :: vb2 ++ ['"']))) ++ ['}'])
      = some [(String.mk k1, String.mk v1), (String.mk k2, String.mk v2)] := by
  have hshape : '{' :: (('"' :: kb1 ++ ['"']) ++ ':' :: ('"' :: vb1 ++ ['"']) ++ ',' ::
        (('"' :: kb2 ++ ['"']) ++ ':' :: ('"' :: vb2 ++ ['"']))) ++ ['}'] =
      '{' :: '"' :: (kb1 ++ '"' :: ':' :: '"' :: (vb1 ++ '"' :: ',' ::
        '"' :: (kb2 ++ '"' :: ':' :: '"' :: (vb2 ++ '"' :: ['}'])))) := by
    simp [List.append_assoc]
  rw [hshape]
  generalize hrest : kb1 ++ '"' :: ':' :: '"' :: (vb1 ++ '"' :: ',' ::
        '"' :: (kb2 ++ '"' :: ':' :: '"' :: (vb2 ++ '"' :: ['}']))) = rest
  have hne : rest ≠ [] := by rw [← hrest]; simp
  cases rest with
  | nil => exact absurd rfl hne
  | cons c r =>
    have hobj : readObject ('{' :: '"' :: c :: r) = readMembers (r.length + 1 + 1) ('"' :: c :: r) := by
      unfold readObject
      simp
    rw [hobj, ← hrest, readMembers]
    simp only [hk1, hv1]
    rw [readMembers]
    simp only [hk2, hv2]
    rfl

end json

namespace pds

/-- The members of the value of a post, read back: the text is the content
as `json.Marshal` coerced it. -/
theorem readObject_postValueText (env : Env) (content : Bytes) :
    json.readObject (postValueText env content) =
      some [("createdAt", env.nowValue.formatRFC3339), ("text", String.mk (runes content))] := by
  unfold postValueText
  exact json.readObject_two _ _ _ _ _ _ _ _ (json.readString_quoted _)
    (json.readString_quoted _) (json.readString_quoted _) (json.readString_quoteBytes content)

/-- The field `text` of the value of a post is the content of the post as
`json.Marshal` coerced it. -/
theorem stringField_text (env : Env) (content : Bytes) :
    json.stringField "text" (utf8 (postValueText env content)) =
      some (String.mk (runes content)) := by
  unfold json.stringField
  rw [utf8Decode_utf8]
  simp only
  rw [readObject_postValueText]
  rfl

set_option maxRecDepth 100000 in
/-- C9, as stated, fails for content that is not well-formed UTF-8:
`json.Marshal` writes U+FFFD for the byte `0xff`, so the field `text` of the
returned value is not the content. -/
theorem C9_counterexample_malformed_content :
    (CreatePost DB.empty (quiet noon) "did:plc:abc123" [0xff]).1 = .ok ffDoc ∧
    json.stringField "text" ffDoc.Value = some "\uFFFD" ∧
    utf8 "\uFFFD".data ≠ [0xff] := by
  decide

/-- C9, amended. For every did and content, a successful `CreatePost(did,
content)` returns a document with type `app.bsky.feed.post`, with
`RepositoryDID` equal to `did`, with an id that begins with `post/`, and with a
JSON value whose field `text` is `content` whenever `content` is well-formed
UTF-8; in general the field is `content` with every byte that is not part of
a well-formed character replaced by U+FFFD. -/
theorem C9_returned_document_fields (db db' : DB) (env : Env) (did : String) (content : Bytes)
    (doc : Document) (h : CreatePost db env did content = (.ok doc, db')) :
    doc.Typ = "app.bsky.feed.post" ∧ doc.RepositoryDID = did ∧
      (∃ stamp, doc.ID = "post/" ++ stamp) ∧
      json.stringField "text" doc.Value = some (String.mk (runes content)) ∧
      ∀ text : String, content = utf8 text.data →
        json.stringField "text" doc.Value = some text := by
  obtain ⟨hdoc, -⟩ := CreatePost_ok_inv h
  subst hdoc
  refine ⟨rfl, rfl, ⟨_, rfl⟩, stringField_text env content, ?_⟩
  intro text htext
  have := stringField_text env content
  rw [htext, runes_utf8] at this
  rw [htext]
  exact this

theorem C9_returned_document_fields_witness :
    CreatePost DB.empty (quiet noon) "did:plc:abc123" (utf8 "hello world".data)
      = (.ok helloDoc, afterHello) ∧
    json.stringField "text" helloDoc.Value = some "hello world" :=
  ⟨CreatePost_hello,
    (C9_returned_document_fields _ _ _ _ _ _ CreatePost_hello).2.2.2.2 "hello world" rfl⟩

end pds

/-! ## Listing documents -/

namespace pds

/-- The order of `ORDER BY created_at DESC`. -/
theorem selectByType_sorted (db : DB) (did ty : String) :
    (selectByType db did ty).Sorted fun a b => b.CreatedAt.unixNano ≤ a.CreatedAt.unixNano := by
  haveI : IsTotal Document (fun a b => b.CreatedAt.unixNano ≤ a.CreatedAt.unixNano) :=
    ⟨fun a b => Int.le_total _ _⟩
  haveI : IsTrans Document (fun a b => b.CreatedAt.unixNano ≤ a.CreatedAt.unixNano) :=
    ⟨fun _ _ _ h₁ h₂ => Int.le_trans h₂ h₁⟩
  exact List.sorted_insertionSort _ _

/-- C11. For every did and type `t`, `GetDocumentsByType(did, t)` returns
exactly the stored documents whose `repository_did` is `did` and whose type is
`t`, each as often as it is stored, ordered by creation time descending; the
post listing `GetPostsHandler` calls it with `t = "app.bsky.feed.post"`, so
every document it writes has that type and the did asked for. -/
theorem C11_listing_is_filtered_and_sorted (db : DB) (q s r : Option GoError) (did t : String)
    (docs : List Document) (h : GetDocumentsByType db q s r did t = .ok docs) :
    docs.Perm (db.documents.filter fun d => d.RepositoryDID = did ∧ d.Typ = t) ∧
      docs.Sorted (fun a b => b.CreatedAt.unixNano ≤ a.CreatedAt.unixNano) ∧
      ∀ (q' s' r' : Option GoError) (method did' : String) (status : Nat) (listed : List Document),
        pdsmain.GetPostsHandler db q' s' r' method did' = .documents status listed →
        listed.Perm (db.documents.filter fun d =>
            d.RepositoryDID = did' ∧ d.Typ = "app.bsky.feed.post") ∧
          ∀ d ∈ listed, d.Typ = "app.bsky.feed.post" ∧ d.RepositoryDID = did' := by
  have hsel := GetDocumentsByType_ok_inv h
  subst hsel
  refine ⟨List.perm_insertionSort _ _, selectByType_sorted db did t, ?_⟩
  intro q' s' r' method did' status listed hl
  unfold pdsmain.GetPostsHandler at hl
  split at hl
  · cases hl
  · split at hl
    · cases hl
    · split at hl
      · cases hl
      · next docs' hd =>
        simp only [pdsmain.Response.documents.injEq] at hl
        obtain ⟨-, rfl⟩ := hl
        have hsel' := GetDocumentsByType_ok_inv hd
        subst hsel'
        refine ⟨List.perm_insertionSort _ _, ?_⟩
        intro d hd'
        unfold selectByType at hd'
        rw [List.mem_insertionSort, List.mem_filter] at hd'
        have := hd'.2
        simp only [decide_eq_true_eq] at this
        exact ⟨this.2, this.1⟩

set_option maxRecDepth 100000 in
theorem C11_listing_is_filtered_and_sorted_witness :
    GetDocumentsByType afterSecond none none none "did:plc:abc123" "app.bsky.feed.post"
      = .ok [secondDoc, helloDoc] ∧
    [secondDoc, helloDoc].Perm (afterSecond.documents.filter fun d =>
        d.RepositoryDID = "did:plc:abc123" ∧ d.Typ = "app.bsky.feed.post") ∧
    pdsmain.GetPostsHandler afterSecond none none none "GET" "did:plc:abc123"
      = .documents 200 [secondDoc, helloDoc] :=
  have h : GetDocumentsByType afterSecond none none none "did:plc:abc123" "app.bsky.feed.post"
      = .ok [secondDoc, helloDoc] := by decide
  ⟨h, (C11_listing_is_filtered_and_sorted _ _ _ _ _ _ _ h).1, by decide⟩

end pds

/-! ## Duplicate documents -/

namespace pds

set_option maxRecDepth 100000 in
/-- C12, as stated, fails for the in-memory repository: `CreateCommit` for a
document whose id is already a key of `Documents` returns no error and
replaces the bytes stored under that id. -/
theorem C12_counterexample_memory_overwrites :
    repo.once.Documents.get "post/1" = some repo.post1Data ∧
    (repo.once.CreateCommit noon repo.post1b).map (fun p => p.2.Documents.get "post/1")
      = .ok (some repo.post1bData) ∧
    repo.post1bData ≠ repo.post1Data := by
  decide

/-- C12, amended. On the durable backing, `CreateDocument` for a document
whose `(repositoryDID, id)` already exists returns an error (and with it no
new state of the database: the stored document stays as it is). On the
in-memory repository, `CreateCommit` for a document that can be marshalled
returns no error whether or not the id exists, and leaves under that id the
bytes of the new document. -/
theorem C12_duplicate_document (db : DB) (now : Time) (fault : Option GoError) (doc stored : Document)
    (hstored : GetDocument db none doc.RepositoryDID doc.ID = .ok stored)
    (r : repo.Repository) (now' : Time) (ldoc : lexicon.Document) (data : Bytes)
    (hdata : lexicon.MarshalDocument ldoc = .ok data) :
    (∃ err, CreateDocument db now fault doc = .error err) ∧
      (∃ c r', r.CreateCommit now' ldoc = .ok (c, r') ∧ r'.Documents.get ldoc.ID = some data) := by
  constructor
  · unfold CreateDocument
    cases fault with
    | some e => exact ⟨_, rfl⟩
    | none =>
      simp only
      have hany : db.documents.any
          (fun d => d.RepositoryDID = doc.RepositoryDID ∧ d.ID = doc.ID) = true := by
        unfold GetDocument at hstored
        simp only at hstored
        split at hstored
        · cases hstored
        · next d hf =>
          have hp := List.find?_some hf
          exact List.any_eq_true.mpr ⟨d, List.mem_of_find?_eq_some hf, hp⟩
      rw [if_pos hany]
      exact ⟨_, rfl⟩
  · exact ⟨_, _, repo.CreateCommit_ok hdata, GoMap.get_set_self _ _ _⟩

set_option maxRecDepth 100000 in
theorem C12_duplicate_document_witness :
    (GetDocument afterHello none helloDoc.RepositoryDID helloDoc.ID = .ok helloDoc ∧
      lexicon.MarshalDocument repo.post1b = .ok repo.post1bData) ∧
    (∃ err, CreateDocument afterHello noon1 none helloDoc = .error err) ∧
    (∃ c r', repo.once.CreateCommit noon repo.post1b = .ok (c, r') ∧
      r'.Documents.get repo.post1b.ID = some repo.post1bData) :=
  have h1 : GetDocument afterHello none helloDoc.RepositoryDID helloDoc.ID = .ok helloDoc := by
    decide
  have h2 : lexicon.MarshalDocument repo.post1b = .ok repo.post1bData := by decide
  ⟨⟨h1, h2⟩, C12_duplicate_document afterHello noon1 none helloDoc helloDoc h1 repo.once noon
    repo.post1b repo.post1bData h2⟩

end pds

/-! ## Failures inside `CreatePost` -/

namespace pds

/-- `CreatePost` as the sequence of its four storage steps, the two calls of
`json.Marshal` (which cannot fail on the values built) resolved. -/
theorem CreatePost_steps (db : DB) (env : Env) (did : String) (content : Bytes) :
    CreatePost db env did content =
      match getOrCreateRepository db env did with
      | .error err => (.error err, db)
      | .ok (repo, db1) =>
        match CreateDocument db1 env.nowCreateDocument env.createDocumentFault
            (builtDocument env did content) with
        | .error err => (.error (GoError.errorf "failed to create document: " err), db1)
        | .ok (doc, db2) =>
          match CreateCommit db2 env.nowCreateCommit env.createCommitFault
              (builtCommit env did content repo.Head) with
          | .error err => (.error (GoError.errorf "failed to create commit: " err), db2)
          | .ok (_, db3) =>
            match UpdateRepository db3 env.nowUpdateRepository env.updateRepositoryFault
                { repo with Head := hashHex (utf8 (commitDataText env content)) } with
            | .error err => (.error (GoError.errorf "failed to update repository: " err), db3)
            | .ok (_, db4) => (.ok doc, db4) := by
  unfold CreatePost
  simp only [Marshal_postValue, Marshal_commitData]
  rfl

/-- When the first step of `CreatePost` returns an error: `GetRepository` has
returned one, and `CreateRepository` after it too. -/
theorem getOrCreateRepository_error_iff (db : DB) (env : Env) (did : String) (err : GoError) :
    getOrCreateRepository db env did = .error err ↔
      (∃ e₁, GetRepository db env.getRepositoryFault did = .error e₁) ∧
        ∃ e₂, CreateRepository db env.nowCreateRepository env.createRepositoryFault
            (builtRepository did) = .error e₂ ∧
          err = GoError.errorf "failed to create repository: " e₂ := by
  unfold getOrCreateRepository
  cases hg : GetRepository db env.getRepositoryFault did with
  | ok r => simp
  | error e₁ =>
    simp only [builtRepository]
    cases hc : CreateRepository db env.nowCreateRepository env.createRepositoryFault
        { DID := did, Head := "", CreatedAt := Time.zero, UpdatedAt := Time.zero } with
    | ok p => simp
    | error e₂ =>
      simp only [Except.error.injEq, exists_eq', true_and, exists_eq_left']
      exact eq_comm

set_option maxRecDepth 100000 in
/-- C13, as stated, fails at step 1: when loading the repository fails,
`CreatePost` creates the repository and goes on; here it returns the document. -/
theorem C13_counterexample_load_failure_not_returned :
    failed (GetRepository DB.empty getLost.getRepositoryFault "did:plc:abc123") = true ∧
    CreatePost DB.empty getLost "did:plc:abc123" (utf8 "hello world".data)
      = (.ok helloDoc, afterHello) := by
  decide

/-- C13, amended. `CreatePost` returns an error and no document whenever
`CreateRepository` (called when `GetRepository` has returned an error),
`CreateDocument`, `CreateCommit` or `UpdateRepository` fails, and it performs
none of the later steps: the database is left as the steps before the failing
one made it. An error of `GetRepository` alone is not returned. -/
theorem C13_failing_step_aborts (db : DB) (env : Env) (did : String) (content : Bytes) :
    (∀ e₁ e₂, GetRepository db env.getRepositoryFault did = .error e₁ →
      CreateRepository db env.nowCreateRepository env.createRepositoryFault
        (builtRepository did) = .error e₂ →
      CreatePost db env did content =
        (.error (GoError.errorf "failed to create repository: " e₂), db)) ∧
    (∀ repo db1, getOrCreateRepository db env did = .ok (repo, db1) →
      (∀ e, CreateDocument db1 env.nowCreateDocument env.createDocumentFault
          (builtDocument env did content) = .error e →
        CreatePost db env did content =
          (.error (GoError.errorf "failed to create document: " e), db1)) ∧
      (∀ doc db2, CreateDocument db1 env.nowCreateDocument env.createDocumentFault
          (builtDocument env did content) = .ok (doc, db2) →
        (∀ e, CreateCommit db2 env.nowCreateCommit env.createCommitFault
            (builtCommit env did content repo.Head) = .error e →
          CreatePost db env did content =
            (.error (GoError.errorf "failed to create commit: " e), db2)) ∧
        (∀ c db3 e, CreateCommit db2 env.nowCreateCommit env.createCommitFault
            (builtCommit env did content repo.Head) = .ok (c, db3) →
          UpdateRepository db3 env.nowUpdateRepository env.updateRepositoryFault
            { repo with Head := hashHex (utf8 (commitDataText env content)) } = .error e →
          CreatePost db env did content =
            (.error (GoError.errorf "failed to update repository: " e), db3)))) := by
  refine ⟨?_, ?_⟩
  · intro e₁ e₂ h₁ h₂
    have := (getOrCreateRepository_error_iff db env did
      (GoError.errorf "failed to create repository: " e₂)).mpr ⟨⟨e₁, h₁⟩, e₂, h₂, rfl⟩
    rw [CreatePost_steps, this]
  · intro repo db1 h1
    refine ⟨?_, ?_⟩
    · intro e h2
      rw [CreatePost_steps, h1]
      simp only [h2]
    · intro doc db2 h2
      refine ⟨?_, ?_⟩
      · intro e h3
        rw [CreatePost_steps, h1]
        simp only [h2, h3]
      · intro c db3 e h3 h4
        rw [CreatePost_steps, h1]
        simp only [h2, h3, h4]

set_option maxRecDepth 100000 in
theorem C13_failing_step_aborts_witness :
    (getOrCreateRepository afterHello commitLost "did:plc:abc123"
        = .ok (⟨"did:plc:abc123", helloCommit.ID, noon, noon⟩, afterHello) ∧
      CreateDocument afterHello commitLost.nowCreateDocument commitLost.createDocumentFault
        (builtDocument commitLost "did:plc:abc123" (utf8 "second".data))
        = .ok (secondDoc, afterLostCommit) ∧
      CreateCommit afterLostCommit commitLost.nowCreateCommit commitLost.createCommitFault
        (builtCommit commitLost "did:plc:abc123" (utf8 "second".data) helloCommit.ID)
        = .error (GoError.errorf "failed to create commit: " connLost)) ∧
    CreatePost afterHello commitLost "did:plc:abc123" (utf8 "second".data) =
      (.error (GoError.errorf "failed to create commit: "
        (GoError.errorf "failed to create commit: " connLost)), afterLostCommit) :=
  have h1 : getOrCreateRepository afterHello commitLost "did:plc:abc123"
      = .ok (⟨"did:plc:abc123", helloCommit.ID, noon, noon⟩, afterHello) := by decide
  have h2 : CreateDocument afterHello commitLost.nowCreateDocument commitLost.createDocumentFault
      (builtDocument commitLost "did:plc:abc123" (utf8 "second".data))
      = .ok (secondDoc, afterLostCommit) := by decide
  have h3 : CreateCommit afterLostCommit commitLost.nowCreateCommit commitLost.createCommitFault
      (builtCommit commitLost "did:plc:abc123" (utf8 "second".data) helloCommit.ID)
      = .error (GoError.errorf "failed to create commit: " connLost) := by decide
  ⟨⟨h1, h2, h3⟩,
    (((C13_failing_step_aborts afterHello commitLost "did:plc:abc123" (utf8 "second".data)).2
      _ _ h1).2 _ _ h2).1 _ h3⟩

theorem GetDocument_append_new {db : DB} {doc : Document} (rows : List Repository)
    (commits : List Commit)
    (hfresh : ∀ d ∈ db.documents, ¬ (d.RepositoryDID = doc.RepositoryDID ∧ d.ID = doc.ID)) :
    GetDocument ⟨rows, commits, db.documents ++ [doc]⟩ none doc.RepositoryDID doc.ID = .ok doc := by
  have hnone : db.documents.find?
      (fun d => d.RepositoryDID = doc.RepositoryDID ∧ d.ID = doc.ID) = none := by
    rw [List.find?_eq_none]
    intro x hx hp
    exact hfresh x hx (by simpa using hp)
  unfold GetDocument
  simp only
  rw [List.find?_append, hnone]
  simp

/-- C14. `CreatePost` is not atomic: when `CreateDocument` succeeds and
`CreateCommit`, or after it `UpdateRepository`, fails, `CreatePost` returns an
error, the document it wrote is returned by `GetDocument` and listed by
`GetDocumentsByType`, and the head of the repository is what it was before
the call (empty for a repository the call created). -/
theorem C14_document_stays_after_failure (db : DB) (env : Env) (did : String) (content : Bytes)
    (repo : Repository) (db1 : DB) (doc : Document) (db2 : DB)
    (h1 : getOrCreateRepository db env did = .ok (repo, db1))
    (h2 : CreateDocument db1 env.nowCreateDocument env.createDocumentFault
      (builtDocument env did content) = .ok (doc, db2))
    (hfail : (∃ e, CreateCommit db2 env.nowCreateCommit env.createCommitFault
        (builtCommit env did content repo.Head) = .error e) ∨
      ∃ c db3 e, CreateCommit db2 env.nowCreateCommit env.createCommitFault
          (builtCommit env did content repo.Head) = .ok (c, db3) ∧
        UpdateRepository db3 env.nowUpdateRepository env.updateRepositoryFault
          { repo with Head := hashHex (utf8 (commitDataText env content)) } = .error e) :
    failed (CreatePost db env did content).1 = true ∧
      GetDocument (CreatePost db env did content).2 none did doc.ID = .ok doc ∧
      (∀ (q s r : Option GoError) (docs : List Document),
        GetDocumentsByType (CreatePost db env did content).2 q s r did "app.bsky.feed.post"
          = .ok docs → doc ∈ docs) ∧
      headOf (CreatePost db env did content).2 did = headOf db did ∧
      ∃ r', GetRepository (CreatePost db env did content).2 none did = .ok r' ∧
        r'.Head = headOf db did := by
  obtain ⟨-, hhead, hc1, hd1, hfind, hheads⟩ := getOrCreateRepository_ok_inv h1
  obtain ⟨-, hdoc, hfresh, hdb2⟩ := CreateDocument_ok_inv h2
  have hdid : doc.RepositoryDID = did := by rw [hdoc]; rfl
  have hty : doc.Typ = "app.bsky.feed.post" := by rw [hdoc]; rfl
  have hkey : ∀ d ∈ db1.documents, ¬ (d.RepositoryDID = doc.RepositoryDID ∧ d.ID = doc.ID) := by
    intro d hd
    have := hfresh d hd
    rw [hdoc]
    exact this
  -- what holds of any database with the repositories of `db1` and the documents of `db2`
  have key : ∀ db' : DB, db'.repositories = db1.repositories →
      db'.documents = db1.documents ++ [doc] →
      GetDocument db' none did doc.ID = .ok doc ∧
      (∀ (q s r : Option GoError) (docs : List Document),
        GetDocumentsByType db' q s r did "app.bsky.feed.post" = .ok docs → doc ∈ docs) ∧
      headOf db' did = headOf db did ∧
      ∃ r', GetRepository db' none did = .ok r' ∧ r'.Head = headOf db did := by
    intro db' hr hd
    refine ⟨?_, ?_, ?_, ?_⟩
    · have := @GetDocument_append_new db1 doc db'.repositories db'.commits hkey
      rw [← hd, hdid] at this
      exact this
    · intro q s r docs hget
      rw [GetDocumentsByType_ok_inv hget]
      unfold selectByType
      rw [List.mem_insertionSort, List.mem_filter, hd]
      exact ⟨by simp, by simp [hdid, hty]⟩
    · rw [← hheads did]
      simp [headOf, hr]
    · refine ⟨repo, by simp [GetRepository, hr, hfind], hhead⟩
  rw [CreatePost_steps, h1]
  simp only [h2]
  rcases hfail with ⟨e, h3⟩ | ⟨c, db3, e, h3, h4⟩
  · simp only [h3]
    exact ⟨rfl, key db2 (by rw [hdb2]) (by rw [hdb2])⟩
  · simp only [h3, h4]
    obtain ⟨-, -, -, hdb3⟩ := CreateCommit_row_inv h3
    exact ⟨rfl, key db3 (by rw [hdb3, hdb2]) (by rw [hdb3, hdb2])⟩

set_option maxRecDepth 100000 in
theorem C14_document_stays_after_failure_witness :
    (getOrCreateRepository afterHello commitLost "did:plc:abc123"
        = .ok (⟨"did:plc:abc123", helloCommit.ID, noon, noon⟩, afterHello) ∧
      CreateDocument afterHello commitLost.nowCreateDocument commitLost.createDocumentFault
        (builtDocument commitLost "did:plc:abc123" (utf8 "second".data))
        = .ok (secondDoc, afterLostCommit) ∧
      CreateCommit afterLostCommit commitLost.nowCreateCommit commitLost.createCommitFault
        (builtCommit commitLost "did:plc:abc123" (utf8 "second".data) helloCommit.ID)
        = .error (GoError.errorf "failed to create commit: " connLost)) ∧
    failed (CreatePost afterHello commitLost "did:plc:abc123" (utf8 "second".data)).1 = true ∧
    GetDocument (CreatePost afterHello commitLost "did:plc:abc123" (utf8 "second".data)).2 none
      "did:plc:abc123" secondDoc.ID = .ok secondDoc ∧
    headOf (CreatePost afterHello commitLost "did:plc:abc123" (utf8 "second".data)).2
      "did:plc:abc123" = headOf afterHello "did:plc:abc123" :=
  have h1 : getOrCreateRepository afterHello commitLost "did:plc:abc123"
      = .ok (⟨"did:plc:abc123", helloCommit.ID, noon, noon⟩, afterHello) := by decide
  have h2 : CreateDocument afterHello commitLost.nowCreateDocument commitLost.createDocumentFault
      (builtDocument commitLost "did:plc:abc123" (utf8 "second".data))
      = .ok (secondDoc, afterLostCommit) := by decide
  have h3 : CreateCommit afterLostCommit commitLost.nowCreateCommit commitLost.createCommitFault
      (builtCommit commitLost "did:plc:abc123" (utf8 "second".data) helloCommit.ID)
      = .error (GoError.errorf "failed to create commit: " connLost) := by decide
  have h := C14_document_stays_after_failure afterHello commitLost "did:plc:abc123"
    (utf8 "second".data) _ _ _ _ h1 h2 (Or.inl ⟨_, h3⟩)
  ⟨⟨h1, h2, h3⟩, h.1, h.2.1, h.2.2.2.1⟩

set_option maxRecDepth 100000 in
/-- C15, as stated, fails twice over. The error `CreatePost` returns is not
the error of the failing store operation but a new error that wraps it: here
`CreateDocument` fails and the returned error differs from its error. And an
error of `GetRepository` is recovered locally: here the call returns the
document. -/
theorem C15_counterexample_error_is_wrapped :
    CreateDocument afterHello documentLost.nowCreateDocument documentLost.createDocumentFault
        (builtDocument documentLost "did:plc:abc123" (utf8 "second".data))
      = .error (.wrap "failed to create document: conn closed" connLost) ∧
    CreatePost afterHello documentLost "did:plc:abc123" (utf8 "second".data)
      = (.error (.wrap "failed to create document: failed to create document: conn closed"
          (.wrap "failed to create document: conn closed" connLost)), afterHello) ∧
    GoError.wrap "failed to create document: failed to create document: conn closed"
        (.wrap "failed to create document: conn closed" connLost)
      ≠ .wrap "failed to create document: conn closed" connLost ∧
    failed (GetRepository DB.empty getLost.getRepositoryFault "did:plc:abc123") = true ∧
    failed (CreatePost DB.empty getLost "did:plc:abc123" (utf8 "hello world".data)).1 = false := by
  decide

/-- C15, amended. Whenever `CreatePost` returns an error, one of
`CreateRepository`, `CreateDocument`, `CreateCommit` and `UpdateRepository`
has failed in the call, and the error returned wraps the error of that store
operation as `fmt.Errorf` with `%w` does: its message is that error's message
behind a prefix, and `errors.Unwrap` gives that error unchanged. (An error of
`GetRepository` is recovered locally, by creating the repository.) -/
theorem C15_returned_error_wraps_failure (db db' : DB) (env : Env) (did : String)
    (content : Bytes) (err : GoError) (h : CreatePost db env did content = (.error err, db')) :
    ∃ (pfx : String) (e : GoError),
      err = GoError.errorf pfx e ∧ err.Unwrap = some e ∧ err.Error = pfx ++ e.Error ∧
      ((pfx = "failed to create repository: " ∧
          CreateRepository db env.nowCreateRepository env.createRepositoryFault
            (builtRepository did) = .error e) ∨
        (pfx = "failed to create document: " ∧ ∃ repo db1,
          getOrCreateRepository db env did = .ok (repo, db1) ∧
          CreateDocument db1 env.nowCreateDocument env.createDocumentFault
            (builtDocument env did content) = .error e) ∨
        (pfx = "failed to create commit: " ∧ ∃ repo db1 doc db2,
          getOrCreateRepository db env did = .ok (repo, db1) ∧
          CreateDocument db1 env.nowCreateDocument env.createDocumentFault
            (builtDocument env did content) = .ok (doc, db2) ∧
          CreateCommit db2 env.nowCreateCommit env.createCommitFault
            (builtCommit env did content repo.Head) = .error e) ∨
        (pfx = "failed to update repository: " ∧ ∃ repo db1 doc db2 c db3,
          getOrCreateRepository db env did = .ok (repo, db1) ∧
          CreateDocument db1 env.nowCreateDocument env.createDocumentFault
            (builtDocument env did content) = .ok (doc, db2) ∧
          CreateCommit db2 env.nowCreateCommit env.createCommitFault
            (builtCommit env did content repo.Head) = .ok (c, db3) ∧
          UpdateRepository db3 env.nowUpdateRepository env.updateRepositoryFault
            { repo with Head := hashHex (utf8 (commitDataText env content)) } = .error e)) := by
  rw [CreatePost_steps] at h
  cases h1 : getOrCreateRepository db env did with
  | error e₀ =>
    rw [h1] at h
    simp only [Prod.mk.injEq, Except.error.injEq] at h
    obtain ⟨-, e₂, h₂, he⟩ := (getOrCreateRepository_error_iff db env did e₀).mp h1
    refine ⟨_, e₂, ?_, ?_, ?_, Or.inl ⟨rfl, h₂⟩⟩
    · rw [← h.1, he]
    · rw [← h.1, he]; rfl
    · rw [← h.1, he]; rfl
  | ok p =>
    obtain ⟨repo, db1⟩ := p
    rw [h1] at h
    simp only at h
    cases h2 : CreateDocument db1 env.nowCreateDocument env.createDocumentFault
        (builtDocument env did content) with
    | error e =>
      rw [h2] at h
      simp only [Prod.mk.injEq, Except.error.injEq] at h
      refine ⟨_, e, h.1.symm, ?_, ?_, Or.inr (Or.inl ⟨rfl, repo, db1, rfl, h2⟩)⟩
      · rw [← h.1]; rfl
      · rw [← h.1]; rfl
    | ok p =>
      obtain ⟨doc, db2⟩ := p
      rw [h2] at h
      simp only at h
      cases h3 : CreateCommit db2 env.nowCreateCommit env.createCommitFault
          (builtCommit env did content repo.Head) with
      | error e =>
        rw [h3] at h
        simp only [Prod.mk.injEq, Except.error.injEq] at h
        refine ⟨_, e, h.1.symm, ?_, ?_,
          Or.inr (Or.inr (Or.inl ⟨rfl, repo, db1, doc, db2, rfl, h2, h3⟩))⟩
        · rw [← h.1]; rfl
        · rw [← h.1]; rfl
      | ok p =>
        obtain ⟨c, db3⟩ := p
        rw [h3] at h
        simp only at h
        cases h4 : UpdateRepository db3 env.nowUpdateRepository env.updateRepositoryFault
            { repo with Head := hashHex (utf8 (commitDataText env content)) } with
        | error e =>
          rw [h4] at h
          simp only [Prod.mk.injEq, Except.error.injEq] at h
          refine ⟨_, e, h.1.symm, ?_, ?_,
            Or.inr (Or.inr (Or.inr ⟨rfl, repo, db1, doc, db2, c, db3, rfl, h2, h3, h4⟩))⟩
          · rw [← h.1]; rfl
          · rw [← h.1]; rfl
        | ok p =>
          rw [h4] at h
          simp only [Prod.mk.injEq] at h
          exact absurd h.1 (by simp)

set_option maxRecDepth 100000 in
theorem C15_returned_error_wraps_failure_witness :
    CreatePost afterHello documentLost "did:plc:abc123" (utf8 "second".data)
      = (.error (.wrap "failed to create document: failed to create document: conn closed"
          (.wrap "failed to create document: conn closed" connLost)), afterHello) ∧
    ∃ (pfx : String) (e : GoError),
      GoError.wrap "failed to create document: failed to create document: conn closed"
          (.wrap "failed to create document: conn closed" connLost) = GoError.errorf pfx e ∧
      (GoError.wrap "failed to create document: failed to create document: conn closed"
          (.wrap "failed to create document: conn closed" connLost)).Unwrap = some e :=
  have h : CreatePost afterHello documentLost "did:plc:abc123" (utf8 "second".data)
      = (.error (.wrap "failed to create document: failed to create document: conn closed"
          (.wrap "failed to create document: conn closed" connLost)), afterHello) := by decide
  ⟨h, (C15_returned_error_wraps_failure _ _ _ _ _ _ h).elim fun pfx hp =>
    hp.elim fun e he => ⟨pfx, e, he.1, he.2.1⟩⟩

end pds

/-! ## The in-memory store -/

namespace repo

theorem step_repositories_get (w : World) (op : Op) (did : String) :
    (w.step op).repositories.get did =
      match lastUnder did (Op.saved w op).toList with
      | some p => some p
      | none => w.repositories.get did := by
  cases op with
  | newRepository d => rfl
  | createCommit p now doc =>
    simp only [World.step, Op.saved, Option.toList, lastUnder, List.filter_nil,
      List.getLast?_nil, Option.map_none']
    cases w.heap[p]? with
    | none => rfl
    | some r =>
      simp only
      cases r.CreateCommit now doc with
      | error e => rfl
      | ok res => rfl
  | saveRepository p =>
    simp only [World.step, World.SaveRepository, Op.saved]
    cases hp : w.heap[p]? with
    | none => rfl
    | some r =>
      simp only [Option.map_some', Option.toList, lastUnder]
      by_cases hd : r.DID = did
      · subst hd
        simp [GoMap.get_set_self]
      · simp [hd, GoMap.get_set_of_ne _ _ hd]
  | saveCommit d commit =>
    simp only [World.step, World.SaveCommit, Op.saved, Option.toList, lastUnder,
      List.filter_nil, List.getLast?_nil, Option.map_none']
    cases w.GetRepository d with
    | error e => rfl
    | ok p =>
      simp only
      cases w.heap[p]? with
      | none => rfl
      | some r => rfl

theorem lastUnder_append (did : String) (l₁ l₂ : List (String × Nat)) :
    lastUnder did (l₁ ++ l₂) =
      match lastUnder did l₂ with
      | some p => some p
      | none => lastUnder did l₁ := by
  unfold lastUnder
  rw [List.filter_append, List.getLast?_append]
  cases (l₂.filter fun e => e.1 = did).getLast? <;> rfl

theorem run_repositories_get (ops : List Op) :
    ∀ (w : World) (did : String),
      (w.run ops).repositories.get did =
        match lastUnder did (saves w ops) with
        | some p => some p
        | none => w.repositories.get did := by
  induction ops with
  | nil => intro w did; rfl
  | cons op ops ih =>
    intro w did
    have hrun : w.run (op :: ops) = (w.step op).run ops := rfl
    rw [hrun, ih, saves, lastUnder_append, step_repositories_get]
    cases lastUnder did (saves (w.step op) ops) <;> rfl

theorem lastUnder_eq_none_iff (did : String) (l : List (String × Nat)) :
    lastUnder did l = none ↔ did ∉ l.map Prod.fst := by
  unfold lastUnder
  rw [Option.map_eq_none', List.getLast?_eq_none_iff, List.filter_eq_nil_iff]
  constructor
  · intro h hm
    obtain ⟨e, he, rfl⟩ := List.mem_map.mp hm
    exact h e he (by simp)
  · intro h e he hp
    exact h (List.mem_map.mpr ⟨e, he, by simpa using hp⟩)

/-- C16. For every state of the `MemoryStore` reached from `NewMemoryStore`
by any sequence of calls, and every did: `GetRepository(did)` returns the
repository (pointer) saved most recently under that DID, and fails with "not
found" exactly when no `SaveRepository` with that DID has been performed;
`SaveRepository` cannot fail, and whether or not the DID was present,
`GetRepository` of the DID saved then returns the repository saved. -/
theorem C16_GetRepository_returns_last_saved (ops : List Op) (did : String) :
    ((NewMemoryStore.run ops).GetRepository did =
        match lastUnder did (saves NewMemoryStore ops) with
        | some p => .ok p
        | none => .error (notFound did)) ∧
      (pds.failed ((NewMemoryStore.run ops).GetRepository did) = true ↔
        did ∉ (saves NewMemoryStore ops).map Prod.fst) ∧
      ∀ p r, (NewMemoryStore.run ops).heap[p]? = some r →
        ((NewMemoryStore.run ops).SaveRepository p).GetRepository r.DID = .ok p := by
  have hget := run_repositories_get ops NewMemoryStore did
  have h0 : NewMemoryStore.repositories.get did = none := rfl
  rw [h0] at hget
  have hmain : (NewMemoryStore.run ops).GetRepository did =
      match lastUnder did (saves NewMemoryStore ops) with
      | some p => .ok p
      | none => .error (notFound did) := by
    unfold World.GetRepository
    rw [hget]
    cases lastUnder did (saves NewMemoryStore ops) <;> rfl
  refine ⟨hmain, ?_, ?_⟩
  · rw [hmain, ← lastUnder_eq_none_iff]
    cases lastUnder did (saves NewMemoryStore ops) <;> simp [pds.failed]
  · intro p r hp
    simp [World.SaveRepository, hp, World.GetRepository, GoMap.get_set_self]

set_option maxRecDepth 100000 in
/-- An instance of C16: two repositories saved under one DID, a third DID never saved. -/
theorem C16_GetRepository_returns_last_saved_witness :
    (NewMemoryStore.run [.newRepository "did:plc:abc123", .saveRepository 0,
        .newRepository "did:plc:abc123", .saveRepository 1]).GetRepository "did:plc:abc123"
      = .ok 1 ∧
    pds.failed ((NewMemoryStore.run [.newRepository "did:plc:abc123", .saveRepository 0,
        .newRepository "did:plc:abc123", .saveRepository 1]).GetRepository "did:plc:xyz") = true :=
  ⟨(C16_GetRepository_returns_last_saved _ _).1,
    (C16_GetRepository_returns_last_saved [.newRepository "did:plc:abc123", .saveRepository 0,
      .newRepository "did:plc:abc123", .saveRepository 1] "did:plc:xyz").2.1.mpr (by decide)⟩

set_option maxRecDepth 100000 in
/-- C17, as stated, fails for the in-memory store: `SaveRepository` puts the
repository given in the place of the stored one, so saving another
repository of the same DID makes the commits of the first unreachable. -/
theorem C17_counterexample_save_replaces_commits :
    pds.failed (twoOfOneDID.GetRepository "did:plc:abc123") = false ∧
    (twoOfOneDID.heap[1]?).map (·.DID) = some "did:plc:abc123" ∧
    twoOfOneDID.GetCommit "did:plc:abc123"
        "1e272b0ec386e28444ff57f99d3b42fb7e59b8fb6406ca501b466800c9437037"
      = .ok ⟨"1e272b0ec386e28444ff57f99d3b42fb7e59b8fb6406ca501b466800c9437037", "",
          post1Data, [], noon⟩ ∧
    pds.failed ((twoOfOneDID.SaveRepository 1).GetCommit "did:plc:abc123"
        "1e272b0ec386e28444ff57f99d3b42fb7e59b8fb6406ca501b466800c9437037") = true := by
  decide

theorem GetCommit_of_pointer {w : World} {did : String} {p : Nat} {r : Repository}
    (hget : w.repositories.get did = some p) (hp : w.heap[p]? = some r) (id : String) :
    w.GetCommit did id =
      match r.Commits.get id with
      | none => .error (.base ("commit not found: " ++ id))
      | some commit => .ok commit := by
  simp only [World.GetCommit, World.GetRepository, hget, hp]

/-- C17, amended. On the durable backing, `UpdateRepository` changes nothing
but the head and the update time of the rows of that DID: every `GetCommit`
returns after it what it returned before. On the in-memory store,
`SaveRepository` puts the repository given in the place of the one stored
under its DID: afterwards `GetCommit` under that DID returns the commits of
the repository saved, so the commits returned before are still returned when
the repository saved is the stored one; `GetCommit` under another DID is not
affected. -/
theorem C17_save_keeps_commits (db db' : pds.DB) (now : Time) (fault : Option GoError)
    (row row' : pds.Repository)
    (hupd : pds.UpdateRepository db now fault row = .ok (row', db'))
    (w : World) (p : Nat) (r : Repository) (hp : w.heap[p]? = some r) :
    ((∀ f id, pds.GetCommit db' f id = pds.GetCommit db f id) ∧
      db'.commits = db.commits ∧ db'.documents = db.documents ∧
      db'.repositories.map (fun x => (x.DID, x.CreatedAt)) =
        db.repositories.map (fun x => (x.DID, x.CreatedAt)) ∧
      ∀ x ∈ db.repositories, x.DID ≠ row.DID → x ∈ db'.repositories) ∧
    ((∀ id, (w.SaveRepository p).GetCommit r.DID id =
        match r.Commits.get id with
        | none => .error (.base ("commit not found: " ++ id))
        | some commit => .ok commit) ∧
      (∀ did id, did ≠ r.DID → (w.SaveRepository p).GetCommit did id = w.GetCommit did id) ∧
      (w.repositories.get r.DID = some p →
        ∀ did id, (w.SaveRepository p).GetCommit did id = w.GetCommit did id)) := by
  obtain ⟨-, hdb'⟩ := pds.UpdateRepository_ok_inv hupd
  have hsave : w.SaveRepository p = { w with repositories := w.repositories.set r.DID p } := by
    simp [World.SaveRepository, hp]
  refine ⟨⟨?_, ?_, ?_, ?_, ?_⟩, ?_, ?_, ?_⟩
  · intro f id
    rw [hdb']
    rfl
  · rw [hdb']
  · rw [hdb']
  · rw [hdb']
    simp only [List.map_map]
    apply List.map_congr_left
    intro x _
    by_cases hx : x.DID = row.DID <;> simp [hx]
  · intro x hx hne
    rw [hdb']
    exact List.mem_map.mpr ⟨x, hx, by simp [hne]⟩
  · intro id
    rw [hsave]
    exact @GetCommit_of_pointer { w with repositories := w.repositories.set r.DID p } r.DID p r
      (GoMap.get_set_self _ _ _) hp id
  · intro did id hne
    rw [hsave]
    simp only [World.GetCommit, World.GetRepository, GoMap.get_set_of_ne _ _ (Ne.symm hne)]
  · intro hstored did id
    rw [hsave]
    by_cases hd : did = r.DID
    · subst hd
      simp only [World.GetCommit, World.GetRepository, GoMap.get_set_self, hstored]
    · simp only [World.GetCommit, World.GetRepository, GoMap.get_set_of_ne _ _ (Ne.symm hd)]

set_option maxRecDepth 100000 in
theorem C17_save_keeps_commits_witness :
    (pds.UpdateRepository pds.afterLostUpdate noon1 none
        ⟨"did:plc:abc123", pds.secondCommit.ID, noon, noon⟩
      = .ok (⟨"did:plc:abc123", pds.secondCommit.ID, noon, noon1⟩, pds.afterSecond) ∧
      twoOfOneDID.heap[0]? = some once) ∧
    (∀ f id, pds.GetCommit pds.afterSecond f id = pds.GetCommit pds.afterLostUpdate f id) ∧
    (twoOfOneDID.repositories.get once.DID = some 0 →
      ∀ did id, (twoOfOneDID.SaveRepository 0).GetCommit did id = twoOfOneDID.GetCommit did id) :=
  have hupd : pds.UpdateRepository pds.afterLostUpdate noon1 none
      ⟨"did:plc:abc123", pds.secondCommit.ID, noon, noon⟩
    = .ok (⟨"did:plc:abc123", pds.secondCommit.ID, noon, noon1⟩, pds.afterSecond) := by decide
  have hp : twoOfOneDID.heap[0]? = some once := by decide
  have h := C17_save_keeps_commits _ _ _ _ _ _ hupd twoOfOneDID 0 once hp
  ⟨⟨hupd, hp⟩, h.1.1, h.2.2.2⟩

/-- C18. In a `MemoryStore` that holds a repository for `did`, `SaveCommit(did,
c)` succeeds for every commit `c`, and afterwards `GetCommit(did, c.ID)`
returns a commit equal to `c`. In every `MemoryStore`, `GetCommit(did, id)`
fails exactly when the store holds no repository for `did` or that repository
holds no commit with that id, and `SaveCommit` fails when the store holds no
repository for `did`. -/
theorem C18_SaveCommit_then_GetCommit (w : World) (did : String) (p : Nat) (r : Repository)
    (hget : w.repositories.get did = some p) (hp : w.heap[p]? = some r) (c : Commit) :
    (∃ w', w.SaveCommit did c = .ok w' ∧ w'.GetCommit did c.ID = .ok c) ∧
      (∀ (v : World) (d id : String),
        pds.failed (v.GetCommit d id) = true ↔
          (∀ q x, v.repositories.get d = some q → v.heap[q]? = some x →
            x.Commits.get id = none)) ∧
      ∀ (v : World) (d : String) (c' : Commit), v.repositories.get d = none →
        pds.failed (v.SaveCommit d c') = true := by
  refine ⟨?_, ?_, ?_⟩
  · refine ⟨{ w with heap := w.heap.set p { r with Commits := r.Commits.set c.ID c } }, ?_, ?_⟩
    · simp [World.SaveCommit, World.GetRepository, hget, hp]
    · have hlt : p < w.heap.length := (List.getElem?_eq_some.mp hp).1
      have hp' : (w.heap.set p { r with Commits := r.Commits.set c.ID c })[p]? =
          some { r with Commits := r.Commits.set c.ID c } := List.getElem?_set_self hlt
      rw [@GetCommit_of_pointer
        { w with heap := w.heap.set p { r with Commits := r.Commits.set c.ID c } } did p
        { r with Commits := r.Commits.set c.ID c } hget hp' c.ID]
      simp only [GoMap.get_set_self]
  · intro v d id
    unfold World.GetCommit World.GetRepository
    cases hq : v.repositories.get d with
    | none => simp [pds.failed]
    | some q =>
      simp only
      cases hx : v.heap[q]? with
      | none =>
        simp only [pds.failed, true_iff]
        intro q' x hq' hx'
        cases hq'
        rw [hx] at hx'
        cases hx'
      | some x =>
        simp only
        cases hc : x.Commits.get id with
        | none =>
          simp only [pds.failed, true_iff]
          intro q' x' hq' hx'
          cases hq'
          rw [hx] at hx'
          cases hx'
          exact hc
        | some c' =>
          simp only [pds.failed, Bool.false_eq_true, false_iff]
          intro hall
          have := hall q x rfl hx
          rw [hc] at this
          cases this
  · intro v d c' hnone
    simp [World.SaveCommit, World.GetRepository, hnone, pds.failed]

set_option maxRecDepth 100000 in
theorem C18_SaveCommit_then_GetCommit_witness :
    (twoOfOneDID.repositories.get "did:plc:abc123" = some 0 ∧
      twoOfOneDID.heap[0]? = some once) ∧
    ∃ w', twoOfOneDID.SaveCommit "did:plc:abc123" ⟨"x", "", [], [], noon⟩ = .ok w' ∧
      w'.GetCommit "did:plc:abc123" "x" = .ok ⟨"x", "", [], [], noon⟩ :=
  have hget : twoOfOneDID.repositories.get "did:plc:abc123" = some 0 := by decide
  have hp : twoOfOneDID.heap[0]? = some once := by decide
  ⟨⟨hget, hp⟩, (C18_SaveCommit_then_GetCommit _ _ _ _ hget hp ⟨"x", "", [], [], noon⟩).1⟩

end repo

/-! ## History traversal -/

namespace repo

theorem walkHistory_empty (w : World) (did : String) (fuel : Nat) :
    walkHistory w did fuel "" = .commits [] := by
  unfold walkHistory
  simp

theorem walkHistory_link {w : World} {did head : String} {c : Commit} (fuel : Nat)
    (hne : head ≠ "") (hget : w.GetCommit did head = .ok c) :
    walkHistory w did (fuel + 1) head =
      match walkHistory w did fuel c.Prev with
      | .commits l => .commits (c :: l)
      | .corruptChain id => .corruptChain id
      | .unfinished => .unfinished := by
  rw [walkHistory]
  simp only [hne, if_false, hget]

theorem walkHistory_dangling {w : World} {did head : String} (fuel : Nat)
    (hne : head ≠ "") (hget : pds.failed (w.GetCommit did head) = true) :
    walkHistory w did (fuel + 1) head = .corruptChain head := by
  rw [walkHistory]
  simp only [hne, if_false]
  cases h : w.GetCommit did head with
  | error e => rfl
  | ok c => rw [h] at hget; cases hget

/-- The traversal of a well-formed chain ends, with the whole chain. -/
theorem walkHistory_of_chain {w : World} {did head : String} {l : List Commit}
    (h : ChainFrom w did head l) :
    ∀ fuel, l.length ≤ fuel → walkHistory w did fuel head = .commits l := by
  induction h with
  | done => intro fuel _; exact walkHistory_empty w did fuel
  | link hne hget _ ih =>
    intro fuel hfuel
    cases fuel with
    | zero => simp at hfuel
    | succ n =>
      rw [walkHistory_link n hne hget, ih n (by simpa using hfuel)]

/-- The traversal of a chain with a dangling pointer ends with `CorruptChain`,
and with no number of steps does it return commits. -/
theorem walkHistory_of_dangling {w : World} {did head id : String} {n : Nat}
    (h : DanglingAt w did head n id) :
    (∀ fuel, n < fuel → walkHistory w did fuel head = .corruptChain id) ∧
      ∀ fuel l, walkHistory w did fuel head ≠ .commits l := by
  induction h with
  | here hne hget =>
    refine ⟨?_, ?_⟩
    · intro fuel hfuel
      cases fuel with
      | zero => omega
      | succ m => exact walkHistory_dangling m hne hget
    · intro fuel l
      cases fuel with
      | zero =>
        unfold walkHistory
        simp [hne]
      | succ m =>
        rw [walkHistory_dangling m hne hget]
        simp
  | later hne hget _ ih =>
    refine ⟨?_, ?_⟩
    · intro fuel hfuel
      cases fuel with
      | zero => omega
      | succ m => rw [walkHistory_link m hne hget, ih.1 m (by omega)]
    · intro fuel l
      cases fuel with
      | zero =>
        unfold walkHistory
        simp [hne]
      | succ m =>
        rw [walkHistory_link m hne hget]
        cases hw : walkHistory w did m _ with
        | commits l' => exact absurd hw (ih.2 m l')
        | corruptChain id' => simp
        | unfinished => simp

/-- Commits returned by the traversal are a whole chain, down to the empty string. -/
theorem chain_of_walkHistory {w : World} {did : String} :
    ∀ (fuel : Nat) (head : String) (l : List Commit),
      walkHistory w did fuel head = .commits l → ChainFrom w did head l := by
  intro fuel
  induction fuel with
  | zero =>
    intro head l h
    by_cases hne : head = ""
    · subst hne
      rw [walkHistory_empty] at h
      cases h
      exact .done
    · unfold walkHistory at h
      simp [hne] at h
  | succ n ih =>
    intro head l h
    by_cases hne : head = ""
    · subst hne
      rw [walkHistory_empty] at h
      cases h
      exact .done
    · cases hget : w.GetCommit did head with
      | error e =>
        rw [walkHistory_dangling n hne (by rw [hget]; rfl)] at h
        cases h
      | ok c =>
        rw [walkHistory_link n hne hget] at h
        cases hw : walkHistory w did n c.Prev with
        | commits l' =>
          rw [hw] at h
          cases h
          exact .link hne hget (ih _ _ hw)
        | corruptChain id' => rw [hw] at h; cases h
        | unfinished => rw [hw] at h; cases h

/-- C20. History traversal from a head resolves `Prev` through `GetCommit`
until the empty string is reached: for every well-formed chain it terminates
(within as many steps as the chain has commits) and returns the whole chain;
when some `Prev` reference cannot be resolved it fails with `CorruptChain` for
that reference and never returns commits; and whatever commits it returns are
a chain that ends at the empty string, never a truncated history. -/
theorem C20_walkHistory_total_or_corrupt (w : World) (did : String) :
    (∀ head l, ChainFrom w did head l →
      ∀ fuel, l.length ≤ fuel → walkHistory w did fuel head = .commits l) ∧
    (∀ head n id, DanglingAt w did head n id →
      (∀ fuel, n < fuel → walkHistory w did fuel head = .corruptChain id) ∧
        ∀ fuel l, walkHistory w did fuel head ≠ .commits l) ∧
    ∀ fuel head l, walkHistory w did fuel head = .commits l → ChainFrom w did head l :=
  ⟨fun _ _ h => walkHistory_of_chain h, fun _ _ _ h => walkHistory_of_dangling h,
    chain_of_walkHistory⟩

set_option maxRecDepth 100000 in
theorem C20_walkHistory_total_or_corrupt_witness :
    walkHistory chainWorld "did:plc:abc123" 2
        "10fb254e609b0cbf8037e58a99484ce9e657c7346ccb299e3b2c550dd9e0fea6"
      = .commits [⟨"10fb254e609b0cbf8037e58a99484ce9e657c7346ccb299e3b2c550dd9e0fea6",
            "1e272b0ec386e28444ff57f99d3b42fb7e59b8fb6406ca501b466800c9437037", post2Data, [],
            noon⟩,
          ⟨"1e272b0ec386e28444ff57f99d3b42fb7e59b8fb6406ca501b466800c9437037", "", post1Data, [],
            noon⟩] ∧
    walkHistory danglingWorld "did:plc:abc123" 2 "x" = .corruptChain "missing" :=
  have hchain : ChainFrom chainWorld "did:plc:abc123"
      "10fb254e609b0cbf8037e58a99484ce9e657c7346ccb299e3b2c550dd9e0fea6"
      [⟨"10fb254e609b0cbf8037e58a99484ce9e657c7346ccb299e3b2c550dd9e0fea6",
          "1e272b0ec386e28444ff57f99d3b42fb7e59b8fb6406ca501b466800c9437037", post2Data, [],
          noon⟩,
        ⟨"1e272b0ec386e28444ff57f99d3b42fb7e59b8fb6406ca501b466800c9437037", "", post1Data, [],
          noon⟩] :=
    .link (by decide) (by decide) (.link (by decide) (by decide) .done)
  have hdangling : DanglingAt danglingWorld "did:plc:abc123" "x" 1 "missing" :=
    @DanglingAt.later danglingWorld "did:plc:abc123" "x" "missing"
      ⟨"x", "missing", [], [], noon⟩ 0 (by decide) (by decide)
      (.here (by decide) (by decide))
  ⟨(C20_walkHistory_total_or_corrupt chainWorld "did:plc:abc123").1 _ _ hchain 2 (by decide),
    ((C20_walkHistory_total_or_corrupt danglingWorld "did:plc:abc123").2.1 _ _ _ hdangling).1 2
      (by decide)⟩

end repo

/-! ## The two backings compared -/

namespace store

theorem memStep_getRepository (w : repo.World) (did : String) :
    memStep w (.getRepository did) = ((memRepo w did).getD .failed, w) := by
  simp only [memStep, repo.World.GetRepository, memRepo]
  cases w.repositories.get did with
  | none => rfl
  | some p =>
    simp only []
    cases w.heap[p]? <;> rfl

theorem dbStep_getRepository (db : pds.DB) (now : Time) (did : String) :
    dbStep db now (.getRepository did) = ((dbRepo db did).getD .failed, db) := by
  simp only [dbStep, pds.GetRepository, dbRepo]
  cases List.find? (fun r => decide (r.DID = did)) db.repositories <;> rfl

theorem memStep_getCommit (w : repo.World) (did id : String) :
    memStep w (.getCommit did id) = ((memCommit w did id).getD .failed, w) := by
  simp only [memStep, repo.World.GetCommit, repo.World.GetRepository, memCommit]
  cases w.repositories.get did with
  | none => rfl
  | some p =>
    simp only []
    cases w.heap[p]? with
    | none => rfl
    | some r =>
      simp only []
      cases r.Commits.get id <;> rfl

theorem holds_eq_isSome (w : repo.World) (did id : String) :
    holds w did id = (memCommit w did id).isSome := by
  simp only [holds, repo.World.GetCommit, repo.World.GetRepository, memCommit]
  cases w.repositories.get did with
  | none => rfl
  | some p =>
    simp only []
    cases w.heap[p]? with
    | none => rfl
    | some r =>
      simp only []
      cases r.Commits.get id <;> rfl

theorem memCommit_some_mem {w : repo.World} {did id : String} {o : Obs}
    (h : memCommit w did id = some o) : ∃ p, (did, p) ∈ w.repositories := by
  unfold memCommit at h
  cases hg : w.repositories.get did with
  | none => rw [hg] at h; cases h
  | some p => exact ⟨p, GoMap.get_eq_some_mem hg⟩

theorem dbCommit_of_find {db : pds.DB} {id : String} {row : pds.Commit}
    (h : db.commits.find? (fun c => c.ID = id) = some row) :
    dbCommit db row.RepositoryDID id = some (.commit row.ID row.Prev row.Data row.Signature) := by
  unfold dbCommit
  rw [h]
  simp

theorem Sim.pointer_ne {w : repo.World} {db : pds.DB} (h : Sim w db) {did did' : String}
    {p q : Nat} (hp : w.repositories.get did = some p) (hq : w.repositories.get did' = some q)
    (hne : did ≠ did') : p ≠ q := by
  intro hpq
  subst hpq
  obtain ⟨r, hr, hd⟩ := h.valid _ _ hp
  obtain ⟨r', hr', hd'⟩ := h.valid _ _ hq
  rw [hr] at hr'
  cases hr'
  exact hne (hd.symm.trans hd')

/-- An id no DID of the `MemoryStore` holds has no row in `commits`. -/
theorem Sim.find_none {w : repo.World} {db : pds.DB} (h : Sim w db) {id : String}
    (hfree : ∀ e ∈ w.repositories, holds w e.1 id = false) :
    db.commits.find? (fun c => c.ID = id) = none := by
  cases hf : db.commits.find? (fun c => c.ID = id) with
  | none => rfl
  | some row =>
    have hm := (h.commits row.RepositoryDID id).trans (dbCommit_of_find hf)
    obtain ⟨p, hmem⟩ := memCommit_some_mem hm
    have := hfree _ hmem
    rw [holds_eq_isSome] at this
    simp only at this
    rw [hm] at this
    cases this

/-- A `getCommit` of an id no other DID holds shows the same on both. -/
theorem Sim.getCommit {w : repo.World} {db : pds.DB} (h : Sim w db) (now : Time)
    {did id : String} (hadm : admissibleOp w (.getCommit did id) = true) :
    dbStep db now (.getCommit did id) = ((memCommit w did id).getD .failed, db) := by
  simp only [admissibleOp, List.all_eq_true, Bool.or_eq_true, decide_eq_true_eq,
    Bool.not_eq_true'] at hadm
  simp only [dbStep, pds.GetCommit]
  cases hf : db.commits.find? (fun c => c.ID = id) with
  | none =>
    have : memCommit w did id = none := by
      rw [h.commits]
      unfold dbCommit
      rw [hf]
    rw [this]
    rfl
  | some row =>
    have hm := (h.commits row.RepositoryDID id).trans (dbCommit_of_find hf)
    obtain ⟨p, hmem⟩ := memCommit_some_mem hm
    have hd : row.RepositoryDID = did := by
      rcases hadm _ hmem with hd | hd
      · exact hd
      · rw [holds_eq_isSome] at hd
        simp only at hd
        rw [hm] at hd
        cases hd
    rw [← hd, hm]
    rfl

theorem Sim.saveCommit {w : repo.World} {db : pds.DB} (h : Sim w db) {did : String} {p : Nat}
    {r : repo.Repository} (c : repo.Commit) (now : Time)
    (hp : w.repositories.get did = some p) (hr : w.heap[p]? = some r)
    (hnew : db.commits.find? (fun x => x.ID = c.ID) = none) :
    Sim { w with heap := w.heap.set p { r with Commits := r.Commits.set c.ID c } }
      { db with
        commits := db.commits ++ [
          { ID := c.ID, RepositoryDID := did, Prev := c.Prev, Data := c.Data,
            Signature := c.Signature, CreatedAt := now }] } := by
  have hlt : p < w.heap.length := (List.getElem?_eq_some.mp hr).1
  have hrd : r.DID = did := by
    obtain ⟨r0, hr0, hd0⟩ := h.valid _ _ hp
    rw [hr] at hr0
    cases hr0
    exact hd0
  refine ⟨?_, ?_, ?_⟩
  · intro did' q hq
    by_cases hqp : p = q
    · subst hqp
      obtain ⟨r0, hr0, hd0⟩ := h.valid _ _ hq
      rw [hr] at hr0
      cases hr0
      exact ⟨_, List.getElem?_set_self hlt, hd0⟩
    · obtain ⟨r0, hr0, hd0⟩ := h.valid _ _ hq
      exact ⟨r0, (List.getElem?_set_ne hqp).trans hr0, hd0⟩
  · intro did'
    refine Eq.trans ?_ (h.repos did')
    unfold memRepo
    cases hq : w.repositories.get did' with
    | none => rfl
    | some q =>
      show Option.map _ (w.heap.set p _)[q]? = Option.map _ w.heap[q]?
      by_cases hqp : p = q
      · subst hqp
        rw [List.getElem?_set_self hlt, hr]
        rfl
      · rw [List.getElem?_set_ne hqp]
  · intro did' id
    have hdb : dbCommit { db with
        commits := db.commits ++ [
          { ID := c.ID, RepositoryDID := did, Prev := c.Prev, Data := c.Data,
            Signature := c.Signature, CreatedAt := now }] } did' id =
        if id = c.ID then
          (if did = did' then some (.commit c.ID c.Prev c.Data c.Signature) else none)
        else dbCommit db did' id := by
      unfold dbCommit
      simp only [List.find?_append]
      by_cases hid : id = c.ID
      · subst hid
        rw [hnew, if_pos rfl]
        simp [List.find?]
      · rw [if_neg hid]
        cases hf : db.commits.find? (fun x => x.ID = id) with
        | some row => rfl
        | none => simp [List.find?, Ne.symm hid]
    rw [hdb]
    unfold memCommit
    cases hq : w.repositories.get did' with
    | none =>
      have hne : did ≠ did' := by
        intro e
        rw [e, hq] at hp
        cases hp
      have h0 := h.commits did' id
      unfold memCommit at h0
      rw [hq] at h0
      simp only [if_neg hne]
      rw [← h0]
      simp
    | some q =>
      show (match (w.heap.set p _)[q]? with
        | none => none
        | some r => (r.Commits.get id).map
            fun (c : repo.Commit) => Obs.commit c.ID c.Prev c.Data c.Signature) = _
      have h0 : (match w.heap[q]? with
          | none => none
          | some r => (r.Commits.get id).map
              fun (c : repo.Commit) => Obs.commit c.ID c.Prev c.Data c.Signature) =
          dbCommit db did' id := by
        have h1 := h.commits did' id
        unfold memCommit at h1
        rw [hq] at h1
        exact h1
      by_cases hdd : did = did'
      · subst hdd
        rw [hp] at hq
        cases hq
        rw [List.getElem?_set_self hlt]
        rw [hr] at h0
        simp only [if_true] at h0 ⊢
        by_cases hid : id = c.ID
        · subst hid
          rw [GoMap.get_set_self, if_pos rfl]
          rfl
        · rw [GoMap.get_set_of_ne _ _ (Ne.symm hid), if_neg hid]
          exact h0
      · have hqp : p ≠ q := h.pointer_ne hp hq hdd
        rw [List.getElem?_set_ne hqp]
        simp only [if_neg hdd]
        by_cases hid : id = c.ID
        · subst hid
          rw [if_pos rfl, h0]
          unfold dbCommit
          rw [hnew]
        · rw [if_neg hid]
          exact h0

theorem find_map_of_DID (rows : List pds.Repository) (f : pds.Repository → pds.Repository)
    (hf : ∀ x, (f x).DID = x.DID) (did : String) :
    (rows.map f).find? (fun r => r.DID = did) = (rows.find? fun r => r.DID = did).map f := by
  rw [List.find?_map]
  congr 2
  funext x
  simp [hf x]

theorem Sim.update {w : repo.World} {db : pds.DB} (h : Sim w db) {did : String} {p : Nat}
    {r : repo.Repository} (head : String) (now : Time)
    (hp : w.repositories.get did = some p) (hr : w.heap[p]? = some r) :
    Sim { heap := w.heap.set p { r with Head := head }, repositories := w.repositories.set did p }
      { db with
        repositories := db.repositories.map fun x =>
          if x.DID = did then { x with Head := head, UpdatedAt := now } else x } := by
  have hlt : p < w.heap.length := (List.getElem?_eq_some.mp hr).1
  have hrd : r.DID = did := by
    obtain ⟨r0, hr0, hd0⟩ := h.valid _ _ hp
    rw [hr] at hr0
    cases hr0
    exact hd0
  have hget : ∀ did' q, (w.repositories.set did p).get did' = some q →
      (did' = did ∧ q = p) ∨ (did' ≠ did ∧ q ≠ p ∧ w.repositories.get did' = some q) := by
    intro did' q hq
    by_cases hdd : did = did'
    · subst hdd
      rw [GoMap.get_set_self] at hq
      cases hq
      exact Or.inl ⟨rfl, rfl⟩
    · rw [GoMap.get_set_of_ne _ _ hdd] at hq
      exact Or.inr ⟨Ne.symm hdd, Ne.symm (h.pointer_ne hp hq hdd), hq⟩
  have hnone : ∀ did', (w.repositories.set did p).get did' = none →
      w.repositories.get did' = none := by
    intro did' hq
    by_cases hdd : did = did'
    · subst hdd
      rw [GoMap.get_set_self] at hq
      cases hq
    · rw [GoMap.get_set_of_ne _ _ hdd] at hq
      exact hq
  refine ⟨?_, ?_, ?_⟩
  · intro did' q hq
    rcases hget did' q hq with ⟨hd, hq'⟩ | ⟨hd, hqp, hq'⟩
    · subst hd hq'
      exact ⟨_, List.getElem?_set_self hlt, hrd⟩
    · obtain ⟨r0, hr0, hd0⟩ := h.valid _ _ hq'
      exact ⟨r0, (List.getElem?_set_ne (Ne.symm hqp)).trans hr0, hd0⟩
  · intro did'
    have hdb : dbRepo { db with
        repositories := db.repositories.map fun x =>
          if x.DID = did then { x with Head := head, UpdatedAt := now } else x } did' =
        ((db.repositories.find? fun x => x.DID = did').map fun x =>
          if x.DID = did then { x with Head := head, UpdatedAt := now } else x).map
            fun (x : pds.Repository) => Obs.repository x.DID x.Head := by
      unfold dbRepo
      rw [← find_map_of_DID]
      intro x
      split <;> rfl
    rw [hdb]
    have h0 := h.repos did'
    unfold dbRepo memRepo at h0
    show (match (w.repositories.set did p).get did' with
      | none => none
      | some q => Option.map (fun (r : repo.Repository) => Obs.repository r.DID r.Head)
          (w.heap.set p { r with Head := head })[q]?) = _
    by_cases hdd : did = did'
    · subst hdd
      rw [GoMap.get_set_self]
      simp only [hp, hr, Option.map_some'] at h0
      show Option.map _ (w.heap.set p _)[p]? = _
      rw [List.getElem?_set_self hlt]
      cases hf : db.repositories.find? (fun x => x.DID = did) with
      | none => rw [hf] at h0; cases h0
      | some row =>
        have hrow : row.DID = did := by simpa using List.find?_some hf
        simp [hrow, hrd]
    · rw [GoMap.get_set_of_ne _ _ hdd]
      cases hf : db.repositories.find? (fun x => x.DID = did') with
      | none =>
        rw [hf] at h0
        cases hq : w.repositories.get did' with
        | none => rfl
        | some q =>
          have hqp := h.pointer_ne hp hq hdd
          simp only [hq, Option.map_none'] at h0
          show Option.map _ (w.heap.set p _)[q]? = _
          rw [List.getElem?_set_ne hqp, h0]
          rfl
      | some row =>
        have hrow : row.DID = did' := by simpa using List.find?_some hf
        rw [hf] at h0
        cases hq : w.repositories.get did' with
        | none => simp [hq] at h0
        | some q =>
          have hqp := h.pointer_ne hp hq hdd
          simp only [hq] at h0
          show Option.map _ (w.heap.set p _)[q]? = _
          rw [List.getElem?_set_ne hqp, h0]
          simp [hrow, Ne.symm hdd]
  · intro did' id
    refine Eq.trans ?_ (h.commits did' id)
    unfold memCommit
    cases hq : (w.repositories.set did p).get did' with
    | none => rw [hnone did' hq]
    | some q =>
      rcases hget did' q hq with ⟨hd, hq'⟩ | ⟨hd, hqp, hq'⟩
      · subst hd hq'
        rw [hp]
        show (match (w.heap.set q _)[q]? with
          | none => none
          | some r => (r.Commits.get id).map
              fun (c : repo.Commit) => Obs.commit c.ID c.Prev c.Data c.Signature) = _
        rw [List.getElem?_set_self hlt]
        simp only [hr]
      · rw [hq']
        show (match (w.heap.set p _)[q]? with
          | none => none
          | some r => (r.Commits.get id).map
              fun (c : repo.Commit) => Obs.commit c.ID c.Prev c.Data c.Signature) = _
        rw [List.getElem?_set_ne (Ne.symm hqp)]

theorem Sim.create {w : repo.World} {db : pds.DB} (h : Sim w db) {did : String}
    (new : repo.Repository) (row : pds.Repository) (hp : w.repositories.get did = none)
    (hnd : new.DID = did) (hnc : new.Commits = []) (hrd : row.DID = did)
    (hrh : row.Head = new.Head) :
    Sim { heap := w.heap ++ [new], repositories := w.repositories.set did w.heap.length }
      { db with repositories := db.repositories ++ [row] } := by
  have hold : ∀ did' q, did ≠ did' → w.repositories.get did' = some q →
      (w.heap ++ [new])[q]? = w.heap[q]? := by
    intro did' q _ hq
    obtain ⟨r0, hr0, _⟩ := h.valid _ _ hq
    exact List.getElem?_append_left (List.getElem?_eq_some.mp hr0).1
  have hfree : db.repositories.find? (fun x => x.DID = did) = none := by
    have h0 := h.repos did
    unfold dbRepo memRepo at h0
    rw [hp] at h0
    exact Option.map_eq_none'.mp h0.symm
  refine ⟨?_, ?_, ?_⟩
  · intro did' q hq
    by_cases hdd : did = did'
    · subst hdd
      rw [GoMap.get_set_self] at hq
      cases hq
      exact ⟨_, List.getElem?_concat_length _ _, hnd⟩
    · rw [GoMap.get_set_of_ne _ _ hdd] at hq
      obtain ⟨r0, hr0, hd0⟩ := h.valid _ _ hq
      exact ⟨r0, (hold did' q hdd hq).trans hr0, hd0⟩
  · intro did'
    show (match (w.repositories.set did w.heap.length).get did' with
      | none => none
      | some q => Option.map (fun (r : repo.Repository) => Obs.repository r.DID r.Head)
          (w.heap ++ [new])[q]?) =
      Option.map (fun (x : pds.Repository) => Obs.repository x.DID x.Head)
        ((db.repositories ++ [row]).find? fun x => x.DID = did')
    rw [List.find?_append]
    by_cases hdd : did = did'
    · subst hdd
      rw [GoMap.get_set_self, hfree]
      show Option.map _ (w.heap ++ [new])[w.heap.length]? = _
      rw [List.getElem?_concat_length]
      simp [List.find?, hrd, hrh, hnd]
    · rw [GoMap.get_set_of_ne _ _ hdd]
      have h0 := h.repos did'
      unfold dbRepo memRepo at h0
      have hlast : List.find? (fun (x : pds.Repository) => decide (x.DID = did')) [row] = none := by
        simp [List.find?, hrd, hdd]
      rw [hlast, Option.or_none, ← h0]
      cases hq : w.repositories.get did' with
      | none => rfl
      | some q =>
        show Option.map _ (w.heap ++ [new])[q]? = Option.map _ w.heap[q]?
        rw [hold did' q hdd hq]
  · intro did' id
    refine Eq.trans ?_ (h.commits did' id)
    unfold memCommit
    by_cases hdd : did = did'
    · subst hdd
      rw [GoMap.get_set_self, hp]
      show (match (w.heap ++ [new])[w.heap.length]? with
        | none => none
        | some r => (r.Commits.get id).map
            fun (c : repo.Commit) => Obs.commit c.ID c.Prev c.Data c.Signature) = none
      rw [List.getElem?_concat_length]
      simp only [hnc]
      rfl
    · rw [GoMap.get_set_of_ne _ _ hdd]
      cases hq : w.repositories.get did' with
      | none => rfl
      | some q =>
        show (match (w.heap ++ [new])[q]? with
          | none => none
          | some r => (r.Commits.get id).map
              fun (c : repo.Commit) => Obs.commit c.ID c.Prev c.Data c.Signature) = _
        rw [hold did' q hdd hq]

theorem Sim.empty : Sim repo.NewMemoryStore pds.DB.empty :=
  ⟨fun _ _ h => (by cases h), fun _ => rfl, fun _ _ => rfl⟩

/-- One admissible operation shows the same on both backings and leaves them
holding the same. -/
theorem Sim.step {w : repo.World} {db : pds.DB} (h : Sim w db) (now : Time) (op : Op)
    (hadm : admissibleOp w op = true) :
    (memStep w op).1 = (dbStep db now op).1 ∧ Sim (memStep w op).2 (dbStep db now op).2 := by
  cases op with
  | getRepository did =>
    rw [memStep_getRepository, dbStep_getRepository, h.repos]
    exact ⟨rfl, h⟩
  | getCommit did id =>
    rw [memStep_getCommit, h.getCommit now hadm]
    exact ⟨rfl, h⟩
  | saveRepository did head =>
    have h0 := h.repos did
    unfold memRepo dbRepo at h0
    cases hp : w.repositories.get did with
    | none =>
      rw [hp] at h0
      have hfree : db.repositories.find? (fun x => x.DID = did) = none :=
        Option.map_eq_none'.mp h0.symm
      have hany : db.repositories.any (fun x => x.DID = did) = false := by
        rw [List.any_eq_false]
        exact List.find?_eq_none.mp hfree
      have hm : memStep w (.saveRepository did head) =
          (.saved, { heap := w.heap ++ [{ repo.NewRepository did with Head := head }],
                     repositories := w.repositories.set did w.heap.length }) := by
        simp only [memStep, repo.World.GetRepository, hp, repo.World.SaveRepository,
          List.getElem?_concat_length]
        rfl
      have hd : dbStep db now (.saveRepository did head) =
          (.saved, { db with repositories := db.repositories ++ [
            { DID := did, Head := head, CreatedAt := now, UpdatedAt := now }] }) := by
        simp only [dbStep, pds.GetRepository, hfree, pds.CreateRepository, hany]
        rfl
      rw [hm, hd]
      exact ⟨rfl, h.create _ _ hp rfl rfl rfl rfl⟩
    | some p =>
      obtain ⟨r, hr, hrd⟩ := h.valid _ _ hp
      have hlt : p < w.heap.length := (List.getElem?_eq_some.mp hr).1
      simp only [hp, hr, Option.map_some'] at h0
      cases hf : db.repositories.find? (fun x => x.DID = did) with
      | none => rw [hf] at h0; cases h0
      | some row =>
        have hrow : row.DID = did := by simpa using List.find?_some hf
        have hm : memStep w (.saveRepository did head) =
            (.saved, { heap := w.heap.set p { r with Head := head },
                       repositories := w.repositories.set did p }) := by
          simp only [memStep, repo.World.GetRepository, hp, hr, repo.World.SaveRepository,
            List.getElem?_set_self hlt, hrd]
        have hd : dbStep db now (.saveRepository did head) =
            (.saved, { db with
              repositories := db.repositories.map fun x =>
                if x.DID = did then { x with Head := head, UpdatedAt := now } else x }) := by
          simp only [dbStep, pds.GetRepository, hf, pds.UpdateRepository, hrow]
        rw [hm, hd]
        exact ⟨rfl, h.update head now hp hr⟩
  | saveCommit did c =>
    simp only [admissibleOp, Bool.and_eq_true, List.all_eq_true, Bool.not_eq_true'] at hadm
    obtain ⟨hst, hfree⟩ := hadm
    have hnew := h.find_none hfree
    have hany : db.commits.any (fun x => x.ID = c.ID) = false := by
      rw [List.any_eq_false]
      exact List.find?_eq_none.mp hnew
    cases hp : w.repositories.get did with
    | none => simp [stored, repo.World.GetRepository, hp] at hst
    | some p =>
      obtain ⟨r, hr, hrd⟩ := h.valid _ _ hp
      have hm : memStep w (.saveCommit did c) =
          (.saved, { w with heap := w.heap.set p { r with Commits := r.Commits.set c.ID c } }) := by
        simp only [memStep, repo.World.SaveCommit, repo.World.GetRepository, hp, hr]
      have hd : dbStep db now (.saveCommit did c) =
          (.saved, { db with
            commits := db.commits ++ [
              { ID := c.ID, RepositoryDID := did, Prev := c.Prev, Data := c.Data,
                Signature := c.Signature, CreatedAt := now }] }) := by
        simp only [dbStep, pds.CreateCommit, hany]
        rfl
      rw [hm, hd]
      exact ⟨rfl, h.saveCommit c now hp hr hnew⟩

theorem Sim.run {w : repo.World} {db : pds.DB} (h : Sim w db) (ops : List (Time × Op))
    (hadm : admissible w ops = true) : memRun w ops = dbRun db ops := by
  induction ops generalizing w db with
  | nil => rfl
  | cons e ops ih =>
    obtain ⟨now, op⟩ := e
    simp only [admissible, Bool.and_eq_true] at hadm
    obtain ⟨hs, hl⟩ := h.step now op hadm.1
    simp only [memRun, dbRun, List.cons.injEq]
    exact ⟨hs, ih hl hadm.2⟩

set_option maxRecDepth 100000 in
/-- C19 (counterexample): from the empty state the two backings show
different outcomes on three sequences. Saving the same commit twice under a
DID succeeds twice on the `MemoryStore` and fails the second time on the
durable backing, whose `commits` table has the id as primary key. Saving a
commit under a DID that has no repository fails on the `MemoryStore` and
succeeds on the durable backing. Reading a commit under another DID than the
one it was saved under fails on the `MemoryStore` and returns the commit on
the durable backing, whose `GetCommit` takes the id alone. -/
theorem C19_counterexample_backings_differ :
    memRun repo.NewMemoryStore savedTwice = [.saved, .saved, .saved] ∧
    dbRun pds.DB.empty savedTwice = [.saved, .saved, .failed] ∧
    memRun repo.NewMemoryStore savedUnderNoRepository = [.failed] ∧
    dbRun pds.DB.empty savedUnderNoRepository = [.saved] ∧
    memRun repo.NewMemoryStore readUnderOtherDID = [.saved, .saved, .failed] ∧
    dbRun pds.DB.empty readUnderOtherDID = [.saved, .saved, .commit "c1" "" [1] []] := by
  decide

/-- C19 (amended): for every sequence of getRepository, saveRepository,
getCommit and saveCommit operations applied to both backings from an empty
state, in which every saveCommit is made under a DID that has a repository
with a commit id no DID holds, and every getCommit asks for an id no other
DID holds, each operation succeeds or fails on the `MemoryStore` exactly when
it does on the durable backing and returns the same repository (DID and
head) or commit (id, prev, data and signature). -/
theorem C19_backings_agree_on_admissible_sequences (ops : List (Time × Op))
    (hadm : admissible repo.NewMemoryStore ops = true) :
    memRun repo.NewMemoryStore ops = dbRun pds.DB.empty ops :=
  Sim.empty.run ops hadm

set_option maxRecDepth 100000 in
/-- C19 (witness): a sequence with every operation of the contract is
admissible, and both backings show the same seven outcomes. -/
theorem C19_backings_agree_on_admissible_sequences_witness :
    admissible repo.NewMemoryStore everyOperation = true ∧
    memRun repo.NewMemoryStore everyOperation = dbRun pds.DB.empty everyOperation ∧
    dbRun pds.DB.empty everyOperation =
      [.failed, .saved, .saved, .saved, .repository "did:plc:abc123" "c1",
        .commit "c1" "" [1] [], .failed] :=
  ⟨by decide, C19_backings_agree_on_admissible_sequences everyOperation (by decide), by decide⟩

end store

/-! ## Concurrent calls of `CreatePost` -/

namespace pds

theorem stepsCall_returned (env : Env) (did : String) (content : Bytes) (n : Nat)
    (r : Except GoError Document) (db : DB) :
    stepsCall env did content n (.returned r, db) = (.returned r, db) := by
  induction n with
  | zero => rfl
  | succ n ih => simpa [stepsCall, stepCall] using ih

theorem stepsCall_add (env : Env) (did : String) (content : Bytes) (n m : Nat) (s : Stage × DB) :
    stepsCall env did content (n + m) s =
      stepsCall env did content m (stepsCall env did content n s) := by
  induction n generalizing s with
  | zero => simp [stepsCall]
  | succ n ih =>
    rw [Nat.succ_add]
    exact ih _

/-- From the stage in which the repository is held, four statements finish
the call; the result and the database are those of the rest of `CreatePost`. -/
theorem stepsCall_loaded (db1 : DB) (env : Env) (did : String) (content : Bytes)
    (repo : Repository) :
    stepsCall env did content 4 (.loaded repo, db1) =
      match CreateDocument db1 env.nowCreateDocument env.createDocumentFault
          (builtDocument env did content) with
      | .error err => (.returned (.error (GoError.errorf "failed to create document: " err)), db1)
      | .ok (doc, db2) =>
        match CreateCommit db2 env.nowCreateCommit env.createCommitFault
            (builtCommit env did content repo.Head) with
        | .error err => (.returned (.error (GoError.errorf "failed to create commit: " err)), db2)
        | .ok (_, db3) =>
          match UpdateRepository db3 env.nowUpdateRepository env.updateRepositoryFault
              { repo with Head := hashHex (utf8 (commitDataText env content)) } with
          | .error err =>
            (.returned (.error (GoError.errorf "failed to update repository: " err)), db3)
          | .ok (_, db4) => (.returned (.ok doc), db4) := by
  simp only [stepsCall, stepCall, Marshal_postValue, Marshal_commitData, builtDocument,
    builtCommit]
  cases hd : CreateDocument db1 env.nowCreateDocument env.createDocumentFault
      { ID := postID env, RepositoryDID := did, Typ := "app.bsky.feed.post",
        Value := utf8 (postValueText env content), CreatedAt := Time.zero,
        UpdatedAt := Time.zero } with
  | error e => simp [stepCall]
  | ok p =>
    obtain ⟨doc, db2⟩ := p
    simp only [stepCall, Marshal_commitData]
    cases hc : CreateCommit db2 env.nowCreateCommit env.createCommitFault
        { ID := hashHex (utf8 (commitDataText env content)), RepositoryDID := did,
          Prev := repo.Head, Data := utf8 (commitDataText env content), Signature := [],
          CreatedAt := Time.zero } with
    | error e => simp [stepCall]
    | ok q =>
      obtain ⟨c, db3⟩ := q
      simp only [stepCall]
      cases hu : UpdateRepository db3 env.nowUpdateRepository env.updateRepositoryFault
          { repo with Head := hashHex (utf8 (commitDataText env content)) } with
      | error e => simp
      | ok u => simp

/-- A call run alone, statement by statement, is `CreatePost`: after six
statements or more it has returned what `CreatePost` returns and left the
database `CreatePost` leaves. -/
theorem stepsCall_eq_CreatePost (db : DB) (env : Env) (did : String) (content : Bytes) (n : Nat) :
    stepsCall env did content (6 + n) (.start, db) =
      (.returned (CreatePost db env did content).1, (CreatePost db env did content).2) := by
  rw [stepsCall_add]
  have h6 : stepsCall env did content 6 (.start, db) =
      (.returned (CreatePost db env did content).1, (CreatePost db env did content).2) := by
    rw [CreatePost_steps]
    unfold getOrCreateRepository
    cases hg : GetRepository db env.getRepositoryFault did with
    | ok repo =>
      have h1 : stepsCall env did content 1 (.start, db) = (.loaded repo, db) := by
        simp [stepsCall, stepCall, hg]
      rw [show 6 = 1 + (4 + 1) from rfl, stepsCall_add, h1, stepsCall_add, stepsCall_loaded]
      simp only []
      cases CreateDocument db env.nowCreateDocument env.createDocumentFault
          (builtDocument env did content) with
      | error e => simp [stepsCall_returned]
      | ok p =>
        obtain ⟨doc, db2⟩ := p
        simp only []
        cases CreateCommit db2 env.nowCreateCommit env.createCommitFault
            (builtCommit env did content repo.Head) with
        | error e => simp [stepsCall_returned]
        | ok q =>
          obtain ⟨c, db3⟩ := q
          simp only []
          cases UpdateRepository db3 env.nowUpdateRepository env.updateRepositoryFault
              { repo with Head := hashHex (utf8 (commitDataText env content)) } with
          | error e => simp [stepsCall_returned]
          | ok u => simp [stepsCall_returned]
    | error e0 =>
      cases hcr : CreateRepository db env.nowCreateRepository env.createRepositoryFault
          { DID := did, Head := "", CreatedAt := Time.zero, UpdatedAt := Time.zero } with
      | error e =>
        have h2 : stepsCall env did content 2 (.start, db) =
            (.returned (.error (GoError.errorf "failed to create repository: " e)), db) := by
          simp [stepsCall, stepCall, hg, hcr]
        rw [show 6 = 2 + 4 from rfl, stepsCall_add, h2, stepsCall_returned]
      | ok p =>
        obtain ⟨repo, db1⟩ := p
        have h2 : stepsCall env did content 2 (.start, db) = (.loaded repo, db1) := by
          simp [stepsCall, stepCall, hg, hcr]
        rw [show 6 = 2 + 4 from rfl, stepsCall_add, h2, stepsCall_loaded]
        simp only []
        cases CreateDocument db1 env.nowCreateDocument env.createDocumentFault
            (builtDocument env did content) with
        | error e => rfl
        | ok p =>
          obtain ⟨doc, db2⟩ := p
          simp only []
          cases CreateCommit db2 env.nowCreateCommit env.createCommitFault
              (builtCommit env did content repo.Head) with
          | error e => rfl
          | ok q =>
            obtain ⟨c, db3⟩ := q
            simp only []
            cases UpdateRepository db3 env.nowUpdateRepository env.updateRepositoryFault
                { repo with Head := hashHex (utf8 (commitDataText env content)) } with
            | error e => rfl
            | ok u => rfl
  rw [h6, stepsCall_returned]

theorem foldl_stepPair_first (a b : Call) (n : Nat) (s : Pair) :
    (List.replicate n true).foldl (stepPair a b) s =
      { s with
        db := (stepsCall a.env a.did a.content n (s.first, s.db)).2
        first := (stepsCall a.env a.did a.content n (s.first, s.db)).1 } := by
  induction n generalizing s with
  | zero => rfl
  | succ n ih =>
    rw [List.replicate_succ, List.foldl_cons, ih]
    simp [stepPair, stepsCall]

theorem foldl_stepPair_second (a b : Call) (n : Nat) (s : Pair) :
    (List.replicate n false).foldl (stepPair a b) s =
      { s with
        db := (stepsCall b.env b.did b.content n (s.second, s.db)).2
        second := (stepsCall b.env b.did b.content n (s.second, s.db)).1 } := by
  induction n generalizing s with
  | zero => rfl
  | succ n ih =>
    rw [List.replicate_succ, List.foldl_cons, ih]
    simp [stepPair, stepsCall]

/-- Two calls of which the second starts after the first has returned are two
calls of `CreatePost` one after the other. -/
theorem runPair_serial (a b : Call) (db : DB) (n m : Nat) :
    runPair a b db (List.replicate (6 + n) true ++ List.replicate (6 + m) false) =
      { db := (CreatePost (CreatePost db a.env a.did a.content).2 b.env b.did b.content).2
        first := .returned (CreatePost db a.env a.did a.content).1
        second := .returned
          (CreatePost (CreatePost db a.env a.did a.content).2 b.env b.did b.content).1 } := by
  unfold runPair
  rw [List.foldl_append, foldl_stepPair_first, foldl_stepPair_second]
  simp only [stepsCall_eq_CreatePost]

/-- A successful call puts its commit in front of the chain of its did. -/
theorem history_after_post {db db' : DB} {env : Env} {did : String} {content : Bytes}
    {doc : Document} (h : CreatePost db env did content = (.ok doc, db')) {fuel : Nat}
    {l : List Commit} (hl : history db fuel (headOf db did) = some l) :
    history db' (fuel + 1) (headOf db' did) =
      some (newCommit env did content (headOf db did) :: l) := by
  obtain ⟨-, hheads, hcommits, -, -, hfresh⟩ := CreatePost_ok_inv h
  have hh := hheads did
  simp only [if_true] at hh
  have hget : GetCommit db' none (newCommit env did content (headOf db did)).ID =
      .ok (newCommit env did content (headOf db did)) := by
    have := GetCommit_append_new (c := newCommit env did content (headOf db did))
      db'.repositories db'.documents hfresh
    rw [← hcommits] at this
    exact this
  have hne : (newCommit env did content (headOf db did)).ID ≠ "" := hashHex_ne_empty _
  rw [hh, history_step hne hget]
  have : history db' fuel (newCommit env did content (headOf db did)).Prev = some l :=
    history_append hcommits _ _ _ hl
  rw [this]
  rfl

set_option maxRecDepth 100000 in
/-- C21 (counterexample): two concurrent calls of `CreatePost` for one did,
the second loading the repository before the first has updated the head,
both return their document, and afterwards the chain from the head holds one
commit, that of the call that updated last: the commit of the other call is
written and is not reached from the head. -/
theorem C21_counterexample_lost_update :
    runPair helloCall secondCall DB.empty raceSchedule =
      ⟨afterRace, .returned (.ok helloDoc), .returned (.ok secondDoc)⟩ ∧
    history afterRace afterRace.commits.length (headOf afterRace "did:plc:abc123") =
      some [racedCommit] ∧
    helloCommit ∈ afterRace.commits ∧ helloCommit ∉ [racedCommit] := by
  decide

/-- C21 (amended): two calls of `CreatePost` for the same did of which the
second starts after the first has returned (each is given six statements or
more) either are both reflected in the chain, or at least one of them
returns an error. When both return a document, walking `Prev` from the head
visits the commit of the second call, then that of the first, then the
chain `l` the did had before: two commits when the did had none. -/
theorem C21_serial_calls_both_in_chain (db : DB) (a b : Call) (n m fuel : Nat)
    (l : List Commit) (hd : b.did = a.did)
    (hl : history db fuel (headOf db a.did) = some l) :
    ∃ r1 r2 db',
      runPair a b db (List.replicate (6 + n) true ++ List.replicate (6 + m) false) =
        ⟨db', .returned r1, .returned r2⟩ ∧
      (failed r1 = true ∨ failed r2 = true ∨
        ∃ c1 c2, history db' (fuel + 2) (headOf db' a.did) = some (c2 :: c1 :: l) ∧
          c1.Data = utf8 (commitDataText a.env a.content) ∧
          c2.Data = utf8 (commitDataText b.env b.content) ∧
          c1.Prev = headOf db a.did ∧ c2.Prev = c1.ID) := by
  refine ⟨_, _, _, runPair_serial a b db n m, ?_⟩
  cases h1 : CreatePost db a.env a.did a.content with
  | mk r1 db1 =>
    cases r1 with
    | error e => exact Or.inl rfl
    | ok doc1 =>
      right
      cases h2 : CreatePost db1 b.env b.did b.content with
      | mk r2 db2 =>
        cases r2 with
        | error e => exact Or.inl rfl
        | ok doc2 =>
          right
          have hh1 := history_after_post h1 hl
          rw [hd] at h2
          have hh2 := history_after_post h2 hh1
          obtain ⟨-, hheads, -⟩ := CreatePost_ok_inv h1
          have hhead := hheads a.did
          simp only [if_true] at hhead
          refine ⟨_, _, hh2, rfl, rfl, rfl, ?_⟩
          exact hhead

set_option maxRecDepth 100000 in
/-- C21 (witness): the two posts of the worked example, the second started
after the first has returned, on the empty database: both return their
document and the chain from the head holds both commits. -/
theorem C21_serial_calls_both_in_chain_witness :
    history DB.empty 0 (headOf DB.empty helloCall.did) = some [] ∧
    runPair helloCall secondCall DB.empty
      (List.replicate 6 true ++ List.replicate 6 false) =
        ⟨afterSecond, .returned (.ok helloDoc), .returned (.ok secondDoc)⟩ ∧
    history afterSecond 2 (headOf afterSecond "did:plc:abc123") =
      some [secondCommit, helloCommit] ∧
    ∃ r1 r2 db',
      runPair helloCall secondCall DB.empty
        (List.replicate (6 + 0) true ++ List.replicate (6 + 0) false) =
          ⟨db', .returned r1, .returned r2⟩ ∧
      (failed r1 = true ∨ failed r2 = true ∨
        ∃ c1 c2, history db' (0 + 2) (headOf db' helloCall.did) = some (c2 :: c1 :: []) ∧
          c1.Data = utf8 (commitDataText helloCall.env helloCall.content) ∧
          c2.Data = utf8 (commitDataText secondCall.env secondCall.content) ∧
          c1.Prev = headOf DB.empty helloCall.did ∧ c2.Prev = c1.ID) :=
  ⟨by decide, by decide, by decide,
    C21_serial_calls_both_in_chain DB.empty helloCall secondCall 0 0 0 [] rfl (by decide)⟩

end pds

/-! ## The repository of a first post -/

namespace pds

/-- What the first step of `CreatePost` leaves behind when it succeeds: the
database as it was, the repository having been loaded, or one more row, with
an empty head, when no row of the did was stored. -/
theorem getOrCreateRepository_ok_cases {db db1 : DB} {env : Env} {did : String}
    {repo : Repository} (h : getOrCreateRepository db env did = .ok (repo, db1)) :
    (db1 = db ∧ GetRepository db env.getRepositoryFault did = .ok repo) ∨
      (db.repositories.find? (fun r => r.DID = did) = none ∧ env.createRepositoryFault = none ∧
        repo = ⟨did, "", env.nowCreateRepository, env.nowCreateRepository⟩ ∧
        db1 = { db with repositories := db.repositories ++ [repo] }) := by
  unfold getOrCreateRepository at h
  cases hg : GetRepository db env.getRepositoryFault did with
  | ok r =>
    rw [hg] at h
    simp only [Except.ok.injEq, Prod.mk.injEq] at h
    obtain ⟨rfl, rfl⟩ := h
    exact Or.inl ⟨rfl, rfl⟩
  | error e =>
    rw [hg] at h
    right
    simp only at h
    cases hf : env.createRepositoryFault with
    | some err => simp [CreateRepository, hf] at h
    | none =>
      by_cases hany : db.repositories.any (fun r => r.DID = did) = true
      · simp [CreateRepository, hf, hany] at h
      · simp only [CreateRepository, hf, hany, Bool.false_eq_true, if_false, Except.ok.injEq,
          Prod.mk.injEq] at h
        obtain ⟨rfl, rfl⟩ := h
        refine ⟨?_, rfl, rfl, rfl⟩
        rw [List.find?_eq_none]
        intro x hx hp
        exact hany (List.any_eq_true.mpr ⟨x, hx, hp⟩)

theorem map_DID_update (rows : List Repository) (did head : String) (now : Time) :
    (rows.map fun r => if r.DID = did then { r with Head := head, UpdatedAt := now } else r).map
      (·.DID) = rows.map (·.DID) := by
  rw [List.map_map]
  congr 1
  funext r
  by_cases hr : r.DID = did <;> simp [hr]

/-- The rows of `repositories` after a call of `CreatePost`: the same dids, or
one more, that of the call, when no row of the did was stored. -/
theorem CreatePost_repository_rows (db : DB) (env : Env) (did : String) (content : Bytes) :
    (CreatePost db env did content).2.repositories.map (·.DID) = db.repositories.map (·.DID) ∨
      (db.repositories.find? (fun r => r.DID = did) = none ∧
        (CreatePost db env did content).2.repositories.map (·.DID) =
          db.repositories.map (·.DID) ++ [did]) := by
  rw [CreatePost_steps]
  cases h1 : getOrCreateRepository db env did with
  | error err => exact Or.inl rfl
  | ok p =>
    obtain ⟨repo, db1⟩ := p
    have hrows : ∀ db' : DB, db'.repositories.map (·.DID) = db1.repositories.map (·.DID) →
        db'.repositories.map (·.DID) = db.repositories.map (·.DID) ∨
          (db.repositories.find? (fun r => r.DID = did) = none ∧
            db'.repositories.map (·.DID) = db.repositories.map (·.DID) ++ [did]) := by
      intro db' h'
      rcases getOrCreateRepository_ok_cases h1 with ⟨rfl, -⟩ | ⟨hnone, -, rfl, rfl⟩
      · exact Or.inl h'
      · right
        refine ⟨hnone, ?_⟩
        rw [h']
        simp
    simp only []
    cases h2 : CreateDocument db1 env.nowCreateDocument env.createDocumentFault
        (builtDocument env did content) with
    | error err => exact hrows _ rfl
    | ok q =>
      obtain ⟨doc, db2⟩ := q
      obtain ⟨-, -, -, rfl⟩ := CreateDocument_ok_inv h2
      simp only []
      cases h3 : CreateCommit _ env.nowCreateCommit env.createCommitFault
          (builtCommit env did content repo.Head) with
      | error err => exact hrows _ rfl
      | ok q =>
        obtain ⟨c, db3⟩ := q
        obtain ⟨-, -, -, rfl⟩ := CreateCommit_row_inv h3
        simp only []
        cases h4 : UpdateRepository _ env.nowUpdateRepository env.updateRepositoryFault
            { repo with Head := hashHex (utf8 (commitDataText env content)) } with
        | error err => exact hrows _ rfl
        | ok q =>
          obtain ⟨r4, db4⟩ := q
          obtain ⟨-, rfl⟩ := UpdateRepository_ok_inv h4
          exact hrows _ (map_DID_update _ _ _ _)

/-- The rows of `commits` after a call of `CreatePost`: those before, and at
most one more, whose `Prev` is the head the did had before the call. -/
theorem CreatePost_commit_rows (db : DB) (env : Env) (did : String) (content : Bytes) :
    (CreatePost db env did content).2.commits = db.commits ∨
      ∃ c, (CreatePost db env did content).2.commits = db.commits ++ [c] ∧
        c.RepositoryDID = did ∧ c.Prev = headOf db did := by
  rcases CreatePost_outcome db env did content with ⟨-, -, hc, -⟩ | ⟨-, -, hc, -⟩ |
    ⟨-, -, hc, -⟩ | ⟨-, -, hc, -⟩
  · exact Or.inl hc
  · exact Or.inl hc
  · exact Or.inr ⟨_, hc, rfl, rfl⟩
  · exact Or.inr ⟨_, hc, rfl, rfl⟩

/-- C22. For a did with no stored repository, the first statement of
`CreatePost`, `GetRepository`, returns an error, and the second is
`CreateRepository` of a repository of the did with the empty head: when it
fails the call returns its error, and when it succeeds the row is in the
database, where the call has written no document and no commit yet, before
the statements that write them; the commit the call writes has `Prev` equal
to the empty string. For a did whose repository exists, no row of
`repositories` is created, the call holds the stored row after
`GetRepository`, and the commit it writes has the stored head as `Prev`. The
statements taken one by one make up `CreatePost`. -/
theorem C22_repository_created_first (db : DB) (env : Env) (did : String) (content : Bytes) :
    stepsCall env did content 6 (.start, db) =
      (.returned (CreatePost db env did content).1, (CreatePost db env did content).2) ∧
    (db.repositories.find? (fun r => r.DID = did) = none →
      stepCall db env did content .start = (.absent, db) ∧
      (∀ err, env.createRepositoryFault = some err →
        stepCall db env did content .absent =
          (.returned (.error (GoError.errorf "failed to create repository: "
            (GoError.errorf "failed to create repository: " err))), db)) ∧
      (env.createRepositoryFault = none →
        stepCall db env did content .absent =
          (.loaded ⟨did, "", env.nowCreateRepository, env.nowCreateRepository⟩,
            { db with
              repositories := db.repositories ++
                [⟨did, "", env.nowCreateRepository, env.nowCreateRepository⟩] })) ∧
      ((CreatePost db env did content).2.commits = db.commits ∨
        ∃ c, (CreatePost db env did content).2.commits = db.commits ++ [c] ∧
          c.RepositoryDID = did ∧ c.Prev = "")) ∧
    (∀ r, db.repositories.find? (fun r => r.DID = did) = some r →
      (CreatePost db env did content).2.repositories.map (·.DID) =
        db.repositories.map (·.DID) ∧
      (env.getRepositoryFault = none → stepCall db env did content .start = (.loaded r, db)) ∧
      ((CreatePost db env did content).2.commits = db.commits ∨
        ∃ c, (CreatePost db env did content).2.commits = db.commits ++ [c] ∧
          c.RepositoryDID = did ∧ c.Prev = r.Head)) := by
  refine ⟨stepsCall_eq_CreatePost db env did content 0, ?_, ?_⟩
  · intro hnone
    have hany : db.repositories.any (fun r => r.DID = did) = false := by
      rw [List.any_eq_false]
      exact List.find?_eq_none.mp hnone
    refine ⟨?_, ?_, ?_, ?_⟩
    · cases hf : env.getRepositoryFault <;> simp [stepCall, GetRepository, hf, hnone]
    · intro err hf
      simp [stepCall, CreateRepository, hf]
    · intro hf
      simp [stepCall, CreateRepository, hf, hany]
    · have := CreatePost_commit_rows db env did content
      rw [headOf_eq_of_not_found hnone] at this
      exact this
  · intro r hr
    refine ⟨?_, ?_, ?_⟩
    · rcases CreatePost_repository_rows db env did content with h | ⟨hnone, -⟩
      · exact h
      · rw [hr] at hnone
        cases hnone
    · intro hf
      simp [stepCall, GetRepository, hf, hr]
    · have := CreatePost_commit_rows db env did content
      rw [headOf_eq_of_find hr] at this
      exact this

set_option maxRecDepth 100000 in
/-- C22 (witness): the first post of the worked example creates the
repository with the empty head and writes a commit without `Prev`; the second
finds the repository and writes a commit whose `Prev` is the stored head. -/
theorem C22_repository_created_first_witness :
    DB.empty.repositories.find? (fun r => r.DID = "did:plc:abc123") = none ∧
    stepCall DB.empty (quiet noon) "did:plc:abc123" (utf8 "hello world".data) .absent =
      (.loaded ⟨"did:plc:abc123", "", noon, noon⟩,
        ⟨[⟨"did:plc:abc123", "", noon, noon⟩], [], []⟩) ∧
    (CreatePost DB.empty (quiet noon) "did:plc:abc123" (utf8 "hello world".data)).2.commits =
      [helloCommit] ∧
    afterHello.repositories.find? (fun r => r.DID = "did:plc:abc123") =
      some ⟨"did:plc:abc123", helloCommit.ID, noon, noon⟩ ∧
    (CreatePost afterHello (quiet noon1) "did:plc:abc123" (utf8 "second".data)).2.repositories.map
      (·.DID) = ["did:plc:abc123"] ∧
    (CreatePost afterHello (quiet noon1) "did:plc:abc123" (utf8 "second".data)).2.commits =
      [helloCommit, secondCommit] ∧ secondCommit.Prev = helloCommit.ID :=
  have h1 := (C22_repository_created_first DB.empty (quiet noon) "did:plc:abc123"
    (utf8 "hello world".data)).2.1 (by decide)
  have h2 := (C22_repository_created_first afterHello (quiet noon1) "did:plc:abc123"
    (utf8 "second".data)).2.2 ⟨"did:plc:abc123", helloCommit.ID, noon, noon⟩ (by decide)
  ⟨by decide, h1.2.2.1 rfl, by rw [CreatePost_hello]; rfl, by decide, h2.1,
    by rw [CreatePost_second]; rfl, rfl⟩

end pds

/-! ## Document ids of the same millisecond -/

namespace Time

/-- The stamp of a reading is that of every reading of the same millisecond
in the same zone. -/
theorem formatStamp_same_millisecond (t1 t2 : Time) (hoff : t1.offset = t2.offset)
    (hms : t1.unixNano / 1000000 = t2.unixNano / 1000000) :
    t1.formatStamp = t2.formatStamp := by
  have hsec : t1.localSec = t2.localSec := by
    unfold localSec
    omega
  have hns : t1.nsec / 1000000 = t2.nsec / 1000000 := by
    unfold nsec
    omega
  simp only [formatStamp, year, month, day, hour, minute, second, hsec, hns]

end Time

namespace pds

/-- C23. The document id `CreatePost` computes is `post/` followed by the
reading of the clock formatted to the millisecond. When a call has returned
its document and a second call for the same did reads the clock, in the same
zone, within the same millisecond, the second call computes the same id and
returns an error, leaving the database as it was: no commit is written and no
head changes. Unless its load of the repository fails for an outside reason,
the error is that of `CreateDocument`: the duplicate key, when the statement
does not fail for an outside reason either. -/
theorem C23_same_millisecond_collides (db0 db1 : DB) (env1 env2 : Env) (did : String)
    (content1 content2 : Bytes) (doc1 : Document)
    (h1 : CreatePost db0 env1 did content1 = (.ok doc1, db1))
    (hoff : env2.nowID.offset = env1.nowID.offset)
    (hms : env2.nowID.unixNano / 1000000 = env1.nowID.unixNano / 1000000) :
    doc1.ID = "post/" ++ env1.nowID.formatStamp ∧ postID env2 = doc1.ID ∧
      (∃ err, CreatePost db1 env2 did content2 = (.error err, db1)) ∧
      (env2.getRepositoryFault = none →
        ∃ err, CreatePost db1 env2 did content2 =
            (.error (GoError.errorf "failed to create document: " err), db1) ∧
          (env2.createDocumentFault = none →
            err = GoError.errorf "failed to create document: " uniqueViolation)) := by
  obtain ⟨hdoc, hheads, -, hdocs, -, -⟩ := CreatePost_ok_inv h1
  have hid1 : doc1.ID = postID env1 := by rw [hdoc]; rfl
  have hid2 : postID env2 = postID env1 := by
    unfold postID
    rw [Time.formatStamp_same_millisecond _ _ hoff hms]
  have hmem : doc1 ∈ db1.documents := by
    rw [hdocs]
    exact List.mem_append_right _ (List.mem_singleton_self _)
  have hdid : doc1.RepositoryDID = did := by rw [hdoc]; rfl
  have hhead : headOf db1 did ≠ "" := by
    have := hheads did
    simp only [if_true] at this
    rw [this]
    exact hashHex_ne_empty _
  have hfound : db1.repositories.find? (fun r => r.DID = did) ≠ none := by
    intro hn
    exact hhead (headOf_eq_of_not_found hn)
  have hany : db1.documents.any
      (fun d => d.RepositoryDID = (builtDocument env2 did content2).RepositoryDID ∧
        d.ID = (builtDocument env2 did content2).ID) = true := by
    rw [List.any_eq_true]
    refine ⟨doc1, hmem, ?_⟩
    simp only [builtDocument, decide_eq_true_eq]
    exact ⟨hdid, by rw [hid1, hid2]⟩
  have hcd : ∃ err, CreateDocument db1 env2.nowCreateDocument env2.createDocumentFault
        (builtDocument env2 did content2) = .error err ∧
      (env2.createDocumentFault = none →
        err = GoError.errorf "failed to create document: " uniqueViolation) := by
    unfold CreateDocument
    cases hf : env2.createDocumentFault with
    | some e => exact ⟨_, rfl, fun h => by cases h⟩
    | none =>
      simp only [hany, if_true]
      exact ⟨_, rfl, fun _ => rfl⟩
  obtain ⟨err, hcd, herr⟩ := hcd
  have hloaded : ∀ repo, getOrCreateRepository db1 env2 did = .ok (repo, db1) →
      CreatePost db1 env2 did content2 =
        (.error (GoError.errorf "failed to create document: " err), db1) := by
    intro repo hg
    rw [CreatePost_steps, hg]
    simp only [hcd]
  refine ⟨by rw [hid1]; rfl, by rw [hid1, hid2], ?_, ?_⟩
  · cases hg : getOrCreateRepository db1 env2 did with
    | error e =>
      refine ⟨e, ?_⟩
      rw [CreatePost_steps, hg]
    | ok p =>
      obtain ⟨repo, dbx⟩ := p
      rcases getOrCreateRepository_ok_cases hg with ⟨rfl, -⟩ | ⟨hnone, -⟩
      · exact ⟨_, hloaded repo hg⟩
      · exact absurd hnone hfound
  · intro hf
    refine ⟨err, ?_, herr⟩
    cases hfind : db1.repositories.find? (fun r => r.DID = did) with
    | none => exact absurd hfind hfound
    | some r =>
      have hg : getOrCreateRepository db1 env2 did = .ok (r, db1) := by
        simp [getOrCreateRepository, GetRepository, hf, hfind]
      exact hloaded r hg

set_option maxRecDepth 100000 in
/-- C23 (witness): after the post `hello world` at `noon`, a post made half a
millisecond later has the same document id and fails on the duplicate key,
the database staying as the first post left it. -/
theorem C23_same_millisecond_collides_witness :
    CreatePost DB.empty (quiet noon) "did:plc:abc123" (utf8 "hello world".data) =
      (.ok helloDoc, afterHello) ∧
    noonAgain ≠ noon ∧ postID (quiet noonAgain) = "post/20241104130000.123" ∧
    CreatePost afterHello (quiet noonAgain) "did:plc:abc123" (utf8 "again".data) =
      (.error (GoError.errorf "failed to create document: "
        (GoError.errorf "failed to create document: " uniqueViolation)), afterHello) ∧
    (helloDoc.ID = "post/" ++ (quiet noon).nowID.formatStamp ∧
      postID (quiet noonAgain) = helloDoc.ID ∧
      (∃ err, CreatePost afterHello (quiet noonAgain) "did:plc:abc123" (utf8 "again".data) =
        (.error err, afterHello)) ∧
      ((quiet noonAgain).getRepositoryFault = none →
        ∃ err, CreatePost afterHello (quiet noonAgain) "did:plc:abc123" (utf8 "again".data) =
            (.error (GoError.errorf "failed to create document: " err), afterHello) ∧
          ((quiet noonAgain).createDocumentFault = none →
            err = GoError.errorf "failed to create document: " uniqueViolation))) :=
  ⟨CreatePost_hello, by decide, by decide, by decide,
    C23_same_millisecond_collides DB.empty afterHello (quiet noon) (quiet noonAgain)
      "did:plc:abc123" (utf8 "hello world".data) (utf8 "again".data) helloDoc CreatePost_hello
      rfl (by decide)⟩

end pds

/-! ## Reading back a committed document -/

namespace json

theorem encode_nested (n : Nat) : encode (nested n) = some (nestedText n) := by
  induction n with
  | zero => rw [nested, encode]; rfl
  | succ n ih =>
    rw [nested, encode_obj, encodeFields_cons _ _ _ _ _ ih encodeFields_nil]
    rfl

theorem skipSpace_cons (c : Char) (rest : List Char) (h : isSpace c = false) :
    skipSpace (c :: rest) = c :: rest := by
  simp [skipSpace, List.dropWhile, h]

/-- A text without quote, backslash and control characters is scanned as it
is, up to the quote that closes it. -/
theorem scanString_plain (s rest : List Char)
    (h : ∀ c ∈ s, c ≠ '"' ∧ c ≠ '\\' ∧ ¬ c.toNat < 0x20) :
    scanString (s ++ '"' :: rest) = some (s, rest) := by
  induction s with
  | nil =>
    rw [List.nil_append, scanString.eq_def]
    simp only [if_true]
  | cons c s ih =>
    obtain ⟨h1, h2, h3⟩ := h c (List.mem_cons_self _ _)
    rw [List.cons_append, scanString.eq_def]
    simp only [h1, h2, h3, if_false]
    rw [ih fun c hc => h c (List.mem_cons_of_mem _ hc)]
    rfl

/-- A member whose value the scanner refuses is refused. -/
theorem parseMembers_value_error (f depth : Nat) (key rest : List Char) (err : GoError)
    (hk : ∀ c ∈ key, c ≠ '"' ∧ c ≠ '\\' ∧ ¬ c.toNat < 0x20)
    (hv : parseValue f depth rest = .error err) :
    parseMembers (f + 1) depth ('"' :: (key ++ '"' :: ':' :: rest)) = .error err := by
  rw [parseMembers.eq_def]
  simp only [skipSpace_cons '"' _ (by decide), scanString_plain key _ hk,
    skipSpace_cons ':' _ (by decide), hv]

/-- An object whose first member the scanner refuses is refused. -/
theorem parseValue_members_error (f depth : Nat) (rest : List Char) (err : GoError)
    (hd : ¬ maxNestingDepth ≤ depth)
    (hm : parseMembers f (depth + 1) ('"' :: rest) = .error err) :
    parseValue (f + 1) depth ('{' :: '"' :: rest) = .error err := by
  rw [parseValue.eq_def]
  simp only [skipSpace_cons '{' _ (by decide), skipSpace_cons '"' _ (by decide), if_true, hd,
    if_false]
  split
  · next heq => simp at heq
  · rw [hm]

theorem parseValue_too_deep (f depth : Nat) (rest : List Char) (hd : maxNestingDepth ≤ depth) :
    parseValue (f + 1) depth ('{' :: rest) = .error (maxDepthError '{') := by
  rw [parseValue.eq_def]
  simp only [skipSpace_cons '{' _ (by decide), if_true, hd]

/-- The scanner refuses a text whose nesting, counted with the arrays and
objects around it, passes `maxNestingDepth`. -/
theorem parseValue_nestedText (n : Nat) :
    ∀ (depth fuel : Nat) (rest : List Char), depth ≤ maxNestingDepth →
      maxNestingDepth < depth + n → 2 * n ≤ fuel →
      parseValue fuel depth (nestedText n ++ rest) = .error (maxDepthError '{') := by
  induction n with
  | zero =>
    intro depth fuel rest h1 h2
    omega
  | succ n ih =>
    intro depth fuel rest h1 h2 h3
    obtain ⟨f, rfl⟩ : ∃ f, fuel = f + 2 := ⟨fuel - 2, by omega⟩
    by_cases hd : maxNestingDepth ≤ depth
    · exact parseValue_too_deep _ _ _ hd
    · refine parseValue_members_error _ _ _ _ hd ?_
      refine parseMembers_value_error f (depth + 1) ['a'] _ _ (by decide) ?_
      have ht : (nestedText n ++ [ '}' ]).append rest = nestedText n ++ '}' :: rest := by
        simp
      rw [ht]
      exact ih (depth + 1) f _ (by omega) (by omega) (by omega)

theorem nestedText_length (n : Nat) : (nestedText n).length = 6 * n + 4 := by
  induction n with
  | zero => rfl
  | succ n ih => simp [nestedText, ih]; omega

/-- A string scanned as a value. -/
theorem parseValue_string (f depth : Nat) (s rest : List Char)
    (hs : ∀ c ∈ s, c ≠ '"' ∧ c ≠ '\\' ∧ ¬ c.toNat < 0x20) :
    parseValue (f + 1) depth ('"' :: (s ++ '"' :: rest)) = .ok (.str s, rest) := by
  rw [parseValue.eq_def]
  simp only [skipSpace_cons '"' _ (by decide), scanString_plain s _ hs]
  rw [if_neg (by decide), if_neg (by decide)]
  exact if_pos trivial

/-- After a member whose value is a string, a member the scanner refuses is refused. -/
theorem parseMembers_string_member (f depth : Nat) (key s rest : List Char) (err : GoError)
    (hk : ∀ c ∈ key, c ≠ '"' ∧ c ≠ '\\' ∧ ¬ c.toNat < 0x20)
    (hs : ∀ c ∈ s, c ≠ '"' ∧ c ≠ '\\' ∧ ¬ c.toNat < 0x20)
    (hm : parseMembers (f + 1) depth rest = .error err) :
    parseMembers (f + 2) depth
      ('"' :: (key ++ '"' :: ':' :: '"' :: (s ++ '"' :: ',' :: rest))) = .error err := by
  rw [parseMembers.eq_def]
  simp only [skipSpace_cons '"' _ (by decide), scanString_plain key _ hk,
    skipSpace_cons ':' _ (by decide), parseValue_string f depth s _ hs,
    skipSpace_cons ',' _ (by decide), hm]

end json

namespace lexicon

/-- The bytes `MarshalDocument` gives once the value and the two times are encoded. -/
theorem MarshalDocument_of_encode (doc : Document) (v c u : List Char)
    (hv : json.encode (match doc.Value with | none => .null | some kvs => .obj kvs) = some v)
    (hc : json.encodeTime doc.CreatedAt = some c) (hu : json.encodeTime doc.UpdatedAt = some u) :
    MarshalDocument doc = .ok (utf8 ('{' :: json.members [("id", json.quote doc.ID),
      ("type", json.quote doc.Typ), ("value", v), ("createdAt", c), ("updatedAt", u)] ++
        ['}'])) := by
  unfold MarshalDocument encodeDocument
  cases hV : doc.Value with
  | none =>
    rw [hV] at hv
    simp only at hv ⊢
    rw [hv, hc, hu]
  | some kvs =>
    rw [hV] at hv
    simp only at hv ⊢
    rw [hv, hc, hu]

end lexicon

namespace repo

theorem encodeTime_zero :
    json.encodeTime Time.zero = some (json.quote "0001-01-01T00:00:00Z") := by
  decide

theorem nestedPostText_eq (n : Nat) :
    ∃ rest, nestedPostText n =
      '{' :: '"' :: ("id".data ++ '"' :: ':' :: '"' :: ("post/deep".data ++ '"' :: ',' ::
        '"' :: ("type".data ++ '"' :: ':' :: '"' :: ("app.bsky.feed.post".data ++ '"' :: ',' ::
          '"' :: ("value".data ++ '"' :: ':' :: (json.nestedText (n + 1) ++ rest)))))) := by
  have q1 : json.quote "id" = '"' :: ("id".data ++ ['"']) := by decide
  have q2 : json.quote "post/deep" = '"' :: ("post/deep".data ++ ['"']) := by decide
  have q3 : json.quote "type" = '"' :: ("type".data ++ ['"']) := by decide
  have q4 : json.quote "app.bsky.feed.post" = '"' :: ("app.bsky.feed.post".data ++ ['"']) := by
    decide
  have q5 : json.quote "value" = '"' :: ("value".data ++ ['"']) := by decide
  refine ⟨',' :: json.members [("createdAt", json.quote "0001-01-01T00:00:00Z"),
    ("updatedAt", json.quote "0001-01-01T00:00:00Z")] ++ ['}'], ?_⟩
  simp only [nestedPostText, json.members, q1, q2, q3, q4, q5, List.cons_append,
    List.append_assoc, List.nil_append]

theorem MarshalDocument_nestedPost (n : Nat) :
    lexicon.MarshalDocument (nestedPost n) = .ok (utf8 (nestedPostText n)) :=
  lexicon.MarshalDocument_of_encode (nestedPost n) _ _ _ (json.encode_nested (n + 1))
    encodeTime_zero encodeTime_zero

/-- The text of a post whose value nests `maxNestingDepth` maps or more is
refused by `UnmarshalDocument`: with the object of the document around them
the maps pass the depth the scanner accepts. -/
theorem UnmarshalDocument_nestedPost (n : Nat) (hn : json.maxNestingDepth ≤ n + 1) :
    lexicon.UnmarshalDocument (utf8 (nestedPostText n)) = .error (json.maxDepthError '{') := by
  obtain ⟨rest, heq⟩ := nestedPostText_eq n
  have hlen : ∃ f, (nestedPostText n).length + 1 = f + 5 ∧ 2 * (n + 1) ≤ f := by
    refine ⟨(nestedPostText n).length - 4, ?_, ?_⟩
    · rw [heq]
      simp only [List.length_cons, List.length_append, json.nestedText_length]
      omega
    · rw [heq]
      simp only [List.length_cons, List.length_append, json.nestedText_length]
      omega
  obtain ⟨f, hf, hfuel⟩ := hlen
  have hp : json.parseValue ((nestedPostText n).length + 1) 0 (nestedPostText n) =
      .error (json.maxDepthError '{') := by
    rw [hf, heq]
    refine json.parseValue_members_error _ _ _ _ (by decide) ?_
    refine json.parseMembers_string_member _ _ _ _ _ _ (by decide) (by decide) ?_
    refine json.parseMembers_string_member _ _ _ _ _ _ (by decide) (by decide) ?_
    refine json.parseMembers_value_error _ _ _ _ _ (by decide) ?_
    exact json.parseValue_nestedText (n + 1) 1 _ _ (by decide) (by omega) (by omega)
  simp only [lexicon.UnmarshalDocument, runes_utf8, json.parse, hp]

end repo
/-! ## Scanning what `json.Marshal` writes -/

namespace json

/-! ### Decimal digits -/

theorem toDigitsCore_append (fuel : Nat) :
    ∀ (n : Nat) (ds : List Char), n < fuel →
      Nat.toDigitsCore 10 fuel n ds = Nat.toDigits 10 n ++ ds := by
  induction fuel using Nat.strong_induction_on with
  | _ fuel ih =>
    intro n ds hn
    obtain ⟨f, rfl⟩ : ∃ f, fuel = f + 1 := ⟨fuel - 1, by omega⟩
    rw [Nat.toDigits, Nat.toDigitsCore, Nat.toDigitsCore]
    by_cases h0 : n / 10 = 0
    · simp only [h0, if_true]
      rfl
    · simp only [h0, if_false]
      have h1 : n / 10 < f := by omega
      have h2 : n / 10 < n := by omega
      rw [ih f (by omega) _ _ h1, ih n (by omega) _ _ h2]
      simp

theorem toDigits_small (n : Nat) (h : n < 10) : Nat.toDigits 10 n = [Nat.digitChar n] := by
  rw [Nat.toDigits, Nat.toDigitsCore]
  have h0 : n / 10 = 0 := by omega
  have h1 : n % 10 = n := by omega
  simp only [h0, h1, if_true]

theorem toDigits_step (n : Nat) (h : 10 ≤ n) :
    Nat.toDigits 10 n = Nat.toDigits 10 (n / 10) ++ [Nat.digitChar (n % 10)] := by
  conv_lhs => rw [Nat.toDigits, Nat.toDigitsCore]
  have h0 : ¬ n / 10 = 0 := by omega
  simp only [h0, if_false]
  exact toDigitsCore_append n (n / 10) _ (by omega)

theorem isDigit_digitChar (n : Nat) (h : n < 10) : isDigit (Nat.digitChar n) = true := by
  interval_cases n <;> decide

theorem digitChar_value (n : Nat) (h : n < 10) : (Nat.digitChar n).toNat - '0'.toNat = n := by
  interval_cases n <;> decide

theorem digitChar_ne_zero (n : Nat) (h : n < 10) (h0 : n ≠ 0) : Nat.digitChar n ≠ '0' := by
  interval_cases n <;> first | exact absurd rfl h0 | decide

theorem digitsValue_append (ds : List Char) (c : Char) :
    digitsValue (ds ++ [c]) = digitsValue ds * 10 + (c.toNat - '0'.toNat) := by
  simp [digitsValue, List.foldl_append]

/-- The decimal text of a number: its digits, the first not `0` unless the
number is `0`, and they stand for the number. -/
theorem toDigits_spec (n : Nat) :
    ∃ c cs, Nat.toDigits 10 n = c :: cs ∧ isDigit c = true ∧ (∀ x ∈ cs, isDigit x = true) ∧
      (n ≠ 0 → c ≠ '0') ∧ (n = 0 → c = '0' ∧ cs = []) ∧ digitsValue (Nat.toDigits 10 n) = n := by
  induction n using Nat.strong_induction_on with
  | _ n ih =>
    by_cases h : n < 10
    · refine ⟨Nat.digitChar n, [], toDigits_small n h, isDigit_digitChar n h, by simp,
        digitChar_ne_zero n h, ?_, ?_⟩
      · rintro rfl
        exact ⟨rfl, rfl⟩
      · rw [toDigits_small n h]
        simpa [digitsValue] using digitChar_value n h
    · obtain ⟨c, cs, h1, h2, h3, h4, _, h6⟩ := ih (n / 10) (by omega)
      refine ⟨c, cs ++ [Nat.digitChar (n % 10)], ?_, h2, ?_, fun _ => h4 (by omega), by omega, ?_⟩
      · rw [toDigits_step n (by omega), h1]
        rfl
      · intro x hx
        rcases List.mem_append.mp hx with hx | hx
        · exact h3 x hx
        · rw [List.mem_singleton.mp hx]
          exact isDigit_digitChar _ (by omega)
      · rw [toDigits_step n (by omega), digitsValue_append, h6,
          digitChar_value _ (Nat.mod_lt _ (by decide))]
        omega

theorem toDigits_all_digits (n : Nat) : ∀ x ∈ Nat.toDigits 10 n, isDigit x = true := by
  obtain ⟨c, cs, h1, h2, h3, _⟩ := toDigits_spec n
  intro x hx
  rw [h1] at hx
  rcases List.mem_cons.mp hx with rfl | hx
  · exact h2
  · exact h3 x hx

theorem digitsValue_toDigits (n : Nat) : digitsValue (Nat.toDigits 10 n) = n := by
  obtain ⟨_, _, _, _, _, _, _, h⟩ := toDigits_spec n
  exact h

theorem digitsValue_zeros (k : Nat) (ds : List Char) :
    digitsValue (List.replicate k '0' ++ ds) = digitsValue ds := by
  induction k with
  | zero => rfl
  | succ k ih =>
    rw [List.replicate_succ, List.cons_append]
    unfold digitsValue at ih ⊢
    rw [List.foldl_cons]
    exact ih

/-- A run of digits before a character that is none is spanned whole. -/
theorem span_digits (ds rest : List Char) (hds : ∀ x ∈ ds, isDigit x = true)
    (hrest : ∀ c ∈ rest.head?, isDigit c = false) :
    (ds ++ rest).span isDigit = (ds, rest) := by
  induction ds with
  | nil =>
    cases rest with
    | nil => rfl
    | cons c tl =>
      have := hrest c (by simp)
      simp [List.span_eq_take_drop, List.takeWhile, List.dropWhile, this]
  | cons d ds ih =>
    have hd := hds d (List.mem_cons_self _ _)
    have := ih fun x hx => hds x (List.mem_cons_of_mem _ hx)
    simp only [List.span_eq_take_drop] at this ⊢
    simp only [List.cons_append, List.takeWhile, List.dropWhile, hd]
    simp only [Prod.mk.injEq] at this ⊢
    exact ⟨congrArg (d :: ·) this.1, this.2⟩

/-! ### Number literals -/

/-- Whether a text ends a number literal written before it: it is empty or
starts with a character that cannot continue the literal. -/
theorem scanNumber_stages (text : List Char) :
    scanNumber text =
      ((scanWhole (match text with | '-' :: rest => rest | _ => text)).bind fun w =>
        (scanFraction w.2).bind fun f =>
          (scanExponent f.2).map fun x =>
            ((match text with | '-' :: _ => ['-'] | _ => []) ++ w.1 ++ f.1 ++ x.1, x.2)) := by
  have key : ∀ (sign body : List Char),
      (match scanWhole body with
        | none => none
        | some (w, text) =>
          match scanFraction text with
          | none => none
          | some (f, text) =>
            match scanExponent text with
            | none => none
            | some (x, text) => some (sign ++ w ++ f ++ x, text)) =
      ((scanWhole body).bind fun w =>
        (scanFraction w.2).bind fun f =>
          (scanExponent f.2).map fun x => (sign ++ w.1 ++ f.1 ++ x.1, x.2)) := by
    intro sign body
    cases scanWhole body with
    | none => rfl
    | some w =>
      obtain ⟨w, t1⟩ := w
      simp only [Option.some_bind]
      cases scanFraction t1 with
      | none => rfl
      | some f =>
        obtain ⟨f, t2⟩ := f
        simp only [Option.some_bind]
        cases scanExponent t2 with
        | none => rfl
        | some x => rfl
  rw [← key]
  cases text with
  | nil => rfl
  | cons c t =>
    by_cases hc : c = '-'
    · subst hc
      rfl
    · have h2 : (match c :: t with
          | '-' :: rest => rest
          | _ => c :: t) = c :: t := by
        split
        · next heq => exact absurd (List.cons.inj heq).1 hc
        · rfl
      have h3 : (match c :: t with
          | '-' :: _ => ['-']
          | _ => []) = [] := by
        split
        · next heq => exact absurd (List.cons.inj heq).1 hc
        · rfl
      simp only [h2, h3]
      unfold scanNumber
      split
      next sign body heq =>
      split at heq
      · next heq1 => exact absurd (List.cons.inj heq1).1 hc
      · cases heq
        rfl

theorem scanDigits_some (a ds r : List Char) (h : scanDigits a = some (ds, r)) :
    a = ds ++ r ∧ ds ≠ [] ∧ (∀ x ∈ ds, isDigit x = true) ∧ ∀ c ∈ r.head?, isDigit c = false := by
  unfold scanDigits at h
  rw [List.span_eq_take_drop] at h
  have hds : a.takeWhile isDigit = ds ∧ a.dropWhile isDigit = r ∧ ds ≠ [] := by
    cases ht : a.takeWhile isDigit with
    | nil => rw [ht] at h; simp at h
    | cons d ds' =>
      rw [ht] at h
      simp only [Option.some.injEq, Prod.mk.injEq] at h
      exact ⟨h.1, h.2, by rw [← h.1]; simp⟩
  obtain ⟨h1, h2, h3⟩ := hds
  refine ⟨?_, h3, ?_, ?_⟩
  · rw [← h1, ← h2, List.takeWhile_append_dropWhile]
  · intro x hx
    rw [← h1] at hx
    exact List.mem_takeWhile_imp hx
  · intro c hc
    have := List.head?_dropWhile_not isDigit a
    rw [h2] at this
    rw [Option.mem_def] at hc
    rw [hc] at this
    simpa using this

theorem scanDigits_digits (ds rest : List Char) (hne : ds ≠ [])
    (hds : ∀ x ∈ ds, isDigit x = true) (hrest : ∀ c ∈ rest.head?, isDigit c = false) :
    scanDigits (ds ++ rest) = some (ds, rest) := by
  unfold scanDigits
  rw [span_digits ds rest hds hrest]
  cases ds with
  | nil => exact absurd rfl hne
  | cons d ds => rfl

theorem head?_append_of (r rest : List Char) (p : Char → Prop) (hr : ∀ c ∈ r.head?, p c)
    (hrest : ∀ c ∈ rest.head?, p c) : ∀ c ∈ (r ++ rest).head?, p c := by
  cases r with
  | nil => simpa using hrest
  | cons x r => simpa using hr

theorem scanDigits_append (a rest ds r : List Char)
    (hrest : ∀ c ∈ rest.head?, isDigit c = false) (h : scanDigits a = some (ds, r)) :
    scanDigits (a ++ rest) = some (ds, r ++ rest) := by
  obtain ⟨h1, h2, h3, h4⟩ := scanDigits_some a ds r h
  rw [h1, List.append_assoc]
  exact scanDigits_digits ds _ h2 h3 (head?_append_of r rest _ h4 hrest)

theorem scanWhole_append (a rest w r : List Char)
    (hrest : ∀ c ∈ rest.head?, isDigit c = false) (h : scanWhole a = some (w, r)) :
    scanWhole (a ++ rest) = some (w, r ++ rest) := by
  unfold scanWhole at h ⊢
  split at h
  · next t =>
    cases h
    rfl
  · next hno =>
    have h' := scanDigits_append a rest w r hrest h
    split
    · next t heq =>
      cases a with
      | nil => simp [scanDigits] at h
      | cons c a =>
        rw [List.cons_append] at heq
        exact (hno a (by rw [(List.cons.inj heq).1])).elim
    · exact h'

theorem scanFraction_append (a rest f r : List Char)
    (hrest : ∀ c ∈ rest.head?, isDigit c = false ∧ c ≠ '.') (h : scanFraction a = some (f, r)) :
    scanFraction (a ++ rest) = some (f, r ++ rest) := by
  unfold scanFraction at h
  split at h
  · next t =>
    cases hd : scanDigits t with
    | none => rw [hd] at h; simp at h
    | some p =>
      obtain ⟨ds, r'⟩ := p
      rw [hd] at h
      simp only [Option.map_some', Option.some.injEq, Prod.mk.injEq] at h
      obtain ⟨rfl, rfl⟩ := h
      rw [List.cons_append, scanFraction,
        scanDigits_append t rest ds r' (fun c hc => (hrest c hc).1) hd]
      rfl
  · next hno =>
    simp only [Option.some.injEq, Prod.mk.injEq] at h
    obtain ⟨rfl, rfl⟩ := h
    unfold scanFraction
    split
    · next t heq =>
      cases a with
      | nil =>
        rw [List.nil_append] at heq
        exact absurd rfl (hrest '.' (by rw [heq]; rfl)).2
      | cons c a =>
        rw [List.cons_append] at heq
        exact (hno a (by rw [(List.cons.inj heq).1])).elim
    · rfl

theorem scanExponent_append (a rest x r : List Char)
    (hrest : ∀ c ∈ rest.head?, isDigit c = false ∧ c ≠ 'e' ∧ c ≠ 'E')
    (h : scanExponent a = some (x, r)) :
    scanExponent (a ++ rest) = some (x, r ++ rest) := by
  cases a with
  | nil =>
    simp only [scanExponent, Option.some.injEq, Prod.mk.injEq] at h
    obtain ⟨rfl, rfl⟩ := h
    rw [List.nil_append]
    cases rest with
    | nil => rfl
    | cons c rest =>
      obtain ⟨_, h1, h2⟩ := hrest c rfl
      simp [scanExponent, h1, h2]
  | cons e a =>
    rw [List.cons_append]
    unfold scanExponent at h ⊢
    simp only at h ⊢
    by_cases he : e = 'e' ∨ e = 'E'
    · simp only [he, if_true] at h ⊢
      cases a with
      | nil => simp at h
      | cons s a =>
        rw [List.cons_append]
        simp only at h ⊢
        have hd : ∀ c ∈ rest.head?, isDigit c = false := fun c hc => (hrest c hc).1
        by_cases hs : s = '+' ∨ s = '-'
        · simp only [hs, if_true] at h ⊢
          cases hsd : scanDigits a with
          | none => rw [hsd] at h; simp at h
          | some p =>
            obtain ⟨ds, r'⟩ := p
            rw [hsd] at h
            simp only [Option.map_some', Option.some.injEq, Prod.mk.injEq] at h
            obtain ⟨rfl, rfl⟩ := h
            rw [scanDigits_append a rest ds r' hd hsd]
            rfl
        · simp only [hs, if_false] at h ⊢
          cases hsd : scanDigits (s :: a) with
          | none => rw [hsd] at h; simp at h
          | some p =>
            obtain ⟨ds, r'⟩ := p
            rw [hsd] at h
            simp only [Option.map_some', Option.some.injEq, Prod.mk.injEq] at h
            obtain ⟨rfl, rfl⟩ := h
            have := scanDigits_append (s :: a) rest ds r' hd hsd
            rw [List.cons_append] at this
            rw [this]
            rfl
    · simp only [he, if_false, Option.some.injEq, Prod.mk.injEq] at h ⊢
      obtain ⟨rfl, rfl⟩ := h
      exact ⟨rfl, rfl⟩

/-- A number literal is scanned the same before a text that cannot continue
it: one that is empty or starts with a character that is no digit, point or
letter `e`. -/
theorem scanNumber_append (t rest lit r : List Char)
    (hrest : ∀ c ∈ rest.head?, isDigit c = false ∧ c ≠ '.' ∧ c ≠ 'e' ∧ c ≠ 'E')
    (h : scanNumber t = some (lit, r)) :
    scanNumber (t ++ rest) = some (lit, r ++ rest) := by
  rw [scanNumber_stages] at h ⊢
  have hbody : ∀ body sign, ((scanWhole body).bind fun w =>
        (scanFraction w.2).bind fun f =>
          (scanExponent f.2).map fun x => (sign ++ w.1 ++ f.1 ++ x.1, x.2)) = some (lit, r) →
      ((scanWhole (body ++ rest)).bind fun w =>
        (scanFraction w.2).bind fun f =>
          (scanExponent f.2).map fun x => (sign ++ w.1 ++ f.1 ++ x.1, x.2)) =
        some (lit, r ++ rest) := by
    intro body sign hb
    cases hw : scanWhole body with
    | none => rw [hw] at hb; simp at hb
    | some w =>
      obtain ⟨w, t1⟩ := w
      rw [hw] at hb
      simp only [Option.some_bind] at hb
      rw [scanWhole_append body rest w t1 (fun c hc => (hrest c hc).1) hw]
      simp only [Option.some_bind]
      cases hf : scanFraction t1 with
      | none => rw [hf] at hb; simp at hb
      | some f =>
        obtain ⟨f, t2⟩ := f
        rw [hf] at hb
        simp only [Option.some_bind] at hb
        rw [scanFraction_append t1 rest f t2 (fun c hc => ⟨(hrest c hc).1, (hrest c hc).2.1⟩) hf]
        simp only [Option.some_bind]
        cases hx : scanExponent t2 with
        | none => rw [hx] at hb; simp at hb
        | some x =>
          obtain ⟨x, t3⟩ := x
          rw [hx] at hb
          simp only [Option.map_some', Option.some.injEq, Prod.mk.injEq] at hb
          rw [scanExponent_append t2 rest x t3
            (fun c hc => ⟨(hrest c hc).1, (hrest c hc).2.2⟩) hx]
          simp only [Option.map_some', Option.some.injEq, Prod.mk.injEq]
          exact ⟨hb.1, by rw [hb.2]⟩
  cases t with
  | nil => simp [scanWhole, scanDigits] at h
  | cons c t =>
    by_cases hc : c = '-'
    · subst hc
      exact hbody t ['-'] h
    · have h2 : ∀ (u : List Char), (match c :: u with
          | '-' :: rest => rest
          | _ => c :: u) = c :: u := by
        intro u
        split
        · next heq => exact absurd (List.cons.inj heq).1 hc
        · rfl
      have h3 : ∀ (u : List Char), (match c :: u with
          | '-' :: _ => ['-']
          | _ => []) = [] := by
        intro u
        split
        · next heq => exact absurd (List.cons.inj heq).1 hc
        · rfl
      rw [List.cons_append]
      simp only [h2, h3] at h ⊢
      exact hbody (c :: t) [] h

/-- A number literal starts with a minus sign or a digit. -/
theorem scanNumber_head (t lit r : List Char) (h : scanNumber t = some (lit, r)) :
    ∃ c tl, t = c :: tl ∧ (c = '-' ∨ isDigit c = true) := by
  cases t with
  | nil => simp [scanNumber_stages, scanWhole, scanDigits] at h
  | cons c t =>
    refine ⟨c, t, rfl, ?_⟩
    by_cases hc : c = '-'
    · exact Or.inl hc
    · right
      rw [scanNumber_stages] at h
      have h2 : (match c :: t with
          | '-' :: rest => rest
          | _ => c :: t) = c :: t := by
        split
        · next heq => exact absurd (List.cons.inj heq).1 hc
        · rfl
      rw [h2] at h
      cases hw : scanWhole (c :: t) with
      | none => rw [hw] at h; simp at h
      | some w =>
        obtain ⟨w, t1⟩ := w
        unfold scanWhole at hw
        split at hw
        · next t' heq =>
          rw [(List.cons.inj heq).1]
          rfl
        · obtain ⟨h1, h2, h3, _⟩ := scanDigits_some _ _ _ hw
          cases w with
          | nil => exact absurd rfl h2
          | cons d w =>
            rw [List.cons_append] at h1
            rw [(List.cons.inj h1).1]
            exact h3 d (List.mem_cons_self _ _)

theorem scanWhole_toDigits (n : Nat) :
    scanWhole (Nat.toDigits 10 n) = some (Nat.toDigits 10 n, []) := by
  obtain ⟨c, cs, h1, h2, h3, h4, h5, _⟩ := toDigits_spec n
  have hall := toDigits_all_digits n
  by_cases hn : n = 0
  · obtain ⟨rfl, rfl⟩ := h5 hn
    rw [h1]
    rfl
  · have hsd := scanDigits_digits (Nat.toDigits 10 n) [] (by rw [h1]; simp) hall (by simp)
    rw [List.append_nil] at hsd
    rw [h1] at hsd ⊢
    unfold scanWhole
    split
    · next t heq => exact absurd (List.cons.inj heq).1 (h4 hn)
    · exact hsd

theorem isDigit_ne_minus (c : Char) (h : isDigit c = true) : c ≠ '-' := by
  rintro rfl
  exact absurd h (by decide)

theorem scanNumber_intDigits (i : Int) : scanNumber (intDigits i) = some (intDigits i, []) := by
  obtain ⟨c, cs, h1, h2, _⟩ := toDigits_spec i.natAbs
  have hw := scanWhole_toDigits i.natAbs
  rw [scanNumber_stages]
  unfold intDigits
  by_cases hi : i < 0
  · simp only [hi, if_true, hw, Option.some_bind]
    simp [scanFraction, scanExponent]
  · simp only [hi, if_false]
    have hc := isDigit_ne_minus c h2
    have e1 : (match Nat.toDigits 10 i.natAbs with
        | '-' :: rest => rest
        | _ => Nat.toDigits 10 i.natAbs) = Nat.toDigits 10 i.natAbs := by
      split
      · next t heq =>
        rw [h1] at heq
        exact absurd (List.cons.inj heq).1 hc
      · rfl
    have e2 : (match Nat.toDigits 10 i.natAbs with
        | '-' :: _ => ['-']
        | _ => []) = [] := by
      split
      · next t heq =>
        rw [h1] at heq
        exact absurd (List.cons.inj heq).1 hc
      · rfl
    rw [e1, e2, hw]
    simp [scanFraction, scanExponent]

theorem overflowsFloat64_digits (ds : List Char) (hds : ∀ x ∈ ds, isDigit x = true) (neg : Bool)
    (h : digitsValue ds < 2 ^ 1024 - 2 ^ 970) :
    overflowsFloat64 (if neg = true then '-' :: ds else ds) = false := by
  have hspan : ds.span isDigit = (ds, []) := by
    have := span_digits ds [] hds (by simp)
    rwa [List.append_nil] at this
  have key : ∀ body : List Char, body = ds →
      decide ((2 ^ 1024 - 2 ^ 970) * 10 ^ (-(((match (match (body.span isDigit).2 with
          | '.' :: rest => rest.span isDigit
          | _ => ([], (body.span isDigit).2)).2 with
        | _ :: '-' :: ds => -(digitsValue ds : Int)
        | _ :: '+' :: ds => (digitsValue ds : Int)
        | _ :: ds => (digitsValue ds : Int)
        | [] => 0) : Int) - ((match (body.span isDigit).2 with
          | '.' :: rest => rest.span isDigit
          | _ => ([], (body.span isDigit).2)).1.length : Int))).toNat ≤
        digitsValue ((body.span isDigit).1 ++ (match (body.span isDigit).2 with
          | '.' :: rest => rest.span isDigit
          | _ => ([], (body.span isDigit).2)).1) * 10 ^ (((match (match (body.span isDigit).2 with
          | '.' :: rest => rest.span isDigit
          | _ => ([], (body.span isDigit).2)).2 with
        | _ :: '-' :: ds => -(digitsValue ds : Int)
        | _ :: '+' :: ds => (digitsValue ds : Int)
        | _ :: ds => (digitsValue ds : Int)
        | [] => 0) : Int) - ((match (body.span isDigit).2 with
          | '.' :: rest => rest.span isDigit
          | _ => ([], (body.span isDigit).2)).1.length : Int)).toNat) = false := by
    rintro body rfl
    rw [hspan]
    simp only [List.append_nil, List.length_nil, Int.Nat.cast_ofNat_Int, sub_zero,
      neg_zero, Int.toNat_zero, pow_zero, mul_one, decide_eq_false_iff_not, not_le]
    exact h
  cases neg with
  | true => exact key ds rfl
  | false =>
    simp only [Bool.false_eq_true, if_false]
    unfold overflowsFloat64
    split
    · exact absurd (hds '-' (List.mem_cons_self _ _)) (by decide)
    · exact key ds rfl

theorem isFloat64Text_intDigits (i : Int) (h : -(2 ^ 63) ≤ i ∧ i < 2 ^ 64) :
    isFloat64Text (intDigits i) = true := by
  unfold isFloat64Text
  rw [scanNumber_intDigits]
  have h1 : digitsValue (Nat.toDigits 10 i.natAbs) < 2 ^ 1024 - 2 ^ 970 := by
    rw [digitsValue_toDigits]
    have : i.natAbs < 2 ^ 64 := by omega
    exact lt_of_lt_of_le this (by norm_num)
  have h2 := overflowsFloat64_digits _ (toDigits_all_digits i.natAbs) (decide (i < 0)) h1
  have h3 : (if decide (i < 0) = true then '-' :: Nat.toDigits 10 i.natAbs
      else Nat.toDigits 10 i.natAbs) = intDigits i := by
    unfold intDigits
    by_cases hi : i < 0 <;> simp [hi]
  rw [h3] at h2
  simp [h2]

/-! ### Strings -/

theorem scanString_cons_plain (c : Char) (tail : List Char) (h1 : c ≠ '"') (h2 : c ≠ '\\')
    (h3 : ¬ c.toNat < 0x20) :
    scanString (c :: tail) = (scanString tail).map fun p => (c :: p.1, p.2) := by
  rw [scanString.eq_def]
  simp only [h1, h2, h3, if_false]

theorem scanString_escape (e ch : Char) (tail : List Char) (he : e ≠ 'u')
    (hu : unescape e = some ch) :
    scanString ('\\' :: e :: tail) = (scanString tail).map fun p => ('\\' :: e :: p.1, p.2) := by
  rw [scanString.eq_def]
  simp only [he, hu, if_true, if_false]
  rw [if_neg (by decide)]

theorem scanString_u (a b c d : Char) (x y z w : Nat) (tail : List Char)
    (ha : hexValue a = some x) (hb : hexValue b = some y) (hc : hexValue c = some z)
    (hd : hexValue d = some w) :
    scanString ('\\' :: 'u' :: a :: b :: c :: d :: tail) =
      (scanString tail).map fun p => ('\\' :: 'u' :: a :: b :: c :: d :: p.1, p.2) := by
  rw [scanString.eq_def]
  simp only [ha, hb, hc, hd, if_true]
  rw [if_neg (by decide)]

theorem scanString_escChar (c : Char) (tail : List Char) :
    scanString (escChar c ++ tail) = (scanString tail).map fun p => (escChar c ++ p.1, p.2) := by
  have key : ∀ e, escChar c = e →
      scanString (e ++ tail) = (scanString tail).map fun p => (e ++ p.1, p.2) := by
    intro e he
    unfold escChar at he
    split at he
    · next h => subst h he; exact scanString_escape _ '"' _ (by decide) (by decide)
    split at he
    · next h => subst h he; exact scanString_escape _ '\\' _ (by decide) (by decide)
    split at he
    · next h => subst h he; exact scanString_escape _ '\n' _ (by decide) (by decide)
    split at he
    · next h => subst h he; exact scanString_escape _ '\r' _ (by decide) (by decide)
    split at he
    · next h => subst h he; exact scanString_escape _ '\t' _ (by decide) (by decide)
    split at he
    · next h => subst h he; exact scanString_escape _ '\x08' _ (by decide) (by decide)
    split at he
    · next h => subst h he; exact scanString_escape _ '\x0c' _ (by decide) (by decide)
    split at he
    · next h =>
      have hlt : c.toNat < 256 := by
        rcases h with h | h | h | h
        · omega
        · subst h; decide
        · subst h; decide
        · subst h; decide
      subst he
      exact scanString_u '0' '0' _ _ 0 0 _ _ _ (by decide) (by decide)
        (hexValue_digit _ (by omega)) (hexValue_digit _ (by omega))
    split at he
    · next h =>
      subst h he
      exact scanString_u '2' '0' '2' '8' 2 0 2 8 _ (by decide) (by decide) (by decide) (by decide)
    split at he
    · next h =>
      subst h he
      exact scanString_u '2' '0' '2' '9' 2 0 2 9 _ (by decide) (by decide) (by decide) (by decide)
    · next h1 h2 _ _ _ _ _ h8 _ _ =>
      subst he
      exact scanString_cons_plain c tail h1 h2 (fun h => h8 (Or.inl h))
  exact key _ rfl

/-- The text between the quotes of a string `json.Marshal` writes is scanned
as it is written. -/
theorem scanString_quoted (cs tail : List Char) :
    scanString (cs.flatMap escChar ++ '"' :: tail) = some (cs.flatMap escChar, tail) := by
  induction cs with
  | nil =>
    rw [List.flatMap_nil, List.nil_append, scanString.eq_def]
    simp only [if_true]
  | cons c cs ih =>
    rw [List.flatMap_cons, List.append_assoc, scanString_escChar, ih]
    rfl

theorem scanString_escBytesFuel (tail : List Char) :
    ∀ (fuel : Nat) (s : Bytes),
      scanString (escBytesFuel fuel s ++ '"' :: tail) = some (escBytesFuel fuel s, tail) := by
  intro fuel
  induction fuel with
  | zero =>
    intro s
    cases s with
    | nil =>
      rw [escBytesFuel, List.nil_append, scanString.eq_def]
      simp only [if_true]
    | cons b bs =>
      rw [escBytesFuel, List.nil_append, scanString.eq_def]
      simp only [if_true]
  | succ n ih =>
    intro s
    cases s with
    | nil =>
      rw [escBytesFuel, List.nil_append, scanString.eq_def]
      simp only [if_true]
    | cons b bs =>
      rw [escBytesFuel]
      cases hd : utf8DecodeChar (b :: bs) with
      | none =>
        simp only [List.cons_append, List.nil_append]
        rw [scanString_u 'f' 'f' 'f' 'd' 15 15 15 13 _ (by decide) (by decide) (by decide)
          (by decide), ih bs]
        rfl
      | some p =>
        obtain ⟨c, rest⟩ := p
        simp only [List.append_assoc]
        rw [scanString_escChar, ih rest]
        rfl

theorem unquoteFuel_cons_plain (fuel : Nat) (c : Char) (tail : List Char) (h : c ≠ '\\') :
    unquoteFuel (fuel + 1) (c :: tail) = c :: unquoteFuel fuel tail := by
  rw [unquoteFuel.eq_def]
  simp only [h, if_false]

theorem unquoteFuel_escape (fuel : Nat) (e ch : Char) (tail : List Char) (he : e ≠ 'u')
    (hu : unescape e = some ch) :
    unquoteFuel (fuel + 1) ('\\' :: e :: tail) = ch :: unquoteFuel fuel tail := by
  rw [unquoteFuel.eq_def]
  simp only [if_true]
  split
  · next heq => simp at heq
  · next a b c d rest heq =>
    exact absurd (List.cons.inj heq).1 he
  · next e' rest hno heq =>
    obtain ⟨rfl, rfl⟩ := List.cons.inj heq
    rw [hu]

theorem unquoteFuel_u (fuel : Nat) (a b c d : Char) (r : Nat) (tail : List Char)
    (h : hex4Value a b c d = some r) (hr : ¬ (0xD800 ≤ r ∧ r < 0xE000)) :
    unquoteFuel (fuel + 1) ('\\' :: 'u' :: a :: b :: c :: d :: tail) =
      Char.ofNat r :: unquoteFuel fuel tail := by
  rw [unquoteFuel.eq_def]
  simp only [if_true, h, hr, if_false]

theorem hex4Value_u00 (n : Nat) (h : n < 256) :
    hex4Value '0' '0' (hex.digit (n / 16)) (hex.digit (n % 16)) = some n := by
  unfold hex4Value
  rw [hexValue_digit _ (by omega), hexValue_digit _ (by omega)]
  have h0 : hexValue '0' = some 0 := by decide
  simp only [h0]
  have hn : ((0 * 16 + 0) * 16 + n / 16) * 16 + n % 16 = n := by omega
  rw [hn]

theorem unquoteFuel_escChar (fuel : Nat) (c : Char) (tail : List Char) :
    unquoteFuel (fuel + 1) (escChar c ++ tail) = c :: unquoteFuel fuel tail := by
  unfold escChar
  split
  · next h => subst h; exact unquoteFuel_escape _ _ _ _ (by decide) (by decide)
  split
  · next h => subst h; exact unquoteFuel_escape _ _ _ _ (by decide) (by decide)
  split
  · next h => subst h; exact unquoteFuel_escape _ _ _ _ (by decide) (by decide)
  split
  · next h => subst h; exact unquoteFuel_escape _ _ _ _ (by decide) (by decide)
  split
  · next h => subst h; exact unquoteFuel_escape _ _ _ _ (by decide) (by decide)
  split
  · next h => subst h; exact unquoteFuel_escape _ _ _ _ (by decide) (by decide)
  split
  · next h => subst h; exact unquoteFuel_escape _ _ _ _ (by decide) (by decide)
  split
  · next h =>
    have hlt : c.toNat < 256 := by
      rcases h with h | h | h | h
      · omega
      · subst h; decide
      · subst h; decide
      · subst h; decide
    have := unquoteFuel_u fuel '0' '0' _ _ c.toNat tail (hex4Value_u00 _ hlt) (by omega)
    rw [Char.ofNat_toNat] at this
    exact this
  split
  · next h =>
    subst h
    exact unquoteFuel_u fuel '2' '0' '2' '8' 0x2028 tail (by decide) (by decide)
  split
  · next h =>
    subst h
    exact unquoteFuel_u fuel '2' '0' '2' '9' 0x2029 tail (by decide) (by decide)
  · next h1 h2 _ _ _ _ _ h8 _ _ =>
    exact unquoteFuel_cons_plain fuel c tail h2

theorem unquoteFuel_quoted (cs : List Char) :
    ∀ fuel, cs.length ≤ fuel → unquoteFuel fuel (cs.flatMap escChar) = cs := by
  induction cs with
  | nil =>
    intro fuel _
    cases fuel <;> rfl
  | cons c cs ih =>
    intro fuel h
    obtain ⟨f, rfl⟩ : ∃ f, fuel = f + 1 := ⟨fuel - 1, by simp at h; omega⟩
    rw [List.flatMap_cons, unquoteFuel_escChar, ih f (by simpa using h)]

theorem escChar_length_pos (c : Char) : 0 < (escChar c).length := by
  unfold escChar u00
  repeat' split
  all_goals simp

theorem length_le_flatMap_escChar (cs : List Char) : cs.length ≤ (cs.flatMap escChar).length := by
  induction cs with
  | nil => simp
  | cons c cs ih =>
    have := escChar_length_pos c
    simp only [List.flatMap_cons, List.length_append, List.length_cons]
    omega

/-- The text between the quotes of a string `json.Marshal` writes stands for
the string. -/
theorem unquote_quoted (s : String) : unquote (s.data.flatMap escChar) = s := by
  unfold unquote
  rw [unquoteFuel_quoted s.data _ (length_le_flatMap_escChar s.data)]

/-! ### Values -/

theorem scans_mono {t : List Char} {d d' : Nat} (h : Scans t d) (hd : d ≤ d') : Scans t d' :=
  ⟨h.1, fun fuel depth rest hf hdep hr => h.2 fuel depth rest hf (by omega) hr⟩

theorem delimited_head {rest : List Char} (h : Delimited rest) :
    ∀ c ∈ rest.head?, isDigit c = false ∧ c ≠ '.' ∧ c ≠ 'e' ∧ c ≠ 'E' := by
  obtain ⟨c, tl, rfl, hc⟩ := h
  intro x hx
  simp only [List.head?_cons, Option.mem_def, Option.some.injEq] at hx
  subst hx
  rcases hc with rfl | rfl | rfl <;> decide

theorem delimited_skipSpace {rest : List Char} (h : Delimited rest) : skipSpace rest = rest := by
  obtain ⟨c, tl, rfl, hc⟩ := h
  apply skipSpace_cons
  rcases hc with rfl | rfl | rfl <;> rfl

/-- A number literal within the range of float64 is scanned and decoded. -/
theorem scans_number (t : List Char) (h : isFloat64Text t = true) : Scans t 0 := by
  unfold isFloat64Text at h
  simp only [Bool.and_eq_true, decide_eq_true_eq, Bool.not_eq_true'] at h
  obtain ⟨hs, ho⟩ := h
  obtain ⟨c, tl, rfl, hc⟩ := scanNumber_head t t [] hs
  have hsp : isSpace c = false := by
    rcases hc with rfl | hc
    · rfl
    · unfold isDigit at hc
      simp only [Bool.and_eq_true, decide_eq_true_eq] at hc
      unfold isSpace
      have : c ≠ ' ' ∧ c ≠ '\t' ∧ c ≠ '\r' ∧ c ≠ '\n' := by
        refine ⟨?_, ?_, ?_, ?_⟩ <;> (rintro rfl; revert hc; decide)
      simp [this]
  have hne : c ≠ '{' ∧ c ≠ '[' ∧ c ≠ '"' ∧ c ≠ ']' ∧ c ≠ '}' := by
    rcases hc with rfl | hc
    · decide
    · refine ⟨?_, ?_, ?_, ?_, ?_⟩ <;> (rintro rfl; revert hc; decide)
  refine ⟨⟨c, tl, rfl, hsp, hne.2.2.2.1, hne.2.2.2.2⟩, ?_⟩
  intro fuel depth rest hf _ hr
  obtain ⟨f, rfl⟩ : ∃ f, fuel = f + 1 := ⟨fuel - 1, by omega⟩
  have hsn := scanNumber_append _ rest _ _ (delimited_head hr) hs
  rw [List.nil_append] at hsn
  refine ⟨.number (c :: tl), ?_, ?_⟩
  · rw [parseValue.eq_def]
    simp only [List.cons_append, skipSpace_cons c _ hsp, hne.1, hne.2.1, hne.2.2.1, if_false]
    rw [if_pos hc]
    rw [List.cons_append] at hsn
    rw [hsn]
  · rw [toGoValue, numberValue, ho]
    exact ⟨_, rfl⟩

theorem scans_null : Scans ['n', 'u', 'l', 'l'] 0 := by
  refine ⟨⟨'n', _, rfl, rfl, by decide, by decide⟩, ?_⟩
  intro fuel depth rest hf _ _
  obtain ⟨f, rfl⟩ : ∃ f, fuel = f + 1 := ⟨fuel - 1, by omega⟩
  refine ⟨.null, ?_, _, rfl⟩
  rw [parseValue.eq_def]
  simp only [List.cons_append, List.nil_append, skipSpace_cons 'n' _ rfl]
  rw [if_neg (by decide), if_neg (by decide), if_neg (by decide), if_neg (by decide)]

theorem scans_true : Scans ['t', 'r', 'u', 'e'] 0 := by
  refine ⟨⟨'t', _, rfl, rfl, by decide, by decide⟩, ?_⟩
  intro fuel depth rest hf _ _
  obtain ⟨f, rfl⟩ : ∃ f, fuel = f + 1 := ⟨fuel - 1, by omega⟩
  refine ⟨.bool true, ?_, _, rfl⟩
  rw [parseValue.eq_def]
  simp only [List.cons_append, List.nil_append, skipSpace_cons 't' _ rfl]
  rw [if_neg (by decide), if_neg (by decide), if_neg (by decide), if_neg (by decide)]

theorem scans_false : Scans ['f', 'a', 'l', 's', 'e'] 0 := by
  refine ⟨⟨'f', _, rfl, rfl, by decide, by decide⟩, ?_⟩
  intro fuel depth rest hf _ _
  obtain ⟨f, rfl⟩ : ∃ f, fuel = f + 1 := ⟨fuel - 1, by omega⟩
  refine ⟨.bool false, ?_, _, rfl⟩
  rw [parseValue.eq_def]
  simp only [List.cons_append, List.nil_append, skipSpace_cons 'f' _ rfl]
  rw [if_neg (by decide), if_neg (by decide), if_neg (by decide), if_neg (by decide)]

/-- A string is scanned from its opening quote to its closing quote. -/
theorem parseValue_quoted (f depth : Nat) (raw rest : List Char)
    (h : scanString (raw ++ '"' :: rest) = some (raw, rest)) :
    parseValue (f + 1) depth ('"' :: (raw ++ '"' :: rest)) = .ok (.str raw, rest) := by
  rw [parseValue.eq_def]
  simp only [skipSpace_cons '"' _ (by decide), h]
  rw [if_neg (by decide), if_neg (by decide)]
  exact if_pos trivial

theorem scans_quoteBytes (s : Bytes) : Scans (quoteBytes s) 0 := by
  refine ⟨⟨'"', _, rfl, rfl, by decide, by decide⟩, ?_⟩
  intro fuel depth rest hf _ _
  obtain ⟨f, rfl⟩ : ∃ f, fuel = f + 1 := ⟨fuel - 1, by omega⟩
  refine ⟨.str (escBytesFuel s.length s), ?_, _, rfl⟩
  have := parseValue_quoted f depth _ rest (scanString_escBytesFuel rest s.length s)
  simpa [quoteBytes] using this

/-! ### Arrays and objects -/

theorem parseElements_last (f depth : Nat) (text rest : List Char) (jv : Value)
    (h : parseValue f depth text = .ok (jv, ']' :: rest)) :
    parseElements (f + 1) depth text = .ok ([jv], rest) := by
  rw [parseElements.eq_def]
  simp only [h, skipSpace_cons ']' _ (by decide)]

theorem parseElements_more (f depth : Nat) (text more rest : List Char) (jv : Value)
    (jvs : List Value) (h : parseValue f depth text = .ok (jv, ',' :: more))
    (hm : parseElements f depth more = .ok (jvs, rest)) :
    parseElements (f + 1) depth text = .ok (jv :: jvs, rest) := by
  rw [parseElements.eq_def]
  simp only [h, skipSpace_cons ',' _ (by decide), hm]

theorem parseMembers_last (f depth : Nat) (k : String) (text rest : List Char) (jv : Value)
    (h : parseValue f depth text = .ok (jv, '}' :: rest)) :
    parseMembers (f + 1) depth ('"' :: (k.data.flatMap escChar ++ '"' :: ':' :: text)) =
      .ok ([(k.data.flatMap escChar, jv)], rest) := by
  rw [parseMembers.eq_def]
  simp only [skipSpace_cons '"' _ (by decide), scanString_quoted,
    skipSpace_cons ':' _ (by decide), h, skipSpace_cons '}' _ (by decide)]

theorem parseMembers_more (f depth : Nat) (k : String) (text more rest : List Char) (jv : Value)
    (kvs : List (List Char × Value)) (h : parseValue f depth text = .ok (jv, ',' :: more))
    (hm : parseMembers f depth more = .ok (kvs, rest)) :
    parseMembers (f + 1) depth ('"' :: (k.data.flatMap escChar ++ '"' :: ':' :: text)) =
      .ok ((k.data.flatMap escChar, jv) :: kvs, rest) := by
  rw [parseMembers.eq_def]
  simp only [skipSpace_cons '"' _ (by decide), scanString_quoted,
    skipSpace_cons ':' _ (by decide), h, skipSpace_cons ',' _ (by decide), hm]

theorem quote_length (k : String) : 2 ≤ (quote k).length := by
  simp [quote]

theorem members_cons_cons (k : String) (v : List Char) (m : String × List Char)
    (ms : List (String × List Char)) :
    members ((k, v) :: m :: ms) = quote k ++ ':' :: v ++ ',' :: members (m :: ms) := rfl

theorem elements_cons_cons (v w : List Char) (vs : List (List Char)) :
    elements (v :: w :: vs) = v ++ ',' :: elements (w :: vs) := rfl

/-- The elements `json.Marshal` writes are scanned up to the bracket that
closes the array. -/
theorem elements_scan (d : Nat) (ts : List (List Char)) (hne : ts ≠ [])
    (h : ∀ t ∈ ts, Scans t d) :
    ∀ (fuel depth : Nat) (rest : List Char), (elements ts).length + 1 < fuel →
      depth + d ≤ maxNestingDepth →
      ∃ jvs, parseElements fuel depth (elements ts ++ ']' :: rest) = .ok (jvs, rest) ∧
        ∃ gs, toGoValues jvs = .ok gs := by
  induction ts with
  | nil => exact absurd rfl hne
  | cons t ts ih =>
    intro fuel depth rest hf hd
    obtain ⟨f, rfl⟩ : ∃ f, fuel = f + 1 := ⟨fuel - 1, by omega⟩
    have ht := h t (List.mem_cons_self _ _)
    cases ts with
    | nil =>
      have e1 : elements [t] = t := rfl
      rw [e1] at hf ⊢
      obtain ⟨jv, hp, g, hg⟩ := ht.2 f depth (']' :: rest) (by omega) hd
        ⟨']', rest, rfl, Or.inr (Or.inr rfl)⟩
      refine ⟨[jv], parseElements_last f depth _ rest jv hp, [g], ?_⟩
      simp [toGoValues, hg]
    | cons w ws =>
      rw [elements_cons_cons] at hf ⊢
      simp only [List.length_append, List.length_cons] at hf
      obtain ⟨jv, hp, g, hg⟩ := ht.2 f depth (',' :: (elements (w :: ws) ++ ']' :: rest))
        (by omega) hd ⟨',', _, rfl, Or.inl rfl⟩
      obtain ⟨jvs, hps, gs, hgs⟩ := ih (by simp)
        (fun x hx => h x (List.mem_cons_of_mem _ hx)) f depth rest (by omega) hd
      refine ⟨jv :: jvs, ?_, g :: gs, ?_⟩
      · have := parseElements_more f depth _ _ rest jv jvs hp hps
        simpa [List.append_assoc] using this
      · simp [toGoValues, hg, hgs]

/-- The members `json.Marshal` writes are scanned up to the brace that closes
the object. -/
theorem members_scan (d : Nat) (ms : List (String × List Char)) (hne : ms ≠ [])
    (h : ∀ m ∈ ms, Scans m.2 d) :
    ∀ (fuel depth : Nat) (rest : List Char), (members ms).length < fuel →
      depth + d ≤ maxNestingDepth →
      ∃ kvs, parseMembers fuel depth (members ms ++ '}' :: rest) = .ok (kvs, rest) ∧
        ∃ gs, toGoFields kvs = .ok gs := by
  induction ms with
  | nil => exact absurd rfl hne
  | cons m ms ih =>
    obtain ⟨k, v⟩ := m
    intro fuel depth rest hf hd
    obtain ⟨f, rfl⟩ : ∃ f, fuel = f + 1 := ⟨fuel - 1, by omega⟩
    have ht : Scans v d := h (k, v) (List.mem_cons_self _ _)
    have hq := quote_length k
    cases ms with
    | nil =>
      have e1 : members [(k, v)] = quote k ++ ':' :: v := rfl
      rw [e1] at hf ⊢
      simp only [List.length_append, List.length_cons] at hf
      obtain ⟨jv, hp, g, hg⟩ := ht.2 f depth ('}' :: rest) (by omega) hd
        ⟨'}', rest, rfl, Or.inr (Or.inl rfl)⟩
      refine ⟨[(k.data.flatMap escChar, jv)], ?_, [(unquote (k.data.flatMap escChar), g)], ?_⟩
      · have := parseMembers_last f depth k _ rest jv hp
        simpa [quote, List.append_assoc] using this
      · simp [toGoFields, hg]
    | cons w ws =>
      rw [members_cons_cons] at hf ⊢
      simp only [List.length_append, List.length_cons] at hf
      obtain ⟨jv, hp, g, hg⟩ := ht.2 f depth (',' :: (members (w :: ws) ++ '}' :: rest))
        (by omega) hd ⟨',', _, rfl, Or.inl rfl⟩
      obtain ⟨kvs, hps, gs, hgs⟩ := ih (by simp)
        (fun x hx => h x (List.mem_cons_of_mem _ hx)) f depth rest (by omega) hd
      refine ⟨(k.data.flatMap escChar, jv) :: kvs, ?_,
        (unquote (k.data.flatMap escChar), g) :: gs, ?_⟩
      · have := parseMembers_more f depth k _ _ rest jv kvs hp hps
        simpa [quote, List.append_assoc] using this
      · simp [toGoFields, hg, hgs]

theorem elements_head (ts : List (List Char)) (hne : ts ≠ [])
    (h : ∀ t ∈ ts, ∃ c tl, t = c :: tl ∧ isSpace c = false ∧ c ≠ ']' ∧ c ≠ '}') :
    ∃ c tl, elements ts = c :: tl ∧ isSpace c = false ∧ c ≠ ']' := by
  cases ts with
  | nil => exact absurd rfl hne
  | cons t ts =>
    obtain ⟨c, tl, rfl, h1, h2, _⟩ := h t (List.mem_cons_self _ _)
    cases ts with
    | nil => exact ⟨c, tl, rfl, h1, h2⟩
    | cons w ws => exact ⟨c, _, rfl, h1, h2⟩

theorem members_head (ms : List (String × List Char)) (hne : ms ≠ []) :
    ∃ tl, members ms = '"' :: tl := by
  cases ms with
  | nil => exact absurd rfl hne
  | cons m ms =>
    obtain ⟨k, v⟩ := m
    cases ms with
    | nil => exact ⟨_, rfl⟩
    | cons w ws => exact ⟨_, rfl⟩

/-- An array of values the scanner accepts is accepted, one level deeper. -/
theorem scans_array (d : Nat) (ts : List (List Char)) (h : ∀ t ∈ ts, Scans t d) :
    Scans ('[' :: elements ts ++ [']']) (d + 1) := by
  refine ⟨⟨'[', _, rfl, rfl, by decide, by decide⟩, ?_⟩
  intro fuel depth rest hf hd _
  obtain ⟨f, rfl⟩ : ∃ f, fuel = f + 1 := ⟨fuel - 1, by omega⟩
  have hdepth : ¬ maxNestingDepth ≤ depth := by omega
  simp only [List.length_cons, List.length_append, List.length_nil] at hf
  have htext : ('[' :: elements ts ++ [']']) ++ rest = '[' :: (elements ts ++ ']' :: rest) := by
    simp
  rw [htext, parseValue.eq_def]
  simp only [skipSpace_cons '[' _ (by decide)]
  rw [if_neg (show ¬ '[' = '{' by decide)]
  simp only [if_true, hdepth, if_false]
  by_cases hne : ts = []
  · subst hne
    refine ⟨.arr [], ?_, .arr [], ?_⟩
    · simp only [elements, List.nil_append, skipSpace_cons ']' _ (by decide)]
    · simp [toGoValue, toGoValues]
  · obtain ⟨c, tl, hc, hsp, hnb⟩ := elements_head ts hne fun t ht => (h t ht).1
    obtain ⟨jvs, hp, gs, hgs⟩ := elements_scan d ts hne h f (depth + 1) rest (by omega) (by omega)
    refine ⟨.arr jvs, ?_, .arr gs, ?_⟩
    · rw [hc] at hp ⊢
      rw [List.cons_append] at hp ⊢
      rw [skipSpace_cons c _ hsp]
      split
      · next heq => exact absurd (List.cons.inj heq).1 hnb
      · rw [hp]
    · simp [toGoValue, hgs]

/-- An object of members the scanner accepts is scanned as an object, one
level deeper, and its members decode. -/
theorem object_scan (d : Nat) (ms : List (String × List Char)) (h : ∀ m ∈ ms, Scans m.2 d) :
    ∀ (fuel depth : Nat) (rest : List Char), (members ms).length + 2 < fuel →
      depth + (d + 1) ≤ maxNestingDepth →
      ∃ kvs, parseValue fuel depth ('{' :: (members ms ++ '}' :: rest)) = .ok (.obj kvs, rest) ∧
        ∃ gs, toGoFields kvs = .ok gs := by
  intro fuel depth rest hf hd
  obtain ⟨f, rfl⟩ : ∃ f, fuel = f + 1 := ⟨fuel - 1, by omega⟩
  have hdepth : ¬ maxNestingDepth ≤ depth := by omega
  rw [parseValue.eq_def]
  simp only [skipSpace_cons '{' _ (by decide), if_true, hdepth, if_false]
  by_cases hne : ms = []
  · subst hne
    refine ⟨[], ?_, [], rfl⟩
    simp only [members, List.nil_append, skipSpace_cons '}' _ (by decide)]
  · obtain ⟨tl, hc⟩ := members_head ms hne
    obtain ⟨kvs, hp, gs, hgs⟩ := members_scan d ms hne h f (depth + 1) rest (by omega) (by omega)
    refine ⟨kvs, ?_, gs, hgs⟩
    rw [hc] at hp ⊢
    rw [List.cons_append] at hp ⊢
    rw [skipSpace_cons '"' _ (by decide)]
    split
    · next heq => simp at heq
    · rw [hp]

theorem scans_object (d : Nat) (ms : List (String × List Char)) (h : ∀ m ∈ ms, Scans m.2 d) :
    Scans ('{' :: members ms ++ ['}']) (d + 1) := by
  refine ⟨⟨'{', _, rfl, rfl, by decide, by decide⟩, ?_⟩
  intro fuel depth rest hf hd _
  simp only [List.length_cons, List.length_append, List.length_nil] at hf
  have htext : ('{' :: members ms ++ ['}']) ++ rest = '{' :: (members ms ++ '}' :: rest) := by
    simp
  rw [htext]
  obtain ⟨kvs, hp, gs, hgs⟩ := object_scan d ms h fuel depth rest (by omega) hd
  refine ⟨.obj kvs, hp, .obj (gs.foldl put []), ?_⟩
  simp [toGoValue, hgs]

theorem mem_sortKeys {m : String × List Char} {ms : List (String × List Char)} :
    m ∈ sortKeys ms ↔ m ∈ ms :=
  (List.perm_insertionSort _ ms).mem_iff

mutual
/-- The text `json.Marshal` writes for a value whose numbers are numbers of
Go is accepted by `json.Unmarshal` wherever the nesting of the value fits
under `maxNestingDepth`. -/
theorem scans_encode : ∀ (v : GoValue) (t : List Char), encode v = some t →
    wellFormed v = true → Scans t (depth v)
  | .null, t, h, _ => by
    rw [encode, Option.some.injEq] at h
    subst h
    exact scans_null
  | .bool true, t, h, _ => by
    rw [encode, Option.some.injEq] at h
    subst h
    exact scans_true
  | .bool false, t, h, _ => by
    rw [encode, Option.some.injEq] at h
    subst h
    exact scans_false
  | .int i, t, h, hw => by
    rw [encode, Option.some.injEq] at h
    subst h
    rw [wellFormed, decide_eq_true_eq] at hw
    exact scans_number _ (isFloat64Text_intDigits i hw)
  | .float text, t, h, hw => by
    rw [encode, Option.some.injEq] at h
    subst h
    rw [wellFormed] at hw
    exact scans_number _ hw
  | .str s, t, h, _ => by
    rw [encode, Option.some.injEq] at h
    subst h
    exact scans_quoteBytes s
  | .arr xs, t, h, hw => by
    rw [encode] at h
    rw [wellFormed] at hw
    cases hts : encodeList xs with
    | none => rw [hts] at h; simp at h
    | some ts =>
      rw [hts, Option.map_some', Option.some.injEq] at h
      subst h
      rw [depth]
      exact scans_array _ ts (scans_encodeList xs ts hts hw)
  | .obj kvs, t, h, hw => by
    rw [encode] at h
    rw [wellFormed] at hw
    cases hms : encodeFields kvs with
    | none => rw [hms] at h; simp at h
    | some ms =>
      rw [hms, Option.map_some', Option.some.injEq] at h
      subst h
      rw [depth]
      exact scans_object _ _ fun m hm =>
        scans_encodeFields kvs ms hms hw m (mem_sortKeys.mp hm)
  | .unsupported, t, h, _ => by
    rw [encode] at h
    exact absurd h (by simp)
/-- The texts of the elements of a slice are accepted. -/
theorem scans_encodeList : ∀ (xs : List GoValue) (ts : List (List Char)),
    encodeList xs = some ts → wellFormedList xs = true → ∀ t ∈ ts, Scans t (depthList xs)
  | [], ts, h, _ => by
    rw [encodeList, Option.some.injEq] at h
    subst h
    intro t ht
    exact absurd ht (List.not_mem_nil _)
  | x :: xs, ts, h, hw => by
    rw [encodeList] at h
    rw [wellFormedList, Bool.and_eq_true] at hw
    cases hv : encode x with
    | none => rw [hv] at h; simp at h
    | some v =>
      cases hvs : encodeList xs with
      | none => rw [hv, hvs] at h; simp at h
      | some vs =>
        rw [hv, hvs] at h
        simp only [Option.some.injEq] at h
        subst h
        intro t ht
        rw [depthList]
        rcases List.mem_cons.mp ht with rfl | ht
        · exact scans_mono (scans_encode x _ hv hw.1) (le_max_left _ _)
        · exact scans_mono (scans_encodeList xs vs hvs hw.2 t ht) (le_max_right _ _)
/-- The texts of the values of a map are accepted. -/
theorem scans_encodeFields : ∀ (kvs : List (String × GoValue)) (ms : List (String × List Char)),
    encodeFields kvs = some ms → wellFormedFields kvs = true →
      ∀ m ∈ ms, Scans m.2 (depthFields kvs)
  | [], ms, h, _ => by
    rw [encodeFields, Option.some.injEq] at h
    subst h
    intro m hm
    exact absurd hm (List.not_mem_nil _)
  | (k, x) :: kvs, ms, h, hw => by
    rw [encodeFields] at h
    rw [wellFormedFields, Bool.and_eq_true] at hw
    cases hv : encode x with
    | none => rw [hv] at h; simp at h
    | some v =>
      cases hvs : encodeFields kvs with
      | none => rw [hv, hvs] at h; simp at h
      | some vs =>
        rw [hv, hvs] at h
        simp only [Option.some.injEq] at h
        subst h
        intro m hm
        rw [depthFields]
        rcases List.mem_cons.mp hm with rfl | hm
        · exact scans_mono (scans_encode x _ hv hw.1) (le_max_left _ _)
        · exact scans_mono (scans_encodeFields kvs vs hvs hw.2 m hm) (le_max_right _ _)
end

end json

namespace Time

theorem yoe_step (a : Nat) :
    a - a / 1460 + a / 36524 - a / 146096 ≤
      (a + 1) - (a + 1) / 1460 + (a + 1) / 36524 - (a + 1) / 146096 := by
  omega

theorem yoe_mono (a b : Nat) (h : a ≤ b) :
    (a - a / 1460 + a / 36524 - a / 146096) / 365 ≤
      (b - b / 1460 + b / 36524 - b / 146096) / 365 := by
  induction b with
  | zero =>
    have : a = 0 := by omega
    subst this
    exact Nat.le_refl _
  | succ b ih =>
    by_cases hab : a = b + 1
    · subst hab
      exact Nat.le_refl _
    · exact Nat.le_trans (ih (by omega)) (Nat.div_le_div_right (yoe_step b))

set_option maxRecDepth 1000000 in
theorem yoe_ends : ∀ y < 400,
    ((365 * y + y / 4 - y / 100) - (365 * y + y / 4 - y / 100) / 1460 +
        (365 * y + y / 4 - y / 100) / 36524 - (365 * y + y / 4 - y / 100) / 146096) / 365 = y ∧
    ((365 * y + y / 4 - y / 100 + 364) - (365 * y + y / 4 - y / 100 + 364) / 1460 +
        (365 * y + y / 4 - y / 100 + 364) / 36524 -
          (365 * y + y / 4 - y / 100 + 364) / 146096) / 365 = y ∧
    ((y % 4 = 3 ∧ (y % 100 ≠ 99 ∨ y = 399)) →
      ((365 * y + y / 4 - y / 100 + 365) - (365 * y + y / 4 - y / 100 + 365) / 1460 +
        (365 * y + y / 4 - y / 100 + 365) / 36524 -
          (365 * y + y / 4 - y / 100 + 365) / 146096) / 365 = y) := by
  decide

end Time

namespace Time

theorem yearStart_leap (y doe : Nat)
    (hc : ¬ 365 * (y + 1) + (y + 1) / 4 - (y + 1) / 100 ≤ doe)
    (hl : y % 4 = 3 ∧ (y % 100 ≠ 99 ∨ y = 399)) : doe ≤ 365 * y + y / 4 - y / 100 + 365 := by
  omega

theorem yearStart_common (y doe : Nat)
    (hc : ¬ 365 * (y + 1) + (y + 1) / 4 - (y + 1) / 100 ≤ doe)
    (hl : ¬ (y % 4 = 3 ∧ (y % 100 ≠ 99 ∨ y = 399))) (hy : y < 399) :
    doe ≤ 365 * y + y / 4 - y / 100 + 364 := by
  omega

theorem yearStart_next (y doe : Nat) (h1 : 365 * y + y / 4 - y / 100 ≤ doe)
    (h2 : doe < 365 * (y + 1) + (y + 1) / 4 - (y + 1) / 100) :
    doe - (365 * y + y / 4 - y / 100) ≤ 365 ∧
      (doe - (365 * y + y / 4 - y / 100) = 365 → y % 4 = 3 ∧ (y % 100 ≠ 99 ∨ y = 399)) := by
  omega

theorem yearStart_last (doe : Nat) (h1 : doe < 146097) :
    doe - (365 * 399 + 399 / 4 - 399 / 100) ≤ 365 := by
  omega

theorem civil_year (doe yoe : Nat) (hdoe : doe < 146097)
    (hyoe : yoe = (doe - doe / 1460 + doe / 36524 - doe / 146096) / 365) :
    yoe < 400 ∧ 365 * yoe + yoe / 4 - yoe / 100 ≤ doe ∧
      doe - (365 * yoe + yoe / 4 - yoe / 100) ≤ 365 ∧
      (doe - (365 * yoe + yoe / 4 - yoe / 100) = 365 →
        yoe % 4 = 3 ∧ (yoe % 100 ≠ 99 ∨ yoe = 399)) := by
  have h1 : yoe < 400 := by omega
  have hlow : 365 * yoe + yoe / 4 - yoe / 100 ≤ doe := by
    by_contra hc
    have hpos : 1 ≤ yoe := by
      clear hyoe
      omega
    obtain ⟨y, rfl⟩ : ∃ y, yoe = y + 1 := ⟨yoe - 1, (Nat.sub_add_cancel hpos).symm⟩
    obtain ⟨_, e2, e3⟩ := yoe_ends y (Nat.lt_of_succ_lt h1)
    by_cases hl : y % 4 = 3 ∧ (y % 100 ≠ 99 ∨ y = 399)
    · have hm := yoe_mono doe _ (yearStart_leap y doe hc hl)
      rw [e3 hl, ← hyoe] at hm
      exact absurd hm (Nat.not_succ_le_self y)
    · have hm := yoe_mono doe _ (yearStart_common y doe hc hl (by clear hyoe; omega))
      rw [e2, ← hyoe] at hm
      exact absurd hm (Nat.not_succ_le_self y)
  have hup : yoe < 399 → doe < 365 * (yoe + 1) + (yoe + 1) / 4 - (yoe + 1) / 100 := by
    intro hy
    by_contra hc
    obtain ⟨e1, _, _⟩ := yoe_ends (yoe + 1) (Nat.succ_lt_succ (Nat.lt_of_lt_of_le hy (by decide)))
    have hm := yoe_mono _ doe (Nat.le_of_not_lt hc)
    rw [e1, ← hyoe] at hm
    exact absurd hm (Nat.not_succ_le_self yoe)
  by_cases hy : yoe < 399
  · exact ⟨h1, hlow, yearStart_next yoe doe hlow (hup hy)⟩
  · have h399 : yoe = 399 := by
      clear hyoe hlow hup
      omega
    subst h399
    exact ⟨h1, hlow, yearStart_last doe hdoe, fun _ => ⟨by decide, Or.inr rfl⟩⟩

end Time
namespace Time

theorem civil_day (doy mp : Nat) (h : doy ≤ 365) (hmp : mp = (5 * doy + 2) / 153) :
    mp ≤ 11 ∧ (153 * mp + 2) / 5 ≤ doy ∧
      doy - (153 * mp + 2) / 5 + 1 ≤ 31 ∧
      ((mp = 1 ∨ mp = 3 ∨ mp = 6 ∨ mp = 8) → doy - (153 * mp + 2) / 5 + 1 ≤ 30) ∧
      (mp = 11 → doy - (153 * mp + 2) / 5 + 1 ≤ 29 ∧
        (doy - (153 * mp + 2) / 5 + 1 = 29 → doy = 365)) := by
  have h1 : mp ≤ 11 := by omega
  interval_cases mp <;> omega

theorem civil_spec (days : Int) :
    ∃ (era : Int) (doe yoe doy mp : Nat), doe < 146097 ∧
      yoe = (doe - doe / 1460 + doe / 36524 - doe / 146096) / 365 ∧
      doy = doe - (365 * yoe + yoe / 4 - yoe / 100) ∧ mp = (5 * doy + 2) / 153 ∧
      civil days = ((yoe : Int) + era * 400 +
          (if (if mp < 10 then mp + 3 else mp - 9) ≤ 2 then 1 else 0),
        (if mp < 10 then mp + 3 else mp - 9), doy - (153 * mp + 2) / 5 + 1) :=
  ⟨(days + 719468) / 146097, (days + 719468 - (days + 719468) / 146097 * 146097).toNat, _, _, _,
    by omega, rfl, rfl, rfl, rfl⟩

/-- The civil date of a day count is a date of the calendar. -/
theorem civil_valid (days : Int) :
    1 ≤ (civil days).2.1 ∧ (civil days).2.1 ≤ 12 ∧ 1 ≤ (civil days).2.2 ∧
      (0 ≤ (civil days).1 →
        (civil days).2.2 ≤ daysIn (civil days).2.1 (civil days).1.toNat) := by
  obtain ⟨era, doe, yoe, doy, mp, hdoe, hyoe, hdoy, hmp, hc⟩ := civil_spec days
  obtain ⟨hy1, hy2, hy3, hy4⟩ := civil_year doe yoe hdoe hyoe
  rw [← hdoy] at hy3 hy4
  obtain ⟨hm1, hm2, hm3, hm4, hm5⟩ := civil_day doy mp hy3 hmp
  rw [hc]
  clear hc hyoe hmp hdoy hy2 hdoe
  simp only []
  generalize hd : doy - (153 * mp + 2) / 5 + 1 = d at *
  have hd1 : 1 ≤ d := by omega
  refine ⟨?_, ?_, hd1, ?_⟩
  · split <;> omega
  · split <;> omega
  · intro hyear
    unfold daysIn
    by_cases h11 : mp = 11
    · subst h11
      simp only [show ¬ (11 < 10) by decide, if_false, show (11 - 9 : Nat) = 2 by decide,
        if_true, le_refl] at hyear ⊢
      obtain ⟨h29, hleap⟩ := hm5 rfl
      split
      · exact h29
      · next hnl =>
        by_contra hgt
        have hd29 : d = 29 := by omega
        obtain ⟨l1, l2⟩ := hy4 (hleap hd29)
        apply hnl
        clear hleap hm5 hm4 hm3 hy4 hgt hd hd29 h29
        omega
    · by_cases hlt : mp < 10
      · simp only [hlt, if_true]
        rw [if_neg (by omega)]
        by_cases h30 : mp = 1 ∨ mp = 3 ∨ mp = 6 ∨ mp = 8
        · rw [if_pos (by omega)]
          exact hm4 h30
        · rw [if_neg (by omega)]
          exact hm3
      · simp only [hlt, if_false]
        rw [if_neg (by omega), if_neg (by omega)]
        exact hm3

end Time

namespace Time

/-! ### Times -/

theorem pad_digits (w n : Nat) : ∀ x ∈ pad w n, json.isDigit x = true := by
  intro x hx
  unfold pad at hx
  rcases List.mem_append.mp hx with hx | hx
  · rw [(List.mem_replicate.mp hx).2]
    rfl
  · exact json.toDigits_all_digits n x hx

theorem digitsValue_pad (w n : Nat) : json.digitsValue (pad w n) = n := by
  unfold pad
  rw [json.digitsValue_zeros, json.digitsValue_toDigits]

theorem pad_length (w n : Nat) (hw : 0 < w) (h : n < 10 ^ w) : (pad w n).length = w := by
  unfold pad
  have := Nat.toDigitsCore_length 10 (by decide) (n + 1) n w h hw
  rw [List.length_append, List.length_replicate]
  unfold Nat.toDigits
  omega

theorem pad_two (n : Nat) (h : n < 100) :
    ∃ a b, pad 2 n = [a, b] ∧ json.isDigit a = true ∧ json.isDigit b = true ∧
      json.digitsValue [a, b] = n := by
  have hl := pad_length 2 n (by decide) (by simpa using h)
  have hd := pad_digits 2 n
  have hv := digitsValue_pad 2 n
  match hp : pad 2 n, hl with
  | [a, b], _ =>
    rw [hp] at hd hv
    exact ⟨a, b, rfl, hd a (by simp), hd b (by simp), hv⟩

theorem pad_four (n : Nat) (h : n < 10000) :
    ∃ a b c d, pad 4 n = [a, b, c, d] ∧ json.isDigit a = true ∧ json.isDigit b = true ∧
      json.isDigit c = true ∧ json.isDigit d = true ∧ json.digitsValue [a, b, c, d] = n := by
  have hl := pad_length 4 n (by decide) (by simpa using h)
  have hd := pad_digits 4 n
  have hv := digitsValue_pad 4 n
  match hp : pad 4 n, hl with
  | [a, b, c, d], _ =>
    rw [hp] at hd hv
    exact ⟨a, b, c, d, rfl, hd a (by simp), hd b (by simp), hd c (by simp), hd d (by simp), hv⟩

theorem num2_pad (n lo hi : Nat) (h : n < 100) (h1 : lo ≤ n) (h2 : n ≤ hi) :
    ∃ a b, pad 2 n = [a, b] ∧ num2 a b lo hi = some n := by
  obtain ⟨a, b, hp, ha, hb, hv⟩ := pad_two n h
  refine ⟨a, b, hp, ?_⟩
  unfold num2
  simp only [ha, hb, and_self, if_true, hv, h1, h2]

end Time

namespace Time

theorem zoneDigits_head (offset : Int) :
    ∃ c tl, zoneDigits offset = c :: tl ∧ c ≠ '.' ∧ json.isDigit c = false := by
  unfold zoneDigits
  by_cases h0 : offset = 0
  · exact ⟨'Z', [], by simp [h0], by decide, by decide⟩
  · simp only [h0, if_false]
    by_cases hz : Int.tdiv offset 60 < 0
    · refine ⟨'-', pad 2 ((Int.tdiv offset 60).natAbs / 60) ++
        ':' :: pad 2 ((Int.tdiv offset 60).natAbs % 60), ?_, by decide, by decide⟩
      simp only [hz, if_true]
    · refine ⟨'+', pad 2 ((Int.tdiv offset 60).natAbs / 60) ++
        ':' :: pad 2 ((Int.tdiv offset 60).natAbs % 60), ?_, by decide, by decide⟩
      simp only [hz, if_false]

theorem parseZone_zoneDigits (offset : Int) (h : (Int.tdiv offset 60).natAbs / 60 < 24) :
    ∃ z, parseZone (zoneDigits offset) = some z := by
  unfold zoneDigits
  by_cases h0 : offset = 0
  · exact ⟨0, by simp [h0, parseZone]⟩
  · simp only [h0, if_false]
    obtain ⟨h1, h2, hh, hhv⟩ := num2_pad ((Int.tdiv offset 60).natAbs / 60) 0 23 (by omega)
      (by omega) (by omega)
    obtain ⟨m1, m2, hm, hmv⟩ := num2_pad ((Int.tdiv offset 60).natAbs % 60) 0 59 (by omega)
      (by omega) (by omega)
    rw [hh, hm]
    by_cases hz : Int.tdiv offset 60 < 0
    · refine ⟨-((((Int.tdiv offset 60).natAbs / 60 * 60 + (Int.tdiv offset 60).natAbs % 60) * 60 :
        Nat) : Int), ?_⟩
      simp only [hz, if_true, List.cons_append, List.nil_append, parseZone, hhv, hmv]
      rfl
    · refine ⟨((((Int.tdiv offset 60).natAbs / 60 * 60 + (Int.tdiv offset 60).natAbs % 60) * 60 :
        Nat) : Int), ?_⟩
      simp only [hz, if_false, List.cons_append, List.nil_append, parseZone, hhv, hmv]
      rfl

theorem digitsValue_all_zero (ds : List Char) (h : ∀ x ∈ ds, x = '0') :
    json.digitsValue ds = 0 := by
  have key : ∀ (ds : List Char), (∀ x ∈ ds, x = '0') →
      ds.foldl (fun n c => n * 10 + (c.toNat - '0'.toNat)) 0 = 0 := by
    intro ds
    induction ds with
    | nil => intro _; rfl
    | cons c cs ih =>
      intro h
      rw [List.foldl_cons, h c (List.mem_cons_self _ _)]
      exact ih fun x hx => h x (List.mem_cons_of_mem _ hx)
  exact key ds h

theorem fracTrimmed_spec (ns : Nat) :
    fracTrimmed ns = [] ∨ ∃ d more, fracTrimmed ns = '.' :: d :: more ∧
      ∀ x ∈ d :: more, json.isDigit x = true := by
  unfold fracTrimmed
  by_cases h0 : ns = 0
  · left
    simp [h0]
  · right
    simp only [h0, if_false]
    have hall : ∀ x ∈ ((pad 9 ns).reverse.dropWhile (· == '0')).reverse,
        json.isDigit x = true := by
      intro x hx
      rw [List.mem_reverse] at hx
      exact pad_digits 9 ns x (List.mem_reverse.mp ((List.dropWhile_sublist _).subset hx))
    cases hl : ((pad 9 ns).reverse.dropWhile (· == '0')).reverse with
    | nil =>
      exfalso
      rw [List.reverse_eq_nil_iff, List.dropWhile_eq_nil_iff] at hl
      have hz : ∀ x ∈ pad 9 ns, x = '0' := fun x hx => by
        simpa using hl x (List.mem_reverse.mpr hx)
      have := digitsValue_all_zero _ hz
      rw [digitsValue_pad] at this
      exact h0 this
    | cons d more =>
      rw [hl] at hall
      exact ⟨d, more, rfl, hall⟩

theorem hour_lt (t : Time) : t.hour < 24 := by
  unfold hour
  omega

theorem minute_lt (t : Time) : t.minute < 60 := by
  unfold minute
  omega

theorem second_lt (t : Time) : t.second < 60 := by
  unfold second
  omega

end Time

namespace Time

theorem daysIn_le (month year : Nat) : daysIn month year ≤ 31 := by
  unfold daysIn
  repeat' split
  all_goals omega

theorem date_valid (t : Time) :
    1 ≤ t.month ∧ t.month ≤ 12 ∧ 1 ≤ t.day ∧
      (0 ≤ t.year → t.day ≤ daysIn t.month t.year.toNat) :=
  civil_valid (t.localSec / 86400)

/-- The text after the seconds of an RFC 3339 form, a fraction and a zone as
`Format` writes them, is read as a fraction and a zone. -/
theorem parse_tail (ns : Nat) (offset : Int) (h : (Int.tdiv offset 60).natAbs / 60 < 24) :
    ∃ z, parseZone (match fracTrimmed ns ++ zoneDigits offset with
      | '.' :: d :: more =>
        if json.isDigit d = true then (d :: more).span json.isDigit
        else ([], fracTrimmed ns ++ zoneDigits offset)
      | _ => ([], fracTrimmed ns ++ zoneDigits offset)).2 = some z := by
  obtain ⟨z, hz⟩ := parseZone_zoneDigits offset h
  obtain ⟨c, tl, hc, hc1, hc2⟩ := zoneDigits_head offset
  refine ⟨z, ?_⟩
  rcases fracTrimmed_spec ns with hf | ⟨d, more, hf, hall⟩
  · rw [hf, List.nil_append]
    have : (match zoneDigits offset with
      | '.' :: d :: more =>
        if json.isDigit d = true then (d :: more).span json.isDigit else ([], zoneDigits offset)
      | _ => ([], zoneDigits offset)) = ([], zoneDigits offset) := by
      split
      · next heq =>
        rw [hc] at heq
        exact absurd (List.cons.inj heq).1 hc1
      · rfl
    rw [this]
    exact hz
  · rw [hf]
    simp only [List.cons_append]
    rw [if_pos (hall d (List.mem_cons_self _ _))]
    have hs := json.span_digits (d :: more) (zoneDigits offset) hall (by
      intro x hx
      rw [hc] at hx
      simp only [List.head?_cons, Option.mem_def, Option.some.injEq] at hx
      rw [← hx]
      exact hc2)
    rw [List.cons_append] at hs
    rw [hs]
    exact hz

/-- The RFC 3339 form `Time.MarshalJSON` writes is read back by
`Time.UnmarshalJSON`. -/
theorem parseRFC3339_format (t : Time) (hy0 : 0 ≤ t.year) (hy1 : t.year < 10000)
    (hz : (Int.tdiv t.offset 60).natAbs / 60 < 24) :
    ∃ t', parseRFC3339 (formatRFC3339Nano t).data = some t' := by
  obtain ⟨hm1, hm2, hd1, hd2⟩ := date_valid t
  have hd3 := hd2 hy0
  have hd4 := daysIn_le t.month t.year.toNat
  obtain ⟨y1, y2, y3, y4, hyd, hy1d, hy2d, hy3d, hy4d, hyv⟩ := pad_four t.year.natAbs (by omega)
  have hyv' : json.digitsValue [y1, y2, y3, y4] = t.year.toNat := by
    rw [hyv]
    omega
  obtain ⟨m1, m2, hmo, hmov⟩ := num2_pad t.month 1 12 (by omega) hm1 hm2
  obtain ⟨d1, d2, hda, hdav⟩ := num2_pad t.day 1 (daysIn t.month t.year.toNat) (by omega) hd1 hd3
  obtain ⟨h1, h2, hho, hhov⟩ := num2_pad t.hour 0 23 (by have := hour_lt t; omega)
    (by omega) (by have := hour_lt t; omega)
  obtain ⟨i1, i2, hmi, hmiv⟩ := num2_pad t.minute 0 59 (by have := minute_lt t; omega)
    (by omega) (by have := minute_lt t; omega)
  obtain ⟨s1, s2, hse, hsev⟩ := num2_pad t.second 0 59 (by have := second_lt t; omega)
    (by omega) (by have := second_lt t; omega)
  obtain ⟨z, hzone⟩ := parse_tail t.nsec t.offset hz
  have htext : (formatRFC3339Nano t).data =
      y1 :: y2 :: y3 :: y4 :: '-' :: m1 :: m2 :: '-' :: d1 :: d2 :: 'T' :: h1 :: h2 :: ':' ::
        i1 :: i2 :: ':' :: s1 :: s2 :: (fracTrimmed t.nsec ++ zoneDigits t.offset) := by
    unfold formatRFC3339Nano dateTime yearDigits
    rw [if_neg (by omega), hyd, hmo, hda, hho, hmi, hse]
    simp
  rw [htext]
  unfold parseRFC3339
  simp only [hy1d, hy2d, hy3d, hy4d, and_self, if_true, hmov, hyv', hdav, hhov, hmiv, hsev]
  split
  · next hnone => exact Option.noConfusion (hzone.symm.trans hnone)
  · exact ⟨_, rfl⟩

end Time

namespace json

theorem escChar_digit (c : Char) (h : isDigit c = true) : escChar c = [c] := by
  unfold isDigit at h
  simp only [Bool.and_eq_true, decide_eq_true_eq] at h
  have h0 : ('0' : Char).toNat = 48 := rfl
  have h9 : ('9' : Char).toNat = 57 := rfl
  rw [h0, h9] at h
  have hne : ∀ x : Char, (x.toNat < 48 ∨ 57 < x.toNat) → c ≠ x := by
    rintro x hx rfl
    omega
  unfold escChar
  rw [if_neg (hne _ (by decide)), if_neg (hne _ (by decide)), if_neg (hne _ (by decide)),
    if_neg (hne _ (by decide)), if_neg (hne _ (by decide)), if_neg (hne _ (by decide)),
    if_neg (hne _ (by decide)), if_neg, if_neg (hne _ (by decide)), if_neg (hne _ (by decide))]
  rintro (h1 | h1 | h1 | h1)
  · omega
  · exact hne _ (by decide) h1
  · exact hne _ (by decide) h1
  · exact hne _ (by decide) h1

theorem flatMap_escChar_plain (s : List Char) (h : ∀ c ∈ s, escChar c = [c]) :
    s.flatMap escChar = s := by
  induction s with
  | nil => rfl
  | cons c s ih =>
    rw [List.flatMap_cons, h c (List.mem_cons_self _ _),
      ih fun x hx => h x (List.mem_cons_of_mem _ hx)]
    rfl

end json

namespace Time

theorem pad_plain (w n : Nat) : ∀ c ∈ pad w n, json.escChar c = [c] :=
  fun c hc => json.escChar_digit c (pad_digits w n c hc)

theorem yearDigits_plain (y : Int) : ∀ c ∈ yearDigits y, json.escChar c = [c] := by
  intro c hc
  unfold yearDigits at hc
  split at hc
  · rcases List.mem_cons.mp hc with rfl | hc
    · decide
    · exact pad_plain _ _ c hc
  · exact pad_plain _ _ c hc

theorem fracTrimmed_plain (ns : Nat) : ∀ c ∈ fracTrimmed ns, json.escChar c = [c] := by
  intro c hc
  rcases fracTrimmed_spec ns with hf | ⟨d, more, hf, hall⟩
  · rw [hf] at hc
    exact absurd hc (List.not_mem_nil _)
  · rw [hf] at hc
    rcases List.mem_cons.mp hc with rfl | hc
    · decide
    · exact json.escChar_digit c (hall c hc)

theorem zoneDigits_plain (offset : Int) : ∀ c ∈ zoneDigits offset, json.escChar c = [c] := by
  intro c hc
  unfold zoneDigits at hc
  split at hc
  · rw [List.mem_singleton.mp hc]
    decide
  · rcases List.mem_cons.mp hc with rfl | hc
    · split <;> decide
    · rcases List.mem_append.mp hc with hc | hc
      · exact pad_plain _ _ c hc
      · rcases List.mem_cons.mp hc with rfl | hc
        · decide
        · exact pad_plain _ _ c hc

theorem format_plain (t : Time) : ∀ c ∈ (formatRFC3339Nano t).data, json.escChar c = [c] := by
  unfold formatRFC3339Nano dateTime
  simp only [List.forall_mem_append, List.forall_mem_cons]
  repeat' apply And.intro
  all_goals first
    | exact pad_plain _ _
    | exact yearDigits_plain _
    | exact fracTrimmed_plain _
    | exact zoneDigits_plain _
    | decide

end Time

namespace json

/-- The text `Time.MarshalJSON` writes is a string whose text between the
quotes is scanned as it is and read back by `Time.UnmarshalJSON`. -/
theorem encodeTime_scans (t : Time) (txt : List Char) (h : encodeTime t = some txt) :
    ∃ raw, txt = '"' :: (raw ++ ['"']) ∧
      (∀ rest, scanString (raw ++ '"' :: rest) = some (raw, rest)) ∧
      ∃ t', Time.parseRFC3339 raw = some t' := by
  unfold encodeTime at h
  split at h
  · exact absurd h (by simp)
  · next hy =>
    split at h
    · exact absurd h (by simp)
    · next hz =>
      rw [Option.some.injEq] at h
      subst h
      have hp := flatMap_escChar_plain _ (Time.format_plain t)
      refine ⟨(Time.formatRFC3339Nano t).data, ?_, ?_, ?_⟩
      · unfold quote
        rw [hp]
        rfl
      · intro rest
        have := scanString_quoted (Time.formatRFC3339Nano t).data rest
        rwa [hp] at this
      · exact Time.parseRFC3339_format t (by omega) (by omega) (by omega)

end json

namespace lexicon

/-! ### Documents -/

theorem decodeMember_id (doc : Document) (raw : List Char) :
    decodeMember doc (json.unquote ("id".data.flatMap json.escChar)) (.str raw) =
      .ok { doc with ID := json.unquote raw } := by
  rw [json.unquote_quoted]
  rfl

theorem decodeMember_type (doc : Document) (raw : List Char) :
    decodeMember doc (json.unquote ("type".data.flatMap json.escChar)) (.str raw) =
      .ok { doc with Typ := json.unquote raw } := by
  rw [json.unquote_quoted]
  rfl

theorem decodeMember_value_null (doc : Document) :
    decodeMember doc (json.unquote ("value".data.flatMap json.escChar)) .null =
      .ok { doc with Value := none } := by
  rw [json.unquote_quoted]
  rfl

theorem decodeMember_value_obj (doc : Document) (kvs : List (List Char × json.Value))
    (gs : List (String × GoValue)) (h : json.toGoFields kvs = .ok gs) :
    decodeMember doc (json.unquote ("value".data.flatMap json.escChar)) (.obj kvs) =
      .ok { doc with Value := some (gs.foldl json.put (doc.Value.getD [])) } := by
  rw [json.unquote_quoted]
  have hf : fieldOf "value" = some "value" := by decide
  unfold decodeMember
  simp only [hf]
  rw [if_neg (by decide), if_neg (by decide), if_pos trivial]
  unfold decodeValue
  simp only [h]
  rfl

theorem decodeMember_createdAt (doc : Document) (raw : List Char) (t : Time)
    (h : Time.parseRFC3339 raw = some t) :
    decodeMember doc (json.unquote ("createdAt".data.flatMap json.escChar)) (.str raw) =
      .ok { doc with CreatedAt := t } := by
  rw [json.unquote_quoted]
  have hf : fieldOf "createdAt" = some "createdAt" := by decide
  unfold decodeMember
  simp only [hf]
  rw [if_neg (by decide), if_neg (by decide), if_neg (by decide), if_pos trivial]
  unfold decodeTime
  simp only [h]
  rfl

theorem decodeMember_updatedAt (doc : Document) (raw : List Char) (t : Time)
    (h : Time.parseRFC3339 raw = some t) :
    decodeMember doc (json.unquote ("updatedAt".data.flatMap json.escChar)) (.str raw) =
      .ok { doc with UpdatedAt := t } := by
  rw [json.unquote_quoted]
  have hf : fieldOf "updatedAt" = some "updatedAt" := by decide
  unfold decodeMember
  simp only [hf]
  rw [if_neg (by decide), if_neg (by decide), if_neg (by decide), if_neg (by decide)]
  unfold decodeTime
  simp only [h]
  rfl

end lexicon

namespace json

/-- An object that is not empty is scanned once its members are. -/
theorem parseValue_members (f depth : Nat) (text rest : List Char)
    (kvs : List (List Char × Value)) (hd : ¬ maxNestingDepth ≤ depth)
    (hm : parseMembers f (depth + 1) ('"' :: text) = .ok (kvs, rest)) :
    parseValue (f + 1) depth ('{' :: '"' :: text) = .ok (.obj kvs, rest) := by
  rw [parseValue.eq_def]
  simp only [skipSpace_cons '{' _ (by decide), skipSpace_cons '"' _ (by decide), if_true, hd,
    if_false]
  split
  · next heq => simp at heq
  · rw [hm]

theorem parseValue_null (f depth : Nat) (rest : List Char) :
    parseValue (f + 1) depth ('n' :: 'u' :: 'l' :: 'l' :: rest) = .ok (.null, rest) := by
  rw [parseValue.eq_def]
  simp only [skipSpace_cons 'n' _ rfl]
  rw [if_neg (by decide), if_neg (by decide), if_neg (by decide), if_neg (by decide)]

/-- The text of a document, five members of which the third holds any value
the scanner reads, is scanned as an object of five members. -/
theorem parse_document (P : Value → Prop) (rawID rawTyp v rawc rawu : List Char)
    (hID : ∀ rest, scanString (rawID ++ '"' :: rest) = some (rawID, rest))
    (hTyp : ∀ rest, scanString (rawTyp ++ '"' :: rest) = some (rawTyp, rest))
    (hc : ∀ rest, scanString (rawc ++ '"' :: rest) = some (rawc, rest))
    (hu : ∀ rest, scanString (rawu ++ '"' :: rest) = some (rawu, rest))
    (hv : ∀ fuel rest, v.length + 2 < fuel →
      ∃ jv, parseValue fuel 1 (v ++ ',' :: rest) = .ok (jv, ',' :: rest) ∧ P jv) :
    ∃ jv, P jv ∧ parse ('{' :: members [("id", '"' :: (rawID ++ ['"'])), ("type", '"' :: (rawTyp ++ ['"'])),
        ("value", v), ("createdAt", '"' :: (rawc ++ ['"'])),
        ("updatedAt", '"' :: (rawu ++ ['"']))] ++ ['}']) =
      .ok (.obj [("id".data.flatMap escChar, .str rawID),
        ("type".data.flatMap escChar, .str rawTyp), ("value".data.flatMap escChar, jv),
        ("createdAt".data.flatMap escChar, .str rawc),
        ("updatedAt".data.flatMap escChar, .str rawu)]) := by
  have htext : '{' :: members [("id", '"' :: (rawID ++ ['"'])), ("type", '"' :: (rawTyp ++ ['"'])),
        ("value", v), ("createdAt", '"' :: (rawc ++ ['"'])),
        ("updatedAt", '"' :: (rawu ++ ['"']))] ++ ['}'] =
      '{' :: '"' :: ("id".data.flatMap escChar ++ '"' :: ':' :: '"' :: (rawID ++ '"' :: ',' ::
        '"' :: ("type".data.flatMap escChar ++ '"' :: ':' :: '"' :: (rawTyp ++ '"' :: ',' ::
        '"' :: ("value".data.flatMap escChar ++ '"' :: ':' :: (v ++ ',' ::
        '"' :: ("createdAt".data.flatMap escChar ++ '"' :: ':' :: '"' :: (rawc ++ '"' :: ',' ::
        '"' :: ("updatedAt".data.flatMap escChar ++ '"' :: ':' :: '"' ::
          (rawu ++ '"' :: '}' :: [])))))))))) := by
    simp only [members, quote, List.cons_append, List.append_assoc, List.nil_append,
      List.singleton_append]
  rw [htext]
  generalize hX5 : '"' :: ("updatedAt".data.flatMap escChar ++ '"' :: ':' :: '"' ::
    (rawu ++ '"' :: '}' :: [])) = X5
  generalize hX4 : '"' :: ("createdAt".data.flatMap escChar ++ '"' :: ':' :: '"' ::
    (rawc ++ '"' :: ',' :: X5)) = X4
  generalize hX3 : '"' :: ("value".data.flatMap escChar ++ '"' :: ':' :: (v ++ ',' :: X4)) = X3
  generalize hX2 : '"' :: ("type".data.flatMap escChar ++ '"' :: ':' :: '"' ::
    (rawTyp ++ '"' :: ',' :: X3)) = X2
  generalize hX1 : '"' :: ("id".data.flatMap escChar ++ '"' :: ':' :: '"' ::
    (rawID ++ '"' :: ',' :: X2)) = X1
  have hlen : ∃ h, ('{' :: X1).length + 1 = h + 7 ∧ v.length + 2 < h + 3 := by
    refine ⟨('{' :: X1).length - 6, ?_, ?_⟩
    · rw [← hX1]
      simp only [List.length_cons, List.length_append]
      omega
    · rw [← hX1, ← hX2, ← hX3]
      simp only [List.length_cons, List.length_append]
      omega
  obtain ⟨h, hL, hfuel⟩ := hlen
  obtain ⟨jv, hjv, hP⟩ := hv (h + 3) X4 hfuel
  refine ⟨jv, hP, ?_⟩
  have s5 : parseMembers (h + 2) 1 X5 = .ok ([("updatedAt".data.flatMap escChar, .str rawu)], []) := by
    rw [← hX5]
    exact parseMembers_last (h + 1) 1 "updatedAt" _ [] _ (parseValue_quoted h 1 rawu _ (hu _))
  have s4 : parseMembers (h + 3) 1 X4 = .ok (("createdAt".data.flatMap escChar, .str rawc) ::
      [("updatedAt".data.flatMap escChar, .str rawu)], []) := by
    rw [← hX4]
    exact parseMembers_more (h + 2) 1 "createdAt" _ X5 [] _ _
      (parseValue_quoted (h + 1) 1 rawc _ (hc _)) s5
  have s3 : parseMembers (h + 4) 1 X3 = .ok (("value".data.flatMap escChar, jv) ::
      ("createdAt".data.flatMap escChar, .str rawc) ::
      [("updatedAt".data.flatMap escChar, .str rawu)], []) := by
    rw [← hX3]
    exact parseMembers_more (h + 3) 1 "value" _ X4 [] _ _ hjv s4
  have s2 : parseMembers (h + 5) 1 X2 = .ok (("type".data.flatMap escChar, .str rawTyp) ::
      ("value".data.flatMap escChar, jv) :: ("createdAt".data.flatMap escChar, .str rawc) ::
      [("updatedAt".data.flatMap escChar, .str rawu)], []) := by
    rw [← hX2]
    exact parseMembers_more (h + 4) 1 "type" _ X3 [] _ _
      (parseValue_quoted (h + 3) 1 rawTyp _ (hTyp _)) s3
  have s1 : parseMembers (h + 6) 1 X1 = .ok (("id".data.flatMap escChar, .str rawID) ::
      ("type".data.flatMap escChar, .str rawTyp) ::
      ("value".data.flatMap escChar, jv) :: ("createdAt".data.flatMap escChar, .str rawc) ::
      [("updatedAt".data.flatMap escChar, .str rawu)], []) := by
    rw [← hX1]
    exact parseMembers_more (h + 5) 1 "id" _ X2 [] _ _
      (parseValue_quoted (h + 4) 1 rawID _ (hID _)) s2
  have s0 : parseValue (h + 7) 0 ('{' :: X1) = .ok (.obj (("id".data.flatMap escChar, .str rawID) ::
      ("type".data.flatMap escChar, .str rawTyp) ::
      ("value".data.flatMap escChar, jv) :: ("createdAt".data.flatMap escChar, .str rawc) ::
      [("updatedAt".data.flatMap escChar, .str rawu)]), []) := by
    have hx : ∃ tl, X1 = '"' :: tl := ⟨_, hX1.symm⟩
    obtain ⟨tl, rfl⟩ := hx
    exact parseValue_members (h + 6) 0 tl [] _ (by decide) s1
  unfold parse
  rw [hL, s0]
  rfl

end json

namespace lexicon

/-- The value of a document is written as `null` or as an object the scanner
reads, whose members decode. -/
theorem value_scans (doc : Document) (v : List Char)
    (hv : json.encode (match doc.Value with | none => .null | some kvs => .obj kvs) = some v)
    (hw : doc.wellFormed = true) (hd : doc.depth ≤ json.maxNestingDepth) :
    ∀ (fuel : Nat) (rest : List Char), v.length + 2 < fuel →
      ∃ jv, json.parseValue fuel 1 (v ++ ',' :: rest) = .ok (jv, ',' :: rest) ∧
        ((jv = .null ∧ doc.Value = none) ∨
          ∃ kvs gs, jv = .obj kvs ∧ json.toGoFields kvs = .ok gs ∧ doc.Value.isSome = true) := by
  intro fuel rest hf
  cases hV : doc.Value with
  | none =>
    rw [hV] at hv
    simp only [json.encode, Option.some.injEq] at hv
    subst hv
    obtain ⟨f, rfl⟩ : ∃ f, fuel = f + 1 := ⟨fuel - 1, by omega⟩
    exact ⟨.null, json.parseValue_null f 1 _, Or.inl ⟨rfl, rfl⟩⟩
  | some kvs =>
    rw [hV] at hv
    simp only at hv
    rw [json.encode] at hv
    unfold Document.wellFormed at hw
    unfold Document.depth at hd
    rw [hV] at hw hd
    simp only at hw hd
    rw [json.depth] at hd
    cases hms : json.encodeFields kvs with
    | none => rw [hms] at hv; simp at hv
    | some ms =>
      rw [hms, Option.map_some', Option.some.injEq] at hv
      subst hv
      have hs : ∀ m ∈ json.sortKeys ms, json.Scans m.2 (json.depthFields kvs) := fun m hm =>
        json.scans_encodeFields kvs ms hms hw m (json.mem_sortKeys.mp hm)
      simp only [List.length_cons, List.length_append, List.length_nil] at hf
      obtain ⟨kvs', hp, gs, hgs⟩ := json.object_scan _ _ hs fuel 1 (',' :: rest) (by omega)
        (by omega)
      refine ⟨.obj kvs', ?_, Or.inr ⟨kvs', gs, rfl, hgs, rfl⟩⟩
      simpa using hp

/-- What `MarshalDocument` writes for a document whose numbers are numbers of
Go and whose text nests no deeper than `json.Unmarshal` accepts is read back
by `UnmarshalDocument`, with the id and the type of the document. -/
theorem UnmarshalDocument_marshalled (doc : Document) (data : Bytes)
    (h : MarshalDocument doc = .ok data) (hw : doc.wellFormed = true)
    (hd : doc.depth ≤ json.maxNestingDepth) :
    ∃ d, UnmarshalDocument data = .ok d ∧ d.ID = doc.ID ∧ d.Typ = doc.Typ ∧
      d.Value.isSome = doc.Value.isSome := by
  unfold MarshalDocument at h
  cases he : encodeDocument doc with
  | none => rw [he] at h; simp at h
  | some cs =>
    rw [he] at h
    simp only [Except.ok.injEq] at h
    subst h
    unfold encodeDocument at he
    split at he
    · next v c u hv hc hu =>
      rw [Option.some.injEq] at he
      subst he
      obtain ⟨rawc, rfl, hsc, tc, htc⟩ := json.encodeTime_scans _ _ hc
      obtain ⟨rawu, rfl, hsu, tu, htu⟩ := json.encodeTime_scans _ _ hu
      obtain ⟨jv, hP, hparse⟩ := json.parse_document _ (doc.ID.data.flatMap json.escChar)
        (doc.Typ.data.flatMap json.escChar) v rawc rawu
        (fun rest => json.scanString_quoted _ rest) (fun rest => json.scanString_quoted _ rest)
        hsc hsu (value_scans doc v hv hw hd)
      have hq : ∀ s : String, json.quote s = '"' :: (s.data.flatMap json.escChar ++ ['"']) :=
        fun _ => rfl
      unfold UnmarshalDocument
      rw [runes_utf8, hq, hq, hparse]
      simp only [decodeMembers, decodeMember_id, decodeMember_type]
      rcases hP with ⟨rfl, hnone⟩ | ⟨kvs, gs, rfl, hgs, hsome⟩
      · simp only [decodeMember_value_null, decodeMember_createdAt _ _ _ htc,
          decodeMember_updatedAt _ _ _ htu]
        exact ⟨_, rfl, json.unquote_quoted _, json.unquote_quoted _, by rw [hnone]⟩
      · simp only [decodeMember_value_obj _ _ _ hgs, decodeMember_createdAt _ _ _ htc,
          decodeMember_updatedAt _ _ _ htu]
        exact ⟨_, rfl, json.unquote_quoted _, json.unquote_quoted _, by rw [hsome]; rfl⟩
    · exact absurd he (by simp)

end lexicon

namespace json

/-! ### Values nested too deep -/

theorem parseElements_error_first (f depth : Nat) (text : List Char) (err : GoError)
    (h : parseValue f depth text = .error err) :
    parseElements (f + 1) depth text = .error err := by
  rw [parseElements.eq_def]
  simp only [h]

theorem parseElements_error_more (f depth : Nat) (text more : List Char) (jv : Value)
    (err : GoError) (h : parseValue f depth text = .ok (jv, ',' :: more))
    (hm : parseElements f depth more = .error err) :
    parseElements (f + 1) depth text = .error err := by
  rw [parseElements.eq_def]
  simp only [h, skipSpace_cons ',' _ (by decide), hm]

theorem parseMembers_error_first (f depth : Nat) (k : String) (text : List Char) (err : GoError)
    (h : parseValue f depth text = .error err) :
    parseMembers (f + 1) depth ('"' :: (k.data.flatMap escChar ++ '"' :: ':' :: text)) =
      .error err := by
  rw [parseMembers.eq_def]
  simp only [skipSpace_cons '"' _ (by decide), scanString_quoted,
    skipSpace_cons ':' _ (by decide), h]

theorem parseMembers_error_more (f depth : Nat) (k : String) (text more : List Char)
    (jv : Value) (err : GoError) (h : parseValue f depth text = .ok (jv, ',' :: more))
    (hm : parseMembers f depth more = .error err) :
    parseMembers (f + 1) depth ('"' :: (k.data.flatMap escChar ++ '"' :: ':' :: text)) =
      .error err := by
  rw [parseMembers.eq_def]
  simp only [skipSpace_cons '"' _ (by decide), scanString_quoted,
    skipSpace_cons ':' _ (by decide), h, skipSpace_cons ',' _ (by decide), hm]

/-- The elements `json.Marshal` writes are refused when one of them passes
the depth the scanner accepts. -/
theorem elements_refused (ts : List (List Char))
    (h : ∀ t ∈ ts, ∃ dt, Scans t dt ∧ Refused t dt) :
    ∀ (fuel depth : Nat) (rest : List Char), (elements ts).length + 1 < fuel →
      depth ≤ maxNestingDepth →
      (∃ t ∈ ts, ∃ dt, maxNestingDepth < depth + dt ∧ Refused t dt) →
      ∃ c, parseElements fuel depth (elements ts ++ ']' :: rest) = .error (maxDepthError c) := by
  induction ts with
  | nil =>
    intro fuel depth rest _ _ hdeep
    obtain ⟨t, ht, _⟩ := hdeep
    exact absurd ht (List.not_mem_nil _)
  | cons t ts ih =>
    intro fuel depth rest hf hle hdeep
    obtain ⟨f, rfl⟩ : ∃ f, fuel = f + 1 := ⟨fuel - 1, by omega⟩
    have hlen : t.length < f ∧ (ts ≠ [] → (elements ts).length + 1 < f) := by
      cases ts with
      | nil =>
        have e1 : elements [t] = t := rfl
        rw [e1] at hf
        exact ⟨by omega, fun hne => absurd rfl hne⟩
      | cons w ws =>
        rw [elements_cons_cons] at hf
        simp only [List.length_append, List.length_cons] at hf
        exact ⟨by omega, fun _ => by omega⟩
    have hfirst : ∀ dt, maxNestingDepth < depth + dt → Refused t dt →
        ∃ c, parseElements (f + 1) depth (elements (t :: ts) ++ ']' :: rest) =
          .error (maxDepthError c) := by
      intro dt hgt hr
      cases ts with
      | nil =>
        have e1 : elements [t] = t := rfl
        rw [e1]
        obtain ⟨c, hc⟩ := hr f depth (']' :: rest) hlen.1 hle hgt
        exact ⟨c, parseElements_error_first f depth _ _ hc⟩
      | cons w ws =>
        rw [elements_cons_cons]
        obtain ⟨c, hc⟩ := hr f depth (',' :: (elements (w :: ws) ++ ']' :: rest)) hlen.1 hle hgt
        refine ⟨c, ?_⟩
        have := parseElements_error_first f depth _ _ hc
        simpa [List.append_assoc] using this
    obtain ⟨t0, ht0, dt0, hgt0, hr0⟩ := hdeep
    rcases List.mem_cons.mp ht0 with rfl | ht0
    · exact hfirst dt0 hgt0 hr0
    · obtain ⟨dt, hs, hr⟩ := h t (List.mem_cons_self _ _)
      by_cases hc : maxNestingDepth < depth + dt
      · exact hfirst dt hc hr
      · cases ts with
        | nil => exact absurd ht0 (List.not_mem_nil _)
        | cons w ws =>
          rw [elements_cons_cons]
          obtain ⟨jv, hp, _⟩ := hs.2 f depth (',' :: (elements (w :: ws) ++ ']' :: rest))
            hlen.1 (by omega) ⟨',', _, rfl, Or.inl rfl⟩
          obtain ⟨c, hce⟩ := ih (fun x hx => h x (List.mem_cons_of_mem _ hx)) f depth rest
            (hlen.2 (by simp)) hle ⟨t0, ht0, dt0, hgt0, hr0⟩
          refine ⟨c, ?_⟩
          have := parseElements_error_more f depth _ _ jv _ hp hce
          simpa [List.append_assoc] using this

/-- The members `json.Marshal` writes are refused when the value of one of
them passes the depth the scanner accepts. -/
theorem members_refused (ms : List (String × List Char))
    (h : ∀ m ∈ ms, ∃ dt, Scans m.2 dt ∧ Refused m.2 dt) :
    ∀ (fuel depth : Nat) (rest : List Char), (members ms).length < fuel →
      depth ≤ maxNestingDepth →
      (∃ m ∈ ms, ∃ dt, maxNestingDepth < depth + dt ∧ Refused m.2 dt) →
      ∃ c, parseMembers fuel depth (members ms ++ '}' :: rest) = .error (maxDepthError c) := by
  induction ms with
  | nil =>
    intro fuel depth rest _ _ hdeep
    obtain ⟨t, ht, _⟩ := hdeep
    exact absurd ht (List.not_mem_nil _)
  | cons m ms ih =>
    obtain ⟨k, v⟩ := m
    intro fuel depth rest hf hle hdeep
    obtain ⟨f, rfl⟩ : ∃ f, fuel = f + 1 := ⟨fuel - 1, by omega⟩
    have hq := quote_length k
    have hlen : v.length < f ∧ (ms ≠ [] → (members ms).length < f) := by
      cases ms with
      | nil =>
        have e1 : members [(k, v)] = quote k ++ ':' :: v := rfl
        rw [e1] at hf
        simp only [List.length_append, List.length_cons] at hf
        exact ⟨by omega, fun hne => absurd rfl hne⟩
      | cons w ws =>
        rw [members_cons_cons] at hf
        simp only [List.length_append, List.length_cons] at hf
        exact ⟨by omega, fun _ => by omega⟩
    have hfirst : ∀ dt, maxNestingDepth < depth + dt → Refused v dt →
        ∃ c, parseMembers (f + 1) depth (members ((k, v) :: ms) ++ '}' :: rest) =
          .error (maxDepthError c) := by
      intro dt hgt hr
      cases ms with
      | nil =>
        have e1 : members [(k, v)] = quote k ++ ':' :: v := rfl
        rw [e1]
        obtain ⟨c, hc⟩ := hr f depth ('}' :: rest) hlen.1 hle hgt
        refine ⟨c, ?_⟩
        have := parseMembers_error_first f depth k _ _ hc
        simpa [quote, List.append_assoc] using this
      | cons w ws =>
        rw [members_cons_cons]
        obtain ⟨c, hc⟩ := hr f depth (',' :: (members (w :: ws) ++ '}' :: rest)) hlen.1 hle hgt
        refine ⟨c, ?_⟩
        have := parseMembers_error_first f depth k _ _ hc
        simpa [quote, List.append_assoc] using this
    obtain ⟨m0, hm0, dt0, hgt0, hr0⟩ := hdeep
    rcases List.mem_cons.mp hm0 with rfl | hm0
    · exact hfirst dt0 hgt0 hr0
    · obtain ⟨dt, hs, hr⟩ := h (k, v) (List.mem_cons_self _ _)
      by_cases hc : maxNestingDepth < depth + dt
      · exact hfirst dt hc hr
      · cases ms with
        | nil => exact absurd hm0 (List.not_mem_nil _)
        | cons w ws =>
          rw [members_cons_cons]
          obtain ⟨jv, hp, _⟩ := hs.2 f depth (',' :: (members (w :: ws) ++ '}' :: rest))
            hlen.1 (by omega) ⟨',', _, rfl, Or.inl rfl⟩
          obtain ⟨c, hce⟩ := ih (fun x hx => h x (List.mem_cons_of_mem _ hx)) f depth rest
            (hlen.2 (by simp)) hle ⟨m0, hm0, dt0, hgt0, hr0⟩
          refine ⟨c, ?_⟩
          have := parseMembers_error_more f depth k _ _ jv _ hp hce
          simpa [quote, List.append_assoc] using this

theorem refused_zero (t : List Char) : Refused t 0 := by
  intro fuel depth rest _ hle hgt
  omega

/-- An array with an element that passes the depth the scanner accepts is
refused, as is any array opened at that depth. -/
theorem refused_array (d : Nat) (ts : List (List Char))
    (h : ∀ t ∈ ts, ∃ dt, Scans t dt ∧ Refused t dt)
    (hdeep : ts ≠ [] → ∃ t ∈ ts, Refused t d) (hempty : ts = [] → d = 0) :
    Refused ('[' :: elements ts ++ [']']) (d + 1) := by
  intro fuel depth rest hf hle hgt
  obtain ⟨f, rfl⟩ : ∃ f, fuel = f + 1 := ⟨fuel - 1, by omega⟩
  simp only [List.length_cons, List.length_append, List.length_nil] at hf
  have htext : ('[' :: elements ts ++ [']']) ++ rest = '[' :: (elements ts ++ ']' :: rest) := by
    simp
  rw [htext, parseValue.eq_def]
  simp only [skipSpace_cons '[' _ (by decide)]
  rw [if_neg (show ¬ '[' = '{' by decide)]
  simp only [if_true]
  by_cases hmax : maxNestingDepth ≤ depth
  · exact ⟨'[', by rw [if_pos hmax]⟩
  · rw [if_neg hmax]
    have hne : ts ≠ [] := by
      intro he
      have := hempty he
      omega
    obtain ⟨t, ht, hr⟩ := hdeep hne
    obtain ⟨c, hc⟩ := elements_refused ts h f (depth + 1) rest (by omega) (by omega)
      ⟨t, ht, d, by omega, hr⟩
    obtain ⟨c0, tl, hc0, hsp, hnb⟩ := elements_head ts hne fun t ht => by
      obtain ⟨dt, hs, _⟩ := h t ht
      exact hs.1
    refine ⟨c, ?_⟩
    rw [hc0] at hc ⊢
    rw [List.cons_append] at hc ⊢
    rw [skipSpace_cons c0 _ hsp]
    split
    · next heq => exact absurd (List.cons.inj heq).1 hnb
    · rw [hc]

/-- An object with a member whose value passes the depth the scanner accepts
is refused, as is any object opened at that depth. -/
theorem object_refused (d : Nat) (ms : List (String × List Char))
    (h : ∀ m ∈ ms, ∃ dt, Scans m.2 dt ∧ Refused m.2 dt)
    (hdeep : ms ≠ [] → ∃ m ∈ ms, Refused m.2 d) (hempty : ms = [] → d = 0) :
    ∀ (fuel depth : Nat) (rest : List Char), (members ms).length + 2 < fuel →
      depth ≤ maxNestingDepth → maxNestingDepth < depth + (d + 1) →
      ∃ c, parseValue fuel depth ('{' :: (members ms ++ '}' :: rest)) =
        .error (maxDepthError c) := by
  intro fuel depth rest hf hle hgt
  obtain ⟨f, rfl⟩ : ∃ f, fuel = f + 1 := ⟨fuel - 1, by omega⟩
  rw [parseValue.eq_def]
  simp only [skipSpace_cons '{' _ (by decide), if_true]
  by_cases hmax : maxNestingDepth ≤ depth
  · exact ⟨'{', by rw [if_pos hmax]⟩
  · rw [if_neg hmax]
    have hne : ms ≠ [] := by
      intro he
      have := hempty he
      omega
    obtain ⟨m, hm, hr⟩ := hdeep hne
    obtain ⟨c, hc⟩ := members_refused ms h f (depth + 1) rest (by omega) (by omega)
      ⟨m, hm, d, by omega, hr⟩
    obtain ⟨tl, hc0⟩ := members_head ms hne
    refine ⟨c, ?_⟩
    rw [hc0] at hc ⊢
    rw [List.cons_append] at hc ⊢
    rw [skipSpace_cons '"' _ (by decide)]
    split
    · next heq => simp at heq
    · rw [hc]

theorem refused_object (d : Nat) (ms : List (String × List Char))
    (h : ∀ m ∈ ms, ∃ dt, Scans m.2 dt ∧ Refused m.2 dt)
    (hdeep : ms ≠ [] → ∃ m ∈ ms, Refused m.2 d) (hempty : ms = [] → d = 0) :
    Refused ('{' :: members ms ++ ['}']) (d + 1) := by
  intro fuel depth rest hf hle hgt
  simp only [List.length_cons, List.length_append, List.length_nil] at hf
  have htext : ('{' :: members ms ++ ['}']) ++ rest = '{' :: (members ms ++ '}' :: rest) := by
    simp
  rw [htext]
  exact object_refused d ms h hdeep hempty fuel depth rest (by omega) hle hgt

theorem sortKeys_eq_nil {ms : List (String × List Char)} (h : sortKeys ms = []) : ms = [] :=
  List.Perm.eq_nil (h ▸ (List.perm_insertionSort _ ms).symm)

mutual
/-- The text `json.Marshal` writes for a value whose numbers are numbers of
Go is refused by `json.Unmarshal` wherever the nesting of the value passes
`maxNestingDepth`. -/
theorem refused_encode : ∀ (v : GoValue) (t : List Char), encode v = some t →
    wellFormed v = true → Refused t (depth v)
  | .null, t, _, _ => refused_zero t
  | .bool _, t, _, _ => refused_zero t
  | .int _, t, _, _ => refused_zero t
  | .float _, t, _, _ => refused_zero t
  | .str _, t, _, _ => refused_zero t
  | .unsupported, t, _, _ => refused_zero t
  | .arr xs, t, h, hw => by
    rw [encode] at h
    rw [wellFormed] at hw
    cases hts : encodeList xs with
    | none => rw [hts] at h; simp at h
    | some ts =>
      rw [hts, Option.map_some', Option.some.injEq] at h
      subst h
      rw [depth]
      obtain ⟨h1, h2, h3⟩ := refused_encodeList xs ts hts hw
      exact refused_array _ ts h1 h2 h3
  | .obj kvs, t, h, hw => by
    rw [encode] at h
    rw [wellFormed] at hw
    cases hms : encodeFields kvs with
    | none => rw [hms] at h; simp at h
    | some ms =>
      rw [hms, Option.map_some', Option.some.injEq] at h
      subst h
      rw [depth]
      obtain ⟨h1, h2, h3⟩ := refused_encodeFields kvs ms hms hw
      refine refused_object _ _ (fun m hm => h1 m (mem_sortKeys.mp hm)) ?_
        (fun he => h3 (sortKeys_eq_nil he))
      intro hne
      obtain ⟨m, hm, hr⟩ := h2 (fun he => hne (by rw [he]; rfl))
      exact ⟨m, mem_sortKeys.mpr hm, hr⟩
/-- The texts of the elements of a slice, each read or refused by its own
nesting; the deepest is refused by the nesting of the slice. -/
theorem refused_encodeList : ∀ (xs : List GoValue) (ts : List (List Char)),
    encodeList xs = some ts → wellFormedList xs = true →
      (∀ t ∈ ts, ∃ dt, Scans t dt ∧ Refused t dt) ∧
        (ts ≠ [] → ∃ t ∈ ts, Refused t (depthList xs)) ∧ (ts = [] → depthList xs = 0)
  | [], ts, h, _ => by
    rw [encodeList, Option.some.injEq] at h
    subst h
    exact ⟨fun t ht => absurd ht (List.not_mem_nil _), fun hne => absurd rfl hne, fun _ => rfl⟩
  | x :: xs, ts, h, hw => by
    rw [encodeList] at h
    rw [wellFormedList, Bool.and_eq_true] at hw
    cases hv : encode x with
    | none => rw [hv] at h; simp at h
    | some v =>
      cases hvs : encodeList xs with
      | none => rw [hv, hvs] at h; simp at h
      | some vs =>
        rw [hv, hvs] at h
        simp only [Option.some.injEq] at h
        subst h
        obtain ⟨h1, h2, h3⟩ := refused_encodeList xs vs hvs hw.2
        have hx := refused_encode x v hv hw.1
        refine ⟨?_, ?_, fun he => absurd he (List.cons_ne_nil _ _)⟩
        · intro t ht
          rcases List.mem_cons.mp ht with rfl | ht
          · exact ⟨_, scans_encode x _ hv hw.1, hx⟩
          · exact h1 t ht
        · intro _
          rw [depthList]
          by_cases hle : depthList xs ≤ depth x
          · rw [Nat.max_eq_left hle]
            exact ⟨v, List.mem_cons_self _ _, hx⟩
          · rw [Nat.max_eq_right (by omega)]
            have hne : vs ≠ [] := by
              intro he
              have := h3 he
              omega
            obtain ⟨t, ht, hr⟩ := h2 hne
            exact ⟨t, List.mem_cons_of_mem _ ht, hr⟩
/-- The texts of the values of a map, each read or refused by its own
nesting; the deepest is refused by the nesting of the map. -/
theorem refused_encodeFields : ∀ (kvs : List (String × GoValue))
    (ms : List (String × List Char)), encodeFields kvs = some ms →
      wellFormedFields kvs = true →
      (∀ m ∈ ms, ∃ dt, Scans m.2 dt ∧ Refused m.2 dt) ∧
        (ms ≠ [] → ∃ m ∈ ms, Refused m.2 (depthFields kvs)) ∧ (ms = [] → depthFields kvs = 0)
  | [], ms, h, _ => by
    rw [encodeFields, Option.some.injEq] at h
    subst h
    exact ⟨fun t ht => absurd ht (List.not_mem_nil _), fun hne => absurd rfl hne, fun _ => rfl⟩
  | (k, x) :: kvs, ms, h, hw => by
    rw [encodeFields] at h
    rw [wellFormedFields, Bool.and_eq_true] at hw
    cases hv : encode x with
    | none => rw [hv] at h; simp at h
    | some v =>
      cases hvs : encodeFields kvs with
      | none => rw [hv, hvs] at h; simp at h
      | some vs =>
        rw [hv, hvs] at h
        simp only [Option.some.injEq] at h
        subst h
        obtain ⟨h1, h2, h3⟩ := refused_encodeFields kvs vs hvs hw.2
        have hx := refused_encode x v hv hw.1
        refine ⟨?_, ?_, fun he => absurd he (List.cons_ne_nil _ _)⟩
        · intro m hm
          rcases List.mem_cons.mp hm with rfl | hm
          · exact ⟨_, scans_encode x _ hv hw.1, hx⟩
          · exact h1 m hm
        · intro _
          rw [depthFields]
          by_cases hle : depthFields kvs ≤ depth x
          · rw [Nat.max_eq_left hle]
            exact ⟨(k, v), List.mem_cons_self _ _, hx⟩
          · rw [Nat.max_eq_right (by omega)]
            have hne : vs ≠ [] := by
              intro he
              have := h3 he
              omega
            obtain ⟨m, hm, hr⟩ := h2 hne
            exact ⟨m, List.mem_cons_of_mem _ hm, hr⟩
end

/-- The text of a document whose value the scanner refuses is refused. -/
theorem parse_document_refused (rawID rawTyp v c u : List Char)
    (hID : ∀ rest, scanString (rawID ++ '"' :: rest) = some (rawID, rest))
    (hTyp : ∀ rest, scanString (rawTyp ++ '"' :: rest) = some (rawTyp, rest))
    (hv : ∀ fuel rest, v.length + 2 < fuel →
      ∃ ch, parseValue fuel 1 (v ++ ',' :: rest) = .error (maxDepthError ch)) :
    ∃ ch, parse ('{' :: members [("id", '"' :: (rawID ++ ['"'])),
        ("type", '"' :: (rawTyp ++ ['"'])), ("value", v), ("createdAt", c),
        ("updatedAt", u)] ++ ['}']) = .error (maxDepthError ch) := by
  have htext : '{' :: members [("id", '"' :: (rawID ++ ['"'])), ("type", '"' :: (rawTyp ++ ['"'])),
        ("value", v), ("createdAt", c), ("updatedAt", u)] ++ ['}'] =
      '{' :: '"' :: ("id".data.flatMap escChar ++ '"' :: ':' :: '"' :: (rawID ++ '"' :: ',' ::
        '"' :: ("type".data.flatMap escChar ++ '"' :: ':' :: '"' :: (rawTyp ++ '"' :: ',' ::
        '"' :: ("value".data.flatMap escChar ++ '"' :: ':' :: (v ++ ',' ::
        (members [("createdAt", c), ("updatedAt", u)] ++ ['}']))))))) := by
    simp only [members, quote, List.cons_append, List.append_assoc, List.nil_append,
      List.singleton_append]
  rw [htext]
  generalize hX4 : members [("createdAt", c), ("updatedAt", u)] ++ ['}'] = X4
  generalize hX3 : '"' :: ("value".data.flatMap escChar ++ '"' :: ':' :: (v ++ ',' :: X4)) = X3
  generalize hX2 : '"' :: ("type".data.flatMap escChar ++ '"' :: ':' :: '"' ::
    (rawTyp ++ '"' :: ',' :: X3)) = X2
  generalize hX1 : '"' :: ("id".data.flatMap escChar ++ '"' :: ':' :: '"' ::
    (rawID ++ '"' :: ',' :: X2)) = X1
  have hlen : ∃ h, ('{' :: X1).length + 1 = h + 7 ∧ v.length + 2 < h + 3 := by
    refine ⟨('{' :: X1).length - 6, ?_, ?_⟩
    · rw [← hX1, ← hX2, ← hX3]
      simp only [List.length_cons, List.length_append]
      omega
    · rw [← hX1, ← hX2, ← hX3]
      simp only [List.length_cons, List.length_append]
      omega
  obtain ⟨h, hL, hfuel⟩ := hlen
  obtain ⟨ch, hch⟩ := hv (h + 3) X4 hfuel
  refine ⟨ch, ?_⟩
  have s3 : parseMembers (h + 4) 1 X3 = .error (maxDepthError ch) := by
    rw [← hX3]
    exact parseMembers_error_first (h + 3) 1 "value" _ _ hch
  have s2 : parseMembers (h + 5) 1 X2 = .error (maxDepthError ch) := by
    rw [← hX2]
    exact parseMembers_error_more (h + 4) 1 "type" _ X3 _ _
      (parseValue_quoted (h + 3) 1 rawTyp _ (hTyp _)) s3
  have s1 : parseMembers (h + 6) 1 X1 = .error (maxDepthError ch) := by
    rw [← hX1]
    exact parseMembers_error_more (h + 5) 1 "id" _ X2 _ _
      (parseValue_quoted (h + 4) 1 rawID _ (hID _)) s2
  have s0 : parseValue (h + 7) 0 ('{' :: X1) = .error (maxDepthError ch) := by
    have hx : ∃ tl, X1 = '"' :: tl := ⟨_, hX1.symm⟩
    obtain ⟨tl, rfl⟩ := hx
    exact parseValue_members_error (h + 6) 0 tl _ (by decide) s1
  unfold parse
  rw [hL, s0]

end json

namespace lexicon

/-- The value of a document that nests deeper than `json.Unmarshal` accepts
is refused where it stands in the text of the document. -/
theorem value_refused (doc : Document) (v : List Char)
    (hv : json.encode (match doc.Value with | none => .null | some kvs => .obj kvs) = some v)
    (hw : doc.wellFormed = true) (hd : json.maxNestingDepth < doc.depth) :
    ∀ (fuel : Nat) (rest : List Char), v.length + 2 < fuel →
      ∃ ch, json.parseValue fuel 1 (v ++ ',' :: rest) = .error (json.maxDepthError ch) := by
  intro fuel rest hf
  cases hV : doc.Value with
  | none =>
    unfold Document.depth at hd
    rw [hV] at hd
    exact absurd hd (by decide)
  | some kvs =>
    rw [hV] at hv
    simp only at hv
    unfold Document.wellFormed at hw
    unfold Document.depth at hd
    rw [hV] at hw hd
    simp only at hw hd
    have hwf : json.wellFormed (.obj kvs) = true := by
      rw [json.wellFormed]
      exact hw
    exact json.refused_encode (.obj kvs) v hv hwf fuel 1 (',' :: rest) (by omega) (by decide)
      (by omega)

/-- What `MarshalDocument` writes for a document whose text nests deeper
than `json.Unmarshal` accepts is refused by `UnmarshalDocument`. -/
theorem UnmarshalDocument_refused (doc : Document) (data : Bytes)
    (h : MarshalDocument doc = .ok data) (hw : doc.wellFormed = true)
    (hd : json.maxNestingDepth < doc.depth) :
    ∃ ch, UnmarshalDocument data = .error (json.maxDepthError ch) := by
  unfold MarshalDocument at h
  cases he : encodeDocument doc with
  | none => rw [he] at h; simp at h
  | some cs =>
    rw [he] at h
    simp only [Except.ok.injEq] at h
    subst h
    unfold encodeDocument at he
    split at he
    · next v c u hv hc hu =>
      rw [Option.some.injEq] at he
      subst he
      obtain ⟨ch, hparse⟩ := json.parse_document_refused (doc.ID.data.flatMap json.escChar)
        (doc.Typ.data.flatMap json.escChar) v c u
        (fun rest => json.scanString_quoted _ rest) (fun rest => json.scanString_quoted _ rest)
        (value_refused doc v hv hw hd)
      have hq : ∀ s : String, json.quote s = '"' :: (s.data.flatMap json.escChar ++ ['"']) :=
        fun _ => rfl
      refine ⟨ch, ?_⟩
      unfold UnmarshalDocument
      rw [runes_utf8, hq, hq, hparse]
    · exact absurd he (by simp)

end lexicon

namespace json

theorem depth_nested (n : Nat) : depth (nested n) = n := by
  induction n with
  | zero => rfl
  | succ n ih =>
    rw [nested, depth, depthFields, depthFields, ih]
    simp

theorem wellFormed_nested (n : Nat) : wellFormed (nested n) = true := by
  induction n with
  | zero => rfl
  | succ n ih =>
    rw [nested, wellFormed, wellFormedFields, wellFormedFields, ih]
    rfl

/-- Numbers written with a fraction or an exponent decode to the float64
nearest to them, and a number beyond float64 is an error. -/
theorem numberValue_examples :
    (numberValue "1.5".data).toOption.bind encode = some "1.5".data ∧
    (numberValue "0.1e1".data).toOption.bind encode = some "1".data ∧
    (numberValue "1E21".data).toOption.bind encode = some "1e+21".data ∧
    (numberValue "0.00000012".data).toOption.bind encode = some "1.2e-7".data ∧
    (numberValue "9007199254740993".data).toOption.bind encode =
      some "9007199254740992".data ∧
    (numberValue "-0".data).toOption.bind encode = some "-0".data ∧
    (numberValue "1e400".data).toOption.bind encode = none := by
  decide!

end json

namespace repo

theorem depth_nestedPost (n : Nat) : (nestedPost n).depth = n + 2 := by
  unfold nestedPost lexicon.Document.depth
  simp only
  rw [json.depth, json.depthFields, json.depthFields, json.depth_nested]
  simp

theorem wellFormed_nestedPost (n : Nat) : (nestedPost n).wellFormed = true := by
  unfold nestedPost lexicon.Document.wellFormed
  simp only
  rw [json.wellFormedFields, json.wellFormedFields, json.wellFormed_nested]
  rfl

/-- A stored text with a number written with a fraction is decoded: read
and marshalled again, the document has the number as `json.Marshal` writes
it. -/
theorem UnmarshalDocument_fraction :
    ((lexicon.UnmarshalDocument (utf8 "\x7b\"value\":\x7b\"n\":1.50\x7d\x7d".data)).toOption.bind
      fun d => (lexicon.MarshalDocument d).toOption) =
    some (utf8 ("\x7b\"id\":\"\",\"type\":\"\",\"value\":\x7b\"n\":1.5\x7d," ++
      "\"createdAt\":\"0001-01-01T00:00:00Z\",\"updatedAt\":\"0001-01-01T00:00:00Z\"\x7d").data) := by
  decide!

/-- C24 (counterexample): a post whose value is a map nested 10000 deep is
committed, its bytes are stored under its id, and `GetDocument` returns an
error for it: `json.Marshal` encodes the maps whatever their depth, and the
scanner of `json.Unmarshal` refuses a text nested deeper than 10000, which
this one is with the object of the document around the maps. -/
theorem C24_counterexample_deep_document :
    ∃ c r', (NewRepository "did:plc:abc123").CreateCommit noon (nestedPost 9999) = .ok (c, r') ∧
      r'.Documents.get (nestedPost 9999).ID = some c.Data ∧
      r'.GetDocument (nestedPost 9999).ID = .error (json.maxDepthError '{') := by
  refine ⟨_, _, CreateCommit_ok (MarshalDocument_nestedPost 9999), GoMap.get_set_self _ _ _, ?_⟩
  unfold Repository.GetDocument
  simp only [GoMap.get_set_self]
  exact UnmarshalDocument_nestedPost 9999 (Nat.le_refl _)

/-- C24 (amended): for every repository `r` and document `doc`, after a
successful `r.CreateCommit(doc)` the bytes stored in `r.Documents[doc.ID]`
are exactly the returned commit's `Data`, the marshalled document that was
hashed into the commit id, so `r.GetDocument(doc.ID)` succeeds and decodes
those bytes, into a document with the id and the type of `doc` and with a
value when `doc` has one, if the text of `doc` nests no deeper than
`json.Unmarshal` accepts, the object of the document and the maps and arrays
of its value at most 10000 deep, and returns the error of `json.Unmarshal`
if it nests deeper. `r.GetDocument(id)` fails with "document not found" for
every id that is not a key of `r.Documents`; and when marshalling `doc` fails
`CreateCommit` returns the error and the repository stays as it was. The
documents are those of Go: `doc.wellFormed` says that an `int` is within an
integer kind and a `float` holds the text of a float64. -/
theorem C24_committed_document_read_back (r : Repository) (now : Time)
    (doc : lexicon.Document) :
    (∀ c r', r.CreateCommit now doc = .ok (c, r') →
      lexicon.MarshalDocument doc = .ok c.Data ∧ c.ID = hashHex c.Data ∧
        r'.Documents.get doc.ID = some c.Data ∧
        (doc.wellFormed = true → doc.depth ≤ json.maxNestingDepth →
          ∃ d, r'.GetDocument doc.ID = .ok d ∧ lexicon.UnmarshalDocument c.Data = .ok d ∧
            d.ID = doc.ID ∧ d.Typ = doc.Typ ∧ d.Value.isSome = doc.Value.isSome) ∧
        (doc.wellFormed = true → json.maxNestingDepth < doc.depth →
          ∃ ch, r'.GetDocument doc.ID = .error (json.maxDepthError ch))) ∧
    (∀ id, id ∉ r.Documents.map Prod.fst →
      r.GetDocument id = .error (.base ("document not found: " ++ id))) ∧
    (∀ err, lexicon.MarshalDocument doc = .error err →
      r.CreateCommit now doc = .error err ∧
        ∀ (w : World) (p : Nat), w.heap[p]? = some r →
          w.step (.createCommit p now doc) = w) := by
  refine ⟨?_, ?_, ?_⟩
  · intro c r' h
    obtain ⟨data, hd, rfl, rfl⟩ := CreateCommit_ok_inv h
    refine ⟨hd, rfl, GoMap.get_set_self _ _ _, ?_, ?_⟩
    · intro hw hdepth
      obtain ⟨d, h1, h2, h3, h4⟩ := lexicon.UnmarshalDocument_marshalled doc data hd hw hdepth
      refine ⟨d, ?_, h1, h2, h3, h4⟩
      unfold Repository.GetDocument
      simp only [GoMap.get_set_self]
      exact h1
    · intro hw hdepth
      obtain ⟨ch, h1⟩ := lexicon.UnmarshalDocument_refused doc data hd hw hdepth
      refine ⟨ch, ?_⟩
      unfold Repository.GetDocument
      simp only [GoMap.get_set_self]
      exact h1
  · intro id hid
    unfold Repository.GetDocument
    rw [GoMap.get_eq_none_of_not_mem_keys hid]
  · intro err herr
    have hc : r.CreateCommit now doc = .error err := by
      simp [Repository.CreateCommit, herr]
    refine ⟨hc, ?_⟩
    intro w p hp
    simp [World.step, hp, hc]

set_option maxRecDepth 100000 in
/-- C24 (witness): the post `post1` committed to a new repository is read
back by `GetDocument` as it was committed; a post whose text nests exactly
10000 deep is committed and read back, and one that nests one level deeper
is committed and refused; an id that was not committed is not found; a post
that cannot be marshalled is not committed. -/
theorem C24_committed_document_read_back_witness :
    (NewRepository "did:plc:abc123").CreateCommit noon post1 =
      .ok (⟨"1e272b0ec386e28444ff57f99d3b42fb7e59b8fb6406ca501b466800c9437037", "", post1Data,
        [], noon⟩, once) ∧
    post1.wellFormed = true ∧ post1.depth ≤ json.maxNestingDepth ∧
    once.Documents.get post1.ID = some post1Data ∧
    (∃ d, once.GetDocument post1.ID = .ok d ∧ lexicon.UnmarshalDocument post1Data = .ok d ∧
      d.ID = post1.ID ∧ d.Typ = post1.Typ ∧ d.Value.isSome = post1.Value.isSome) ∧
    once.GetDocument "post/1" = .ok post1 ∧
    (nestedPost 9998).depth = json.maxNestingDepth ∧
    (∃ c r' d, (NewRepository "did:plc:abc123").CreateCommit noon (nestedPost 9998) =
        .ok (c, r') ∧ r'.GetDocument "post/deep" = .ok d ∧ d.ID = "post/deep") ∧
    json.maxNestingDepth < (nestedPost 9999).depth ∧
    (∃ c r' ch, (NewRepository "did:plc:abc123").CreateCommit noon (nestedPost 9999) =
        .ok (c, r') ∧ r'.GetDocument "post/deep" = .error (json.maxDepthError ch)) ∧
    once.GetDocument "post/2" = .error (.base "document not found: post/2") ∧
    once.CreateCommit noon1 badPost = .error json.unsupportedType :=
  have h : (NewRepository "did:plc:abc123").CreateCommit noon post1 =
      .ok (⟨"1e272b0ec386e28444ff57f99d3b42fb7e59b8fb6406ca501b466800c9437037", "", post1Data,
        [], noon⟩, once) := by decide
  have hw : post1.wellFormed = true := by decide
  have hd : post1.depth ≤ json.maxNestingDepth := by decide
  have h1 := (C24_committed_document_read_back (NewRepository "did:plc:abc123") noon post1).1
    _ _ h
  have h2 := (C24_committed_document_read_back once noon1 badPost).2
  have hdeep := @CreateCommit_ok (NewRepository "did:plc:abc123") noon _ _
    (MarshalDocument_nestedPost 9998)
  have h3 := ((C24_committed_document_read_back (NewRepository "did:plc:abc123") noon
    (nestedPost 9998)).1 _ _ hdeep).2.2.2.1 (wellFormed_nestedPost 9998)
      (Nat.le_of_eq (depth_nestedPost 9998))
  have hdeeper := @CreateCommit_ok (NewRepository "did:plc:abc123") noon _ _
    (MarshalDocument_nestedPost 9999)
  have hgt : json.maxNestingDepth < (nestedPost 9999).depth := by
    rw [depth_nestedPost]
    decide
  have h4 := ((C24_committed_document_read_back (NewRepository "did:plc:abc123") noon
    (nestedPost 9999)).1 _ _ hdeeper).2.2.2.2 (wellFormed_nestedPost 9999) hgt
  ⟨h, hw, hd, h1.2.2.1, h1.2.2.2.1 hw hd, by rfl, depth_nestedPost 9998,
    h3.elim fun d hd' => ⟨_, _, d, hdeep, hd'.1, hd'.2.2.1⟩, hgt,
    h4.elim fun ch hch => ⟨_, _, ch, hdeeper, hch⟩,
    h2.1 "post/2" (by decide), (h2.2 _ (by decide)).1⟩

end repo

/-! ## `VerifyJWT` -/

namespace auth

/-- C25 (counterexample): for a token that is well formed and an empty
public key, `VerifyJWT` neither returns claims nor returns an error: it
panics inside `ed25519.Verify`, which takes a public key of 32 bytes. -/
theorem C25_counterexample_bad_key_panics :
    VerifyJWT noon sampleToken [] = .panic "ed25519: bad public key length: 0" := by
  decide!

/-- The signature check does not panic on a key of 32 bytes. -/
theorem Verify_isSome (publicKey message sig : Bytes) (h : publicKey.length = 32) :
    ∃ b, ed25519.Verify publicKey message sig = some b := by
  unfold ed25519.Verify
  rw [if_neg (by simp [h])]
  split
  · exact ⟨_, rfl⟩
  · split
    · exact ⟨_, rfl⟩
    · simp only []
      split
      · exact ⟨_, rfl⟩
      · exact ⟨_, rfl⟩

/-- C25 (amended): for every token string and every public key of 32 bytes,
`VerifyJWT` returns claims only if the token consists of exactly three
dot-separated segments, its decoded header has `alg` equal to "EdDSA", the
third segment decodes to a valid Ed25519 signature under that key over the
first two segments joined by ".", and the claims' `exp` is not earlier than
the current Unix time; the claims returned are those the second segment
decodes to. In every other case it returns an error and no claims. -/
theorem C25_VerifyJWT_claims_or_error (now : Time) (tokenString publicKey : Bytes)
    (hkey : publicKey.length = 32) :
    (∃ err, VerifyJWT now tokenString publicKey = .error err) ∨
      ∃ part0 part1 part2 headerJSON header claimsJSON claims signature,
        splitDots tokenString = [part0, part1, part2] ∧
        base64.DecodeString part0 = .ok headerJSON ∧
        unmarshalHeader headerJSON = .ok header ∧ headerAlg header = some "EdDSA" ∧
        base64.DecodeString part1 = .ok claimsJSON ∧ unmarshalClaims claimsJSON = .ok claims ∧
        base64.DecodeString part2 = .ok signature ∧
        ed25519.Verify publicKey (part0 ++ 46 :: part1) signature = some true ∧
        unix now ≤ claims.ExpiresAt ∧
        VerifyJWT now tokenString publicKey = .claims claims := by
  have key : ∀ r, VerifyJWT now tokenString publicKey = r →
      (∃ err, r = .error err) ∨
        ∃ part0 part1 part2 headerJSON header claimsJSON claims signature,
          splitDots tokenString = [part0, part1, part2] ∧
          base64.DecodeString part0 = .ok headerJSON ∧
          unmarshalHeader headerJSON = .ok header ∧ headerAlg header = some "EdDSA" ∧
          base64.DecodeString part1 = .ok claimsJSON ∧
          unmarshalClaims claimsJSON = .ok claims ∧
          base64.DecodeString part2 = .ok signature ∧
          ed25519.Verify publicKey (part0 ++ 46 :: part1) signature = some true ∧
          unix now ≤ claims.ExpiresAt ∧ r = .claims claims := by
    intro r hr
    unfold VerifyJWT at hr
    split at hr
    · next part0 part1 part2 hsplit =>
      cases h0 : base64.DecodeString part0 with
      | error e => rw [h0] at hr; exact Or.inl ⟨_, hr.symm⟩
      | ok headerJSON =>
        rw [h0] at hr
        simp only [] at hr
        cases h1 : unmarshalHeader headerJSON with
        | error e => rw [h1] at hr; exact Or.inl ⟨_, hr.symm⟩
        | ok header =>
          rw [h1] at hr
          simp only [] at hr
          by_cases halg : headerAlg header = some "EdDSA"
          · rw [if_neg (not_not.mpr halg)] at hr
            cases h2 : base64.DecodeString part1 with
            | error e => rw [h2] at hr; exact Or.inl ⟨_, hr.symm⟩
            | ok claimsJSON =>
              rw [h2] at hr
              simp only [] at hr
              cases h3 : unmarshalClaims claimsJSON with
              | error e => rw [h3] at hr; exact Or.inl ⟨_, hr.symm⟩
              | ok claims =>
                rw [h3] at hr
                simp only [] at hr
                cases h4 : base64.DecodeString part2 with
                | error e => rw [h4] at hr; exact Or.inl ⟨_, hr.symm⟩
                | ok signature =>
                  rw [h4] at hr
                  simp only [] at hr
                  obtain ⟨b, hb⟩ :=
                    Verify_isSome publicKey (part0 ++ 46 :: part1) signature hkey
                  rw [hb] at hr
                  cases b with
                  | false => exact Or.inl ⟨_, hr.symm⟩
                  | true =>
                    simp only [] at hr
                    by_cases hexp : claims.ExpiresAt < unix now
                    · rw [if_pos hexp] at hr
                      exact Or.inl ⟨_, hr.symm⟩
                    · rw [if_neg hexp] at hr
                      exact Or.inr ⟨part0, part1, part2, headerJSON, header, claimsJSON,
                        claims, signature, hsplit, h0, h1, halg, h2, h3, h4, hb,
                        not_lt.mp hexp, hr.symm⟩
          · rw [if_pos halg] at hr
            exact Or.inl ⟨_, hr.symm⟩
    · exact Or.inl ⟨_, hr.symm⟩
  exact key _ rfl

/-- C25 (witness): the sample token verifies under its key while it has not
expired, and is refused once it has; a token of two segments is refused. -/
theorem C25_VerifyJWT_claims_or_error_witness :
    sampleKey.length = 32 ∧
    VerifyJWT noon sampleToken sampleKey = .claims sampleClaims ∧
    VerifyJWT noon2h sampleToken sampleKey = .error (.base "token expired") ∧
    VerifyJWT noon (utf8 "e30.e30".data) sampleKey = .error (.base "invalid token format") ∧
    ((∃ err, VerifyJWT noon sampleToken sampleKey = .error err) ∨
      ∃ part0 part1 part2 headerJSON header claimsJSON claims signature,
        splitDots sampleToken = [part0, part1, part2] ∧
        base64.DecodeString part0 = .ok headerJSON ∧
        unmarshalHeader headerJSON = .ok header ∧ headerAlg header = some "EdDSA" ∧
        base64.DecodeString part1 = .ok claimsJSON ∧ unmarshalClaims claimsJSON = .ok claims ∧
        base64.DecodeString part2 = .ok signature ∧
        ed25519.Verify sampleKey (part0 ++ 46 :: part1) signature = some true ∧
        unix noon ≤ claims.ExpiresAt ∧
        VerifyJWT noon sampleToken sampleKey = .claims claims) :=
  ⟨by decide, by decide!, by decide!, by decide!,
    C25_VerifyJWT_claims_or_error noon sampleToken sampleKey (by decide)⟩

end auth
